import Mathlib

/-!
# Polynomial hashing framework: shallow embedding and verified properties

The C sources under `src/` are embedded as Lean functions.

* A `const unsigned char *` is a `Ptr`, a map from byte offsets to bytes; `in += n` is
  `Ptr.add`.  A buffer that is written (`out`, `tag_packed`, `transkey`) is the list of its bytes.
* `field_arithmetic.h` is not part of the sources.  Its compile-time constants and its byte
  level entry points (`unpack_*`, `pack_field_elem`) are the fields of `FieldArith`; its
  arithmetic entry points (`field_mul`, `field_add`, `carry_round`, `reduce`, ...) are modelled as
  exact arithmetic in a commutative ring `F`, the instance of interest being `ZMod (2^130 - 5)`.
* The limb level helpers of `pf_arithmetic_key_clamping_32.h` are embedded on natural numbers
  with explicit reduction modulo `2^32`.
-/

namespace PolyHash

/-! ## Bytes, pointers and buffers -/

/-- An `unsigned char`. -/
abbrev Byte := Fin 256

/-- A read-only C pointer: the byte found at every offset from it. -/
abbrev Ptr := Nat → Byte

/-- Pointer arithmetic `p + n`. -/
def Ptr.add (p : Ptr) (n : Nat) : Ptr := fun i => p (n + i)

/-- A buffer seen as a pointer to its first byte (bytes past its end read as 0). -/
def ofBuf (l : List Byte) : Ptr := fun i => l.getD i 0

/-- The bytes `p[0 .. n)`. -/
def Ptr.bytes (p : Ptr) (n : Nat) : List Byte := (List.range n).map p

/-- The call `memset(out, 0, n)` on a buffer of `n` bytes. -/
def memset0 (n : Nat) : List Byte := List.replicate n 0

/-- The function `identity_inline_transform` of `transform/identity_inline.h`: the `out_len`
bytes written to `out`. -/
def identity_inline_transform (out_len : Nat) (inp : Ptr) (in_len : Nat) : List Byte :=
  if in_len ≥ out_len then
    inp.bytes out_len                                          -- memcpy(out, in, out_len)
  else
    (List.range out_len).map (fun i => if i < in_len then inp i else 0)
                                             -- memset(out, 0, out_len); memcpy(out, in, in_len)

/-- Modelled from the spec: `identity.h` (absent) provides `identity_transform`, the default of
the three byte-transform hooks; the spec says the default is the identity, taken here to be
`identity_inline_transform`. -/
def identity_transform (out_len : Nat) (inp : Ptr) (in_len : Nat) : List Byte :=
  identity_inline_transform out_len inp in_len

/-- The hook `transform_key` of `transform.h` at its default `KEYTRANSFORM`. -/
def transform_key (out_len : Nat) (inp : Ptr) (in_len : Nat) : List Byte :=
  identity_transform out_len inp in_len

/-- The hook `transform_msg` of `transform.h` at its default `MSGTRANSFORM`. -/
def transform_msg (out_len : Nat) (inp : Ptr) (in_len : Nat) : List Byte :=
  identity_transform out_len inp in_len

/-- The hook `transform_field_elem` of `transform.h` at its default `FIELDELEMTRANSFORM`. -/
def transform_field_elem (out_len : Nat) (inp : Ptr) (in_len : Nat) : List Byte :=
  identity_transform out_len inp in_len

/-! ## The interface of `field_arithmetic.h` -/

/-- The compile-time constants and byte-level entry points declared by `field_arithmetic.h`
(absent from the sources), for field elements of type `F`. -/
structure FieldArith (F : Type) where
  /-- `BLOCKSIZE`: bytes per message block. -/
  BLOCKSIZE : Nat
  /-- `BUFFSIZE`: bytes of a packed field element buffer. -/
  BUFFSIZE : Nat
  /-- `KEYSIZE`: bytes of the key. -/
  KEYSIZE : Nat
  /-- `OUTPUTSIZE`: bytes of the tag. -/
  OUTPUTSIZE : Nat
  /-- A block has at least one byte. -/
  BLOCKSIZE_pos : 0 < BLOCKSIZE
  /-- `unpack_field_elem(res, a)`. -/
  unpack_field_elem : Ptr → F
  /-- `unpack_and_encode_field_elem(res, a)`: a full block. -/
  unpack_and_encode_field_elem : Ptr → F
  /-- `unpack_and_encode_last_field_elem(res, a, size)`: the last block, of `size` bytes. -/
  unpack_and_encode_last_field_elem : Ptr → Nat → F
  /-- `pack_field_elem(tag_packed, a)`: the contents of the zero-initialised `BUFFSIZE`-byte
  buffer `tag_packed` after the call. -/
  pack_field_elem : F → List Byte

/-! ## Limb level helpers of `pf_arithmetic_key_clamping_32.h` -/

/-- The type `field_elem_t` of the 32-bit configuration: five `uint32_t` limbs `val[0..4]`. -/
structure field_elem_t where
  /-- `val[0]` -/
  val0 : Nat
  /-- `val[1]` -/
  val1 : Nat
  /-- `val[2]` -/
  val2 : Nat
  /-- `val[3]` -/
  val3 : Nat
  /-- `val[4]` -/
  val4 : Nat
deriving DecidableEq

/-- The integer represented by five 32-bit limbs, `Σ val[i] * 2^(32 i)`. -/
def field_elem_t.value (a : field_elem_t) : Nat :=
  a.val0 + a.val1 * 2 ^ 32 + a.val2 * 2 ^ 64 + a.val3 * 2 ^ 96 + a.val4 * 2 ^ 128

/-- Every limb fits a `uint32_t`. -/
def field_elem_t.wf (a : field_elem_t) : Prop :=
  a.val0 < 2 ^ 32 ∧ a.val1 < 2 ^ 32 ∧ a.val2 < 2 ^ 32 ∧ a.val3 < 2 ^ 32 ∧ a.val4 < 2 ^ 32

/-- Reading `((uint32_t *)p)[j]` on a little-endian machine. -/
def load32 (p : Ptr) (j : Nat) : Nat :=
  (p (4 * j)).val + (p (4 * j + 1)).val * 2 ^ 8 + (p (4 * j + 2)).val * 2 ^ 16 +
    (p (4 * j + 3)).val * 2 ^ 24

/-- The buffer `tmp` after `uint32_t tmp[BUFFSIZE] = {0}; memcpy(tmp, a, size);`, as bytes
(the buffer is taken to hold at least `size` bytes). -/
def memcpy_into_zero (a : Ptr) (size : Nat) : Ptr :=
  fun i => if i < size then a i else 0

/-- The store `((uint8_t *)tmp)[idx] = b`. -/
def store8 (tmp : Ptr) (idx : Nat) (b : Byte) : Ptr :=
  fun i => if i = idx then b else tmp i

/-- The function `unpack_and_encode_last_field_elem_KC` of `pf_arithmetic_key_clamping_32.h`,
with the value of the macro `OUTER_PARAM2` as a parameter. -/
def unpack_and_encode_last_field_elem_KC (OUTER_PARAM2 : Nat) (a : Ptr) (size : Nat) :
    field_elem_t :=
  let tmp := memcpy_into_zero a size
  let tmp := store8 tmp size (Fin.ofNat OUTER_PARAM2)          -- (uint8_t)OUTER_PARAM2
  { val0 := load32 tmp 0, val1 := load32 tmp 1, val2 := load32 tmp 2, val3 := load32 tmp 3,
    val4 := load32 tmp 4 }

/-- The default `#define OUTER_PARAM2 0` of `pf_arithmetic_key_clamping_32.h`. -/
def OUTER_PARAM2_default : Nat := 0

/-- The function `unpack_field_elem_KC_1305_32`. -/
def unpack_field_elem_KC_1305_32 (a : Ptr) : field_elem_t :=
  { val0 := load32 a 0, val1 := load32 a 1, val2 := load32 a 2, val3 := load32 a 3, val4 := 0 }

/-- The function `unpack_and_encode_field_elem_KC_32`. -/
def unpack_and_encode_field_elem_KC_32 (a : Ptr) : field_elem_t :=
  { val0 := load32 a 0, val1 := load32 a 1, val2 := load32 a 2, val3 := load32 a 3, val4 := 1 }

/-- The function `unpack_and_encode_last_field_elem_KC_32`. -/
def unpack_and_encode_last_field_elem_KC_32 (a : Ptr) (size : Nat) : field_elem_t :=
  let tmp := memcpy_into_zero a size
  let tmp := if size < 16 then store8 tmp size 1 else tmp
  { val0 := load32 tmp 0, val1 := load32 tmp 1, val2 := load32 tmp 2, val3 := load32 tmp 3,
    val4 := if size = 16 then 1 else 0 }                          -- (size == 16)

/-- The little-endian integer `LE(b)` of the bytes `b[0 .. size)`. -/
def LE (b : Ptr) : Nat → Nat
  | 0 => 0
  | size + 1 => LE b size + (b size).val * 2 ^ (8 * size)

/-- The four bytes of a `uint32_t` stored on a little-endian machine. -/
def store32 (w : Nat) : List Byte :=
  [Fin.ofNat w, Fin.ofNat (w / 2 ^ 8), Fin.ofNat (w / 2 ^ 16), Fin.ofNat (w / 2 ^ 24)]

/-- The function `pack_field_elem_KC_32`: the `20` bytes written to `res`. -/
def pack_field_elem_KC_32 (a : field_elem_t) : List Byte :=
  store32 a.val0 ++ store32 a.val1 ++ store32 a.val2 ++ store32 a.val3 ++ store32 a.val4

/-- The prime `p = 2^130 - 5` of the reference instance. -/
def PRIME : Nat := 2 ^ 130 - 5

/-- The canonical limbs of a residue modulo `p`: limbs `0..3` are full 32-bit words, limb `4`
holds bits 128 and up. -/
def limbs_of_residue (x : ZMod PRIME) : field_elem_t :=
  { val0 := x.val % 2 ^ 32, val1 := x.val / 2 ^ 32 % 2 ^ 32, val2 := x.val / 2 ^ 64 % 2 ^ 32,
    val3 := x.val / 2 ^ 96 % 2 ^ 32, val4 := x.val / 2 ^ 128 }

/-- An instance of the interface of `field_arithmetic.h`: the self-contained 32-bit helpers
`*_KC_32` of `pf_arithmetic_key_clamping_32.h` with `BLOCKSIZE = KEYSIZE = OUTPUTSIZE = 16`
and `BUFFSIZE = 32`, a limb vector standing for its value modulo `p = 2^130 - 5`. -/
def KC_1305_32 : FieldArith (ZMod PRIME) where
  BLOCKSIZE := 16
  BUFFSIZE := 32
  KEYSIZE := 16
  OUTPUTSIZE := 16
  BLOCKSIZE_pos := by decide
  unpack_field_elem := fun a => ((unpack_field_elem_KC_1305_32 a).value : ZMod PRIME)
  unpack_and_encode_field_elem := fun a =>
    ((unpack_and_encode_field_elem_KC_32 a).value : ZMod PRIME)
  unpack_and_encode_last_field_elem := fun a size =>
    ((unpack_and_encode_last_field_elem_KC_32 a size).value : ZMod PRIME)
  pack_field_elem := fun x =>
    pack_field_elem_KC_32 (limbs_of_residue x) ++ List.replicate 12 0

/-! ## Field arithmetic of `pf_arithmetic_key_clamping_32.h` (`OUTER_PARAM3 = 0`) -/

/-- Modelled from the spec: the macro `PI` of `field_arithmetic.h` (absent), for the prime
`p = 2^PI - DELTA` of the reference instance. -/
def PI : Nat := 130

/-- Modelled from the spec: the macro `DELTA` of `field_arithmetic.h` (absent), an `int`
constant: the casts next to its uses choose the width of each product. -/
def DELTA : Nat := 5

/-- The macro `LAST_FIELDELEM_BLOCKSIZE`, `(PI - 128)`. -/
def LAST_FIELDELEM_BLOCKSIZE : Nat := PI - 128

/-- The type `dfield_elem_t` of the 32-bit configuration: five `uint64_t` limbs. -/
structure dfield_elem_t where
  /-- `val[0]` -/
  val0 : Nat
  /-- `val[1]` -/
  val1 : Nat
  /-- `val[2]` -/
  val2 : Nat
  /-- `val[3]` -/
  val3 : Nat
  /-- `val[4]` -/
  val4 : Nat
deriving DecidableEq

/-- The integer represented by five wide limbs in radix `2^32`, `Σ val[i] * 2^(32 i)`. -/
def dfield_elem_t.value (a : dfield_elem_t) : Nat :=
  a.val0 + a.val1 * 2 ^ 32 + a.val2 * 2 ^ 64 + a.val3 * 2 ^ 96 + a.val4 * 2 ^ 128

/-- The entries of `field_elem_precomputed_t` (`val[2][4][4]`, `uint32_t`) that the
`OUTER_PARAM3 = 0` code writes and reads: `val[0][j][j]` and `val[1][j][j]`. -/
structure field_elem_precomputed_t where
  /-- `val[0][0][0]` -/
  val000 : Nat
  /-- `val[0][1][1]` -/
  val011 : Nat
  /-- `val[0][2][2]` -/
  val022 : Nat
  /-- `val[0][3][3]` -/
  val033 : Nat
  /-- `val[1][1][1]` -/
  val111 : Nat
  /-- `val[1][2][2]` -/
  val122 : Nat
  /-- `val[1][3][3]` -/
  val133 : Nat
deriving DecidableEq

/-- Conversion to `uint32_t`. -/
def u32 (x : Nat) : Nat := x % 2 ^ 32

/-- Conversion to `uint64_t`. -/
def u64 (x : Nat) : Nat := x % 2 ^ 64

/-- The function `precompute_factor_KC` (`OUTER_PARAM3 == 0`); the products are `uint32_t`
times `int`, computed modulo `2^32`. -/
def precompute_factor_KC (b : field_elem_t) : field_elem_precomputed_t :=
  { val000 := b.val0, val011 := b.val1, val022 := b.val2, val033 := b.val3,
    val111 := u32 (u32 (b.val1 / 2 ^ LAST_FIELDELEM_BLOCKSIZE) * DELTA),
    val122 := u32 (u32 (b.val2 / 2 ^ LAST_FIELDELEM_BLOCKSIZE) * DELTA),
    val133 := u32 (u32 (b.val3 / 2 ^ LAST_FIELDELEM_BLOCKSIZE) * DELTA) }

/-- The function `field_mul_precomputed_no_carry_KC` (`OUTER_PARAM3 == 0`): every product
is `(uint64_t)a->val[i] * b->val[..]` and every `+=` a `uint64_t` addition. -/
def field_mul_precomputed_no_carry_KC (a : field_elem_t) (b : field_elem_precomputed_t) :
    dfield_elem_t :=
  let r0 := u64 (a.val0 * b.val000)
  let r0 := u64 (r0 + u64 (a.val1 * b.val133))
  let r0 := u64 (r0 + u64 (a.val2 * b.val122))
  let r0 := u64 (r0 + u64 (a.val3 * b.val111))
  let r1 := u64 (a.val1 * b.val000)
  let r1 := u64 (r1 + u64 (a.val0 * b.val011))
  let r1 := u64 (r1 + u64 (a.val2 * b.val133))
  let r1 := u64 (r1 + u64 (a.val3 * b.val122))
  let r1 := u64 (r1 + u64 (a.val4 * b.val111))
  let r2 := u64 (a.val2 * b.val000)
  let r2 := u64 (r2 + u64 (a.val1 * b.val011))
  let r2 := u64 (r2 + u64 (a.val0 * b.val022))
  let r2 := u64 (r2 + u64 (a.val3 * b.val133))
  let r2 := u64 (r2 + u64 (a.val4 * b.val122))
  let r3 := u64 (a.val3 * b.val000)
  let r3 := u64 (r3 + u64 (a.val2 * b.val011))
  let r3 := u64 (r3 + u64 (a.val1 * b.val022))
  let r3 := u64 (r3 + u64 (a.val0 * b.val033))
  let r3 := u64 (r3 + u64 (a.val4 * b.val133))
  let r4 := u64 (a.val4 * b.val000)
  { val0 := r0, val1 := r1, val2 := r2, val3 := r3, val4 := r4 }

/-- The function `carry_round_KC` (`OUTER_PARAM3 == 0`): the limbs written to `res`.  A mask
`& ((1 << n) - 1)` is a remainder modulo `2^n`. -/
def carry_round_KC (a : dfield_elem_t) : field_elem_t :=
  let a0 := u64 (a.val0 + u64 (u64 (a.val4 / 2 ^ LAST_FIELDELEM_BLOCKSIZE) * DELTA))
  let r4 := u32 a.val4 % 2 ^ LAST_FIELDELEM_BLOCKSIZE
  let a1 := u64 (a.val1 + u32 (a0 / 2 ^ 32))
  let r0 := u32 a0
  let a2 := u64 (a.val2 + u32 (a1 / 2 ^ 32))
  let r1 := u32 a1
  let a3 := u64 (a.val3 + u32 (a2 / 2 ^ 32))
  let r2 := u32 a2
  let r4 := u32 (r4 + u32 (a3 / 2 ^ 32))
  let r3 := u32 a3
  { val0 := r0, val1 := r1, val2 := r2, val3 := r3, val4 := r4 }

/-- The function `carry_round_KC_final` (`OUTER_PARAM3 == 0`): the limbs written to `res`. -/
def carry_round_KC_final (a : dfield_elem_t) : field_elem_t :=
  let a4 := u64 (a.val4 + u32 (a.val3 / 2 ^ 32))
  let a3 := u32 a.val3
  let a0 := u64 (a.val0 + u64 (u64 (a4 / 2 ^ LAST_FIELDELEM_BLOCKSIZE) * DELTA))
  let r4 := u32 a4 % 2 ^ LAST_FIELDELEM_BLOCKSIZE
  let a1 := u64 (a.val1 + u32 (a0 / 2 ^ 32))
  let r0 := u32 a0
  let a2 := u64 (a.val2 + u32 (a1 / 2 ^ 32))
  let r1 := u32 a1
  let a3 := u64 (a3 + u32 (a2 / 2 ^ 32))
  let r2 := u32 a2
  let r4 := u32 (r4 + u32 (a3 / 2 ^ 32))
  let r3 := u32 a3
  { val0 := r0, val1 := r1, val2 := r2, val3 := r3, val4 := r4 }

/-- The function `reduce_KC` of the 32-bit header.  The limbs `val[i]` and the carry `c` are
`uint32_t` and `DELTA` is an `int`, so by the usual arithmetic conversions the sums
`a->val[0] + DELTA` and `a->val[i] + c` are computed modulo `2^32` before they are stored
in the `uint64_t td`. -/
def reduce_KC (a : field_elem_t) : field_elem_t :=
  let td := u32 (a.val0 + DELTA)
  let c := u32 (td / 2 ^ 32)
  let t0 := u32 td
  let td := u32 (a.val1 + c)
  let c := u32 (td / 2 ^ 32)
  let t1 := u32 td
  let td := u32 (a.val2 + c)
  let c := u32 (td / 2 ^ 32)
  let t2 := u32 td
  let td := u32 (a.val3 + c)
  let c := u32 (td / 2 ^ 32)
  let t3 := u32 td
  let t4 := u32 (a.val4 + c)
  let t4 := u32 (t4 + (2 ^ 32 - 2 ^ LAST_FIELDELEM_BLOCKSIZE))   -- += -(((uint32_t)1) << 2)
  let mask := u32 (t4 / 2 ^ 31)
  let mask := u32 (mask + (2 ^ 32 - 1))                            -- mask += -1
  let t0 := t0 &&& mask
  let t1 := t1 &&& mask
  let t2 := t2 &&& mask
  let t3 := t3 &&& mask
  let t4 := t4 &&& mask
  let mask := 2 ^ 32 - 1 - mask                                    -- mask = ~mask
  { val0 := (a.val0 &&& mask) ||| t0, val1 := (a.val1 &&& mask) ||| t1,
    val2 := (a.val2 &&& mask) ||| t2, val3 := (a.val3 &&& mask) ||| t3,
    val4 := (a.val4 &&& mask) ||| t4 }

/-- The limbs of `p = 2^130 - 5` in the 32-bit representation. -/
def prime_limbs : field_elem_t :=
  { val0 := 2 ^ 32 - 5, val1 := 2 ^ 32 - 1, val2 := 2 ^ 32 - 1, val3 := 2 ^ 32 - 1, val4 := 3 }

/-- The value of `field_mul_precomputed_no_carry_KC` when every product and every sum is
taken in the unbounded integers. -/
def field_mul_precomputed_no_carry_KC_unbounded (a : field_elem_t)
    (b : field_elem_precomputed_t) : dfield_elem_t :=
  { val0 := a.val0 * b.val000 + a.val1 * b.val133 + a.val2 * b.val122 + a.val3 * b.val111,
    val1 := a.val1 * b.val000 + a.val0 * b.val011 + a.val2 * b.val133 + a.val3 * b.val122 +
      a.val4 * b.val111,
    val2 := a.val2 * b.val000 + a.val1 * b.val011 + a.val0 * b.val022 + a.val3 * b.val133 +
      a.val4 * b.val122,
    val3 := a.val3 * b.val000 + a.val2 * b.val011 + a.val1 * b.val022 + a.val0 * b.val033 +
      a.val4 * b.val133,
    val4 := a.val4 * b.val000 }

/-- Every limb fits a `uint64_t`. -/
def dfield_elem_t.wf (a : dfield_elem_t) : Prop :=
  a.val0 < 2 ^ 64 ∧ a.val1 < 2 ^ 64 ∧ a.val2 < 2 ^ 64 ∧ a.val3 < 2 ^ 64 ∧ a.val4 < 2 ^ 64

/-- The Poly1305 clamp of a key in the 32-bit representation: `val[4] = 0`, limbs below
`2^28`, limbs `1..3` divisible by 4. -/
def clamped (b : field_elem_t) : Prop :=
  b.val4 = 0 ∧ b.val0 < 2 ^ 28 ∧ b.val1 < 2 ^ 28 ∧ b.val2 < 2 ^ 28 ∧ b.val3 < 2 ^ 28 ∧
    b.val1 % 4 = 0 ∧ b.val2 % 4 = 0 ∧ b.val3 % 4 = 0

instance (a : field_elem_t) : Decidable a.wf := by
  unfold field_elem_t.wf
  exact inferInstance

instance (a : dfield_elem_t) : Decidable a.wf := by
  unfold dfield_elem_t.wf
  exact inferInstance

instance (b : field_elem_t) : Decidable (clamped b) := by
  unfold clamped
  exact inferInstance

/-! ## `classical_Horner_PK_1B_Delay_a_KC` in the 32-bit configuration -/

/-- The macro `LAST_MSG_BLOCKSIZE`, `(8 * BLOCKSIZE - 128)`, for `BLOCKSIZE = 16`. -/
def LAST_MSG_BLOCKSIZE : Nat := 8 * 16 - 128

/-- The function `unpack_field_elem_KC` of the 32-bit header. -/
def unpack_field_elem_KC (a : Ptr) : field_elem_t :=
  { val0 := load32 a 0, val1 := load32 a 1, val2 := load32 a 2, val3 := load32 a 3,
    val4 := (load32 a 4 % 2 ^ LAST_MSG_BLOCKSIZE) ||| u32 (0 * 2 ^ LAST_MSG_BLOCKSIZE) }

/-- The function `unpack_and_encode_field_elem_KC` of the 32-bit header, with the value of
the macro `OUTER_PARAM2` as a parameter. -/
def unpack_and_encode_field_elem_KC (OUTER_PARAM2 : Nat) (a : Ptr) : field_elem_t :=
  { val0 := load32 a 0, val1 := load32 a 1, val2 := load32 a 2, val3 := load32 a 3,
    val4 := (load32 a 4 % 2 ^ LAST_MSG_BLOCKSIZE) |||
      u32 (u32 OUTER_PARAM2 * 2 ^ LAST_MSG_BLOCKSIZE) }

/-- The function `pack_field_elem_KC` of the 32-bit header: the 20 bytes written to `res`. -/
def pack_field_elem_KC (a : field_elem_t) : List Byte :=
  store32 a.val0 ++ store32 a.val1 ++ store32 a.val2 ++ store32 a.val3 ++ store32 a.val4

/-- Modelled from the spec: `field_add_mix` of `field_arithmetic.h` (absent) in the 32-bit
configuration, the limb-wise `uint64_t` addition of a field element into the wide
accumulator. -/
def field_add_mix_limbs (d : dfield_elem_t) (a : field_elem_t) : dfield_elem_t :=
  { val0 := u64 (d.val0 + a.val0), val1 := u64 (d.val1 + a.val1),
    val2 := u64 (d.val2 + a.val2), val3 := u64 (d.val3 + a.val3),
    val4 := u64 (d.val4 + a.val4) }

/-- The variables of the loop of `classical_Horner_PK_1B_Delay_a_KC`. -/
structure DelayState where
  /-- The pointer `in`. -/
  inp : Ptr
  /-- The remaining length `inlen`. -/
  inlen : Nat
  /-- The accumulator `acc`. -/
  acc : field_elem_t
  /-- The wide accumulator `acc_d`. -/
  acc_d : dfield_elem_t

/-- One iteration of the loop `while (inlen > BLOCKSIZE)` of
`classical_Horner_PK_1B_Delay_a_KC` (`BLOCKSIZE = 16`). -/
def classical_Horner_PK_1B_Delay_a_KC_body (OUTER_PARAM2 : Nat) (k_p : field_elem_precomputed_t)
    (s : DelayState) : DelayState :=
  let a := unpack_and_encode_field_elem_KC OUTER_PARAM2 s.inp
  let acc_d := field_add_mix_limbs s.acc_d a
  let acc := carry_round_KC acc_d
  let acc_d := field_mul_precomputed_no_carry_KC acc k_p
  { inp := s.inp.add 16, inlen := s.inlen - 16, acc := acc, acc_d := acc_d }

/-- The loop `while (inlen > BLOCKSIZE)` of `classical_Horner_PK_1B_Delay_a_KC`: the state
at loop exit. -/
def classical_Horner_PK_1B_Delay_a_KC_loop (OUTER_PARAM2 : Nat) (k_p : field_elem_precomputed_t)
    (s : DelayState) : DelayState :=
  if s.inlen > 16 then
    classical_Horner_PK_1B_Delay_a_KC_loop OUTER_PARAM2 k_p
      (classical_Horner_PK_1B_Delay_a_KC_body OUTER_PARAM2 k_p s)
  else s
termination_by s.inlen
decreasing_by
  simp only [classical_Horner_PK_1B_Delay_a_KC_body]
  omega

/-- The states in which the loop of `classical_Horner_PK_1B_Delay_a_KC` starts an
iteration, in order. -/
def classical_Horner_PK_1B_Delay_a_KC_trace (OUTER_PARAM2 : Nat)
    (k_p : field_elem_precomputed_t) (s : DelayState) : List DelayState :=
  if s.inlen > 16 then
    s :: classical_Horner_PK_1B_Delay_a_KC_trace OUTER_PARAM2 k_p
      (classical_Horner_PK_1B_Delay_a_KC_body OUTER_PARAM2 k_p s)
  else []
termination_by s.inlen
decreasing_by
  simp only [classical_Horner_PK_1B_Delay_a_KC_body]
  omega

/-- The function `classical_Horner_PK_1B_Delay_a_KC(out, in, inlen, key)` in the 32-bit
configuration (`BLOCKSIZE = 16`), with `OUTER_PARAM2`, `BUFFSIZE`, `KEYSIZE` and `OUTPUTSIZE`
as parameters: the bytes written to `out`. -/
def classical_Horner_PK_1B_Delay_a_KC (OUTER_PARAM2 BUFFSIZE KEYSIZE OUTPUTSIZE : Nat)
    (inp : Ptr) (inlen : Nat) (key : Ptr) : List Byte :=
  if inlen = 0 then memset0 OUTPUTSIZE
  else
    let transkey := transform_key BUFFSIZE key KEYSIZE
    let k := unpack_field_elem_KC (ofBuf transkey)
    let k_p := precompute_factor_KC k
    let s := classical_Horner_PK_1B_Delay_a_KC_loop OUTER_PARAM2 k_p
      { inp := inp, inlen := inlen, acc := ⟨0, 0, 0, 0, 0⟩, acc_d := ⟨0, 0, 0, 0, 0⟩ }
    let acc :=
      if s.inlen ≠ 0 then
        let a := unpack_and_encode_last_field_elem_KC OUTER_PARAM2 s.inp s.inlen
        let acc_d := field_add_mix_limbs s.acc_d a
        reduce_KC (carry_round_KC_final acc_d)
      else s.acc
    let tag_packed := pack_field_elem_KC acc ++ List.replicate (BUFFSIZE - 20) 0
    transform_field_elem OUTPUTSIZE (ofBuf tag_packed) BUFFSIZE

/-- No sum of `field_add_mix` wraps: each `acc_d.val[i] + a.val[i]` fits a `uint64_t`. -/
def field_add_mix_no_wrap (d : dfield_elem_t) (a : field_elem_t) : Prop :=
  d.val0 + a.val0 < 2 ^ 64 ∧ d.val1 + a.val1 < 2 ^ 64 ∧ d.val2 + a.val2 < 2 ^ 64 ∧
    d.val3 + a.val3 < 2 ^ 64 ∧ d.val4 + a.val4 < 2 ^ 64

/-- No sum or product of `carry_round_KC` wraps: the product by `DELTA` and the four
`uint64_t` sums of the carry chain, taken in the unbounded integers, fit 64 bits, and the sum
stored in the `uint32_t` limb `res->val[4]` fits 32 bits. -/
def carry_round_KC_no_wrap (a : dfield_elem_t) : Prop :=
  let a0 := a.val0 + a.val4 / 2 ^ LAST_FIELDELEM_BLOCKSIZE * DELTA
  let a1 := a.val1 + a0 / 2 ^ 32
  let a2 := a.val2 + a1 / 2 ^ 32
  let a3 := a.val3 + a2 / 2 ^ 32
  a.val4 / 2 ^ LAST_FIELDELEM_BLOCKSIZE * DELTA < 2 ^ 64 ∧ a0 < 2 ^ 64 ∧ a1 < 2 ^ 64 ∧
    a2 < 2 ^ 64 ∧ a3 < 2 ^ 64 ∧
    a.val4 % 2 ^ LAST_FIELDELEM_BLOCKSIZE + a3 / 2 ^ 32 < 2 ^ 32

/-- The limb budget of one iteration of `classical_Horner_PK_1B_Delay_a_KC` started in
state `s`: the block addition, the carry round and the multiplication compute every sum and
product without wrap-around, the limbs of `acc` fit 32 bits and `acc.val[4] < 2^31`. -/
def iteration_within_budget (OUTER_PARAM2 : Nat) (k_p : field_elem_precomputed_t)
    (s : DelayState) : Prop :=
  let a := unpack_and_encode_field_elem_KC OUTER_PARAM2 s.inp
  let acc_d := field_add_mix_limbs s.acc_d a
  let acc := carry_round_KC acc_d
  field_add_mix_no_wrap s.acc_d a ∧ carry_round_KC_no_wrap acc_d ∧
    (field_mul_precomputed_no_carry_KC_unbounded acc k_p).wf ∧
    field_mul_precomputed_no_carry_KC acc k_p =
      field_mul_precomputed_no_carry_KC_unbounded acc k_p ∧
    acc.wf ∧ acc.val4 < 2 ^ 31

/-! ## The 64-bit header `deprecated_polynomial/pf_arithmetic_key_clamping.h` -/

/-- Conversion to `uint128_t`. -/
def u128 (x : Nat) : Nat := x % 2 ^ 128

namespace KC64

/-- The type `field_elem_t` of the 64-bit configuration: three `uint64_t` limbs. -/
structure field_elem_t where
  /-- `val[0]` -/
  val0 : Nat
  /-- `val[1]` -/
  val1 : Nat
  /-- `val[2]` -/
  val2 : Nat
deriving DecidableEq

/-- The integer represented by three limbs in radix `2^64`. -/
def field_elem_t.value (a : field_elem_t) : Nat :=
  a.val0 + a.val1 * 2 ^ 64 + a.val2 * 2 ^ 128

/-- Every limb fits a `uint64_t`. -/
def field_elem_t.wf (a : field_elem_t) : Prop :=
  a.val0 < 2 ^ 64 ∧ a.val1 < 2 ^ 64 ∧ a.val2 < 2 ^ 64

instance (a : field_elem_t) : Decidable a.wf := by
  unfold field_elem_t.wf
  exact inferInstance

/-- The type `dfield_elem_t` of the 64-bit configuration: three `uint128_t` limbs. -/
structure dfield_elem_t where
  /-- `val[0]` -/
  val0 : Nat
  /-- `val[1]` -/
  val1 : Nat
  /-- `val[2]` -/
  val2 : Nat
deriving DecidableEq

/-- The integer represented by three wide limbs in radix `2^64`. -/
def dfield_elem_t.value (a : dfield_elem_t) : Nat :=
  a.val0 + a.val1 * 2 ^ 64 + a.val2 * 2 ^ 128

/-- The function `carry_round_KC_final` of the 64-bit header (`OUTER_PARAM3 == 0`): the
limbs written to `res`. -/
def carry_round_KC_final (a : dfield_elem_t) : field_elem_t :=
  let a2 := u128 (a.val2 + u64 (a.val1 / 2 ^ 64))
  let a1 := u64 a.val1
  let a0 := u128 (a.val0 + u128 (u128 (a2 / 2 ^ LAST_FIELDELEM_BLOCKSIZE) * DELTA))
  let r2 := u64 a2 % 2 ^ LAST_FIELDELEM_BLOCKSIZE
  let a1 := u128 (a1 + u64 (a0 / 2 ^ 64))
  let r0 := u64 a0
  let r2 := u64 (r2 + u64 (a1 / 2 ^ 64))
  let r1 := u64 a1
  { val0 := r0, val1 := r1, val2 := r2 }

/-- The function `reduce_KC` of the 64-bit header. The sums `a->val[0] + DELTA` and
`a->val[1] + c` have `uint64_t` operands and are computed modulo `2^64` before they are
stored in the `uint128_t` variable `td`. -/
def reduce_KC (a : field_elem_t) : field_elem_t :=
  let td := u64 (a.val0 + DELTA)
  let c := u64 (td / 2 ^ 64)
  let t0 := u64 td
  let td := u64 (a.val1 + c)
  let c := u64 (td / 2 ^ 64)
  let t1 := u64 td
  let t2 := u64 (a.val2 + c)
  let t2 := u64 (t2 + (2 ^ 64 - 2 ^ LAST_FIELDELEM_BLOCKSIZE))
  let mask := u64 (t2 / 2 ^ 63)
  let mask := u64 (mask + (2 ^ 64 - 1))
  let t0 := t0 &&& mask
  let t1 := t1 &&& mask
  let t2 := t2 &&& mask
  let mask := 2 ^ 64 - 1 - mask
  { val0 := (a.val0 &&& mask) ||| t0, val1 := (a.val1 &&& mask) ||| t1,
    val2 := (a.val2 &&& mask) ||| t2 }

/-- The function `reduce_KC_1305` of the 64-bit header, with the same integer widths as
`reduce_KC`. -/
def reduce_KC_1305 (a : field_elem_t) : field_elem_t :=
  let td := u64 (a.val0 + 5)
  let c := u64 (td / 2 ^ 64)
  let t0 := u64 td
  let td := u64 (a.val1 + c)
  let c := u64 (td / 2 ^ 64)
  let t1 := u64 td
  let t2 := u64 (a.val2 + c)
  let t2 := u64 (t2 + (2 ^ 64 - 2 ^ 2))
  let mask := u64 (t2 / 2 ^ 63)
  let mask := u64 (mask + (2 ^ 64 - 1))
  let t0 := t0 &&& mask
  let t1 := t1 &&& mask
  let t2 := t2 &&& mask
  let mask := 2 ^ 64 - 1 - mask
  { val0 := (a.val0 &&& mask) ||| t0, val1 := (a.val1 &&& mask) ||| t1,
    val2 := (a.val2 &&& mask) ||| t2 }

end KC64

/-! ## The keystream generator of `key_expansion.c` -/

/-- The macro `MAX_RAND_BYTES` of `key_expansion.h`, at its default. -/
def MAX_RAND_BYTES : Nat := 512

/-- The constant `crypto_stream_chacha20_KEYBYTES` of libsodium. -/
def crypto_stream_chacha20_KEYBYTES : Nat := 32

/-- The stream cipher `crypto_stream_chacha20` of libsodium under the all-zero `nonce`, an
external function: the stream byte at each position, for a key of
`crypto_stream_chacha20_KEYBYTES` bytes. -/
abbrev StreamCipher := List Byte → Nat → Byte

/-- The type `key_expansion_state_t`. -/
structure key_expansion_state_t where
  /-- The field `idx`. -/
  idx : Nat
  /-- The field `next_key`, `crypto_stream_chacha20_KEYBYTES` bytes. -/
  next_key : List Byte
  /-- The field `bytes`, `MAX_RAND_BYTES` bytes. -/
  bytes : List Byte
deriving DecidableEq

/-- The local buffer `tmp` of `reseed` and `init` after the call
`crypto_stream_chacha20(tmp, MAX_RAND_BYTES + crypto_stream_chacha20_KEYBYTES, nonce, key)`. -/
def stream_tmp (cipher : StreamCipher) (key : List Byte) : List Byte :=
  (List.range (MAX_RAND_BYTES + crypto_stream_chacha20_KEYBYTES)).map (cipher key)

/-- The function `reseed()`, on the state `_state`. -/
def reseed (cipher : StreamCipher) (st : key_expansion_state_t) : key_expansion_state_t :=
  let tmp := stream_tmp cipher st.next_key
  { st with
    next_key := tmp.take crypto_stream_chacha20_KEYBYTES
    bytes := (tmp.drop crypto_stream_chacha20_KEYBYTES).take MAX_RAND_BYTES
    idx := 0 }

/-- The function `init(key)`, on the state `_state`. -/
def init (cipher : StreamCipher) (st : key_expansion_state_t) (key : Ptr) :
    key_expansion_state_t :=
  let tmp := stream_tmp cipher (key.bytes crypto_stream_chacha20_KEYBYTES)
  { st with
    next_key := tmp.take crypto_stream_chacha20_KEYBYTES
    bytes := (tmp.drop crypto_stream_chacha20_KEYBYTES).take MAX_RAND_BYTES
    idx := 0 }

/-- The call `memcpy(out, &_state.bytes[idx], len)`: the `len` bytes copied. -/
def copy_bytes (st : key_expansion_state_t) (idx len : Nat) : List Byte :=
  (List.range len).map (fun i => st.bytes.getD (idx + i) 0)

/-- The loop `while (len >= MAX_RAND_BYTES)` of `get`: the bytes written, the remaining
`len` and the state at loop exit. -/
def get_loop (cipher : StreamCipher) (st : key_expansion_state_t) (len : Nat) :
    List Byte × Nat × key_expansion_state_t :=
  if len ≥ MAX_RAND_BYTES then
    let chunk := copy_bytes st 0 MAX_RAND_BYTES
    let r := get_loop cipher (reseed cipher st) (len - MAX_RAND_BYTES)
    (chunk ++ r.1, r.2)
  else ([], len, st)
termination_by len
decreasing_by
  simp only [MAX_RAND_BYTES] at *
  omega

/-- The function `get(out, len)`: the `len` bytes written to `out` and the state `_state`
afterwards. The subtraction `MAX_RAND_BYTES - _state.idx` is in `size_t`. -/
def get (cipher : StreamCipher) (st : key_expansion_state_t) (len : Nat) :
    List Byte × key_expansion_state_t :=
  let avail := (MAX_RAND_BYTES + 2 ^ 64 - st.idx % 2 ^ 64) % 2 ^ 64
  if len ≤ avail then
    (copy_bytes st st.idx len, st)
  else
    let out := copy_bytes st st.idx avail
    let len := len - avail
    let st := reseed cipher st
    let r := get_loop cipher st len
    let len := r.2.1
    let st := r.2.2
    (out ++ r.1 ++ copy_bytes st 0 len, { st with idx := (st.idx + len) % 2 ^ 64 })

/-! ## The self-contained Poly1305 helpers of `pf_arithmetic_key_clamping_32.h` -/

/-- The function `carry_round_KC_1305_32`: the limbs written to `res`.  The carry `c` is a
`uint32_t`, so `c * 5` is a 32-bit product and the last statement `res->val[1] += c` is a
32-bit sum. -/
def carry_round_KC_1305_32 (a : dfield_elem_t) : field_elem_t :=
  let c := u32 (a.val0 / 2 ^ 32)
  let a0 := u32 a.val0
  let a1 := u64 (a.val1 + c)
  let c := u32 (a1 / 2 ^ 32)
  let r1 := u32 a1
  let a2 := u64 (a.val2 + c)
  let c := u32 (a2 / 2 ^ 32)
  let r2 := u32 a2
  let a3 := u64 (a.val3 + c)
  let c := u32 (a3 / 2 ^ 32)
  let r3 := u32 a3
  let a4 := u64 (a.val4 + c)
  let c := u32 (a4 / 2 ^ 2)
  let r4 := u32 a4 % 2 ^ 2
  let a0 := u64 (a0 + u32 (c * 5))
  let c := u32 (a0 / 2 ^ 32)
  let r0 := u32 a0
  let r1 := u32 (r1 + c)
  { val0 := r0, val1 := r1, val2 := r2, val3 := r3, val4 := r4 }

/-- The function `reduce_KC_1305_32`: the limbs written to `res`.  The limbs of `t`, `a` and
`res` are `uint32_t`; `c` and `mask` are `uint64_t`, so `a->val[i] + c` is a 64-bit sum that
is stored in a 32-bit limb, and `mask += -1` is taken modulo `2^64`. -/
def reduce_KC_1305_32 (a : field_elem_t) : field_elem_t :=
  let t0 := u32 (a.val0 + 5)
  let c := u64 (u32 (t0 / 2 ^ 26))
  let t0 := u32 t0 &&& (2 ^ 26 - 1)
  let t1 := u32 (u64 (a.val1 + c))
  let c := u64 (u32 (t1 / 2 ^ 26))
  let t1 := u32 t1 &&& (2 ^ 26 - 1)
  let t2 := u32 (u64 (a.val2 + c))
  let c := u64 (u32 (t2 / 2 ^ 26))
  let t2 := u32 t2 &&& (2 ^ 26 - 1)
  let t3 := u32 (u64 (a.val3 + c))
  let c := u64 (u32 (t3 / 2 ^ 26))
  let t3 := u32 t3 &&& (2 ^ 26 - 1)
  let t4 := u32 (u64 (a.val4 + c))
  let t4 := u32 (t4 + (2 ^ 32 - 2 ^ 26))                 -- += -(((uint32_t)1) << 26)
  let mask := u64 (u32 (t4 / 2 ^ 31))
  let mask := u64 (mask + (2 ^ 64 - 1))                  -- mask += -1
  let t0 := u32 (t0 &&& mask)
  let t1 := u32 (t1 &&& mask)
  let t2 := u32 (t2 &&& mask)
  let t3 := u32 (t3 &&& mask)
  let t4 := u32 (t4 &&& mask)
  let mask := 2 ^ 64 - 1 - mask                          -- mask = ~mask
  { val0 := u32 ((a.val0 &&& mask) ||| t0), val1 := u32 ((a.val1 &&& mask) ||| t1),
    val2 := u32 ((a.val2 &&& mask) ||| t2), val3 := u32 ((a.val3 &&& mask) ||| t3),
    val4 := u32 ((a.val4 &&& mask) ||| t4) }

namespace KC64

/-- The entries of `field_elem_precomputed_t` (`uint64_t`) that the `OUTER_PARAM3 == 3` code
of the 64-bit header writes and reads. -/
structure field_elem_precomputed_t where
  /-- `val[0][0][0]` -/
  val000 : Nat
  /-- `val[0][1][1]` -/
  val011 : Nat
  /-- `val[1][1][1]` -/
  val111 : Nat
deriving DecidableEq

/-- The macro `WORDSIZE` of the 64-bit header, `OUTER_PARAM0` at its default. -/
def WORDSIZE : Nat := 64

/-- The function `precompute_factor_KC` of the 64-bit header, branch `OUTER_PARAM3 == 3`
(upper bit key clamping with a 2-limb key). -/
def precompute_factor_KC (b : field_elem_t) : field_elem_precomputed_t :=
  { val000 := b.val0, val011 := b.val1, val111 := u64 (u64 b.val1 * DELTA) }

/-- The function `field_mul_precomputed_no_carry_KC` of the 64-bit header, branch
`OUTER_PARAM3 == 3`: the wide limbs written to `res`. -/
def field_mul_precomputed_no_carry_KC (a : field_elem_t) (b : field_elem_precomputed_t) :
    dfield_elem_t :=
  let acc := u128 (a.val2 * b.val111)
  let r0 := u128 (a.val0 * b.val000)
  let r0 := u128 (r0 +
    u64 ((u64 acc % 2 ^ LAST_FIELDELEM_BLOCKSIZE) * 2 ^ (WORDSIZE - LAST_FIELDELEM_BLOCKSIZE)))
  let r1 := u128 (a.val1 * b.val000)
  let r1 := u128 (r1 + u128 (a.val0 * b.val011))
  let r1 := u128 (r1 + u128 (acc / 2 ^ LAST_FIELDELEM_BLOCKSIZE))
  let r2 := u128 (a.val2 * b.val000)
  let r2 := u128 (r2 + u128 (a.val1 * b.val011))
  { val0 := r0, val1 := r1, val2 := r2 }

/-- The sums of `field_mul_precomputed_no_carry_KC` (`OUTER_PARAM3 == 3`) in the unbounded
integers. -/
def field_mul_precomputed_no_carry_KC_unbounded (a : field_elem_t)
    (b : field_elem_precomputed_t) : dfield_elem_t :=
  let acc := a.val2 * b.val111
  { val0 := a.val0 * b.val000 +
      (acc % 2 ^ LAST_FIELDELEM_BLOCKSIZE) * 2 ^ (WORDSIZE - LAST_FIELDELEM_BLOCKSIZE),
    val1 := a.val1 * b.val000 + a.val0 * b.val011 + acc / 2 ^ LAST_FIELDELEM_BLOCKSIZE,
    val2 := a.val2 * b.val000 + a.val1 * b.val011 }

/-- Every wide limb fits a `uint128_t`. -/
def dfield_elem_t.wf (a : dfield_elem_t) : Prop :=
  a.val0 < 2 ^ 128 ∧ a.val1 < 2 ^ 128 ∧ a.val2 < 2 ^ 128

instance (a : dfield_elem_t) : Decidable a.wf := by
  unfold dfield_elem_t.wf
  exact inferInstance

end KC64

section Blocks

variable {F : Type}

/-- The number of blocks `n = ceil(inlen / BLOCKSIZE)` of a message of `inlen` bytes. -/
def nbBlocks (A : FieldArith F) (inlen : Nat) : Nat :=
  (inlen + A.BLOCKSIZE - 1) / A.BLOCKSIZE

/-- The encoded block `m_(i+1)` of the message: the first `n - 1` blocks are full-block
encoded, the last one is last-block encoded with its remaining length. -/
def encodedBlock (A : FieldArith F) (inp : Ptr) (inlen : Nat) (i : Nat) : F :=
  if i + 1 < nbBlocks A inlen then
    A.unpack_and_encode_field_elem (inp.add (i * A.BLOCKSIZE))
  else
    A.unpack_and_encode_last_field_elem (inp.add (i * A.BLOCKSIZE)) (inlen - i * A.BLOCKSIZE)

/-- The encoded blocks `m_1, ..., m_n` of the message. -/
def encodedBlocks (A : FieldArith F) (inp : Ptr) (inlen : Nat) : List F :=
  (List.range (nbBlocks A inlen)).map (encodedBlock A inp inlen)

end Blocks

section Exact

variable {F : Type} [CommRing F]

/-- Modelled from the spec: `field_add` of `field_arithmetic.h` (absent), exact in `F`. -/
def field_add (a b : F) : F := a + b

/-- Modelled from the spec: `field_mul` of `field_arithmetic.h` (absent), exact in `F`. -/
def field_mul (a b : F) : F := a * b

/-- Modelled from the spec: `field_sqr` of `field_arithmetic.h` (absent), exact in `F`. -/
def field_sqr (a : F) : F := a * a

/-- Modelled from the spec: `field_mul_reduce` of `field_arithmetic.h` (absent), exact in `F`. -/
def field_mul_reduce (a b : F) : F := a * b

/-- Modelled from the spec: `field_add_reduce` of `field_arithmetic.h` (absent), exact in `F`. -/
def field_add_reduce (a b : F) : F := a + b

/-- Modelled from the spec: `field_add_mix` (wide plus narrow element), exact in `F`. -/
def field_add_mix (a b : F) : F := a + b

/-- Modelled from the spec: `field_add_dbl` (wide plus wide element), exact in `F`. -/
def field_add_dbl (a b : F) : F := a + b

/-- Modelled from the spec: `carry_round` (wide to narrow element) keeps the field value. -/
def carry_round (a : F) : F := a

/-- Modelled from the spec: `_carry_round` (in-place carry round) keeps the field value. -/
def _carry_round (a : F) : F := a

/-- Modelled from the spec: `reduce` (canonical representative) keeps the field value. -/
def reduce (a : F) : F := a

/-- Modelled from the spec: `precompute_factor` caches scaled limbs of the key and keeps its
field value. -/
def precompute_factor (k : F) : F := k

/-- Modelled from the spec: `field_mul_precomputed_no_carry`, exact in `F`. -/
def field_mul_precomputed_no_carry (a k_p : F) : F := a * k_p

/-- Modelled from the spec: the macro `FIELD_MUL_PC_NO_CARRY(res, a, k)`, exact in `F`. -/
def FIELD_MUL_PC_NO_CARRY (a k : F) : F := a * k

/-- Modelled from the spec: the macro `FIELD_MUL_PC_REDUCE(res, a, k)`, exact in `F`. -/
def FIELD_MUL_PC_REDUCE (a k : F) : F := a * k

/-- Modelled from the spec: the macro `FIELD_MUL_PC(res, a, k)`, exact in `F`. -/
def FIELD_MUL_PC (a k : F) : F := a * k

/-- Modelled from the spec: the macros `UNPACK_PC_FIELD_ELEM`/`UNPACK_PC_FIELD_ELEM_ARRAY`
followed by `INIT_PC_KEY`: the key element unpacked from `transkey`. -/
def UNPACK_PC_FIELD_ELEM (A : FieldArith F) (transkey : List Byte) : F :=
  precompute_factor (A.unpack_field_elem (ofBuf transkey))

/-- The last two statements of every strategy: `pack_field_elem(tag_packed, &acc);
transform_field_elem(out, OUTPUTSIZE, tag_packed, BUFFSIZE);`. -/
def pack_and_transform (A : FieldArith F) (acc : F) : List Byte :=
  transform_field_elem A.OUTPUTSIZE (ofBuf (A.pack_field_elem acc)) A.BUFFSIZE

/-! ## `classical_Horner_PK_1B_Delay_b` -/

/-- The loop `while (inlen > BLOCKSIZE)` of `classical_Horner_PK_1B_Delay_b`; returns the
state `(in, inlen, acc)` at loop exit. -/
def classical_Horner_PK_1B_Delay_b_loop (A : FieldArith F) (k_p : F)
    (inp : Ptr) (inlen : Nat) (acc : F) : Ptr × Nat × F :=
  if inlen > A.BLOCKSIZE then
    let a := A.unpack_and_encode_field_elem inp
    let acc := field_add acc a
    let acc_d := field_mul_precomputed_no_carry acc k_p
    let acc := carry_round acc_d
    classical_Horner_PK_1B_Delay_b_loop A k_p (inp.add A.BLOCKSIZE) (inlen - A.BLOCKSIZE) acc
  else (inp, inlen, acc)
termination_by inlen
decreasing_by have := A.BLOCKSIZE_pos; omega

/-- The accumulator of `classical_Horner_PK_1B_Delay_b` that is packed, for `inlen ≠ 0`. -/
def classical_Horner_PK_1B_Delay_b_acc (A : FieldArith F)
    (inp : Ptr) (inlen : Nat) (key : Ptr) : F :=
  let transkey := transform_key A.BUFFSIZE key A.KEYSIZE
  let k := A.unpack_field_elem (ofBuf transkey)
  let k_p := precompute_factor k
  let s := classical_Horner_PK_1B_Delay_b_loop A k_p inp inlen 0
  let inp := s.1
  let inlen := s.2.1
  let acc := s.2.2
  if inlen ≠ 0 then
    let a := A.unpack_and_encode_last_field_elem inp inlen
    let acc := field_add acc a
    let acc := _carry_round acc
    reduce acc
  else acc

/-- The function `classical_Horner_PK_1B_Delay_b(out, in, inlen, key)`: the bytes written to
`out`. -/
def classical_Horner_PK_1B_Delay_b (A : FieldArith F)
    (inp : Ptr) (inlen : Nat) (key : Ptr) : List Byte :=
  if inlen = 0 then memset0 A.OUTPUTSIZE
  else pack_and_transform A (classical_Horner_PK_1B_Delay_b_acc A inp inlen key)

/-! ## `classical_2level_2B_UPK_Delay_a` -/

/-- The loop `while (inlen > double_blocksize)` of `classical_2level_2B_UPK_Delay_a`, with
`k0 = k[0]` and `k1 = k[1]`; returns the state `(in, inlen, acc)` at loop exit. -/
def classical_2level_2B_UPK_Delay_a_loop (A : FieldArith F) (k0 k1 : F)
    (inp : Ptr) (inlen : Nat) (acc : F) : Ptr × Nat × F :=
  if inlen > A.BLOCKSIZE + A.BLOCKSIZE then
    let a0 := A.unpack_and_encode_field_elem inp
    let a1 := A.unpack_and_encode_field_elem (inp.add A.BLOCKSIZE)
    let acc_d0 := FIELD_MUL_PC_NO_CARRY acc k1
    let acc_d1 := FIELD_MUL_PC_NO_CARRY a0 k0
    let acc_d0 := field_add_dbl acc_d0 acc_d1
    let acc_d0 := field_add_mix acc_d0 a1
    let acc := carry_round acc_d0
    classical_2level_2B_UPK_Delay_a_loop A k0 k1 ((inp.add A.BLOCKSIZE).add A.BLOCKSIZE)
      (inlen - (A.BLOCKSIZE + A.BLOCKSIZE)) acc
  else (inp, inlen, acc)
termination_by inlen
decreasing_by have := A.BLOCKSIZE_pos; omega

/-- The accumulator of `classical_2level_2B_UPK_Delay_a` that is packed, for `inlen ≠ 0`. -/
def classical_2level_2B_UPK_Delay_a_acc (A : FieldArith F)
    (inp : Ptr) (inlen : Nat) (key : Ptr) : F :=
  let double_blocksize := A.BLOCKSIZE + A.BLOCKSIZE
  let transkey := transform_key A.BUFFSIZE key A.KEYSIZE
  let k0 := UNPACK_PC_FIELD_ELEM A transkey
  if inlen ≤ A.BLOCKSIZE then
    -- process msg of only 1 block: no carry round, no reduce
    A.unpack_and_encode_last_field_elem inp inlen
  else if inlen ≤ double_blocksize then
    let a0 := A.unpack_and_encode_field_elem inp
    let a1 := A.unpack_and_encode_last_field_elem (inp.add A.BLOCKSIZE) (inlen - A.BLOCKSIZE)
    let acc_d := FIELD_MUL_PC_NO_CARRY a0 k0
    let acc_d := field_add_mix acc_d a1
    let acc := carry_round acc_d
    reduce acc
  else
    let k1 := precompute_factor (field_mul k0 k0)
    let a0 := A.unpack_and_encode_field_elem inp
    let a1 := A.unpack_and_encode_field_elem (inp.add A.BLOCKSIZE)
    let acc_d := FIELD_MUL_PC_NO_CARRY a0 k0
    let acc_d := field_add_mix acc_d a1
    let acc := carry_round acc_d
    let s := classical_2level_2B_UPK_Delay_a_loop A k0 k1
      ((inp.add A.BLOCKSIZE).add A.BLOCKSIZE) (inlen - double_blocksize) acc
    let inp := s.1
    let inlen := s.2.1
    let acc := s.2.2
    if inlen > A.BLOCKSIZE then
      -- process msg of 2 blocks with last one possibly incomplete
      let a0 := A.unpack_and_encode_field_elem inp
      let a1 := A.unpack_and_encode_last_field_elem (inp.add A.BLOCKSIZE) (inlen - A.BLOCKSIZE)
      let acc_d0 := FIELD_MUL_PC_NO_CARRY acc k1
      let acc_d1 := FIELD_MUL_PC_NO_CARRY a0 k0
      let acc_d0 := field_add_dbl acc_d0 acc_d1
      let acc_d0 := field_add_mix acc_d0 a1
      reduce (carry_round acc_d0)
    else
      -- processing last msg block
      let a0 := A.unpack_and_encode_last_field_elem inp inlen
      let acc_d := FIELD_MUL_PC_NO_CARRY acc k0
      let acc_d := field_add_mix acc_d a0
      reduce (carry_round acc_d)

/-- The function `classical_2level_2B_UPK_Delay_a(out, in, inlen, key)`: the bytes written to
`out`. -/
def classical_2level_2B_UPK_Delay_a (A : FieldArith F)
    (inp : Ptr) (inlen : Nat) (key : Ptr) : List Byte :=
  if inlen = 0 then memset0 A.OUTPUTSIZE
  else pack_and_transform A (classical_2level_2B_UPK_Delay_a_acc A inp inlen key)

/-! ## `classical_noTF` and `classical_original` -/

/-- The loop `while (inlen > BLOCKSIZE)` of `classical_noTF`; returns the state
`(in, inlen, acc)` at loop exit. -/
def classical_noTF_loop (A : FieldArith F) (k : F)
    (inp : Ptr) (inlen : Nat) (acc : F) : Ptr × Nat × F :=
  if inlen > A.BLOCKSIZE then
    let a := A.unpack_and_encode_field_elem inp
    let acc := field_add acc a
    let acc := field_mul acc k
    classical_noTF_loop A k (inp.add A.BLOCKSIZE) (inlen - A.BLOCKSIZE) acc
  else (inp, inlen, acc)
termination_by inlen
decreasing_by have := A.BLOCKSIZE_pos; omega

/-- The accumulator of `classical_noTF` that is packed (there is no early return: the
accumulator starts at `{0}` and is packed as it is when `inlen = 0`). -/
def classical_noTF_acc (A : FieldArith F) (inp : Ptr) (inlen : Nat) (key : Ptr) : F :=
  let k := A.unpack_field_elem key
  let s := classical_noTF_loop A k inp inlen 0
  let inp := s.1
  let inlen := s.2.1
  let acc := s.2.2
  if inlen ≠ 0 then
    let a := A.unpack_and_encode_last_field_elem inp inlen
    let acc := field_add acc a
    field_mul acc k
  else acc

/-- The function `classical_noTF(out, in, inlen, key)`: the bytes written to `out`. -/
def classical_noTF (A : FieldArith F) (inp : Ptr) (inlen : Nat) (key : Ptr) : List Byte :=
  pack_and_transform A (classical_noTF_acc A inp inlen key)

/-- The key element of `classical_original`: the branch `#if KEYTRANSFORM == none_transform`
unpacks `key` itself, the `#else` branch unpacks `transkey`. -/
def classical_original_key (A : FieldArith F) (key_none_transform : Bool) (key : Ptr) : F :=
  if key_none_transform then A.unpack_field_elem key
  else A.unpack_field_elem (ofBuf (transform_key A.BUFFSIZE key A.KEYSIZE))

/-- The loop `while (inlen >= BLOCKSIZE)` of `classical_original` in the default build
(`LASTBLOCKENCODING` undefined); the branch `#elif MSGTRANSFORM == none_transform` encodes the
message bytes in place, the `#else` branch goes through `buff`. -/
def classical_original_loop (A : FieldArith F) (msg_none_transform : Bool) (k : F)
    (inp : Ptr) (inlen : Nat) (acc : F) : Ptr × Nat × F :=
  if inlen ≥ A.BLOCKSIZE then
    let a :=
      if msg_none_transform then A.unpack_and_encode_field_elem inp
      else A.unpack_and_encode_field_elem (ofBuf (transform_msg A.BUFFSIZE inp A.BLOCKSIZE))
    let acc := field_add acc a
    let acc := field_mul acc k
    classical_original_loop A msg_none_transform k (inp.add A.BLOCKSIZE)
      (inlen - A.BLOCKSIZE) acc
  else (inp, inlen, acc)
termination_by inlen
decreasing_by have := A.BLOCKSIZE_pos; omega

/-- The accumulator of `classical_original` that is packed, in the default build
(`LASTBLOCKENCODING` undefined, so the last block is guarded by `if (inlen)`). -/
def classical_original_acc (A : FieldArith F) (key_none_transform msg_none_transform : Bool)
    (inp : Ptr) (inlen : Nat) (key : Ptr) : F :=
  let k := classical_original_key A key_none_transform key
  let s := classical_original_loop A msg_none_transform k inp inlen 0
  let inp := s.1
  let inlen := s.2.1
  let acc := s.2.2
  if inlen ≠ 0 then
    let buff :=
      if msg_none_transform then
        ofBuf ((List.range A.BUFFSIZE).map (memcpy_into_zero inp inlen))
                                       -- memset(buff, 0, BUFFSIZE); memcpy(buff, in, inlen)
      else ofBuf (transform_msg A.BUFFSIZE inp inlen)
    let a := A.unpack_and_encode_last_field_elem buff inlen
    let acc := field_add acc a
    field_mul acc k
  else acc

/-- The function `classical_original(out, in, inlen, key)` in the default build: the bytes
written to `out`. -/
def classical_original (A : FieldArith F) (key_none_transform msg_none_transform : Bool)
    (inp : Ptr) (inlen : Nat) (key : Ptr) : List Byte :=
  pack_and_transform A
    (classical_original_acc A key_none_transform msg_none_transform inp inlen key)

/-! ## Arrays and counted loops -/

/-- A C array, as the map from indices to elements. -/
structure Arr (α : Type) where
  /-- The element `arr[j]`. -/
  get : Nat → α

instance {α : Type} : CoeFun (Arr α) (fun _ => Nat → α) := ⟨Arr.get⟩

/-- An array whose elements are all `0`: `= {0}`, or an array the source leaves
uninitialised and writes before it reads. -/
def Arr.zero {α : Type} [Zero α] : Arr α := ⟨fun _ => 0⟩

/-- The assignment `arr[i] = v`. -/
def setArr {α : Type} (arr : Arr α) (i : Nat) (v : α) : Arr α :=
  ⟨fun j => if j = i then v else arr.get j⟩

/-- The loop `for (j = lo; j < hi; ++j) body`, as a state transformer. -/
def forLoop {σ : Type} (lo hi : Nat) (body : Nat → σ → σ) (s : σ) : σ :=
  (List.range' lo (hi - lo)).foldl (fun s j => body j s) s

/-- The variables touched while blocks are read into an array: the array, `in`, `inlen`. -/
structure ReadState (F : Type) where
  /-- The array (`a` or `acc`) receiving the blocks. -/
  arr : Arr F
  /-- The pointer `in`. -/
  inp : Ptr
  /-- The remaining length `inlen`. -/
  inlen : Nat

/-- The statements `unpack_and_encode_field_elem(arr + j, in); in += BLOCKSIZE;
inlen -= BLOCKSIZE;` (the macro `UNPACK_AND_ENCODE`). -/
def UNPACK_AND_ENCODE (A : FieldArith F) (j : Nat) (r : ReadState F) : ReadState F :=
  { arr := setArr r.arr j (A.unpack_and_encode_field_elem r.inp),
    inp := r.inp.add A.BLOCKSIZE,
    inlen := r.inlen - A.BLOCKSIZE }

/-- The statements `unpack_and_encode_field_elem(arr + j, in); in += BLOCKSIZE;`, which leave
`inlen` alone. -/
def unpack_and_advance (A : FieldArith F) (j : Nat) (r : ReadState F) : ReadState F :=
  { arr := setArr r.arr j (A.unpack_and_encode_field_elem r.inp),
    inp := r.inp.add A.BLOCKSIZE,
    inlen := r.inlen }

/-! ## `classical_8BranchHorner_NoDelay` -/

/-- The local `unsigned int nbBranch = 8;` of `classical_8BranchHorner_NoDelay`. -/
def nbBranch : Nat := 8

/-- The body of `if (inlen <= i * BLOCKSIZE)` in the branch for at most `nbBranch` blocks of
`classical_8BranchHorner_NoDelay`: the accumulator `acc[0]` that is packed.  The arrays `a`
and `k` are not initialised in the source; no element is read before it is written. -/
def classical_8BranchHorner_NoDelay_few (A : FieldArith F) (k0 : F) (inp : Ptr) (inlen : Nat)
    (i : Nat) : F :=
  let k : Arr F := setArr Arr.zero 0 k0
  -- compute key powers
  let k := forLoop 0 (i - 2) (fun j k => setArr k (j + 1) (field_mul_reduce (k j) (k 0))) k
  let r := forLoop 0 (i - 1) (UNPACK_AND_ENCODE A) { arr := Arr.zero, inp := inp, inlen := inlen }
  let a := setArr r.arr (i - 1) (A.unpack_and_encode_last_field_elem r.inp r.inlen)
  let a := setArr a 0 (field_mul_reduce (a 0) (k (i - 2)))
  let acc0 := field_add_reduce (a 0) (a (i - 1))
  let s := forLoop 1 (i - 1)
    (fun j (s : Arr F × F) =>
      let a := setArr s.1 j (field_mul_reduce (s.1 j) (k (i - 2 - j)))
      (a, field_add_reduce s.2 (a j)))
    (a, acc0)
  s.2

/-- The state of the main loop of `classical_8BranchHorner_NoDelay`. -/
structure BranchState (F : Type) where
  /-- The accumulators `acc[0 .. nbBranch)`. -/
  acc : Arr F
  /-- The blocks `a[0 .. nbBranch)`. -/
  a : Arr F
  /-- The pointer `in`. -/
  inp : Ptr
  /-- The remaining length `inlen`. -/
  inlen : Nat

/-- The loop `while (inlen > nbBranch_blocksize)` of `classical_8BranchHorner_NoDelay`, with
`k` the array of key powers. -/
def classical_8BranchHorner_NoDelay_loop (A : FieldArith F) (k : Arr F) (acc a : Arr F)
    (inp : Ptr) (inlen : Nat) : BranchState F :=
  if inlen > nbBranch * A.BLOCKSIZE then
    let r := forLoop 0 nbBranch (unpack_and_advance A) { arr := a, inp := inp, inlen := inlen }
    let acc := forLoop 0 nbBranch
      (fun i acc =>
        let acc := setArr acc i (field_mul_reduce (acc i) (k (nbBranch - 1)))
        setArr acc i (field_add_reduce (acc i) (r.arr i)))
      acc
    classical_8BranchHorner_NoDelay_loop A k acc r.arr r.inp (inlen - nbBranch * A.BLOCKSIZE)
  else { acc := acc, a := a, inp := inp, inlen := inlen }
termination_by inlen
decreasing_by have := A.BLOCKSIZE_pos; simp only [nbBranch]; omega

/-- The body of `if (inlen > (nbBranch - i - 1) * BLOCKSIZE)` in the last round of
`classical_8BranchHorner_NoDelay`: the array `acc` after the accumulators are merged. -/
def classical_8BranchHorner_NoDelay_last (A : FieldArith F) (k : Arr F) (s : BranchState F)
    (i : Nat) : Arr F :=
  let r := forLoop 0 (nbBranch - i - 1) (UNPACK_AND_ENCODE A)
    { arr := s.a, inp := s.inp, inlen := s.inlen }
  let a := setArr r.arr (nbBranch - i - 1) (A.unpack_and_encode_last_field_elem r.inp r.inlen)
  let acc := forLoop 0 (nbBranch - i)
    (fun j acc =>
      let acc := setArr acc j (field_mul_reduce (acc j) (k (nbBranch - 1)))
      setArr acc j (field_add_reduce (acc j) (a j)))
    s.acc
  -- reducing to only one accumulator
  let acc := forLoop (nbBranch - i) nbBranch
    (fun j acc => setArr acc j (field_mul_reduce (acc j) (k (nbBranch + nbBranch - j - i - 2))))
    acc
  let acc := forLoop 0 (nbBranch - i - 1)
    (fun j acc => setArr acc j (field_mul_reduce (acc j) (k (nbBranch - j - i - 2))))
    acc
  forLoop 1 nbBranch (fun j acc => setArr acc 0 (field_add_reduce (acc 0) (acc j))) acc

/-- The loop `for (i = 0; i < nbBranch; ++i) if (inlen > (nbBranch - i - 1) * BLOCKSIZE)
{ ...; break; }` that ends `classical_8BranchHorner_NoDelay`: the array `acc` after it.  A
`for` loop left by `break` is the search of the first index whose guard holds. -/
def classical_8BranchHorner_NoDelay_rest (A : FieldArith F) (k : Arr F) (s : BranchState F) :
    Arr F :=
  match (List.range' 0 nbBranch).find?
      (fun i => decide (s.inlen > (nbBranch - i - 1) * A.BLOCKSIZE)) with
  | some i => classical_8BranchHorner_NoDelay_last A k s i
  | none => s.acc

/-- The contents of `tag_packed` at the end of `classical_8BranchHorner_NoDelay`, for
`inlen ≠ 0`. -/
def classical_8BranchHorner_NoDelay_tag (A : FieldArith F) (inp : Ptr) (inlen : Nat)
    (key : Ptr) : List Byte :=
  let transkey := transform_key A.BUFFSIZE key A.KEYSIZE
  let k0 := A.unpack_field_elem (ofBuf transkey)
  if inlen ≤ A.BLOCKSIZE then
    -- process msg of only 1 block
    A.pack_field_elem (A.unpack_and_encode_last_field_elem inp inlen)
  else if inlen ≤ nbBranch * A.BLOCKSIZE then
    -- process msg of nbBranch Blocks or less
    match (List.range' 2 (nbBranch + 1 - 2)).find? (fun i => decide (inlen ≤ i * A.BLOCKSIZE)) with
    | some i => A.pack_field_elem (classical_8BranchHorner_NoDelay_few A k0 inp inlen i)
    | none => List.replicate A.BUFFSIZE 0          -- tag_packed is left as initialised
  else
    -- process msg of more than nbBranch Blocks
    let k : Arr F := setArr Arr.zero 0 k0
    let k := forLoop 0 (nbBranch - 1)
      (fun i k => setArr k (i + 1) (field_mul_reduce (k i) (k 0))) k
    -- initialize accumulators
    let r := forLoop 0 nbBranch (unpack_and_advance A)
      { arr := Arr.zero, inp := inp, inlen := inlen }
    let s := classical_8BranchHorner_NoDelay_loop A k r.arr Arr.zero r.inp
      (inlen - nbBranch * A.BLOCKSIZE)
    -- process remaining msg of length less or equal to nbBranch Blocks
    let acc := classical_8BranchHorner_NoDelay_rest A k s
    A.pack_field_elem (acc 0)

/-- The function `classical_8BranchHorner_NoDelay(out, in, inlen, key)`: the bytes written to
`out`. -/
def classical_8BranchHorner_NoDelay (A : FieldArith F) (inp : Ptr) (inlen : Nat)
    (key : Ptr) : List Byte :=
  if inlen = 0 then memset0 A.OUTPUTSIZE
  else transform_field_elem A.OUTPUTSIZE
    (ofBuf (classical_8BranchHorner_NoDelay_tag A inp inlen key)) A.BUFFSIZE

/-! ## `brw_2B_Delay` -/

/-- Trailing zero bits of `n`, looking at no more than `fuel` bits. -/
def ctzAux : Nat → Nat → Nat
  | 0, _ => 0
  | fuel + 1, n => if n % 2 = 0 then 1 + ctzAux fuel (n / 2) else 0

/-- The builtin `__builtin_ctz(x)`: trailing zero bits of the operand converted to a 32-bit
`unsigned int` (C leaves the result undefined when that is 0; the model returns 32, the
value that the code compiled by gcc for x86-64 returns). -/
def __builtin_ctz (x : Nat) : Nat := ctzAux 32 (x % 2 ^ 32)

/-- The number of bits of `n`, looking at no more than `fuel` bits. -/
def bitLength : Nat → Nat → Nat
  | 0, _ => 0
  | fuel + 1, n => if n = 0 then 0 else 1 + bitLength fuel (n / 2)

/-- The builtin `__builtin_clzll(x)`: leading zero bits of a 64-bit operand (C leaves the
result undefined for 0; the model returns 64). -/
def __builtin_clzll (x : Nat) : Nat := 64 - bitLength 64 (x % 2 ^ 64)

/-- The macro `LOG2(X)` of `brw_2B_Delay.c`,
`(unsigned)(8 * sizeof(unsigned long long) - __builtin_clzll(X) - 1)`: the position of the
highest set bit of `X`. -/
def LOG2 (X : Nat) : Nat := 8 * 8 - __builtin_clzll X - 1

/-- The variables of the main loop of `brw_2B_Delay`: `blkctr`, the blocks `a[0..3]` and the
stack `T` of partial products. -/
structure BrwState (F : Type) where
  /-- The byte counter `blkctr`. -/
  blkctr : Nat
  /-- The blocks `a[0 .. 4)`. -/
  a : Arr F
  /-- The array `T[0 .. lg)`. -/
  T : Arr F

/-- The statements shared by the loop body and by `case 0` of `brw_2B_Delay`, once four blocks
are in `a` and `blkctr` is advanced: they fold `a[0..3]` and the lower entries of `T` into
`T[sp - 2]`. -/
def brw_2B_Delay_fold (A : FieldArith F) (k : Arr F) (s : BrwState F) : BrwState F :=
  let a := setArr s.a 0 (field_add (s.a 0) (k 0))
  let a := setArr a 1 (field_add (a 1) (k 1))
  let a := setArr a 0 (field_mul (a 0) (a 1))
  let a := setArr a 0 (field_add (a 0) (a 2))
  let sp := __builtin_ctz s.blkctr - __builtin_ctz A.BLOCKSIZE
  let a := forLoop 0 (sp - 2) (fun i a => setArr a 0 (field_add (a 0) (s.T i))) a
  let a := setArr a 3 (field_add (a 3) (k sp))
  { blkctr := s.blkctr, a := a, T := setArr s.T (sp - 2) (field_mul (a 0) (a 3)) }

/-- The loop `while (inlen > blkctr + 4 * BLOCKSIZE)` of `brw_2B_Delay`. -/
def brw_2B_Delay_loop (A : FieldArith F) (k : Arr F) (inp : Ptr) (inlen : Nat)
    (s : BrwState F) : BrwState F :=
  if inlen > s.blkctr + 4 * A.BLOCKSIZE then
    -- unpack 4 Blocks
    let r := forLoop 0 4
      (fun i (r : BrwState F) =>
        { blkctr := r.blkctr + A.BLOCKSIZE,
          a := setArr r.a i (A.unpack_and_encode_field_elem (inp.add r.blkctr)),
          T := r.T })
      s
    brw_2B_Delay_loop A k inp inlen (brw_2B_Delay_fold A k r)
  else s
termination_by inlen - s.blkctr
decreasing_by
  have := A.BLOCKSIZE_pos
  simp only [forLoop, List.range', Nat.sub_zero, List.foldl, brw_2B_Delay_fold]
  omega

/-- The accumulator `a[0]` of `brw_2B_Delay` that is packed, for `inlen ≠ 0`.  The arrays
`a`, `k` and `T` are declared without an initialiser in the source: their contents at that
point are the parameters `a0`, `k0` and `T0`, which the function reads wherever the source
reads an element it has not written. -/
def brw_2B_Delay_acc_from (A : FieldArith F) (a0 k0 T0 : Arr F) (inp : Ptr) (inlen : Nat)
    (key : Ptr) : F :=
  let noOfBlocks := inlen / A.BLOCKSIZE + (if inlen % A.BLOCKSIZE ≠ 0 then 1 else 0)
  let lg := LOG2 noOfBlocks
  let transkey := transform_key A.BUFFSIZE key A.KEYSIZE
  let k : Arr F := setArr k0 0 (A.unpack_field_elem (ofBuf transkey))
  let k :=
    if noOfBlocks > 2 then forLoop 0 lg (fun i k => setArr k (i + 1) (field_sqr (k i))) k
    else k
  let s := brw_2B_Delay_loop A k inp inlen { blkctr := 0, a := a0, T := T0 }
  let last := (inlen - 1) % A.BLOCKSIZE + 1
  let s : BrwState F :=
    match noOfBlocks % 4 with
    | 0 =>
      let r := forLoop 0 3
        (fun i (r : BrwState F) =>
          { blkctr := r.blkctr + A.BLOCKSIZE,
            a := setArr r.a i (A.unpack_and_encode_field_elem (inp.add r.blkctr)),
            T := r.T })
        s
      let r : BrwState F :=
        { blkctr := r.blkctr + A.BLOCKSIZE,
          a := setArr r.a 3 (A.unpack_and_encode_last_field_elem (inp.add r.blkctr) last),
          T := r.T }
      let r := brw_2B_Delay_fold A k r
      { blkctr := r.blkctr, a := setArr r.a 0 0, T := r.T }
    | 1 =>
      { blkctr := s.blkctr,
        a := setArr s.a 0 (A.unpack_and_encode_last_field_elem (inp.add s.blkctr) last),
        T := s.T }
    | 2 =>
      let a := setArr s.a 0 (A.unpack_and_encode_field_elem (inp.add s.blkctr))
      let blkctr := s.blkctr + A.BLOCKSIZE
      let a := setArr a 1 (A.unpack_and_encode_last_field_elem (inp.add blkctr) last)
      let a := setArr a 0 (field_mul (a 0) (k 0))
      let a := setArr a 0 (field_add (a 0) (a 1))
      { blkctr := blkctr, a := a, T := s.T }
    | _ =>
      let r := forLoop 0 2
        (fun i (r : BrwState F) =>
          { blkctr := r.blkctr + A.BLOCKSIZE,
            a := setArr r.a i (A.unpack_and_encode_field_elem (inp.add r.blkctr)),
            T := r.T })
        s
      let a := setArr r.a 2 (A.unpack_and_encode_last_field_elem (inp.add r.blkctr) last)
      let a := setArr a 0 (field_add (a 0) (k 0))
      let a := setArr a 1 (field_add (a 1) (k 1))
      let a := setArr a 0 (field_mul (a 0) (a 1))
      let a := setArr a 0 (field_add (a 0) (a 2))
      { blkctr := r.blkctr, a := a, T := r.T }
  let noOfBlocks := noOfBlocks / 4
  let f := forLoop 0 (lg - 1)
    (fun i (f : F × Nat) => (if f.2 % 2 = 1 then field_add f.1 (s.T i) else f.1, f.2 / 2))
    (s.a 0, noOfBlocks)
  reduce (_carry_round f.1)

/-- The accumulator `a[0]` of `brw_2B_Delay` that is packed, for `inlen ≠ 0`, when the
arrays `a`, `k` and `T` hold zeros where they are declared. -/
def brw_2B_Delay_acc (A : FieldArith F) (inp : Ptr) (inlen : Nat) (key : Ptr) : F :=
  brw_2B_Delay_acc_from A Arr.zero Arr.zero Arr.zero inp inlen key

/-- The function `brw_2B_Delay(out, in, inlen, key)`: the bytes written to `out`, for the
contents `a0`, `k0`, `T0` of the arrays that the source declares without an initialiser. -/
def brw_2B_Delay_from (A : FieldArith F) (a0 k0 T0 : Arr F) (inp : Ptr) (inlen : Nat)
    (key : Ptr) : List Byte :=
  if inlen = 0 then memset0 A.OUTPUTSIZE
  else pack_and_transform A (brw_2B_Delay_acc_from A a0 k0 T0 inp inlen key)

/-- The function `brw_2B_Delay(out, in, inlen, key)`: the bytes written to `out`, when the
arrays `a`, `k` and `T` hold zeros where they are declared. -/
def brw_2B_Delay (A : FieldArith F) (inp : Ptr) (inlen : Nat) (key : Ptr) : List Byte :=
  if inlen = 0 then memset0 A.OUTPUTSIZE
  else pack_and_transform A (brw_2B_Delay_acc A inp inlen key)

/-! ## `classical_ParallelHorner_UPK_1B_NoDelay` -/

/-- The loop `while (inlen > NB_BRANCH_BLOCKSIZE)` of `classical_ParallelHorner_UPK_1B_NoDelay`,
the `BOOST_PP_REPEAT` expansions being counted loops; `k` is the array of key powers. -/
def classical_ParallelHorner_UPK_1B_NoDelay_loop (A : FieldArith F) (NB_BRANCH : Nat)
    (hNB : 0 < NB_BRANCH) (k : Arr F) (acc a : Arr F) (inp : Ptr) (inlen : Nat) :
    BranchState F :=
  if inlen > NB_BRANCH * A.BLOCKSIZE then
    let r := forLoop 0 NB_BRANCH (UNPACK_AND_ENCODE A) { arr := a, inp := inp, inlen := inlen }
    let acc := forLoop 0 NB_BRANCH
      (fun i acc => setArr acc i (FIELD_MUL_PC_REDUCE (acc i) (k (NB_BRANCH - 1)))) acc
    let acc := forLoop 0 NB_BRANCH
      (fun i acc => setArr acc i (field_add_reduce (acc i) (r.arr i))) acc
    classical_ParallelHorner_UPK_1B_NoDelay_loop A NB_BRANCH hNB k acc r.arr r.inp r.inlen
  else { acc := acc, a := a, inp := inp, inlen := inlen }
termination_by inlen
decreasing_by
  have hB := A.BLOCKSIZE_pos
  have hdec : ∀ (n lo : Nat) (r : ReadState F),
      (forLoop lo (lo + n) (UNPACK_AND_ENCODE A) r).inlen = r.inlen - n * A.BLOCKSIZE := by
    intro n
    induction n with
    | zero => intro lo r; simp [forLoop]
    | succ n ih =>
      intro lo r
      have e := ih (lo + 1) (UNPACK_AND_ENCODE A lo r)
      have e1 : lo + 1 + n = lo + (n + 1) := by omega
      rw [e1] at e
      have e2 : lo + (n + 1) - lo = (lo + (n + 1) - (lo + 1)) + 1 := by omega
      unfold forLoop at e ⊢
      rw [e2, List.range'_succ, List.foldl_cons, e]
      simp only [UNPACK_AND_ENCODE, Nat.succ_mul]
      omega
  have h := hdec NB_BRANCH 0 { arr := a, inp := inp, inlen := inlen }
  simp only [Nat.zero_add] at h
  rw [h]
  have := Nat.mul_pos hNB hB
  omega

/-- The expansion of `IF_LESS_THAN_N_BLOCKS(z, i, data)`: the accumulator `acc[0]` packed
when the message has `i` blocks, `2 ≤ i ≤ NB_BRANCH`. -/
def classical_ParallelHorner_UPK_1B_NoDelay_few (A : FieldArith F) (k : Arr F)
    (acc : Arr F) (inp : Ptr) (inlen : Nat) (i : Nat) : F :=
  let r := forLoop 0 (i - 1) (UNPACK_AND_ENCODE A) { arr := acc, inp := inp, inlen := inlen }
  let acc := setArr r.arr (i - 1) (A.unpack_and_encode_last_field_elem r.inp r.inlen)
  let acc := forLoop 0 (i - 1)
    (fun t acc => setArr acc t (FIELD_MUL_PC_REDUCE (acc t) (k (i - 2 - t)))) acc
  let acc := forLoop 1 i (fun j acc => setArr acc 0 (field_add_reduce (acc j) (acc 0))) acc
  acc 0

/-- The expansion of `IF_MORE_THAN_N_REMAINING_BLOCKS(z, i, data)`: the array `acc` after the
last `NB_BRANCH - i + 1` blocks are absorbed and the accumulators merged. -/
def classical_ParallelHorner_UPK_1B_NoDelay_last (A : FieldArith F) (NB_BRANCH : Nat)
    (k : Arr F) (s : BranchState F) (i : Nat) : Arr F :=
  let r := forLoop 0 (NB_BRANCH - i) (UNPACK_AND_ENCODE A)
    { arr := s.a, inp := s.inp, inlen := s.inlen }
  let a := setArr r.arr (NB_BRANCH - i) (A.unpack_and_encode_last_field_elem r.inp r.inlen)
  let acc := forLoop 0 (NB_BRANCH - i)
    (fun t acc => setArr acc t (FIELD_MUL_PC_REDUCE (acc t) (k (NB_BRANCH - 1)))) s.acc
  let acc := forLoop (NB_BRANCH - i) NB_BRANCH
    (fun t acc =>
      setArr acc t (FIELD_MUL_PC_REDUCE (acc t) (k (NB_BRANCH - i + (NB_BRANCH - 1) - t))))
    acc
  let acc := forLoop 0 (NB_BRANCH - i + 1)
    (fun t acc => setArr acc t (field_add_reduce (acc t) (a t))) acc
  let acc := forLoop 0 (NB_BRANCH - i)
    (fun t acc => setArr acc t (FIELD_MUL_PC_REDUCE (acc t) (k (NB_BRANCH - 1 - i - t)))) acc
  forLoop 1 NB_BRANCH (fun t acc => setArr acc 0 (field_add_reduce (acc t) (acc 0))) acc

/-- The accumulator `acc[0]` of `classical_ParallelHorner_UPK_1B_NoDelay` that is packed, for
`inlen ≠ 0`, with the value of the macro `NB_BRANCH` as a parameter (`1` when `OUTER_PARAM0`
is not defined).  A chain `if (c_i) {...} else if ... else {...}` generated by
`BOOST_PP_REPEAT_FROM_TO` is the search of the first index whose guard holds. -/
def classical_ParallelHorner_UPK_1B_NoDelay_acc (A : FieldArith F) (NB_BRANCH : Nat)
    (hNB : 0 < NB_BRANCH) (inp : Ptr) (inlen : Nat) (key : Ptr) : F :=
  let acc : Arr F := Arr.zero
  let a : Arr F := Arr.zero
  let transkey := transform_key A.BUFFSIZE key A.KEYSIZE
  let k : Arr F := setArr Arr.zero 0 (UNPACK_PC_FIELD_ELEM A transkey)
  if inlen ≤ A.BLOCKSIZE then
    -- process msg of only 1 block
    A.unpack_and_encode_last_field_elem inp inlen
  else
    -- compute key powers for parallel horner
    let k := forLoop 0 (NB_BRANCH - 1)
      (fun j k => setArr k (j + 1) (precompute_factor (FIELD_MUL_PC (k j) (k 0)))) k
    match (List.range' 2 (NB_BRANCH + 1 - 2)).find?
        (fun i => decide (inlen ≤ i * A.BLOCKSIZE)) with
    | some i => classical_ParallelHorner_UPK_1B_NoDelay_few A k acc inp inlen i
    | none =>
      -- process msg of more than NB_BRANCH Blocks: initialize accumulators
      let r := forLoop 0 NB_BRANCH (UNPACK_AND_ENCODE A)
        { arr := acc, inp := inp, inlen := inlen }
      let s := classical_ParallelHorner_UPK_1B_NoDelay_loop A NB_BRANCH hNB k r.arr a r.inp
        r.inlen
      -- process msg of nbBlocks blocks with last one possibly incomplete
      let acc :=
        match (List.range' 1 (NB_BRANCH + 1 - 1)).find?
            (fun i => decide (s.inlen > (NB_BRANCH - i) * A.BLOCKSIZE)) with
        | some i => classical_ParallelHorner_UPK_1B_NoDelay_last A NB_BRANCH k s i
        | none => s.acc
      acc 0

/-- The function `classical_ParallelHorner_UPK_1B_NoDelay(out, in, inlen, key)`: the bytes
written to `out`. -/
def classical_ParallelHorner_UPK_1B_NoDelay (A : FieldArith F) (NB_BRANCH : Nat)
    (hNB : 0 < NB_BRANCH) (inp : Ptr) (inlen : Nat) (key : Ptr) : List Byte :=
  if inlen = 0 then memset0 A.OUTPUTSIZE
  else pack_and_transform A
    (classical_ParallelHorner_UPK_1B_NoDelay_acc A NB_BRANCH hNB inp inlen key)

/-! ## The entry points that return early on the empty message -/

/-- The first statement `if (inlen == 0) { memset(out, 0, OUTPUTSIZE); return; }` of the
entry points that are not embedded in full here (`DCHMHorner_2level_15B_PK_Delay_b`,
`DCHM_NoDelay`, `NMH_NoDelay`, `SQH_NoDelay`, `classical_2BranchHorner_NoDelay_a`,
`classical_2level_3B_PK_Delay_b_2radix_1743`, `classical_2level_8B_Delay_c`,
`classical_Horner_1B_Delay_a_KC`, `classical_Horner_NoDelay_2C`,
`classical_Horner_PK_1B_Delay_a_3EL`, `classical_Horner_PK_1B_Delay_a_KC`,
`classical_Horner_PK_1B_Delay_a_OKC_1743`, `classical_Horner_PK_1B_Delay_b_2C_bis`,
`classical_Horner_PK_1B_Delay_b_2radix`, `classical_Horner_PK_1B_Delay_b_5C`,
`classical_Naive_Delay_a`, `classical_Naive_NoDelay_2radix`,
`classical_Naive_PK_Delay_b_2radix`, `classical_ParallelHorner_PK_1B_Delay_a`,
`classical_2level_NB_UPK_Delay_a`); `body` stands for the statements after it. -/
def early_return_entry (A : FieldArith F) (body : Ptr → Nat → Ptr → List Byte)
    (inp : Ptr) (inlen : Nat) (key : Ptr) : List Byte :=
  if inlen = 0 then memset0 A.OUTPUTSIZE else body inp inlen key

/-! ## `classical_Horner_PK_1B_Delay_b_2C_bis` -/

/-- The loop `while (inlen > BLOCKSIZE)` of `classical_Horner_PK_1B_Delay_b_2C_bis`; returns
the state `(in, inlen, acc[0], acc[1])` at loop exit. -/
def classical_Horner_PK_1B_Delay_b_2C_bis_loop (A : FieldArith F) (k_p0 k_p1 : F)
    (inp : Ptr) (inlen : Nat) (acc0 acc1 : F) : Ptr × Nat × F × F :=
  if inlen > A.BLOCKSIZE then
    let a := A.unpack_and_encode_field_elem inp
    let acc0 := field_add acc0 a
    let acc1 := field_add acc1 a
    let acc_d0 := field_mul_precomputed_no_carry acc0 k_p0
    let acc_d1 := field_mul_precomputed_no_carry acc1 k_p1
    let acc0 := carry_round acc_d0
    let acc1 := carry_round acc_d1
    classical_Horner_PK_1B_Delay_b_2C_bis_loop A k_p0 k_p1 (inp.add A.BLOCKSIZE)
      (inlen - A.BLOCKSIZE) acc0 acc1
  else (inp, inlen, acc0, acc1)
termination_by inlen
decreasing_by have := A.BLOCKSIZE_pos; omega

/-- The two accumulators `acc[0]`, `acc[1]` of `classical_Horner_PK_1B_Delay_b_2C_bis` that
are packed, for `inlen ≠ 0`. -/
def classical_Horner_PK_1B_Delay_b_2C_bis_acc (A : FieldArith F)
    (inp : Ptr) (inlen : Nat) (key : Ptr) : F × F :=
  let transkey := transform_key A.BUFFSIZE key (A.KEYSIZE / 2)
  let k0 := A.unpack_field_elem (ofBuf transkey)
  let k_p0 := precompute_factor k0
  let transkey := transform_key A.BUFFSIZE (key.add (A.KEYSIZE / 2)) (A.KEYSIZE / 2)
  let k1 := A.unpack_field_elem (ofBuf transkey)
  let k_p1 := precompute_factor k1
  let s := classical_Horner_PK_1B_Delay_b_2C_bis_loop A k_p0 k_p1 inp inlen 0 0
  let inp := s.1
  let inlen := s.2.1
  let acc0 := s.2.2.1
  let acc1 := s.2.2.2
  if inlen ≠ 0 then
    let a := A.unpack_and_encode_last_field_elem inp inlen
    let acc0 := field_add acc0 a
    let acc1 := field_add acc1 a
    let acc0 := reduce (_carry_round acc0)
    let acc1 := reduce (_carry_round acc1)
    (acc0, acc1)
  else (acc0, acc1)

/-- The function `classical_Horner_PK_1B_Delay_b_2C_bis(out, in, inlen, key)`: the bytes
written to `out`, first those at `out`, then those at `out + OUTPUTSIZE / 2`. -/
def classical_Horner_PK_1B_Delay_b_2C_bis (A : FieldArith F)
    (inp : Ptr) (inlen : Nat) (key : Ptr) : List Byte :=
  if inlen = 0 then memset0 A.OUTPUTSIZE
  else
    let acc := classical_Horner_PK_1B_Delay_b_2C_bis_acc A inp inlen key
    transform_field_elem (A.OUTPUTSIZE / 2) (ofBuf (A.pack_field_elem acc.1)) A.BUFFSIZE ++
      transform_field_elem (A.OUTPUTSIZE / 2) (ofBuf (A.pack_field_elem acc.2)) A.BUFFSIZE

/-- The configuration `A` with `KEYSIZE / 2` for `KEYSIZE`: the single-key strategies under
this configuration read a half-key. -/
def halfKey (A : FieldArith F) : FieldArith F :=
  { A with KEYSIZE := A.KEYSIZE / 2 }

/-! ## `SQH_NoDelay` -/

/-- The loop `while (inlen >= BLOCKSIZE + blkctr)` of `SQH_NoDelay`; returns the state
`(blkctr, acc)` at loop exit. -/
def SQH_NoDelay_loop (A : FieldArith F) (inp : Ptr) (inlen : Nat) (keystream : Ptr)
    (blkctr : Nat) (acc : F) : Nat × F :=
  if inlen ≥ A.BLOCKSIZE + blkctr then
    let buff := transform_msg A.BUFFSIZE (inp.add blkctr) A.BLOCKSIZE
    let a := A.unpack_field_elem (ofBuf buff)
    let transkey := transform_msg A.BUFFSIZE (keystream.add blkctr) A.BLOCKSIZE
    let k := A.unpack_field_elem (ofBuf transkey)
    let blkctr := blkctr + A.BLOCKSIZE
    let a := field_add a k
    let a := field_sqr a
    let acc := field_add acc a
    SQH_NoDelay_loop A inp inlen keystream blkctr acc
  else (blkctr, acc)
termination_by inlen - blkctr
decreasing_by have := A.BLOCKSIZE_pos; omega

/-- The function `SQH_NoDelay(out, in, inlen, key)`, run from the generator state `st`: the
bytes written to `out` and the generator state afterwards. -/
def SQH_NoDelay (A : FieldArith F) (cipher : StreamCipher) (st : key_expansion_state_t)
    (inp : Ptr) (inlen : Nat) (key : Ptr) : List Byte × key_expansion_state_t :=
  if inlen = 0 then (memset0 A.OUTPUTSIZE, st)
  else
    let st := init cipher st key
    let g := get cipher st (inlen + A.BLOCKSIZE)
    let keystream := ofBuf g.1
    let st := g.2
    let s := SQH_NoDelay_loop A inp inlen keystream 0 0
    let blkctr := s.1
    let acc := s.2
    let acc :=
      if inlen > blkctr then
        let buff := transform_msg A.BUFFSIZE (inp.add blkctr) (inlen - blkctr)
        let a := A.unpack_field_elem (ofBuf buff)
        let transkey := transform_msg A.BUFFSIZE (keystream.add blkctr) A.BLOCKSIZE
        let k := A.unpack_field_elem (ofBuf transkey)
        let a := field_add a k
        let a := field_sqr a
        field_add acc a
      else acc
    (pack_and_transform A acc, st)

/-! ## `classical_Naive_Delay_a` -/

/-- Modelled from the spec: `field_mul_no_carry` of `field_arithmetic.h` (absent), exact in
`F`. -/
def field_mul_no_carry (a b : F) : F := a * b

/-- The loop `while (in_temp != in)` of `classical_Naive_Delay_a`, with `in_temp = in + off`
(on every path `off` is a multiple of `BLOCKSIZE`); returns `(k[1], acc_d)` at loop exit. -/
def classical_Naive_Delay_a_loop (A : FieldArith F) (k0 : F) (inp : Ptr) (off : Nat)
    (k1 acc_d : F) : F × F :=
  if off ≠ 0 then
    let off := off - A.BLOCKSIZE
    let a := A.unpack_and_encode_field_elem (inp.add off)
    let k1 := field_mul k1 k0
    let a_d := field_mul_no_carry a k1
    let acc_d := field_add_dbl acc_d a_d
    classical_Naive_Delay_a_loop A k0 inp off k1 acc_d
  else (k1, acc_d)
termination_by off
decreasing_by have := A.BLOCKSIZE_pos; omega

/-- The accumulator of `classical_Naive_Delay_a` that is packed, for `inlen ≠ 0`. -/
def classical_Naive_Delay_a_acc (A : FieldArith F) (inp : Ptr) (inlen : Nat) (key : Ptr) : F :=
  let noOfBlocks := inlen / A.BLOCKSIZE + (if inlen % A.BLOCKSIZE ≠ 0 then 1 else 0)
  let transkey := transform_key A.BUFFSIZE key A.KEYSIZE
  let k0 := A.unpack_field_elem (ofBuf transkey)
  let off := (noOfBlocks - 1) * A.BLOCKSIZE
  -- process last block
  let acc := A.unpack_and_encode_last_field_elem (inp.add off)
    (inlen - (noOfBlocks - 1) * A.BLOCKSIZE)
  let acc :=
    if noOfBlocks > 1 then
      -- process second last block
      let off := off - A.BLOCKSIZE
      let a := A.unpack_and_encode_field_elem (inp.add off)
      let a_d := field_mul_no_carry a k0
      let acc_d := field_add_mix a_d acc
      let acc_d :=
        if noOfBlocks > 2 then
          -- process the rest of the msg
          let off := off - A.BLOCKSIZE
          let a := A.unpack_and_encode_field_elem (inp.add off)
          let k1 := field_mul k0 k0
          let a_d := field_mul_no_carry a k1
          let acc_d := field_add_dbl acc_d a_d
          (classical_Naive_Delay_a_loop A k0 inp off k1 acc_d).2
        else acc_d
      carry_round acc_d
    else acc
  reduce acc

/-- The function `classical_Naive_Delay_a(out, in, inlen, key)`: the bytes written to
`out`. -/
def classical_Naive_Delay_a (A : FieldArith F) (inp : Ptr) (inlen : Nat) (key : Ptr) :
    List Byte :=
  if inlen = 0 then memset0 A.OUTPUTSIZE
  else pack_and_transform A (classical_Naive_Delay_a_acc A inp inlen key)

/-! ## `classical_2level_NB_UPK_Delay_a` -/

/-- The variables of the main loop of `classical_2level_NB_UPK_Delay_a`. -/
structure TwoLevelState (F : Type) where
  /-- The accumulator `acc`. -/
  acc : F
  /-- The wide accumulators `acc_d[0 .. NB_BLOCK_FLVL)`. -/
  acc_d : Arr F
  /-- The blocks `a[0 .. NB_BLOCK_FLVL)`. -/
  a : Arr F
  /-- The pointer `in`. -/
  inp : Ptr
  /-- The remaining length `inlen`. -/
  inlen : Nat

/-- The expansion of `BOOST_PP_REPEAT(n, FIELD_MUL_NO_CARRY_ACC_A, k + top)`:
`acc_d[t] = a[t] * k[top - t]` for `t < n`. -/
def FIELD_MUL_NO_CARRY_ACC_A (n top : Nat) (k a acc_d : Arr F) : Arr F :=
  forLoop 0 n (fun t acc_d => setArr acc_d t (FIELD_MUL_PC_NO_CARRY (a t) (k (top - t)))) acc_d

/-- The expansion of `BOOST_PP_REPEAT_FROM_TO(1, hi, FIELD_ADD_DBL_CHAIN, acc_d)`:
`acc_d[0] += acc_d[t]` for `1 ≤ t < hi`. -/
def FIELD_ADD_DBL_CHAIN (hi : Nat) (acc_d : Arr F) : Arr F :=
  forLoop 1 hi (fun t acc_d => setArr acc_d 0 (field_add_dbl (acc_d 0) (acc_d t))) acc_d

/-- The statements `FIELD_MUL_PC_NO_CARRY(acc_d, NOT_PRECOMPUTED(k) + j, k);
carry_round(NOT_PRECOMPUTED(k) + j + 1, acc_d); INIT_PC_KEY(k + j + 1, ...)` for `j < n`:
the array of key powers (`acc_d[0]` is overwritten before its next use). -/
def PRECOMPUTE_KEY_POWER (n : Nat) (k : Arr F) : Arr F :=
  forLoop 0 n
    (fun j k => setArr k (j + 1) (precompute_factor (carry_round (FIELD_MUL_PC_NO_CARRY (k j)
      (k 0))))) k

/-- The expansion of `IF_LESS_THAN_N_BLOCKS(z, i, data)` of
`classical_2level_NB_UPK_Delay_a`: the accumulator `acc` when the message has `i` blocks,
`2 ≤ i ≤ NB_BLOCK_FLVL`; `acc_d0` and `a0` are the contents of the arrays `acc_d` and `a`,
which the source does not initialise. -/
def classical_2level_NB_UPK_Delay_a_few (A : FieldArith F) (acc_d0 a0 : Arr F) (k : Arr F)
    (inp : Ptr) (inlen : Nat) (i : Nat) : F :=
  let k := PRECOMPUTE_KEY_POWER (i - 2) k
  let r := forLoop 0 (i - 1) (UNPACK_AND_ENCODE A)
    { arr := a0, inp := inp, inlen := inlen }
  let a := setArr r.arr (i - 1) (A.unpack_and_encode_last_field_elem r.inp r.inlen)
  let acc_d := FIELD_MUL_NO_CARRY_ACC_A (i - 1) (i - 2) k a acc_d0
  let acc_d := FIELD_ADD_DBL_CHAIN (i - 1) acc_d
  let acc_d := setArr acc_d 0 (field_add_mix (acc_d 0) (a (i - 1)))
  carry_round (acc_d 0)

/-- The loop `while (inlen > NB_BLOCK_FLVL_BLOCKSIZE)` of
`classical_2level_NB_UPK_Delay_a`. -/
def classical_2level_NB_UPK_Delay_a_loop (A : FieldArith F) (NB_BLOCK_FLVL : Nat)
    (hNB : 0 < NB_BLOCK_FLVL) (k : Arr F) (s : TwoLevelState F) : TwoLevelState F :=
  if s.inlen > NB_BLOCK_FLVL * A.BLOCKSIZE then
    let r := forLoop 0 NB_BLOCK_FLVL (UNPACK_AND_ENCODE A)
      { arr := s.a, inp := s.inp, inlen := s.inlen }
    let acc_d := setArr s.acc_d (NB_BLOCK_FLVL - 1)
      (FIELD_MUL_PC_NO_CARRY s.acc (k (NB_BLOCK_FLVL - 1)))
    let acc_d := FIELD_MUL_NO_CARRY_ACC_A (NB_BLOCK_FLVL - 1) (NB_BLOCK_FLVL - 2) k r.arr acc_d
    let acc_d := FIELD_ADD_DBL_CHAIN NB_BLOCK_FLVL acc_d
    let acc_d := setArr acc_d 0 (field_add_mix (acc_d 0) (r.arr (NB_BLOCK_FLVL - 1)))
    classical_2level_NB_UPK_Delay_a_loop A NB_BLOCK_FLVL hNB k
      { acc := carry_round (acc_d 0), acc_d := acc_d, a := r.arr, inp := r.inp,
        inlen := r.inlen }
  else s
termination_by s.inlen
decreasing_by
  have hB := A.BLOCKSIZE_pos
  have hdec : ∀ (n lo : Nat) (r : ReadState F),
      (forLoop lo (lo + n) (UNPACK_AND_ENCODE A) r).inlen = r.inlen - n * A.BLOCKSIZE := by
    intro n
    induction n with
    | zero => intro lo r; simp [forLoop]
    | succ n ih =>
      intro lo r
      have e := ih (lo + 1) (UNPACK_AND_ENCODE A lo r)
      have e1 : lo + 1 + n = lo + (n + 1) := by omega
      rw [e1] at e
      have e2 : lo + (n + 1) - lo = (lo + (n + 1) - (lo + 1)) + 1 := by omega
      unfold forLoop at e ⊢
      rw [e2, List.range'_succ, List.foldl_cons, e]
      simp only [UNPACK_AND_ENCODE, Nat.succ_mul]
      omega
  have h := hdec NB_BLOCK_FLVL 0 { arr := s.a, inp := s.inp, inlen := s.inlen }
  simp only [Nat.zero_add] at h
  rw [h]
  have := Nat.mul_pos hNB hB
  omega

/-- The expansion of `IF_MORE_THAN_N_REMAINING_BLOCKS(z, i, data)`: the accumulator `acc`
after the last `NB_BLOCK_FLVL - i` blocks are absorbed. -/
def classical_2level_NB_UPK_Delay_a_last (A : FieldArith F) (NB_BLOCK_FLVL : Nat) (k : Arr F)
    (s : TwoLevelState F) (i : Nat) : F :=
  let r := forLoop 0 (NB_BLOCK_FLVL - i - 1) (UNPACK_AND_ENCODE A)
    { arr := s.a, inp := s.inp, inlen := s.inlen }
  let a := setArr r.arr (NB_BLOCK_FLVL - i - 1)
    (A.unpack_and_encode_last_field_elem r.inp r.inlen)
  let acc_d := setArr s.acc_d (NB_BLOCK_FLVL - i - 1)
    (FIELD_MUL_PC_NO_CARRY s.acc (k (NB_BLOCK_FLVL - i - 1)))
  let acc_d := FIELD_MUL_NO_CARRY_ACC_A (NB_BLOCK_FLVL - i - 1) (NB_BLOCK_FLVL - i - 2) k a acc_d
  let acc_d := FIELD_ADD_DBL_CHAIN (NB_BLOCK_FLVL - i) acc_d
  let acc_d := setArr acc_d 0 (field_add_mix (acc_d 0) (a (NB_BLOCK_FLVL - i - 1)))
  carry_round (acc_d 0)

/-- The accumulator `acc` of `classical_2level_NB_UPK_Delay_a` that is packed, for
`inlen ≠ 0`, with the value of the macro `NB_BLOCK_FLVL` as a parameter (`1` when
`OUTER_PARAM0` is not defined).  The variable `acc` and the arrays `acc_d`, `a` and `k` are
declared without an initialiser in the source: their contents at that point are the
parameters `acc0`, `acc_d0`, `a0` and `k0`, which the function reads wherever the source
reads an element it has not written (with `NB_BLOCK_FLVL = 1` and more than one block,
`field_add_mix(acc_d, acc_d, a)` reads `acc_d[0]` as declared). -/
def classical_2level_NB_UPK_Delay_a_acc (A : FieldArith F) (NB_BLOCK_FLVL : Nat)
    (hNB : 0 < NB_BLOCK_FLVL) (acc0 : F) (acc_d0 a0 k0 : Arr F) (inp : Ptr) (inlen : Nat)
    (key : Ptr) : F :=
  let transkey := transform_key A.BUFFSIZE key A.KEYSIZE
  let k : Arr F := setArr k0 0 (UNPACK_PC_FIELD_ELEM A transkey)
  if inlen ≤ A.BLOCKSIZE then
    -- transform msg block from bytes to field elements (packed)
    A.unpack_and_encode_last_field_elem inp inlen
  else if inlen ≤ NB_BLOCK_FLVL * A.BLOCKSIZE then
    let acc :=
      match (List.range' 2 (NB_BLOCK_FLVL + 1 - 2)).find?
          (fun i => decide (inlen ≤ i * A.BLOCKSIZE)) with
      | some i => classical_2level_NB_UPK_Delay_a_few A acc_d0 a0 k inp inlen i
      | none => acc0
    reduce (_carry_round acc)
  else
    -- process msg of more than nbBlockFlvl Blocks: compute key powers
    let k := PRECOMPUTE_KEY_POWER (NB_BLOCK_FLVL - 1) k
    -- initialize accumulator
    let r := forLoop 0 NB_BLOCK_FLVL (UNPACK_AND_ENCODE A)
      { arr := a0, inp := inp, inlen := inlen }
    let acc_d := FIELD_MUL_NO_CARRY_ACC_A (NB_BLOCK_FLVL - 1) (NB_BLOCK_FLVL - 2) k r.arr
      acc_d0
    let acc_d := FIELD_ADD_DBL_CHAIN (NB_BLOCK_FLVL - 1) acc_d
    let acc_d := setArr acc_d 0 (field_add_mix (acc_d 0) (r.arr (NB_BLOCK_FLVL - 1)))
    let s := classical_2level_NB_UPK_Delay_a_loop A NB_BLOCK_FLVL hNB k
      { acc := carry_round (acc_d 0), acc_d := acc_d, a := r.arr, inp := r.inp,
        inlen := r.inlen }
    -- process remaining msg of length less or equal to nbBlockFlvl Blocks
    let acc :=
      match (List.range' 0 NB_BLOCK_FLVL).find?
          (fun i => decide (s.inlen > (NB_BLOCK_FLVL - i - 1) * A.BLOCKSIZE)) with
      | some i => classical_2level_NB_UPK_Delay_a_last A NB_BLOCK_FLVL k s i
      | none => s.acc
    reduce (_carry_round acc)

/-- The function `classical_2level_NB_UPK_Delay_a(out, in, inlen, key)`: the bytes written
to `out`, for the contents `acc0`, `acc_d0`, `a0`, `k0` of the variables that the source
declares without an initialiser. -/
def classical_2level_NB_UPK_Delay_a (A : FieldArith F) (NB_BLOCK_FLVL : Nat)
    (hNB : 0 < NB_BLOCK_FLVL) (acc0 : F) (acc_d0 a0 k0 : Arr F) (inp : Ptr) (inlen : Nat)
    (key : Ptr) : List Byte :=
  if inlen = 0 then memset0 A.OUTPUTSIZE
  else pack_and_transform A
    (classical_2level_NB_UPK_Delay_a_acc A NB_BLOCK_FLVL hNB acc0 acc_d0 a0 k0 inp inlen key)

/-! ## `NMH_NoDelay` -/

/-- The loop `while (inlen >= 2 * BLOCKSIZE + blkctr)` of `NMH_NoDelay`; returns the state
`(blkctr, acc)` at loop exit. -/
def NMH_NoDelay_loop (A : FieldArith F) (inp : Ptr) (inlen : Nat) (keystream : Ptr)
    (blkctr : Nat) (acc : F) : Nat × F :=
  if inlen ≥ 2 * A.BLOCKSIZE + blkctr then
    let buff0 := transform_msg A.BUFFSIZE (inp.add blkctr) A.BLOCKSIZE
    let a0 := A.unpack_field_elem (ofBuf buff0)
    let transkey0 := transform_msg A.BUFFSIZE (keystream.add blkctr) A.BLOCKSIZE
    let k0 := A.unpack_field_elem (ofBuf transkey0)
    let blkctr := blkctr + A.BLOCKSIZE
    let buff1 := transform_msg A.BUFFSIZE (inp.add blkctr) A.BLOCKSIZE
    let a1 := A.unpack_field_elem (ofBuf buff1)
    let transkey1 := transform_msg A.BUFFSIZE (keystream.add blkctr) A.BLOCKSIZE
    let k1 := A.unpack_field_elem (ofBuf transkey1)
    let blkctr := blkctr + A.BLOCKSIZE
    let a0 := field_add a0 k0
    let a1 := field_add a1 k1
    let a0 := field_mul a0 a1
    let acc := field_add acc a0
    NMH_NoDelay_loop A inp inlen keystream blkctr acc
  else (blkctr, acc)
termination_by inlen - blkctr
decreasing_by have := A.BLOCKSIZE_pos; omega

/-- The statement `inlen -= blkctr * BLOCKSIZE;` of `NMH_NoDelay`, in `unsigned long long`
arithmetic: the new value of `inlen`. -/
def NMH_NoDelay_inlen (A : FieldArith F) (inlen blkctr : Nat) : Nat :=
  (inlen % 2 ^ 64 + 2 ^ 64 - (blkctr * A.BLOCKSIZE) % 2 ^ 64) % 2 ^ 64

/-- The accumulator of `NMH_NoDelay` that is packed, for `inlen ≠ 0`, given the bytes
`keystream` written by `get`. -/
def NMH_NoDelay_acc (A : FieldArith F) (inp : Ptr) (inlen : Nat) (keystream : Ptr) : F :=
  -- Process blocks by 2
  let s := NMH_NoDelay_loop A inp inlen keystream 0 0
  let blkctr := s.1
  let acc := s.2
  if blkctr + A.BLOCKSIZE < inlen then
    -- Process last two blocks
    let buff0 := transform_msg A.BUFFSIZE (inp.add blkctr) A.BLOCKSIZE
    let a0 := A.unpack_field_elem (ofBuf buff0)
    let transkey0 := transform_msg A.BUFFSIZE (keystream.add blkctr) A.BLOCKSIZE
    let k0 := A.unpack_field_elem (ofBuf transkey0)
    let blkctr := blkctr + A.BLOCKSIZE
    let inlen := NMH_NoDelay_inlen A inlen blkctr
    let buff1 := transform_msg A.BUFFSIZE (inp.add blkctr) inlen
    let a1 := A.unpack_field_elem (ofBuf buff1)
    let transkey1 := transform_msg A.BUFFSIZE (keystream.add blkctr) A.BLOCKSIZE
    let k1 := A.unpack_field_elem (ofBuf transkey1)
    let a0 := field_add a0 k0
    let a1 := field_add a1 k1
    let a0 := field_mul a0 a1
    field_add acc a0
  else if blkctr < inlen then
    -- Process possible last block
    let inlen := NMH_NoDelay_inlen A inlen blkctr
    let buff0 := transform_msg A.BUFFSIZE inp inlen
    let a0 := A.unpack_field_elem (ofBuf buff0)
    field_add acc a0
  else acc

/-- The function `NMH_NoDelay(out, in, inlen, key)`, run from the generator state `st`: the
bytes written to `out` and the generator state afterwards. -/
def NMH_NoDelay (A : FieldArith F) (cipher : StreamCipher) (st : key_expansion_state_t)
    (inp : Ptr) (inlen : Nat) (key : Ptr) : List Byte × key_expansion_state_t :=
  if inlen = 0 then (memset0 A.OUTPUTSIZE, st)
  else
    let st := init cipher st key
    let g := get cipher st (inlen + A.BLOCKSIZE)
    (pack_and_transform A (NMH_NoDelay_acc A inp inlen (ofBuf g.1)), g.2)

/-! ## `brw_2B_Delay` with the arrays `k` and `T` checked -/

/-- A C array of `len` elements, each written (`some`) or not yet written (`none`). -/
structure CArr (α : Type) where
  /-- The number of elements. -/
  len : Nat
  /-- The element at each index, once written. -/
  get : Nat → Option α

/-- The declaration of an array of `len` elements that are not initialised. -/
def CArr.new {α : Type} (len : Nat) : CArr α := ⟨len, fun _ => none⟩

/-- A read of `arr[i]`: defined when `i` is within bounds and the element was written. -/
def CArr.read {α : Type} (arr : CArr α) (i : Nat) : Option α :=
  if i < arr.len then arr.get i else none

/-- The assignment `arr[i] = v`: defined when `i` is within bounds. -/
def CArr.write {α : Type} (arr : CArr α) (i : Nat) (v : α) : Option (CArr α) :=
  if i < arr.len then some ⟨arr.len, fun j => if j = i then some v else arr.get j⟩ else none

/-- The unchecked array `p` holds the element of the checked array `c` at every index where
`c` can be read. -/
def CArr.agrees {α : Type} (c : CArr α) (p : Arr α) : Prop :=
  ∀ i v, c.read i = some v → p i = v

/-- The loop `for (j = lo; j < hi; ++j) body` for a body that can be undefined. -/
def forLoopM {σ : Type} (lo hi : Nat) (body : Nat → σ → Option σ) (s : σ) : Option σ :=
  (List.range' lo (hi - lo)).foldlM (fun s j => body j s) s

/-- The statements of `brw_2B_Delay_fold` with every access to `k` and `T` checked: the
array `a` and the array `T` afterwards. -/
def brw_2B_Delay_fold_checked (A : FieldArith F) (k : CArr F) (blkctr : Nat) (a : Arr F)
    (T : CArr F) : Option (Arr F × CArr F) := do
  let k0 ← k.read 0
  let a := setArr a 0 (field_add (a 0) k0)
  let k1 ← k.read 1
  let a := setArr a 1 (field_add (a 1) k1)
  let a := setArr a 0 (field_mul (a 0) (a 1))
  let a := setArr a 0 (field_add (a 0) (a 2))
  let sp := __builtin_ctz blkctr - __builtin_ctz A.BLOCKSIZE
  let a ← forLoopM 0 (sp - 2)
    (fun i a => do
      let t ← T.read i
      pure (setArr a 0 (field_add (a 0) t))) a
  let ksp ← k.read sp
  let a := setArr a 3 (field_add (a 3) ksp)
  if 2 ≤ sp then do
    let T ← T.write (sp - 2) (field_mul (a 0) (a 3))
    pure (a, T)
  else none

/-- The loop `while (inlen > blkctr + 4 * BLOCKSIZE)` of `brw_2B_Delay` with every access to
`k` and `T` checked; the state is `(blkctr, a, T)`. -/
def brw_2B_Delay_loop_checked (A : FieldArith F) (k : CArr F) (inp : Ptr) (inlen : Nat)
    (blkctr : Nat) (a : Arr F) (T : CArr F) : Option (Nat × Arr F × CArr F) :=
  if inlen > blkctr + 4 * A.BLOCKSIZE then
    -- unpack 4 Blocks
    let a := setArr a 0 (A.unpack_and_encode_field_elem (inp.add blkctr))
    let blkctr1 := blkctr + A.BLOCKSIZE
    let a := setArr a 1 (A.unpack_and_encode_field_elem (inp.add blkctr1))
    let blkctr2 := blkctr1 + A.BLOCKSIZE
    let a := setArr a 2 (A.unpack_and_encode_field_elem (inp.add blkctr2))
    let blkctr3 := blkctr2 + A.BLOCKSIZE
    let a := setArr a 3 (A.unpack_and_encode_field_elem (inp.add blkctr3))
    let blkctr4 := blkctr3 + A.BLOCKSIZE
    match brw_2B_Delay_fold_checked A k blkctr4 a T with
    | none => none
    | some r => brw_2B_Delay_loop_checked A k inp inlen blkctr4 r.1 r.2
  else some (blkctr, a, T)
termination_by inlen - blkctr
decreasing_by
  have := A.BLOCKSIZE_pos
  omega

/-- The array `k[lg + 1]` of `brw_2B_Delay` after the key is unpacked into `k[0]` and, for
`noOfBlocks > 2`, the loop `for (i = 0; i < lg; ++i) field_sqr(k + i + 1, k + i)`. -/
def brw_2B_Delay_keys_checked (A : FieldArith F) (key : Ptr) (noOfBlocks lg : Nat) :
    Option (CArr F) := do
  let k : CArr F := CArr.new (lg + 1)
  let transkey := transform_key A.BUFFSIZE key A.KEYSIZE
  let k ← k.write 0 (A.unpack_field_elem (ofBuf transkey))
  if noOfBlocks > 2 then
    forLoopM 0 lg
      (fun i k => do
        let ki ← k.read i
        k.write (i + 1) (field_sqr ki)) k
  else pure k

/-- The statement `switch (noOfBlocks % 4)` of `brw_2B_Delay` on the last one to four
blocks, with every access to `k` and `T` checked: the arrays `a` and `T` afterwards. -/
def brw_2B_Delay_switch_checked (A : FieldArith F) (k : CArr F) (inp : Ptr)
    (inlen noOfBlocks blkctr : Nat) (a : Arr F) (T : CArr F) : Option (Arr F × CArr F) :=
  let last := (inlen - 1) % A.BLOCKSIZE + 1
  match noOfBlocks % 4 with
  | 0 => do
    let a := setArr a 0 (A.unpack_and_encode_field_elem (inp.add blkctr))
    let blkctr := blkctr + A.BLOCKSIZE
    let a := setArr a 1 (A.unpack_and_encode_field_elem (inp.add blkctr))
    let blkctr := blkctr + A.BLOCKSIZE
    let a := setArr a 2 (A.unpack_and_encode_field_elem (inp.add blkctr))
    let blkctr := blkctr + A.BLOCKSIZE
    let a := setArr a 3 (A.unpack_and_encode_last_field_elem (inp.add blkctr) last)
    let blkctr := blkctr + A.BLOCKSIZE
    let r ← brw_2B_Delay_fold_checked A k blkctr a T
    pure (setArr r.1 0 0, r.2)
  | 1 =>
    pure (setArr a 0 (A.unpack_and_encode_last_field_elem (inp.add blkctr) last), T)
  | 2 => do
    let a := setArr a 0 (A.unpack_and_encode_field_elem (inp.add blkctr))
    let blkctr := blkctr + A.BLOCKSIZE
    let a := setArr a 1 (A.unpack_and_encode_last_field_elem (inp.add blkctr) last)
    let k0 ← k.read 0
    let a := setArr a 0 (field_mul (a 0) k0)
    let a := setArr a 0 (field_add (a 0) (a 1))
    pure (a, T)
  | _ => do
    let a := setArr a 0 (A.unpack_and_encode_field_elem (inp.add blkctr))
    let blkctr := blkctr + A.BLOCKSIZE
    let a := setArr a 1 (A.unpack_and_encode_field_elem (inp.add blkctr))
    let blkctr := blkctr + A.BLOCKSIZE
    let a := setArr a 2 (A.unpack_and_encode_last_field_elem (inp.add blkctr) last)
    let k0 ← k.read 0
    let a := setArr a 0 (field_add (a 0) k0)
    let k1 ← k.read 1
    let a := setArr a 1 (field_add (a 1) k1)
    let a := setArr a 0 (field_mul (a 0) (a 1))
    let a := setArr a 0 (field_add (a 0) (a 2))
    pure (a, T)

/-- The statements `noOfBlocks >>= 2; for (i = 0; i + 1 < lg; ++i, noOfBlocks >>= 1)` of
`brw_2B_Delay`, adding `T[i]` to `a[0]` when the low bit of `noOfBlocks` is set, with every
access to `T` checked: the element `a[0]` afterwards. -/
def brw_2B_Delay_sum_checked (T : CArr F) (lg noOfBlocks : Nat) (a0 : F) : Option F := do
  let noOfBlocks := noOfBlocks / 4
  let f ← forLoopM 0 (lg - 1)
    (fun i (f : F × Nat) =>
      if f.2 % 2 = 1 then do
        let t ← T.read i
        pure (field_add f.1 t, f.2 / 2)
      else pure (f.1, f.2 / 2))
    (a0, noOfBlocks)
  pure f.1

/-- The accumulator `a[0]` of `brw_2B_Delay` that is packed, for `inlen ≠ 0`, with every
access to the variable-length arrays `k[lg + 1]` and `T[lg]` checked: the result is defined
when every index is within bounds and every element read was written before.  The array
`a[4]` is not checked: `a0` is its content where it is declared. -/
def brw_2B_Delay_acc_checked (A : FieldArith F) (a0 : Arr F) (inp : Ptr) (inlen : Nat)
    (key : Ptr) : Option F := do
  let noOfBlocks := inlen / A.BLOCKSIZE + (if inlen % A.BLOCKSIZE ≠ 0 then 1 else 0)
  let lg := LOG2 noOfBlocks
  let T : CArr F := CArr.new lg
  let k ← brw_2B_Delay_keys_checked A key noOfBlocks lg
  let s ← brw_2B_Delay_loop_checked A k inp inlen 0 a0 T
  let r ← brw_2B_Delay_switch_checked A k inp inlen noOfBlocks s.1 s.2.1 s.2.2
  let f ← brw_2B_Delay_sum_checked r.2 lg noOfBlocks (r.1 0)
  pure (reduce (_carry_round f))

/-- The function `brw_2B_Delay(out, in, inlen, key)` with every access to `k` and `T`
checked: the bytes written to `out`, when defined. -/
def brw_2B_Delay_checked (A : FieldArith F) (a0 : Arr F) (inp : Ptr) (inlen : Nat)
    (key : Ptr) : Option (List Byte) :=
  if inlen = 0 then some (memset0 A.OUTPUTSIZE)
  else (brw_2B_Delay_acc_checked A a0 inp inlen key).map (pack_and_transform A)

/-! ## Reference evaluation, in the words of the specification -/

/-- Horner steps `h ← h * k + m` over the blocks `ms`, started from `h`. -/
def hornerFrom (k : F) (h : F) (ms : List F) : F :=
  ms.foldl (fun h m => h * k + m) h

/-- Sequential Horner evaluation: `h_1 = m_1`, `h_i = h_(i-1) * k + m_i`; the value is `h_n`
(and `0` for no block). -/
def hornerSeq (k : F) : List F → F
  | [] => 0
  | m :: ms => hornerFrom k m ms

/-- The polynomial `Σ_(i=1..n) m_i * k^(n-i+e)` of the blocks `m_1, ..., m_n`. -/
def polySum (k : F) (e : Nat) (ms : List F) : F :=
  ((List.range ms.length).map (fun i => ms.getD i 0 * k ^ (ms.length - (i + 1) + e))).sum

/-- The evaluation point of a key: `transform_key` then `unpack_field_elem`. -/
def keyElem (A : FieldArith F) (key : Ptr) : F :=
  A.unpack_field_elem (ofBuf (transform_key A.BUFFSIZE key A.KEYSIZE))

/-- The value carried by the eight accumulators of `classical_8BranchHorner_NoDelay` between
two rounds: `Σ_j acc[j] * k^(7-j)`. -/
def branchValue (k0 : F) (acc : Arr F) : F :=
  acc 0 * k0 ^ 7 + acc 1 * k0 ^ 6 + acc 2 * k0 ^ 5 + acc 3 * k0 ^ 4 + acc 4 * k0 ^ 3 +
    acc 5 * k0 ^ 2 + acc 6 * k0 + acc 7

/-- The Bernstein-Rabin-Winograd polynomial of the blocks `m_(x+1), ..., m_(x+n)` (the
sequence `m` is indexed from 0, so these are `m x, ..., m (x + n - 1)`) with key powers
`k, k^2, k^4, ...`: `BRW() = 0`, `BRW(m1) = m1`, `BRW(m1, m2) = m1 * k + m2`,
`BRW(m1, m2, m3) = (m1 + k) * (m2 + k^2) + m3`, and for `n ≥ 4` blocks, with `t` the largest
power of two such that `t ≤ n`,
`BRW(m1..mn) = BRW(m1..m(t-1)) * (m_t + k^t) + BRW(m(t+1)..mn)`. -/
def BRWat (k : F) (m : Nat → F) (x n : Nat) : F :=
  if h0 : n = 0 then 0
  else if n = 1 then m x
  else if n = 2 then m x * k + m (x + 1)
  else if n = 3 then (m x + k) * (m (x + 1) + k ^ 2) + m (x + 2)
  else
    BRWat k m x (2 ^ Nat.log 2 n - 1) * (m (x + 2 ^ Nat.log 2 n - 1) + k ^ 2 ^ Nat.log 2 n) +
      BRWat k m (x + 2 ^ Nat.log 2 n) (n - 2 ^ Nat.log 2 n)
termination_by n
decreasing_by
  · have h1 : 2 ^ Nat.log 2 n ≤ n := Nat.pow_log_le_self 2 h0
    have h2 : 0 < 2 ^ Nat.log 2 n := Nat.two_pow_pos _
    omega
  · have h2 : 0 < 2 ^ Nat.log 2 n := Nat.two_pow_pos _
    omega

/-- The Bernstein-Rabin-Winograd polynomial `BRW(m_1, ..., m_n)` of a list of blocks. -/
def BRW (k : F) (ms : List F) : F :=
  BRWat k (fun i => ms.getD i 0) 0 ms.length

/-! ## Invariants of `brw_2B_Delay` -/

/-- The content of the array `T[lg]` of `brw_2B_Delay` after `g` groups of four blocks
`m 0, ..., m (4 * g - 1)`: `T[i]` is written once `2^i` groups are done, and holds the
polynomial of the last group of `2^(i+2)` blocks that ends at an odd multiple of
`2^(i+2)`. -/
def brwStack (k0 : F) (m : Nat → F) (lg g : Nat) (T : CArr F) : Prop :=
  T.len = lg ∧ (∀ i, g < 2 ^ i → T.get i = none) ∧
    ∀ i c, (2 * c + 1) * 2 ^ i ≤ g → g < (2 * c + 3) * 2 ^ i →
      T.get i = some (BRWat k0 m (c * 2 ^ (i + 3)) (2 ^ (i + 2)))

/-- The content of the array `k[lg + 1]` of `brw_2B_Delay`: `k[0]` is the key, and, when
the key powers are computed (`all`), `k[i] = k[0]^(2^i)` for every `i ≤ lg`. -/
def brwKeys (k0 : F) (lg : Nat) (all : Prop) (k : CArr F) : Prop :=
  k.len = lg + 1 ∧ k.get 0 = some k0 ∧ (all → ∀ i, i ≤ lg → k.get i = some (k0 ^ 2 ^ i))

end Exact

/-! # Lemmas and theorems -/

section BlockLemmas

variable {F : Type}

theorem Ptr.add_add (p : Ptr) (a b : Nat) : (p.add a).add b = p.add (a + b) := by
  funext i
  simp [Ptr.add, Nat.add_assoc]

theorem Ptr.add_zero (p : Ptr) : p.add 0 = p := by
  funext i
  simp [Ptr.add]

theorem nbBlocks_zero (A : FieldArith F) : nbBlocks A 0 = 0 := by
  have hB := A.BLOCKSIZE_pos
  unfold nbBlocks
  exact Nat.div_eq_of_lt (by omega)

theorem nbBlocks_small (A : FieldArith F) {inlen : Nat} (h0 : 0 < inlen)
    (h : inlen ≤ A.BLOCKSIZE) : nbBlocks A inlen = 1 := by
  have hB := A.BLOCKSIZE_pos
  unfold nbBlocks
  apply Nat.div_eq_of_lt_le <;> omega

theorem nbBlocks_step (A : FieldArith F) {inlen : Nat} (h : A.BLOCKSIZE < inlen) :
    nbBlocks A inlen = nbBlocks A (inlen - A.BLOCKSIZE) + 1 := by
  have hB := A.BLOCKSIZE_pos
  unfold nbBlocks
  have e : inlen + A.BLOCKSIZE - 1 = (inlen - A.BLOCKSIZE + A.BLOCKSIZE - 1) + A.BLOCKSIZE := by
    omega
  rw [e, Nat.add_div_right _ hB]

theorem nbBlocks_pos (A : FieldArith F) {inlen : Nat} (h0 : 0 < inlen) :
    0 < nbBlocks A inlen := by
  have hB := A.BLOCKSIZE_pos
  unfold nbBlocks
  exact Nat.div_pos (by omega) hB

theorem encodedBlocks_zero (A : FieldArith F) (inp : Ptr) : encodedBlocks A inp 0 = [] := by
  simp [encodedBlocks, nbBlocks_zero]

theorem encodedBlocks_small (A : FieldArith F) (inp : Ptr) {inlen : Nat} (h0 : 0 < inlen)
    (h : inlen ≤ A.BLOCKSIZE) :
    encodedBlocks A inp inlen = [A.unpack_and_encode_last_field_elem inp inlen] := by
  simp [encodedBlocks, nbBlocks_small A h0 h, encodedBlock, Ptr.add_zero, List.range_succ]

theorem encodedBlocks_step (A : FieldArith F) (inp : Ptr) {inlen : Nat}
    (h : A.BLOCKSIZE < inlen) :
    encodedBlocks A inp inlen =
      A.unpack_and_encode_field_elem inp ::
        encodedBlocks A (inp.add A.BLOCKSIZE) (inlen - A.BLOCKSIZE) := by
  have hB := A.BLOCKSIZE_pos
  have hpos : 0 < nbBlocks A (inlen - A.BLOCKSIZE) := nbBlocks_pos A (by omega)
  unfold encodedBlocks
  rw [nbBlocks_step A h, List.range_succ_eq_map, List.map_cons, List.map_map]
  congr 1
  · simp [encodedBlock, nbBlocks_step A h, hpos, Ptr.add_zero]
  · apply List.map_congr_left
    intro i _
    simp only [Function.comp, encodedBlock, nbBlocks_step A h, Ptr.add_add]
    have e1 : (i + 1) * A.BLOCKSIZE = A.BLOCKSIZE + i * A.BLOCKSIZE := by
      rw [Nat.succ_mul, Nat.add_comm]
    have e2 : inlen - (A.BLOCKSIZE + i * A.BLOCKSIZE) =
        inlen - A.BLOCKSIZE - i * A.BLOCKSIZE := by omega
    rw [e1, e2]
    by_cases hi : i + 1 < nbBlocks A (inlen - A.BLOCKSIZE)
    · simp [hi]
    · simp [hi]

theorem encodedBlocks_eight (A : FieldArith F) (inp : Ptr) (inlen : Nat)
    (h8 : 8 * A.BLOCKSIZE < inlen) :
    encodedBlocks A inp inlen =
      A.unpack_and_encode_field_elem inp ::
      A.unpack_and_encode_field_elem (inp.add A.BLOCKSIZE) ::
      A.unpack_and_encode_field_elem ((inp.add A.BLOCKSIZE).add A.BLOCKSIZE) ::
      A.unpack_and_encode_field_elem (((inp.add A.BLOCKSIZE).add A.BLOCKSIZE).add A.BLOCKSIZE) ::
      A.unpack_and_encode_field_elem ((((inp.add A.BLOCKSIZE).add A.BLOCKSIZE).add A.BLOCKSIZE).add A.BLOCKSIZE) ::
      A.unpack_and_encode_field_elem (((((inp.add A.BLOCKSIZE).add A.BLOCKSIZE).add A.BLOCKSIZE).add A.BLOCKSIZE).add A.BLOCKSIZE) ::
      A.unpack_and_encode_field_elem ((((((inp.add A.BLOCKSIZE).add A.BLOCKSIZE).add A.BLOCKSIZE).add A.BLOCKSIZE).add A.BLOCKSIZE).add A.BLOCKSIZE) ::
      A.unpack_and_encode_field_elem (((((((inp.add A.BLOCKSIZE).add A.BLOCKSIZE).add A.BLOCKSIZE).add A.BLOCKSIZE).add A.BLOCKSIZE).add A.BLOCKSIZE).add A.BLOCKSIZE) ::
      encodedBlocks A ((((((((inp.add A.BLOCKSIZE).add A.BLOCKSIZE).add A.BLOCKSIZE).add A.BLOCKSIZE).add A.BLOCKSIZE).add A.BLOCKSIZE).add A.BLOCKSIZE).add A.BLOCKSIZE) (inlen - nbBranch * A.BLOCKSIZE) := by
  have hB := A.BLOCKSIZE_pos
  have e : inlen - A.BLOCKSIZE - A.BLOCKSIZE - A.BLOCKSIZE - A.BLOCKSIZE - A.BLOCKSIZE -
      A.BLOCKSIZE - A.BLOCKSIZE - A.BLOCKSIZE = inlen - nbBranch * A.BLOCKSIZE := by
    simp only [nbBranch]; omega
  rw [encodedBlocks_step A inp (by omega),
        encodedBlocks_step A (inp.add A.BLOCKSIZE) (by omega),
        encodedBlocks_step A ((inp.add A.BLOCKSIZE).add A.BLOCKSIZE) (by omega),
        encodedBlocks_step A (((inp.add A.BLOCKSIZE).add A.BLOCKSIZE).add A.BLOCKSIZE) (by omega),
        encodedBlocks_step A ((((inp.add A.BLOCKSIZE).add A.BLOCKSIZE).add A.BLOCKSIZE).add A.BLOCKSIZE) (by omega),
        encodedBlocks_step A (((((inp.add A.BLOCKSIZE).add A.BLOCKSIZE).add A.BLOCKSIZE).add A.BLOCKSIZE).add A.BLOCKSIZE) (by omega),
        encodedBlocks_step A ((((((inp.add A.BLOCKSIZE).add A.BLOCKSIZE).add A.BLOCKSIZE).add A.BLOCKSIZE).add A.BLOCKSIZE).add A.BLOCKSIZE) (by omega),
        encodedBlocks_step A (((((((inp.add A.BLOCKSIZE).add A.BLOCKSIZE).add A.BLOCKSIZE).add A.BLOCKSIZE).add A.BLOCKSIZE).add A.BLOCKSIZE).add A.BLOCKSIZE) (by omega), e]

theorem eightBranch_few_find (A : FieldArith F) (inlen : Nat) (h1 : A.BLOCKSIZE < inlen)
    (h2 : inlen ≤ nbBranch * A.BLOCKSIZE) :
    ∃ i, (List.range' 2 (nbBranch + 1 - 2)).find? (fun i => decide (inlen ≤ i * A.BLOCKSIZE))
        = some i ∧ 2 ≤ i ∧ i ≤ 8 ∧ i * A.BLOCKSIZE < inlen + A.BLOCKSIZE ∧
        inlen ≤ i * A.BLOCKSIZE := by
  have hB := A.BLOCKSIZE_pos
  simp only [nbBranch] at h2 ⊢
  by_cases c2 : inlen ≤ 2 * A.BLOCKSIZE
  · exact ⟨2, by simp [List.range', List.find?, c2], by omega, by omega, by omega, c2⟩
  by_cases c3 : inlen ≤ 3 * A.BLOCKSIZE
  · exact ⟨3, by simp [List.range', List.find?, c2, c3], by omega, by omega, by omega, c3⟩
  by_cases c4 : inlen ≤ 4 * A.BLOCKSIZE
  · exact ⟨4, by simp [List.range', List.find?, c2, c3, c4], by omega, by omega, by omega, c4⟩
  by_cases c5 : inlen ≤ 5 * A.BLOCKSIZE
  · exact ⟨5, by simp [List.range', List.find?, c2, c3, c4, c5], by omega, by omega, by omega,
      c5⟩
  by_cases c6 : inlen ≤ 6 * A.BLOCKSIZE
  · exact ⟨6, by simp [List.range', List.find?, c2, c3, c4, c5, c6], by omega, by omega,
      by omega, c6⟩
  by_cases c7 : inlen ≤ 7 * A.BLOCKSIZE
  · exact ⟨7, by simp [List.range', List.find?, c2, c3, c4, c5, c6, c7], by omega, by omega,
      by omega, c7⟩
  · exact ⟨8, by simp [List.range', List.find?, c2, c3, c4, c5, c6, c7, h2], by omega,
      by omega, by omega, h2⟩

theorem brw_noOfBlocks (A : FieldArith F) (inlen : Nat) :
    inlen / A.BLOCKSIZE + (if inlen % A.BLOCKSIZE ≠ 0 then 1 else 0) = nbBlocks A inlen := by
  have hB := A.BLOCKSIZE_pos
  unfold nbBlocks
  have h1 := Nat.div_add_mod inlen A.BLOCKSIZE
  have h2 := Nat.mod_lt inlen hB
  by_cases hz : inlen % A.BLOCKSIZE = 0
  · simp only [hz, ne_eq, not_true_eq_false, if_false, Nat.add_zero]
    symm
    apply Nat.div_eq_of_lt_le
    · rw [Nat.mul_comm]; omega
    · rw [Nat.succ_mul, Nat.mul_comm]; omega
  · simp only [hz, ne_eq, not_false_eq_true, if_true]
    symm
    apply Nat.div_eq_of_lt_le
    · rw [Nat.mul_comm, Nat.mul_add]; omega
    · rw [Nat.succ_mul, Nat.mul_comm, Nat.mul_add]; omega

theorem brw_last_size (A : FieldArith F) (inlen j : Nat) (h1 : j * A.BLOCKSIZE < inlen)
    (h2 : inlen ≤ (j + 1) * A.BLOCKSIZE) :
    (inlen - 1) % A.BLOCKSIZE + 1 = inlen - j * A.BLOCKSIZE := by
  have hB := A.BLOCKSIZE_pos
  have e : inlen - 1 = (inlen - 1 - j * A.BLOCKSIZE) + j * A.BLOCKSIZE := by omega
  rw [e, Nat.add_mul_mod_self_right, Nat.mod_eq_of_lt]
  · omega
  · rw [Nat.succ_mul] at h2; omega

end BlockLemmas

section ExactLemmas

variable {F : Type} [CommRing F]

theorem hornerFrom_nil (k h : F) : hornerFrom k h [] = h := rfl

theorem hornerFrom_cons (k h m : F) (ms : List F) :
    hornerFrom k h (m :: ms) = hornerFrom k (h * k + m) ms := rfl

theorem hornerSeq_eq_hornerFrom_zero (k : F) (ms : List F) :
    hornerSeq k ms = hornerFrom k 0 ms := by
  cases ms with
  | nil => rfl
  | cons m ms => simp [hornerSeq, hornerFrom_cons]

/-! ## The two sequential strategies compute the Horner value -/

theorem classical_Horner_PK_1B_Delay_b_loop_spec (A : FieldArith F) (k : F) :
    ∀ (inlen : Nat) (inp : Ptr) (h : F), 0 < inlen →
      0 < (classical_Horner_PK_1B_Delay_b_loop A k inp inlen (h * k)).2.1 ∧
      (classical_Horner_PK_1B_Delay_b_loop A k inp inlen (h * k)).2.2 +
        A.unpack_and_encode_last_field_elem
          (classical_Horner_PK_1B_Delay_b_loop A k inp inlen (h * k)).1
          (classical_Horner_PK_1B_Delay_b_loop A k inp inlen (h * k)).2.1 =
        hornerFrom k h (encodedBlocks A inp inlen) := by
  intro inlen
  induction inlen using Nat.strong_induction_on with
  | _ inlen ih =>
    intro inp h h0
    have hB := A.BLOCKSIZE_pos
    rw [classical_Horner_PK_1B_Delay_b_loop]
    by_cases hgt : inlen > A.BLOCKSIZE
    · simp only [hgt, if_true]
      have := ih (inlen - A.BLOCKSIZE) (by omega) (inp.add A.BLOCKSIZE)
        (h * k + A.unpack_and_encode_field_elem inp) (by omega)
      rw [encodedBlocks_step A inp hgt, hornerFrom_cons]
      simpa [field_add, field_mul_precomputed_no_carry, carry_round] using this
    · simp only [hgt, if_false]
      refine ⟨h0, ?_⟩
      rw [encodedBlocks_small A inp h0 (by omega)]
      simp [hornerFrom]

theorem classical_Horner_PK_1B_Delay_b_acc_eq (A : FieldArith F) (inp : Ptr) (inlen : Nat)
    (key : Ptr) (h0 : 0 < inlen) :
    classical_Horner_PK_1B_Delay_b_acc A inp inlen key =
      hornerSeq (keyElem A key) (encodedBlocks A inp inlen) := by
  have hs := classical_Horner_PK_1B_Delay_b_loop_spec A (keyElem A key) inlen inp 0 h0
  rw [zero_mul] at hs
  obtain ⟨hpos, hval⟩ := hs
  rw [hornerSeq_eq_hornerFrom_zero, ← hval]
  simp only [classical_Horner_PK_1B_Delay_b_acc, precompute_factor, keyElem, field_add,
    _carry_round, reduce]
  rw [if_pos (by simpa [keyElem] using Nat.pos_iff_ne_zero.mp hpos)]

theorem classical_2level_2B_UPK_Delay_a_loop_spec (A : FieldArith F) (k : F) :
    ∀ (inlen : Nat) (inp : Ptr) (h : F), 0 < inlen →
      0 < (classical_2level_2B_UPK_Delay_a_loop A k (k * k) inp inlen h).2.1 ∧
      (classical_2level_2B_UPK_Delay_a_loop A k (k * k) inp inlen h).2.1 ≤
        A.BLOCKSIZE + A.BLOCKSIZE ∧
      hornerFrom k (classical_2level_2B_UPK_Delay_a_loop A k (k * k) inp inlen h).2.2
        (encodedBlocks A (classical_2level_2B_UPK_Delay_a_loop A k (k * k) inp inlen h).1
          (classical_2level_2B_UPK_Delay_a_loop A k (k * k) inp inlen h).2.1) =
        hornerFrom k h (encodedBlocks A inp inlen) := by
  intro inlen
  induction inlen using Nat.strong_induction_on with
  | _ inlen ih =>
    intro inp h h0
    have hB := A.BLOCKSIZE_pos
    rw [classical_2level_2B_UPK_Delay_a_loop]
    by_cases hgt : inlen > A.BLOCKSIZE + A.BLOCKSIZE
    · simp only [hgt, if_true]
      have := ih (inlen - (A.BLOCKSIZE + A.BLOCKSIZE)) (by omega)
        ((inp.add A.BLOCKSIZE).add A.BLOCKSIZE)
        (h * (k * k) + A.unpack_and_encode_field_elem inp * k +
          A.unpack_and_encode_field_elem (inp.add A.BLOCKSIZE)) (by omega)
      rw [encodedBlocks_step A inp (by omega),
        encodedBlocks_step A (inp.add A.BLOCKSIZE) (by omega), hornerFrom_cons, hornerFrom_cons]
      have e : inlen - A.BLOCKSIZE - A.BLOCKSIZE = inlen - (A.BLOCKSIZE + A.BLOCKSIZE) := by
        omega
      have e2 : (h * k + A.unpack_and_encode_field_elem inp) * k +
          A.unpack_and_encode_field_elem (inp.add A.BLOCKSIZE) =
          h * (k * k) + A.unpack_and_encode_field_elem inp * k +
          A.unpack_and_encode_field_elem (inp.add A.BLOCKSIZE) := by ring
      rw [e, e2]
      simpa [FIELD_MUL_PC_NO_CARRY, field_add_dbl, field_add_mix, carry_round] using this
    · simp only [hgt, if_false]
      exact ⟨h0, by omega, trivial⟩

theorem classical_2level_2B_UPK_Delay_a_acc_eq (A : FieldArith F) (inp : Ptr) (inlen : Nat)
    (key : Ptr) (h0 : 0 < inlen) :
    classical_2level_2B_UPK_Delay_a_acc A inp inlen key =
      hornerSeq (keyElem A key) (encodedBlocks A inp inlen) := by
  have hB := A.BLOCKSIZE_pos
  unfold classical_2level_2B_UPK_Delay_a_acc
  simp only [UNPACK_PC_FIELD_ELEM, precompute_factor, field_mul]
  have hk : A.unpack_field_elem (ofBuf (transform_key A.BUFFSIZE key A.KEYSIZE)) =
      keyElem A key := rfl
  rw [hk]
  generalize keyElem A key = k
  by_cases h1 : inlen ≤ A.BLOCKSIZE
  · rw [if_pos h1, encodedBlocks_small A inp h0 h1]
    simp [hornerSeq, hornerFrom]
  · rw [if_neg h1]
    by_cases h2 : inlen ≤ A.BLOCKSIZE + A.BLOCKSIZE
    · rw [if_pos h2, encodedBlocks_step A inp (by omega),
        encodedBlocks_small A _ (by omega) (by omega)]
      simp [hornerSeq, hornerFrom, FIELD_MUL_PC_NO_CARRY, field_add_mix, carry_round, reduce]
    · rw [if_neg h2]
      have hs := classical_2level_2B_UPK_Delay_a_loop_spec A k
        (inlen - (A.BLOCKSIZE + A.BLOCKSIZE)) ((inp.add A.BLOCKSIZE).add A.BLOCKSIZE)
        (A.unpack_and_encode_field_elem inp * k +
          A.unpack_and_encode_field_elem (inp.add A.BLOCKSIZE)) (by omega)
      obtain ⟨hpos, hle, hval⟩ := hs
      have e : inlen - A.BLOCKSIZE - A.BLOCKSIZE = inlen - (A.BLOCKSIZE + A.BLOCKSIZE) := by
        omega
      rw [encodedBlocks_step A inp (by omega),
        encodedBlocks_step A (inp.add A.BLOCKSIZE) (by omega), e]
      simp only [hornerSeq, hornerFrom_cons, ← hval, FIELD_MUL_PC_NO_CARRY, field_add_mix,
        field_add_dbl, carry_round, reduce]
      generalize (classical_2level_2B_UPK_Delay_a_loop A k (k * k)
        ((inp.add A.BLOCKSIZE).add A.BLOCKSIZE) (inlen - (A.BLOCKSIZE + A.BLOCKSIZE))
        (A.unpack_and_encode_field_elem inp * k +
          A.unpack_and_encode_field_elem (inp.add A.BLOCKSIZE))) = s at hpos hle ⊢
      by_cases h3 : s.2.1 > A.BLOCKSIZE
      · rw [if_pos h3, encodedBlocks_step A s.1 h3,
          encodedBlocks_small A _ (by omega) (by omega)]
        simp only [hornerFrom_cons, hornerFrom_nil]
        ring
      · rw [if_neg h3, encodedBlocks_small A s.1 hpos (by omega)]
        simp only [hornerFrom_cons, hornerFrom_nil]

/-! ## The eight-branch strategy computes the Horner value -/

theorem eightBranch_few_spec (A : FieldArith F) (k0 : F) (inp : Ptr) (inlen i : Nat)
    (hi : 2 ≤ i) (hi8 : i ≤ 8) (h1 : i * A.BLOCKSIZE < inlen + A.BLOCKSIZE)
    (h2 : inlen ≤ i * A.BLOCKSIZE) :
    classical_8BranchHorner_NoDelay_few A k0 inp inlen i =
      hornerFrom k0 0 (encodedBlocks A inp inlen) := by
  have hB := A.BLOCKSIZE_pos
  interval_cases i <;>
  · simp (disch := omega) only [encodedBlocks_step, encodedBlocks_small]
    simp [classical_8BranchHorner_NoDelay_few, forLoop, List.range', setArr, UNPACK_AND_ENCODE,
      field_mul_reduce, field_add_reduce, hornerFrom]
    try ring

theorem eightBranch_loop_spec (A : FieldArith F) (k0 : F) (k : Arr F) (hk7 : k 7 = k0 ^ 8) :
    ∀ (inlen : Nat) (acc a : Arr F) (inp : Ptr), 0 < inlen →
      0 < (classical_8BranchHorner_NoDelay_loop A k acc a inp inlen).inlen ∧
      (classical_8BranchHorner_NoDelay_loop A k acc a inp inlen).inlen ≤
        nbBranch * A.BLOCKSIZE ∧
      hornerFrom k0
        (branchValue k0 (classical_8BranchHorner_NoDelay_loop A k acc a inp inlen).acc)
        (encodedBlocks A (classical_8BranchHorner_NoDelay_loop A k acc a inp inlen).inp
          (classical_8BranchHorner_NoDelay_loop A k acc a inp inlen).inlen) =
        hornerFrom k0 (branchValue k0 acc) (encodedBlocks A inp inlen) := by
  intro inlen
  induction inlen using Nat.strong_induction_on with
  | _ inlen ih =>
    intro acc a inp h0
    have hB := A.BLOCKSIZE_pos
    rw [classical_8BranchHorner_NoDelay_loop]
    by_cases hgt : inlen > nbBranch * A.BLOCKSIZE
    · simp only [hgt, if_true]
      have h8 : 8 * A.BLOCKSIZE < inlen := by simpa [nbBranch] using hgt
      rw [encodedBlocks_eight A inp inlen h8]
      obtain ⟨i1, i2, i3⟩ := ih (inlen - nbBranch * A.BLOCKSIZE)
        (by simp only [nbBranch]; omega)
        (forLoop 0 nbBranch
          (fun i acc =>
            let acc := setArr acc i (field_mul_reduce (acc i) (k (nbBranch - 1)))
            setArr acc i (field_add_reduce (acc i)
              ((forLoop 0 nbBranch (unpack_and_advance A)
                { arr := a, inp := inp, inlen := inlen }).arr i)))
          acc)
        (forLoop 0 nbBranch (unpack_and_advance A) { arr := a, inp := inp, inlen := inlen }).arr
        (forLoop 0 nbBranch (unpack_and_advance A) { arr := a, inp := inp, inlen := inlen }).inp
        (by simp only [nbBranch]; omega)
      refine ⟨i1, i2, ?_⟩
      rw [i3]
      simp only [forLoop, nbBranch, List.range', Nat.sub_zero, List.foldl, unpack_and_advance,
        setArr, field_mul_reduce, field_add_reduce, branchValue, hornerFrom_cons]
      simp [hk7]
      congr 1
      ring
    · simp only [hgt, if_false]
      exact ⟨h0, by omega, trivial⟩

set_option maxHeartbeats 1600000 in
theorem eightBranch_rest_spec (A : FieldArith F) (k0 : F) (k : Arr F)
    (hk : ∀ j, j < 8 → k j = k0 ^ (j + 1)) (acc a : Arr F) (inp : Ptr) (inlen : Nat)
    (h0 : 0 < inlen) (h8 : inlen ≤ nbBranch * A.BLOCKSIZE) :
    classical_8BranchHorner_NoDelay_rest A k
        { acc := acc, a := a, inp := inp, inlen := inlen } 0 =
      hornerFrom k0 (branchValue k0 acc) (encodedBlocks A inp inlen) := by
  have hB := A.BLOCKSIZE_pos
  have hk0 := hk 0 (by omega)
  have hk1 := hk 1 (by omega)
  have hk2 := hk 2 (by omega)
  have hk3 := hk 3 (by omega)
  have hk4 := hk 4 (by omega)
  have hk5 := hk 5 (by omega)
  have hk6 := hk 6 (by omega)
  have hk7 := hk 7 (by omega)
  simp only [nbBranch] at h8
  by_cases c7 : 7 * A.BLOCKSIZE < inlen
  ·
    simp only [classical_8BranchHorner_NoDelay_rest, nbBranch, List.range', List.find?,
      Nat.sub_zero, Nat.reduceSub, Nat.reduceAdd, Nat.zero_mul, c7, h0, gt_iff_lt, decide_True, decide_False]
    simp (disch := omega) only [encodedBlocks_step, encodedBlocks_small]
    simp [classical_8BranchHorner_NoDelay_last, forLoop, List.range', setArr,
      UNPACK_AND_ENCODE, field_mul_reduce, field_add_reduce, hornerFrom, branchValue, nbBranch,
      hk0, hk1, hk2, hk3, hk4, hk5, hk6, hk7]
    try ring
  by_cases c6 : 6 * A.BLOCKSIZE < inlen
  ·
    simp only [classical_8BranchHorner_NoDelay_rest, nbBranch, List.range', List.find?,
      Nat.sub_zero, Nat.reduceSub, Nat.reduceAdd, Nat.zero_mul, c7, c6, h0, gt_iff_lt, decide_True, decide_False]
    simp (disch := omega) only [encodedBlocks_step, encodedBlocks_small]
    simp [classical_8BranchHorner_NoDelay_last, forLoop, List.range', setArr,
      UNPACK_AND_ENCODE, field_mul_reduce, field_add_reduce, hornerFrom, branchValue, nbBranch,
      hk0, hk1, hk2, hk3, hk4, hk5, hk6, hk7]
    try ring
  by_cases c5 : 5 * A.BLOCKSIZE < inlen
  ·
    simp only [classical_8BranchHorner_NoDelay_rest, nbBranch, List.range', List.find?,
      Nat.sub_zero, Nat.reduceSub, Nat.reduceAdd, Nat.zero_mul, c7, c6, c5, h0, gt_iff_lt, decide_True, decide_False]
    simp (disch := omega) only [encodedBlocks_step, encodedBlocks_small]
    simp [classical_8BranchHorner_NoDelay_last, forLoop, List.range', setArr,
      UNPACK_AND_ENCODE, field_mul_reduce, field_add_reduce, hornerFrom, branchValue, nbBranch,
      hk0, hk1, hk2, hk3, hk4, hk5, hk6, hk7]
    try ring
  by_cases c4 : 4 * A.BLOCKSIZE < inlen
  ·
    simp only [classical_8BranchHorner_NoDelay_rest, nbBranch, List.range', List.find?,
      Nat.sub_zero, Nat.reduceSub, Nat.reduceAdd, Nat.zero_mul, c7, c6, c5, c4, h0, gt_iff_lt, decide_True, decide_False]
    simp (disch := omega) only [encodedBlocks_step, encodedBlocks_small]
    simp [classical_8BranchHorner_NoDelay_last, forLoop, List.range', setArr,
      UNPACK_AND_ENCODE, field_mul_reduce, field_add_reduce, hornerFrom, branchValue, nbBranch,
      hk0, hk1, hk2, hk3, hk4, hk5, hk6, hk7]
    try ring
  by_cases c3 : 3 * A.BLOCKSIZE < inlen
  ·
    simp only [classical_8BranchHorner_NoDelay_rest, nbBranch, List.range', List.find?,
      Nat.sub_zero, Nat.reduceSub, Nat.reduceAdd, Nat.zero_mul, c7, c6, c5, c4, c3, h0, gt_iff_lt, decide_True, decide_False]
    simp (disch := omega) only [encodedBlocks_step, encodedBlocks_small]
    simp [classical_8BranchHorner_NoDelay_last, forLoop, List.range', setArr,
      UNPACK_AND_ENCODE, field_mul_reduce, field_add_reduce, hornerFrom, branchValue, nbBranch,
      hk0, hk1, hk2, hk3, hk4, hk5, hk6, hk7]
    try ring
  by_cases c2 : 2 * A.BLOCKSIZE < inlen
  ·
    simp only [classical_8BranchHorner_NoDelay_rest, nbBranch, List.range', List.find?,
      Nat.sub_zero, Nat.reduceSub, Nat.reduceAdd, Nat.zero_mul, c7, c6, c5, c4, c3, c2, h0, gt_iff_lt, decide_True, decide_False]
    simp (disch := omega) only [encodedBlocks_step, encodedBlocks_small]
    simp [classical_8BranchHorner_NoDelay_last, forLoop, List.range', setArr,
      UNPACK_AND_ENCODE, field_mul_reduce, field_add_reduce, hornerFrom, branchValue, nbBranch,
      hk0, hk1, hk2, hk3, hk4, hk5, hk6, hk7]
    try ring
  by_cases c1 : 1 * A.BLOCKSIZE < inlen
  ·
    simp only [classical_8BranchHorner_NoDelay_rest, nbBranch, List.range', List.find?,
      Nat.sub_zero, Nat.reduceSub, Nat.reduceAdd, Nat.zero_mul, c7, c6, c5, c4, c3, c2, c1, h0, gt_iff_lt, decide_True, decide_False]
    simp (disch := omega) only [encodedBlocks_step, encodedBlocks_small]
    simp [classical_8BranchHorner_NoDelay_last, forLoop, List.range', setArr,
      UNPACK_AND_ENCODE, field_mul_reduce, field_add_reduce, hornerFrom, branchValue, nbBranch,
      hk0, hk1, hk2, hk3, hk4, hk5, hk6, hk7]
    try ring
  ·
    simp only [classical_8BranchHorner_NoDelay_rest, nbBranch, List.range', List.find?,
      Nat.sub_zero, Nat.reduceSub, Nat.reduceAdd, Nat.zero_mul, c7, c6, c5, c4, c3, c2, c1, h0, gt_iff_lt, decide_True, decide_False]
    simp (disch := omega) only [encodedBlocks_step, encodedBlocks_small]
    simp [classical_8BranchHorner_NoDelay_last, forLoop, List.range', setArr,
      UNPACK_AND_ENCODE, field_mul_reduce, field_add_reduce, hornerFrom, branchValue, nbBranch,
      hk0, hk1, hk2, hk3, hk4, hk5, hk6, hk7]
    try ring

theorem eightBranch_keyPowers (k0 : F) :
    ∀ j, j < 8 →
      forLoop 0 (nbBranch - 1)
        (fun i k => setArr k (i + 1) (field_mul_reduce (k i) (k 0)))
        (setArr (Arr.zero : Arr F) 0 k0) j = k0 ^ (j + 1) := by
  intro j hj
  interval_cases j <;>
  · simp [forLoop, List.range', setArr, field_mul_reduce, nbBranch]
    try ring

theorem eightBranch_tag_spec (A : FieldArith F) (inp : Ptr) (inlen : Nat) (key : Ptr) (h0 : 0 < inlen) :
    classical_8BranchHorner_NoDelay_tag A inp inlen key =
      A.pack_field_elem (hornerFrom (keyElem A key) 0 (encodedBlocks A inp inlen)) := by
  have hB := A.BLOCKSIZE_pos
  unfold classical_8BranchHorner_NoDelay_tag
  have hkey : A.unpack_field_elem (ofBuf (transform_key A.BUFFSIZE key A.KEYSIZE)) =
      keyElem A key := rfl
  simp only [hkey]
  generalize keyElem A key = k0
  by_cases c1 : inlen ≤ A.BLOCKSIZE
  · rw [if_pos c1, encodedBlocks_small A inp h0 c1]
    simp [hornerFrom]
  rw [if_neg c1]
  by_cases c8 : inlen ≤ nbBranch * A.BLOCKSIZE
  · rw [if_pos c8]
    obtain ⟨i, hfind, hi2, hi8, hlo, hhi⟩ := eightBranch_few_find A inlen (by omega) c8
    rw [hfind]
    simp only
    rw [eightBranch_few_spec A k0 inp inlen i hi2 hi8 hlo hhi]
  rw [if_neg c8]
  congr 1
  have h8 : 8 * A.BLOCKSIZE < inlen := by simp only [nbBranch] at c8; omega
  have hpos : 0 < inlen - nbBranch * A.BLOCKSIZE := by simp only [nbBranch]; omega
  have hk := eightBranch_keyPowers k0
  generalize forLoop 0 (nbBranch - 1)
      (fun i k => setArr k (i + 1) (field_mul_reduce (k i) (k 0)))
      (setArr (Arr.zero : Arr F) 0 k0) = k at hk
  obtain ⟨l1, l2, l3⟩ := eightBranch_loop_spec A k0 k (hk 7 (by omega)) (inlen - nbBranch * A.BLOCKSIZE)
    (forLoop 0 nbBranch (unpack_and_advance A)
      { arr := Arr.zero, inp := inp, inlen := inlen }).arr Arr.zero
    (forLoop 0 nbBranch (unpack_and_advance A)
      { arr := Arr.zero, inp := inp, inlen := inlen }).inp hpos
  rw [eightBranch_rest_spec A k0 k hk _ _ _ _ l1 l2, l3, encodedBlocks_eight A inp inlen h8]
  simp only [forLoop, nbBranch, List.range', Nat.sub_zero, List.foldl, unpack_and_advance,
    setArr, branchValue, hornerFrom_cons]
  simp
  congr 1
  ring

/-! ## Horner evaluation as a polynomial -/

theorem hornerFrom_append (k h : F) (ms ns : List F) :
    hornerFrom k h (ms ++ ns) = hornerFrom k (hornerFrom k h ms) ns := by
  simp [hornerFrom, List.foldl_append]

theorem polySum_snoc (k : F) (e : Nat) (ms : List F) (m : F) :
    polySum k e (ms ++ [m]) = polySum k (e + 1) ms + m * k ^ e := by
  unfold polySum
  rw [List.length_append, List.length_singleton, List.range_succ, List.map_append,
    List.sum_append]
  congr 1
  · congr 1
    apply List.map_congr_left
    intro i hi
    have hi' : i < ms.length := List.mem_range.mp hi
    have e1 : ms.length + 1 - (i + 1) + e = ms.length - (i + 1) + (e + 1) := by omega
    rw [e1, List.getD_append _ _ _ _ hi']
  · simp [List.getD_append_right]

theorem polySum_succ (k : F) (e : Nat) (ms : List F) :
    polySum k (e + 1) ms = polySum k e ms * k := by
  unfold polySum
  rw [← List.sum_map_mul_right]
  congr 1
  apply List.map_congr_left
  intro i _
  rw [← Nat.add_assoc, pow_succ, mul_assoc]

theorem hornerFrom_zero_eq_polySum (k : F) (ms : List F) :
    hornerFrom k 0 ms = polySum k 0 ms := by
  induction ms using List.reverseRecOn with
  | nil => simp [hornerFrom, polySum]
  | append_singleton ms m ih =>
    rw [hornerFrom_append, ih, polySum_snoc, polySum_succ]
    simp [hornerFrom]

theorem hornerSeq_eq_polySum (k : F) (ms : List F) : hornerSeq k ms = polySum k 0 ms := by
  rw [hornerSeq_eq_hornerFrom_zero, hornerFrom_zero_eq_polySum]

/-! ## Claims C1 and C2 -/

/-- C1: with the field operations exact in a commutative ring (in particular in Z/p), for
every key and every non-empty message `classical_2level_2B_UPK_Delay_a` returns the packing
of the sequential Horner value `h_n` (`h_1 = m_1`, `h_i = h_(i-1) * k + m_i`) of the encoded
blocks, which is also what the one-accumulator loop of `classical_Horner_PK_1B_Delay_b`
returns. -/
theorem C1_2level_2B_eq_sequential_Horner (A : FieldArith F) (inp : Ptr) (inlen : Nat)
    (key : Ptr) (h0 : 0 < inlen) :
    classical_2level_2B_UPK_Delay_a A inp inlen key =
        pack_and_transform A (hornerSeq (keyElem A key) (encodedBlocks A inp inlen)) ∧
      classical_2level_2B_UPK_Delay_a A inp inlen key =
        classical_Horner_PK_1B_Delay_b A inp inlen key := by
  have hne : inlen ≠ 0 := Nat.pos_iff_ne_zero.mp h0
  simp only [classical_2level_2B_UPK_Delay_a, classical_Horner_PK_1B_Delay_b, if_neg hne,
    classical_2level_2B_UPK_Delay_a_acc_eq A inp inlen key h0,
    classical_Horner_PK_1B_Delay_b_acc_eq A inp inlen key h0, and_self]

end ExactLemmas

/-- Witness of C1: a 40-byte message (three blocks) under the instance `KC_1305_32`. -/
theorem C1_2level_2B_eq_sequential_Horner_witness :
    0 < 40 ∧
    (classical_2level_2B_UPK_Delay_a KC_1305_32 (fun i => Fin.ofNat i) 40 (fun _ => 3) =
        pack_and_transform KC_1305_32 (hornerSeq (keyElem KC_1305_32 (fun _ => 3))
          (encodedBlocks KC_1305_32 (fun i => Fin.ofNat i) 40)) ∧
      classical_2level_2B_UPK_Delay_a KC_1305_32 (fun i => Fin.ofNat i) 40 (fun _ => 3) =
        classical_Horner_PK_1B_Delay_b KC_1305_32 (fun i => Fin.ofNat i) 40 (fun _ => 3)) :=
  ⟨by decide, C1_2level_2B_eq_sequential_Horner KC_1305_32 _ 40 _ (by decide)⟩

/-- C2 as stated fails: for the one-byte message `[0x00]` and the key of value 2 the final
accumulator is the block itself, `256`, not `block_1 * k^1 = 512`. -/
theorem C2_counterexample :
    classical_2level_2B_UPK_Delay_a_acc KC_1305_32 (fun _ => 0) 1
        (fun i => if i = 0 then 2 else 0) = 256 ∧
      polySum (keyElem KC_1305_32 (fun i => if i = 0 then 2 else 0)) 1
        (encodedBlocks KC_1305_32 (fun _ => 0) 1) = 512 ∧
      classical_2level_2B_UPK_Delay_a_acc KC_1305_32 (fun _ => 0) 1
        (fun i => if i = 0 then 2 else 0) ≠
      polySum (keyElem KC_1305_32 (fun i => if i = 0 then 2 else 0)) 1
        (encodedBlocks KC_1305_32 (fun _ => 0) 1) := by
  decide

/-- C2, amended: with the field operations exact in a commutative ring, for every key `k` and
every non-empty message of encoded blocks `block_1 .. block_n` the final accumulator of
`classical_2level_2B_UPK_Delay_a` equals `Σ_(i=1..n) block_i * k^(n-i)`. -/
theorem C2_2level_2B_final_accumulator {F : Type} [CommRing F] (A : FieldArith F) (inp : Ptr)
    (inlen : Nat) (key : Ptr) (h0 : 0 < inlen) :
    classical_2level_2B_UPK_Delay_a_acc A inp inlen key =
      polySum (keyElem A key) 0 (encodedBlocks A inp inlen) := by
  rw [classical_2level_2B_UPK_Delay_a_acc_eq A inp inlen key h0, hornerSeq_eq_polySum]

/-- Witness of the amended C2: a 40-byte message under the instance `KC_1305_32`. -/
theorem C2_2level_2B_final_accumulator_witness :
    0 < 40 ∧
    classical_2level_2B_UPK_Delay_a_acc KC_1305_32 (fun i => Fin.ofNat i) 40 (fun _ => 3) =
      polySum (keyElem KC_1305_32 (fun _ => 3)) 0
        (encodedBlocks KC_1305_32 (fun i => Fin.ofNat i) 40) :=
  ⟨by decide, C2_2level_2B_final_accumulator KC_1305_32 _ 40 _ (by decide)⟩

section MoreExactLemmas

variable {F : Type} [CommRing F]

/-! ## Claim C4 -/

/-- C4: with `field_mul_reduce`/`field_add_reduce` exact in a commutative ring (in particular
in Z/p), for every key and every non-empty message of encoded blocks `m_1 .. m_n`,
`classical_8BranchHorner_NoDelay` returns the packing of `Σ_(i=1..n) m_i * k^(n-i)`, which is
the sequential Horner value `h_n` (`h_1 = m_1`, `h_i = h_(i-1) * k + m_i`); no restriction on
`n`. -/
theorem C4_8BranchHorner_eq_sequential_Horner (A : FieldArith F) (inp : Ptr) (inlen : Nat)
    (key : Ptr) (h0 : 0 < inlen) :
    classical_8BranchHorner_NoDelay A inp inlen key =
        pack_and_transform A (polySum (keyElem A key) 0 (encodedBlocks A inp inlen)) ∧
      polySum (keyElem A key) 0 (encodedBlocks A inp inlen) =
        hornerSeq (keyElem A key) (encodedBlocks A inp inlen) := by
  have hne : inlen ≠ 0 := Nat.pos_iff_ne_zero.mp h0
  refine ⟨?_, (hornerSeq_eq_polySum _ _).symm⟩
  rw [classical_8BranchHorner_NoDelay, if_neg hne, eightBranch_tag_spec A inp inlen key h0,
    hornerFrom_zero_eq_polySum]
  rfl

/-! ## `classical_noTF` multiplies by the key after the last block too -/

theorem classical_noTF_loop_eq (A : FieldArith F) (k : F) :
    ∀ (inlen : Nat) (inp : Ptr) (acc : F),
      classical_noTF_loop A k inp inlen acc =
        classical_Horner_PK_1B_Delay_b_loop A k inp inlen acc := by
  intro inlen
  induction inlen using Nat.strong_induction_on with
  | _ inlen ih =>
    intro inp acc
    have hB := A.BLOCKSIZE_pos
    rw [classical_noTF_loop, classical_Horner_PK_1B_Delay_b_loop]
    by_cases hgt : inlen > A.BLOCKSIZE
    · simp only [hgt, if_true]
      rw [ih (inlen - A.BLOCKSIZE) (by omega)]
      rfl
    · simp only [hgt, if_false]

theorem classical_noTF_acc_eq (A : FieldArith F) (inp : Ptr) (inlen : Nat) (key : Ptr)
    (h0 : 0 < inlen) :
    classical_noTF_acc A inp inlen key =
      hornerSeq (A.unpack_field_elem key) (encodedBlocks A inp inlen) *
        A.unpack_field_elem key := by
  have hs := classical_Horner_PK_1B_Delay_b_loop_spec A (A.unpack_field_elem key) inlen inp 0 h0
  rw [zero_mul] at hs
  obtain ⟨hpos, hval⟩ := hs
  rw [hornerSeq_eq_hornerFrom_zero, ← hval]
  simp only [classical_noTF_acc, classical_noTF_loop_eq, field_add, field_mul]
  rw [if_pos (Nat.pos_iff_ne_zero.mp hpos)]

theorem classical_noTF_acc_zero (A : FieldArith F) (inp : Ptr) (key : Ptr) :
    classical_noTF_acc A inp 0 key = 0 := by
  have hB := A.BLOCKSIZE_pos
  simp only [classical_noTF_acc]
  rw [classical_noTF_loop]
  simp

end MoreExactLemmas

/-- Witness of C4: a 150-byte message (ten blocks) under the instance `KC_1305_32`. -/
theorem C4_8BranchHorner_eq_sequential_Horner_witness :
    0 < 150 ∧
    (classical_8BranchHorner_NoDelay KC_1305_32 (fun i => Fin.ofNat i) 150 (fun _ => 3) =
        pack_and_transform KC_1305_32 (polySum (keyElem KC_1305_32 (fun _ => 3)) 0
          (encodedBlocks KC_1305_32 (fun i => Fin.ofNat i) 150)) ∧
      polySum (keyElem KC_1305_32 (fun _ => 3)) 0
          (encodedBlocks KC_1305_32 (fun i => Fin.ofNat i) 150) =
        hornerSeq (keyElem KC_1305_32 (fun _ => 3))
          (encodedBlocks KC_1305_32 (fun i => Fin.ofNat i) 150)) :=
  ⟨by decide, C4_8BranchHorner_eq_sequential_Horner KC_1305_32 _ 150 _ (by decide)⟩

section StrategyLemmas

variable {F : Type} [CommRing F]

/-! ## `brw_2B_Delay` on short messages -/

theorem brw_2B_Delay_loop_few (A : FieldArith F) (k : Arr F) (inp : Ptr) (inlen : Nat)
    (s : BrwState F) (h : inlen ≤ s.blkctr + 4 * A.BLOCKSIZE) :
    brw_2B_Delay_loop A k inp inlen s = s := by
  rw [brw_2B_Delay_loop, if_neg (by omega)]

theorem brw_2B_Delay_acc_one (A : FieldArith F) (inp : Ptr) (inlen : Nat) (key : Ptr)
    (h0 : 0 < inlen) (h1 : inlen ≤ A.BLOCKSIZE) :
    brw_2B_Delay_acc A inp inlen key = A.unpack_and_encode_last_field_elem inp inlen := by
  have hB := A.BLOCKSIZE_pos
  have hl := brw_last_size A inlen 0 (by omega) (by omega)
  simp only [Nat.zero_mul, Nat.sub_zero] at hl
  simp only [brw_2B_Delay_acc, brw_2B_Delay_acc_from, brw_noOfBlocks, nbBlocks_small A h0 h1,
    hl]
  rw [brw_2B_Delay_loop_few A _ inp inlen _ (by simp only; omega)]
  simp [forLoop, show LOG2 1 = 0 by decide, setArr, Ptr.add_zero, _carry_round, reduce]

theorem brw_2B_Delay_acc_two (A : FieldArith F) (inp : Ptr) (inlen : Nat) (key : Ptr)
    (h1 : A.BLOCKSIZE < inlen) (h2 : inlen ≤ 2 * A.BLOCKSIZE) :
    brw_2B_Delay_acc A inp inlen key =
      A.unpack_and_encode_field_elem inp * keyElem A key +
        A.unpack_and_encode_last_field_elem (inp.add A.BLOCKSIZE) (inlen - A.BLOCKSIZE) := by
  have hB := A.BLOCKSIZE_pos
  have hl := brw_last_size A inlen 1 (by omega) (by omega)
  simp only [Nat.one_mul] at hl
  have hn : nbBlocks A inlen = 2 := by
    rw [nbBlocks_step A h1, nbBlocks_small A (by omega) (by omega)]
  simp only [brw_2B_Delay_acc, brw_2B_Delay_acc_from, brw_noOfBlocks, hn, hl]
  rw [brw_2B_Delay_loop_few A _ inp inlen _ (by simp only; omega)]
  simp [forLoop, show LOG2 2 = 1 by decide, setArr, Ptr.add_zero, _carry_round, reduce,
    field_mul, field_add, keyElem]

theorem brw_2B_Delay_acc_three (A : FieldArith F) (inp : Ptr) (inlen : Nat) (key : Ptr)
    (h1 : 2 * A.BLOCKSIZE < inlen) (h2 : inlen ≤ 3 * A.BLOCKSIZE) :
    brw_2B_Delay_acc A inp inlen key =
      (A.unpack_and_encode_field_elem inp + keyElem A key) *
        (A.unpack_and_encode_field_elem (inp.add A.BLOCKSIZE) +
          keyElem A key * keyElem A key) +
        A.unpack_and_encode_last_field_elem ((inp.add A.BLOCKSIZE).add A.BLOCKSIZE)
          (inlen - 2 * A.BLOCKSIZE) := by
  have hB := A.BLOCKSIZE_pos
  have hl := brw_last_size A inlen 2 (by omega) (by omega)
  have hn : nbBlocks A inlen = 3 := by
    rw [nbBlocks_step A (by omega), nbBlocks_step A (by omega),
      nbBlocks_small A (by omega) (by omega)]
  simp only [brw_2B_Delay_acc, brw_2B_Delay_acc_from, brw_noOfBlocks, hn, hl]
  rw [brw_2B_Delay_loop_few A _ inp inlen _ (by simp only; omega)]
  simp [forLoop, show LOG2 3 = 1 by decide, setArr, Ptr.add_zero, _carry_round, reduce,
    field_mul, field_add, field_sqr, keyElem, List.range', Ptr.add_add, Arr.zero, two_mul]

/-! ## `classical_ParallelHorner_UPK_1B_NoDelay` on one block -/

theorem classical_ParallelHorner_UPK_1B_NoDelay_acc_one (A : FieldArith F) (NB_BRANCH : Nat)
    (hNB : 0 < NB_BRANCH) (inp : Ptr) (inlen : Nat) (key : Ptr) (h1 : inlen ≤ A.BLOCKSIZE) :
    classical_ParallelHorner_UPK_1B_NoDelay_acc A NB_BRANCH hNB inp inlen key =
      A.unpack_and_encode_last_field_elem inp inlen := by
  simp only [classical_ParallelHorner_UPK_1B_NoDelay_acc, if_pos h1]

/-! ## The empty message -/

theorem ofBuf_zero_of_all_zero (l : List Byte) (h : ∀ b ∈ l, b = 0) (i : Nat) :
    ofBuf l i = 0 := by
  unfold ofBuf
  by_cases hi : i < l.length
  · rw [List.getD_eq_getElem l 0 hi]
    exact h _ (List.getElem_mem hi)
  · rw [List.getD_eq_default l 0 (by omega)]

theorem pack_and_transform_zero (A : FieldArith F) (hpack : ∀ b ∈ A.pack_field_elem 0, b = 0) :
    pack_and_transform A 0 = List.replicate A.OUTPUTSIZE 0 := by
  have hz := ofBuf_zero_of_all_zero (A.pack_field_elem 0) hpack
  simp only [pack_and_transform, transform_field_elem, identity_transform,
    identity_inline_transform, Ptr.bytes]
  split
  · apply List.ext_getElem
    · simp
    · intro i h1 h2
      simp [hz]
  · apply List.ext_getElem
    · simp
    · intro i h1 h2
      simp [hz]

theorem classical_original_acc_zero (A : FieldArith F) (b1 b2 : Bool) (inp : Ptr) (key : Ptr) :
    classical_original_acc A b1 b2 inp 0 key = 0 := by
  have hB := A.BLOCKSIZE_pos
  have hlt : ¬ (0 ≥ A.BLOCKSIZE) := by omega
  simp only [classical_original_acc]
  rw [classical_original_loop]
  simp [hlt]

/-! ## Claims C3, C5, C6 and C7 -/

/-- C3: for every key, the hash entry points called with `inlen = 0` write exactly
`OUTPUTSIZE` zero bytes to `out`, whatever is stored at `in` (no message byte is read): the
strategies that return early, and `classical_original` (default build, for both outcomes of
its `none_transform` tests) and `classical_noTF`, which have no early return and pack the
zero accumulator, provided the packing of the zero element is all-zero bytes. -/
theorem C3_empty_message_zero_tag (A : FieldArith F)
    (hpack : ∀ b ∈ A.pack_field_elem 0, b = 0) (inp key : Ptr) :
    classical_2level_2B_UPK_Delay_a A inp 0 key = List.replicate A.OUTPUTSIZE 0 ∧
    classical_Horner_PK_1B_Delay_b A inp 0 key = List.replicate A.OUTPUTSIZE 0 ∧
    classical_8BranchHorner_NoDelay A inp 0 key = List.replicate A.OUTPUTSIZE 0 ∧
    brw_2B_Delay A inp 0 key = List.replicate A.OUTPUTSIZE 0 ∧
    (∀ (NB_BRANCH : Nat) (hNB : 0 < NB_BRANCH),
      classical_ParallelHorner_UPK_1B_NoDelay A NB_BRANCH hNB inp 0 key =
        List.replicate A.OUTPUTSIZE 0) ∧
    (∀ body : Ptr → Nat → Ptr → List Byte,
      early_return_entry A body inp 0 key = List.replicate A.OUTPUTSIZE 0) ∧
    (∀ b1 b2 : Bool, classical_original A b1 b2 inp 0 key = List.replicate A.OUTPUTSIZE 0) ∧
    classical_noTF A inp 0 key = List.replicate A.OUTPUTSIZE 0 := by
  refine ⟨by simp [classical_2level_2B_UPK_Delay_a, memset0],
    by simp [classical_Horner_PK_1B_Delay_b, memset0],
    by simp [classical_8BranchHorner_NoDelay, memset0],
    by simp [brw_2B_Delay, memset0],
    fun _ _ => by simp [classical_ParallelHorner_UPK_1B_NoDelay, memset0],
    fun _ => by simp [early_return_entry, memset0], ?_, ?_⟩
  · intro b1 b2
    rw [classical_original, classical_original_acc_zero, pack_and_transform_zero A hpack]
  · rw [classical_noTF, classical_noTF_acc_zero, pack_and_transform_zero A hpack]

/-- C5, amended: with the field operations exact in a commutative ring and identical block
encoding, for every key and every non-empty message of at most two blocks the tag of
`brw_2B_Delay` equals the tag of `classical_Horner_PK_1B_Delay_b`. -/
theorem C5_brw_eq_Horner_upto_two_blocks (A : FieldArith F) (inp : Ptr) (inlen : Nat)
    (key : Ptr) (h0 : 0 < inlen) (h2 : inlen ≤ 2 * A.BLOCKSIZE) :
    brw_2B_Delay A inp inlen key = classical_Horner_PK_1B_Delay_b A inp inlen key := by
  have hne : inlen ≠ 0 := Nat.pos_iff_ne_zero.mp h0
  rw [brw_2B_Delay, classical_Horner_PK_1B_Delay_b, if_neg hne, if_neg hne,
    classical_Horner_PK_1B_Delay_b_acc_eq A inp inlen key h0]
  congr 1
  by_cases h1 : inlen ≤ A.BLOCKSIZE
  · rw [brw_2B_Delay_acc_one A inp inlen key h0 h1, encodedBlocks_small A inp h0 h1]
    simp [hornerSeq, hornerFrom]
  · rw [brw_2B_Delay_acc_two A inp inlen key (by omega) h2,
      encodedBlocks_step A inp (by omega), encodedBlocks_small A _ (by omega) (by omega)]
    simp [hornerSeq, hornerFrom]

/-- C6, amended: with the field operations exact in a commutative ring, for every non-empty
message and every key that unpacks to the same element with and without the identity key
transform, `classical_noTF` packs `k` times the value that `classical_Horner_PK_1B_Delay_b`
packs: it multiplies by the key after absorbing the last block as well. -/
theorem C6_noTF_eq_key_times_Horner (A : FieldArith F) (inp : Ptr) (inlen : Nat) (key : Ptr)
    (h0 : 0 < inlen) (hkey : A.unpack_field_elem key = keyElem A key) :
    classical_noTF A inp inlen key =
        pack_and_transform A
          (classical_Horner_PK_1B_Delay_b_acc A inp inlen key * keyElem A key) ∧
      classical_Horner_PK_1B_Delay_b A inp inlen key =
        pack_and_transform A (classical_Horner_PK_1B_Delay_b_acc A inp inlen key) := by
  have hne : inlen ≠ 0 := Nat.pos_iff_ne_zero.mp h0
  constructor
  · rw [classical_noTF, classical_noTF_acc_eq A inp inlen key h0, hkey,
      classical_Horner_PK_1B_Delay_b_acc_eq A inp inlen key h0]
  · rw [classical_Horner_PK_1B_Delay_b, if_neg hne]

/-- C7, amended: for every message of length `1 .. BLOCKSIZE` the tag of
`classical_ParallelHorner_UPK_1B_NoDelay` is the same under all keys (for every branch count):
the one-block path packs the encoded block and never uses the key. -/
theorem C7_ParallelHorner_one_block_key_independent (A : FieldArith F) (NB_BRANCH : Nat)
    (hNB : 0 < NB_BRANCH) (inp : Ptr) (inlen : Nat) (key key' : Ptr) (h0 : 0 < inlen)
    (h1 : inlen ≤ A.BLOCKSIZE) :
    classical_ParallelHorner_UPK_1B_NoDelay A NB_BRANCH hNB inp inlen key' =
      classical_ParallelHorner_UPK_1B_NoDelay A NB_BRANCH hNB inp inlen key := by
  have hne : inlen ≠ 0 := Nat.pos_iff_ne_zero.mp h0
  simp only [classical_ParallelHorner_UPK_1B_NoDelay, if_neg hne,
    classical_ParallelHorner_UPK_1B_NoDelay_acc_one A NB_BRANCH hNB inp inlen _ h1]

end StrategyLemmas

set_option maxRecDepth 8000 in
theorem KC_1305_32_pack_zero : ∀ b ∈ KC_1305_32.pack_field_elem 0, b = 0 := by
  decide

/-- Witness of C3: the instance `KC_1305_32` packs the zero element to zero bytes. -/
theorem C3_empty_message_zero_tag_witness :
    (∀ b ∈ KC_1305_32.pack_field_elem 0, b = 0) ∧
    classical_noTF KC_1305_32 (fun _ => 255) 0 (fun _ => 3) =
      List.replicate KC_1305_32.OUTPUTSIZE 0 :=
  ⟨KC_1305_32_pack_zero,
    (C3_empty_message_zero_tag KC_1305_32 KC_1305_32_pack_zero (fun _ => 255)
      (fun _ => 3)).2.2.2.2.2.2.2⟩

/-- C5 as stated fails: for the 33-byte all-zero message (three blocks) and the key of value
1, `brw_2B_Delay` packs `(m_1 + k) * (m_2 + k^2) + m_3` while the sequential Horner strategy
packs `m_1 * k^2 + m_2 * k + m_3`, and the two tags differ. -/
theorem C5_counterexample :
    brw_2B_Delay KC_1305_32 (fun _ => 0) 33 (fun i => if i = 0 then 1 else 0) =
        [1, 1, 0, 0, 0, 0, 0, 0, 0, 0, 0, 0, 0, 0, 0, 64] ∧
      classical_Horner_PK_1B_Delay_b KC_1305_32 (fun _ => 0) 33
          (fun i => if i = 0 then 1 else 0) =
        [0, 1, 0, 0, 0, 0, 0, 0, 0, 0, 0, 0, 0, 0, 0, 0] ∧
      brw_2B_Delay KC_1305_32 (fun _ => 0) 33 (fun i => if i = 0 then 1 else 0) ≠
        classical_Horner_PK_1B_Delay_b KC_1305_32 (fun _ => 0) 33
          (fun i => if i = 0 then 1 else 0) := by
  have hb : brw_2B_Delay KC_1305_32 (fun _ => 0) 33 (fun i => if i = 0 then 1 else 0) =
      [1, 1, 0, 0, 0, 0, 0, 0, 0, 0, 0, 0, 0, 0, 0, 64] := by
    rw [brw_2B_Delay, if_neg (by decide),
      brw_2B_Delay_acc_three KC_1305_32 _ 33 _ (by decide) (by decide)]
    decide
  have hh : classical_Horner_PK_1B_Delay_b KC_1305_32 (fun _ => 0) 33
      (fun i => if i = 0 then 1 else 0) = [0, 1, 0, 0, 0, 0, 0, 0, 0, 0, 0, 0, 0, 0, 0, 0] := by
    rw [classical_Horner_PK_1B_Delay_b, if_neg (by decide),
      classical_Horner_PK_1B_Delay_b_acc_eq KC_1305_32 _ 33 _ (by decide)]
    decide
  refine ⟨hb, hh, ?_⟩
  rw [hb, hh]
  decide

/-- Witness of the amended C5: a 20-byte message (two blocks) under `KC_1305_32`. -/
theorem C5_brw_eq_Horner_upto_two_blocks_witness :
    0 < 20 ∧ 20 ≤ 2 * KC_1305_32.BLOCKSIZE ∧
    brw_2B_Delay KC_1305_32 (fun i => Fin.ofNat i) 20 (fun _ => 3) =
      classical_Horner_PK_1B_Delay_b KC_1305_32 (fun i => Fin.ofNat i) 20 (fun _ => 3) :=
  ⟨by decide, by decide,
    C5_brw_eq_Horner_upto_two_blocks KC_1305_32 _ 20 _ (by decide) (by decide)⟩

/-- C6 as stated fails: for the one-byte message `[0x00]` and the key of value 2,
`classical_noTF` packs `256 * 2` while `classical_Horner_PK_1B_Delay_b` packs `256`. -/
theorem C6_counterexample :
    classical_noTF KC_1305_32 (fun _ => 0) 1 (fun i => if i = 0 then 2 else 0) =
        [0, 2, 0, 0, 0, 0, 0, 0, 0, 0, 0, 0, 0, 0, 0, 0] ∧
      classical_Horner_PK_1B_Delay_b KC_1305_32 (fun _ => 0) 1
          (fun i => if i = 0 then 2 else 0) =
        [0, 1, 0, 0, 0, 0, 0, 0, 0, 0, 0, 0, 0, 0, 0, 0] ∧
      classical_noTF KC_1305_32 (fun _ => 0) 1 (fun i => if i = 0 then 2 else 0) ≠
        classical_Horner_PK_1B_Delay_b KC_1305_32 (fun _ => 0) 1
          (fun i => if i = 0 then 2 else 0) := by
  have hn : classical_noTF KC_1305_32 (fun _ => 0) 1 (fun i => if i = 0 then 2 else 0) =
      [0, 2, 0, 0, 0, 0, 0, 0, 0, 0, 0, 0, 0, 0, 0, 0] := by
    rw [classical_noTF, classical_noTF_acc_eq KC_1305_32 _ 1 _ (by decide)]
    decide
  have hh : classical_Horner_PK_1B_Delay_b KC_1305_32 (fun _ => 0) 1
      (fun i => if i = 0 then 2 else 0) = [0, 1, 0, 0, 0, 0, 0, 0, 0, 0, 0, 0, 0, 0, 0, 0] := by
    rw [classical_Horner_PK_1B_Delay_b, if_neg (by decide),
      classical_Horner_PK_1B_Delay_b_acc_eq KC_1305_32 _ 1 _ (by decide)]
    decide
  refine ⟨hn, hh, ?_⟩
  rw [hn, hh]
  decide

/-- Witness of the amended C6: a 40-byte message under `KC_1305_32`. -/
theorem C6_noTF_eq_key_times_Horner_witness :
    0 < 40 ∧ KC_1305_32.unpack_field_elem (fun _ => 3) = keyElem KC_1305_32 (fun _ => 3) ∧
    (classical_noTF KC_1305_32 (fun i => Fin.ofNat i) 40 (fun _ => 3) =
        pack_and_transform KC_1305_32
          (classical_Horner_PK_1B_Delay_b_acc KC_1305_32 (fun i => Fin.ofNat i) 40
            (fun _ => 3) * keyElem KC_1305_32 (fun _ => 3)) ∧
      classical_Horner_PK_1B_Delay_b KC_1305_32 (fun i => Fin.ofNat i) 40 (fun _ => 3) =
        pack_and_transform KC_1305_32
          (classical_Horner_PK_1B_Delay_b_acc KC_1305_32 (fun i => Fin.ofNat i) 40
            (fun _ => 3))) :=
  ⟨by decide, by decide,
    C6_noTF_eq_key_times_Horner KC_1305_32 _ 40 _ (by decide) (by decide)⟩

/-- C7 as stated fails: the keys with first byte `0x02` and `0x03` differ in exactly one bit
and unpack to different elements (2 and 3), yet for the one-byte message `[0x00]` both tags
are the packing of the encoded block. -/
theorem C7_counterexample :
    keyElem KC_1305_32 (fun i => if i = 0 then 2 else 0) = 2 ∧
    keyElem KC_1305_32 (fun i => if i = 0 then 3 else 0) = 3 ∧
    classical_ParallelHorner_UPK_1B_NoDelay KC_1305_32 1 (by decide) (fun _ => 0) 1
        (fun i => if i = 0 then 3 else 0) =
      classical_ParallelHorner_UPK_1B_NoDelay KC_1305_32 1 (by decide) (fun _ => 0) 1
        (fun i => if i = 0 then 2 else 0) := by
  decide

/-- Witness of the amended C7: a 5-byte message, two branches, under `KC_1305_32`. -/
theorem C7_ParallelHorner_one_block_key_independent_witness :
    0 < 5 ∧ 5 ≤ KC_1305_32.BLOCKSIZE ∧
    classical_ParallelHorner_UPK_1B_NoDelay KC_1305_32 2 (by decide) (fun i => Fin.ofNat i) 5
        (fun _ => 7) =
      classical_ParallelHorner_UPK_1B_NoDelay KC_1305_32 2 (by decide) (fun i => Fin.ofNat i) 5
        (fun _ => 3) :=
  ⟨by decide, by decide,
    C7_ParallelHorner_one_block_key_independent KC_1305_32 2 (by decide) _ 5 _ _ (by decide)
      (by decide)⟩

/-! ## The last-block encoders of `pf_arithmetic_key_clamping_32.h` -/

theorem LE_lt (b : Ptr) (size : Nat) : LE b size < 2 ^ (8 * size) := by
  induction size with
  | zero => simp [LE]
  | succ n ih =>
    have hb : (b n).val < 256 := (b n).isLt
    have e : 2 ^ (8 * (n + 1)) = 256 * 2 ^ (8 * n) := by
      rw [Nat.mul_add, Nat.pow_add]; norm_num [Nat.mul_comm]
    rw [LE, e]
    have : (b n).val * 2 ^ (8 * n) ≤ 255 * 2 ^ (8 * n) :=
      Nat.mul_le_mul_right _ (by omega)
    omega

theorem LE_inj (b b' : Ptr) (size : Nat) (h : LE b size = LE b' size) :
    ∀ i, i < size → b i = b' i := by
  induction size with
  | zero => intro i hi; omega
  | succ n ih =>
    simp only [LE] at h
    have h1 := LE_lt b n
    have h2 := LE_lt b' n
    have hpos : 0 < 2 ^ (8 * n) := Nat.two_pow_pos (8 * n)
    have hq : (b n).val = (b' n).val := by
      have e1 : (LE b n + (b n).val * 2 ^ (8 * n)) / 2 ^ (8 * n) = (b n).val := by
        rw [Nat.add_mul_div_right _ _ hpos, Nat.div_eq_of_lt h1, Nat.zero_add]
      have e2 : (LE b' n + (b' n).val * 2 ^ (8 * n)) / 2 ^ (8 * n) = (b' n).val := by
        rw [Nat.add_mul_div_right _ _ hpos, Nat.div_eq_of_lt h2, Nat.zero_add]
      rw [← e1, ← e2, h]
    have hl : LE b n = LE b' n := by
      rw [hq] at h
      omega
    intro i hi
    by_cases hin : i = n
    · subst hin
      exact Fin.ext hq
    · exact ih hl i (by omega)

theorem KC_32_last_value (a : Ptr) (size : Nat) (h : size ≤ 16) :
    (unpack_and_encode_last_field_elem_KC_32 a size).value = LE a size + 2 ^ (8 * size) ∧
    (unpack_and_encode_last_field_elem_KC_32 a size).wf := by
  interval_cases size <;>
  · simp [unpack_and_encode_last_field_elem_KC_32, field_elem_t.value, field_elem_t.wf, load32,
      memcpy_into_zero, store8, LE]
    try omega


theorem load32_inj (p q : Ptr) (j : Nat) (h : load32 p j = load32 q j) :
    p (4 * j) = q (4 * j) ∧ p (4 * j + 1) = q (4 * j + 1) ∧ p (4 * j + 2) = q (4 * j + 2) ∧
      p (4 * j + 3) = q (4 * j + 3) := by
  unfold load32 at h
  have h0 := (p (4 * j)).isLt
  have h1 := (p (4 * j + 1)).isLt
  have h2 := (p (4 * j + 2)).isLt
  have h3 := (p (4 * j + 3)).isLt
  have g0 := (q (4 * j)).isLt
  have g1 := (q (4 * j + 1)).isLt
  have g2 := (q (4 * j + 2)).isLt
  have g3 := (q (4 * j + 3)).isLt
  refine ⟨Fin.ext ?_, Fin.ext ?_, Fin.ext ?_, Fin.ext ?_⟩ <;> omega

theorem load32_inj_byte (p q : Ptr) (i : Nat) (h : load32 p (i / 4) = load32 q (i / 4)) :
    p i = q i := by
  obtain ⟨e0, e1, e2, e3⟩ := load32_inj p q (i / 4) h
  have hi : i % 4 = 0 ∨ i % 4 = 1 ∨ i % 4 = 2 ∨ i % 4 = 3 := by omega
  rcases hi with hi | hi | hi | hi
  · have e : 4 * (i / 4) = i := by omega
    rwa [e] at e0
  · have e : 4 * (i / 4) + 1 = i := by omega
    rwa [e] at e1
  · have e : 4 * (i / 4) + 2 = i := by omega
    rwa [e] at e2
  · have e : 4 * (i / 4) + 3 = i := by omega
    rwa [e] at e3

theorem KC_limbs_eq_bytes (c c' : Nat) (a a' : Ptr) (size size' : Nat)
    (h : unpack_and_encode_last_field_elem_KC c a size =
      unpack_and_encode_last_field_elem_KC c' a' size') (i : Nat) (hi : i < 20) :
    store8 (memcpy_into_zero a size) size (Fin.ofNat c) i =
      store8 (memcpy_into_zero a' size') size' (Fin.ofNat c') i := by
  simp only [unpack_and_encode_last_field_elem_KC, field_elem_t.mk.injEq] at h
  obtain ⟨h0, h1, h2, h3, h4⟩ := h
  apply load32_inj_byte
  have hj : i / 4 = 0 ∨ i / 4 = 1 ∨ i / 4 = 2 ∨ i / 4 = 3 ∨ i / 4 = 4 := by omega
  rcases hj with hj | hj | hj | hj | hj <;> rw [hj] <;> assumption

theorem KC_default_same (a : Ptr) (len : Nat) (hz : a len = 0) :
    unpack_and_encode_last_field_elem_KC OUTER_PARAM2_default a len =
      unpack_and_encode_last_field_elem_KC OUTER_PARAM2_default a (len + 1) := by
  have e : store8 (memcpy_into_zero a len) len (Fin.ofNat OUTER_PARAM2_default) =
      store8 (memcpy_into_zero a (len + 1)) (len + 1) (Fin.ofNat OUTER_PARAM2_default) := by
    funext i
    simp only [store8, memcpy_into_zero, OUTER_PARAM2_default]
    by_cases h1 : i = len
    · subst h1
      simp [hz]
      rfl
    · by_cases h2 : i = len + 1
      · subst h2
        simp
        rfl
      · have : (i < len + 1) = (i < len) := by
          apply propext; constructor <;> intro h <;> omega
        simp [h1, h2, this]
  simp only [unpack_and_encode_last_field_elem_KC, e]

theorem KC_append_bit_differs (a : Ptr) (len : Nat) (hlen : len < 16) (hz : a len = 0) :
    unpack_and_encode_last_field_elem_KC 1 a len ≠
      unpack_and_encode_last_field_elem_KC 1 a (len + 1) := by
  intro h
  have hb := KC_limbs_eq_bytes 1 1 a a len (len + 1) h len (by omega)
  simp [store8, memcpy_into_zero, hz] at hb
  revert hb
  decide

theorem KC_32_last_size_eq (a a' : Ptr) (size size' : Nat)
    (h : LE a size + 2 ^ (8 * size) = LE a' size' + 2 ^ (8 * size')) : size = size' := by
  have h1 := LE_lt a size
  have h2 := LE_lt a' size'
  rcases Nat.lt_trichotomy size size' with hlt | heq | hgt
  · have : 2 ^ (8 * size + 1) ≤ 2 ^ (8 * size') :=
      Nat.pow_le_pow_right (by decide) (by omega)
    rw [Nat.pow_succ] at this
    omega
  · exact heq
  · have : 2 ^ (8 * size' + 1) ≤ 2 ^ (8 * size) :=
      Nat.pow_le_pow_right (by decide) (by omega)
    rw [Nat.pow_succ] at this
    omega

theorem KC_32_last_value_inj (a a' : Ptr) (size size' : Nat) (h : size ≤ 16)
    (h' : size' ≤ 16)
    (hv : (unpack_and_encode_last_field_elem_KC_32 a size).value =
      (unpack_and_encode_last_field_elem_KC_32 a' size').value) :
    size = size' ∧ ∀ i, i < size → a i = a' i := by
  rw [(KC_32_last_value a size h).1, (KC_32_last_value a' size' h').1] at hv
  have hs := KC_32_last_size_eq a a' size size' hv
  subst hs
  exact ⟨rfl, LE_inj a a' size (by omega)⟩

theorem KC_32_last_value_lt (a : Ptr) (size : Nat) (h : size ≤ 16) :
    (unpack_and_encode_last_field_elem_KC_32 a size).value < 2 ^ 129 := by
  rw [(KC_32_last_value a size h).1]
  have h1 := LE_lt a size
  have h2 : 2 ^ (8 * size) ≤ 2 ^ 128 := Nat.pow_le_pow_right (by decide) (by omega)
  have h3 : (2 : Nat) ^ 129 = 2 * 2 ^ 128 := by norm_num
  omega

/-! ## Claims C8, C9 and C10 -/

/-- C8 as stated fails: with `OUTER_PARAM2` at the default `0` of the header, the one-byte
string `"A"` and the two-byte string `"A\0"` are encoded to the same limb vector. -/
theorem C8_counterexample :
    (1 < 16) ∧ (fun i => if i = 0 then (65 : Byte) else 0) 1 = 0 ∧
    unpack_and_encode_last_field_elem_KC OUTER_PARAM2_default
        (fun i => if i = 0 then 65 else 0) 1 =
      unpack_and_encode_last_field_elem_KC OUTER_PARAM2_default
        (fun i => if i = 0 then 65 else 0) (1 + 1) := by
  decide

/-- C8, amended: for every byte string `m` of length `len < 16` followed by a zero byte,
`unpack_and_encode_last_field_elem_KC` compiled with the default `OUTER_PARAM2 = 0` ("no
encoding") yields the same limb vector for `(m, len)` and `(m ++ [0x00], len + 1)`; compiled
with `OUTER_PARAM2 = 1` ("append bit") it yields different limb vectors. -/
theorem C8_KC_last_block_appended_zero (a : Ptr) (len : Nat) (hlen : len < 16)
    (hz : a len = 0) :
    unpack_and_encode_last_field_elem_KC OUTER_PARAM2_default a len =
        unpack_and_encode_last_field_elem_KC OUTER_PARAM2_default a (len + 1) ∧
      unpack_and_encode_last_field_elem_KC 1 a len ≠
        unpack_and_encode_last_field_elem_KC 1 a (len + 1) :=
  ⟨KC_default_same a len hz, KC_append_bit_differs a len hlen hz⟩

/-- Witness of the amended C8: the string `"AAA"` and `"AAA\0"`. -/
theorem C8_KC_last_block_appended_zero_witness :
    3 < 16 ∧ (fun i => if i < 3 then (65 : Byte) else 0) 3 = 0 ∧
    (unpack_and_encode_last_field_elem_KC OUTER_PARAM2_default
        (fun i => if i < 3 then 65 else 0) 3 =
      unpack_and_encode_last_field_elem_KC OUTER_PARAM2_default
        (fun i => if i < 3 then 65 else 0) (3 + 1) ∧
    unpack_and_encode_last_field_elem_KC 1 (fun i => if i < 3 then 65 else 0) 3 ≠
      unpack_and_encode_last_field_elem_KC 1 (fun i => if i < 3 then 65 else 0) (3 + 1)) :=
  ⟨by decide, by decide,
    C8_KC_last_block_appended_zero (fun i => if i < 3 then 65 else 0) 3 (by decide)
      (by decide)⟩

/-- C9: for every size in `0 .. 16` and every byte string `b` of that length,
`unpack_and_encode_last_field_elem_KC_32` returns five limbs, each below `2^32`, whose value
`Σ val[i] * 2^(32 i)` is `LE(b) + 2^(8 * size)`: the data bytes zero-padded with exactly one
set bit right after them, also when `size = 16`. -/
theorem C9_KC_32_last_block_value (b : Ptr) (size : Nat) (h : size ≤ 16) :
    (unpack_and_encode_last_field_elem_KC_32 b size).value = LE b size + 2 ^ (8 * size) ∧
      (unpack_and_encode_last_field_elem_KC_32 b size).wf :=
  KC_32_last_value b size h

/-- Witness of C9: a full block of 16 bytes. -/
theorem C9_KC_32_last_block_value_witness :
    16 ≤ 16 ∧
    ((unpack_and_encode_last_field_elem_KC_32 (fun i => Fin.ofNat (3 * i + 1)) 16).value =
        LE (fun i => Fin.ofNat (3 * i + 1)) 16 + 2 ^ (8 * 16) ∧
      (unpack_and_encode_last_field_elem_KC_32 (fun i => Fin.ofNat (3 * i + 1)) 16).wf) :=
  ⟨by decide, C9_KC_32_last_block_value (fun i => Fin.ofNat (3 * i + 1)) 16 (by decide)⟩

/-- C10: `unpack_and_encode_last_field_elem_KC_32` is injective on blocks of length
`0 .. 16`: equal limb vectors force equal sizes and equal bytes; every encoded value is below
`2^129 < p = 2^130 - 5`, so blocks that differ are also different residues modulo `p`. -/
theorem C10_KC_32_last_block_injective (b b' : Ptr) (size size' : Nat) (h : size ≤ 16)
    (h' : size' ≤ 16) :
    (unpack_and_encode_last_field_elem_KC_32 b size =
        unpack_and_encode_last_field_elem_KC_32 b' size' →
      size = size' ∧ ∀ i, i < size → b i = b' i) ∧
    (unpack_and_encode_last_field_elem_KC_32 b size).value < 2 ^ 129 ∧
    2 ^ 129 < PRIME ∧
    (((unpack_and_encode_last_field_elem_KC_32 b size).value : ZMod PRIME) =
        ((unpack_and_encode_last_field_elem_KC_32 b' size').value : ZMod PRIME) →
      size = size' ∧ ∀ i, i < size → b i = b' i) := by
  have hp : 2 ^ 129 < PRIME := by decide
  have hv := KC_32_last_value_lt b size h
  have hv' := KC_32_last_value_lt b' size' h'
  refine ⟨fun heq => KC_32_last_value_inj b b' size size' h h' (by rw [heq]), hv, hp, ?_⟩
  intro heq
  rw [ZMod.natCast_eq_natCast_iff', Nat.mod_eq_of_lt (by omega),
    Nat.mod_eq_of_lt (by omega)] at heq
  exact KC_32_last_value_inj b b' size size' h h' heq

/-- Witness of C10: a 3-byte block against a 16-byte block. -/
theorem C10_KC_32_last_block_injective_witness :
    3 ≤ 16 ∧ 16 ≤ 16 ∧
    ((unpack_and_encode_last_field_elem_KC_32 (fun _ => 1) 3 =
        unpack_and_encode_last_field_elem_KC_32 (fun _ => 0) 16 →
      3 = 16 ∧ ∀ i, i < 3 → (fun _ => (1 : Byte)) i = (fun _ => (0 : Byte)) i) ∧
    (unpack_and_encode_last_field_elem_KC_32 (fun _ => 1) 3).value < 2 ^ 129 ∧
    2 ^ 129 < PRIME ∧
    (((unpack_and_encode_last_field_elem_KC_32 (fun _ => 1) 3).value : ZMod PRIME) =
        ((unpack_and_encode_last_field_elem_KC_32 (fun _ => 0) 16).value : ZMod PRIME) →
      3 = 16 ∧ ∀ i, i < 3 → (fun _ => (1 : Byte)) i = (fun _ => (0 : Byte)) i)) :=
  ⟨by decide, by decide,
    C10_KC_32_last_block_injective (fun _ => 1) (fun _ => 0) 3 16 (by decide) (by decide)⟩

/-! ## Claims C11 and C14: reduction and final carry round of the 32-bit header -/

/-- C11 fails on the code: `reduce_KC` returns the representation of `p = 2^130 - 5`
unchanged (value `p`, not `0`), and maps `2^130 + 2^32 - 5`, which is below `2p`, to the zero
vector although its residue is `2^32`: the carries of the trial addition of `DELTA` are
computed on 32-bit sums and are always zero. -/
theorem C11_reduce_KC_loses_carries :
    prime_limbs.value = PRIME ∧
    reduce_KC prime_limbs = prime_limbs ∧
    (reduce_KC prime_limbs).value ≠ prime_limbs.value % PRIME ∧
    ¬ ((reduce_KC prime_limbs).value < PRIME) ∧
    ({ val0 := 2 ^ 32 - 5, val1 := 0, val2 := 0, val3 := 0, val4 := 4 } : field_elem_t).value
      < 2 * PRIME ∧
    reduce_KC { val0 := 2 ^ 32 - 5, val1 := 0, val2 := 0, val3 := 0, val4 := 4 } =
      { val0 := 0, val1 := 0, val2 := 0, val3 := 0, val4 := 0 } ∧
    ({ val0 := 2 ^ 32 - 5, val1 := 0, val2 := 0, val3 := 0, val4 := 4 } : field_elem_t).value
      % PRIME = 2 ^ 32 := by
  decide

theorem carry_round_KC_final_spec (a : dfield_elem_t) (h0 : a.val0 < 2 ^ 62)
    (h1 : a.val1 < 2 ^ 62) (h2 : a.val2 < 2 ^ 62) (h3 : a.val3 < 2 ^ 62)
    (h4 : a.val4 < 2 ^ 62) :
    a.value = (carry_round_KC_final a).value +
        ((a.val4 + a.val3 / 2 ^ 32) / 4) * PRIME ∧
      (carry_round_KC_final a).val0 < 2 ^ 32 ∧ (carry_round_KC_final a).val1 < 2 ^ 32 ∧
      (carry_round_KC_final a).val2 < 2 ^ 32 ∧ (carry_round_KC_final a).val3 < 2 ^ 32 ∧
      (carry_round_KC_final a).val4 ≤ 4 := by
  obtain ⟨a0, a1, a2, a3, a4⟩ := a
  simp only [carry_round_KC_final, dfield_elem_t.value, field_elem_t.value, u32, u64,
    LAST_FIELDELEM_BLOCKSIZE, PI, DELTA, PRIME] at *
  norm_num at *
  simp (disch := omega) only [Nat.mod_eq_of_lt]
  omega

/-- C14: for every wide element `a` of the 32-bit header whose five limbs are below `2^62`,
`carry_round_KC_final` returns `r` with `V(r) ≡ V(a)` modulo `p = 2^130 - 5`, limbs
`r.val[0..3] < 2^32` and `r.val[4] ≤ 4`, hence `V(r) < 2p`. -/
theorem C14_carry_round_KC_final_almost_reduced (a : dfield_elem_t) (h0 : a.val0 < 2 ^ 62)
    (h1 : a.val1 < 2 ^ 62) (h2 : a.val2 < 2 ^ 62) (h3 : a.val3 < 2 ^ 62)
    (h4 : a.val4 < 2 ^ 62) :
    (carry_round_KC_final a).value % PRIME = a.value % PRIME ∧
      (carry_round_KC_final a).val0 < 2 ^ 32 ∧ (carry_round_KC_final a).val1 < 2 ^ 32 ∧
      (carry_round_KC_final a).val2 < 2 ^ 32 ∧ (carry_round_KC_final a).val3 < 2 ^ 32 ∧
      (carry_round_KC_final a).val4 ≤ 4 ∧
      (carry_round_KC_final a).value < 2 * PRIME := by
  obtain ⟨hv, b0, b1, b2, b3, b4⟩ := carry_round_KC_final_spec a h0 h1 h2 h3 h4
  refine ⟨?_, b0, b1, b2, b3, b4, ?_⟩
  · rw [hv, Nat.add_mul_mod_self_right]
  · simp only [field_elem_t.value, PRIME] at *
    norm_num at *
    omega

/-- Witness of C14: the wide element with all limbs `2^62 - 1`. -/
theorem C14_carry_round_KC_final_almost_reduced_witness :
    (2 ^ 62 - 1 < 2 ^ 62) ∧
    ((carry_round_KC_final ⟨2 ^ 62 - 1, 2 ^ 62 - 1, 2 ^ 62 - 1, 2 ^ 62 - 1, 2 ^ 62 - 1⟩).value
          % PRIME =
        (⟨2 ^ 62 - 1, 2 ^ 62 - 1, 2 ^ 62 - 1, 2 ^ 62 - 1, 2 ^ 62 - 1⟩ : dfield_elem_t).value
          % PRIME ∧
      (carry_round_KC_final ⟨2 ^ 62 - 1, 2 ^ 62 - 1, 2 ^ 62 - 1, 2 ^ 62 - 1, 2 ^ 62 - 1⟩).val0
        < 2 ^ 32 ∧
      (carry_round_KC_final ⟨2 ^ 62 - 1, 2 ^ 62 - 1, 2 ^ 62 - 1, 2 ^ 62 - 1, 2 ^ 62 - 1⟩).val1
        < 2 ^ 32 ∧
      (carry_round_KC_final ⟨2 ^ 62 - 1, 2 ^ 62 - 1, 2 ^ 62 - 1, 2 ^ 62 - 1, 2 ^ 62 - 1⟩).val2
        < 2 ^ 32 ∧
      (carry_round_KC_final ⟨2 ^ 62 - 1, 2 ^ 62 - 1, 2 ^ 62 - 1, 2 ^ 62 - 1, 2 ^ 62 - 1⟩).val3
        < 2 ^ 32 ∧
      (carry_round_KC_final ⟨2 ^ 62 - 1, 2 ^ 62 - 1, 2 ^ 62 - 1, 2 ^ 62 - 1, 2 ^ 62 - 1⟩).val4
        ≤ 4 ∧
      (carry_round_KC_final ⟨2 ^ 62 - 1, 2 ^ 62 - 1, 2 ^ 62 - 1, 2 ^ 62 - 1, 2 ^ 62 - 1⟩).value
        < 2 * PRIME) :=
  ⟨by decide,
    C14_carry_round_KC_final_almost_reduced ⟨2 ^ 62 - 1, 2 ^ 62 - 1, 2 ^ 62 - 1, 2 ^ 62 - 1,
      2 ^ 62 - 1⟩ (by decide) (by decide) (by decide) (by decide) (by decide)⟩

/-! ## Claim C15: multiplication by a clamped, precomputed key -/

theorem mul_lt_of_lt {a b A B : Nat} (ha : a < A) (hb : b < B) : a * b < A * B :=
  Nat.mul_lt_mul'' ha hb

theorem precompute_factor_KC_clamped (b : field_elem_t) (hb : clamped b) :
    precompute_factor_KC b =
      { val000 := b.val0, val011 := b.val1, val022 := b.val2, val033 := b.val3,
        val111 := 5 * (b.val1 / 4), val122 := 5 * (b.val2 / 4), val133 := 5 * (b.val3 / 4) } := by
  obtain ⟨h4, h0, h1, h2, h3, d1, d2, d3⟩ := hb
  simp only [precompute_factor_KC, u32, LAST_FIELDELEM_BLOCKSIZE, PI, DELTA]
  norm_num
  refine ⟨?_, ?_, ?_⟩ <;> omega

theorem field_mul_precomputed_no_carry_KC_bounds (a : field_elem_t) (b : field_elem_t)
    (ha : a.wf) (hb : clamped b) :
    (field_mul_precomputed_no_carry_KC_unbounded a (precompute_factor_KC b)).val0
        < 19 * 2 ^ 58 ∧
      (field_mul_precomputed_no_carry_KC_unbounded a (precompute_factor_KC b)).val1
        < 18 * 2 ^ 58 + a.val4 * (5 * 2 ^ 26) ∧
      (field_mul_precomputed_no_carry_KC_unbounded a (precompute_factor_KC b)).val2
        < 17 * 2 ^ 58 + a.val4 * (5 * 2 ^ 26) ∧
      (field_mul_precomputed_no_carry_KC_unbounded a (precompute_factor_KC b)).val3
        < 16 * 2 ^ 58 + a.val4 * (5 * 2 ^ 26) ∧
      (field_mul_precomputed_no_carry_KC_unbounded a (precompute_factor_KC b)).val4
        ≤ a.val4 * 2 ^ 28 := by
  rw [precompute_factor_KC_clamped b hb]
  obtain ⟨h4, h0, h1, h2, h3, d1, d2, d3⟩ := hb
  obtain ⟨a0, a1, a2, a3, a4⟩ := ha
  obtain ⟨x0, x1, x2, x3, x4⟩ := a
  obtain ⟨b0, b1, b2, b3, b4⟩ := b
  simp only at *
  have c1 : 5 * (b1 / 4) < 5 * 2 ^ 26 := by omega
  have c2 : 5 * (b2 / 4) < 5 * 2 ^ 26 := by omega
  have c3 : 5 * (b3 / 4) < 5 * 2 ^ 26 := by omega
  have p00 := mul_lt_of_lt a0 h0
  have p10 := mul_lt_of_lt a1 h0
  have p20 := mul_lt_of_lt a2 h0
  have p30 := mul_lt_of_lt a3 h0
  have p01 := mul_lt_of_lt a0 h1
  have p11 := mul_lt_of_lt a1 h1
  have p21 := mul_lt_of_lt a2 h1
  have p02 := mul_lt_of_lt a0 h2
  have p12 := mul_lt_of_lt a1 h2
  have p03 := mul_lt_of_lt a0 h3
  have q13 := mul_lt_of_lt a1 c3
  have q22 := mul_lt_of_lt a2 c2
  have q31 := mul_lt_of_lt a3 c1
  have q23 := mul_lt_of_lt a2 c3
  have q32 := mul_lt_of_lt a3 c2
  have q33 := mul_lt_of_lt a3 c3
  have r41 : x4 * (5 * (b1 / 4)) ≤ x4 * (5 * 2 ^ 26) := Nat.mul_le_mul_left _ (by omega)
  have r42 : x4 * (5 * (b2 / 4)) ≤ x4 * (5 * 2 ^ 26) := Nat.mul_le_mul_left _ (by omega)
  have r43 : x4 * (5 * (b3 / 4)) ≤ x4 * (5 * 2 ^ 26) := Nat.mul_le_mul_left _ (by omega)
  have r40 : x4 * b0 ≤ x4 * 2 ^ 28 := Nat.mul_le_mul_left _ (by omega)
  simp only [field_mul_precomputed_no_carry_KC_unbounded]
  norm_num at *
  refine ⟨?_, ?_, ?_, ?_, ?_⟩ <;> omega

theorem field_mul_precomputed_no_carry_KC_exact (a : field_elem_t)
    (b : field_elem_precomputed_t)
    (h : (field_mul_precomputed_no_carry_KC_unbounded a b).wf) :
    field_mul_precomputed_no_carry_KC a b = field_mul_precomputed_no_carry_KC_unbounded a b := by
  obtain ⟨h0, h1, h2, h3, h4⟩ := h
  simp only [field_mul_precomputed_no_carry_KC_unbounded] at h0 h1 h2 h3 h4
  simp only [field_mul_precomputed_no_carry_KC, field_mul_precomputed_no_carry_KC_unbounded,
    u64]
  norm_num at *
  exact ⟨h0, h1, h2, h3, h4⟩

theorem field_mul_precomputed_no_carry_KC_value (a b : field_elem_t) (hb : clamped b) :
    (field_mul_precomputed_no_carry_KC_unbounded a (precompute_factor_KC b)).value +
        PRIME *
          (a.val1 * (b.val3 / 4) + a.val2 * (b.val2 / 4) + a.val3 * (b.val1 / 4) +
            (a.val2 * (b.val3 / 4) + a.val3 * (b.val2 / 4) + a.val4 * (b.val1 / 4)) * 2 ^ 32 +
            (a.val3 * (b.val3 / 4) + a.val4 * (b.val2 / 4)) * 2 ^ 64 +
            a.val4 * (b.val3 / 4) * 2 ^ 96) =
      a.value * b.value := by
  rw [precompute_factor_KC_clamped b hb]
  obtain ⟨h4, h0, h1, h2, h3, d1, d2, d3⟩ := hb
  obtain ⟨x0, x1, x2, x3, x4⟩ := a
  obtain ⟨b0, b1, b2, b3, b4⟩ := b
  simp only at *
  obtain ⟨c1, rfl⟩ : ∃ c, b1 = 4 * c := ⟨b1 / 4, by omega⟩
  obtain ⟨c2, rfl⟩ : ∃ c, b2 = 4 * c := ⟨b2 / 4, by omega⟩
  obtain ⟨c3, rfl⟩ : ∃ c, b3 = 4 * c := ⟨b3 / 4, by omega⟩
  subst h4
  have e1 : 4 * c1 / 4 = c1 := by omega
  have e2 : 4 * c2 / 4 = c2 := by omega
  have e3 : 4 * c3 / 4 = c3 := by omega
  simp only [field_mul_precomputed_no_carry_KC_unbounded, dfield_elem_t.value,
    field_elem_t.value, e1, e2, e3]
  have hp : PRIME + 5 = 2 ^ 130 := by decide
  have hP : PRIME = 2 ^ 130 - 5 := rfl
  generalize PRIME = P at hp hP
  have : P = 2 ^ 130 - 5 := hP
  zify
  have hp' : (P : Int) = 2 ^ 130 - 5 := by
    have := congrArg (fun n : Nat => (n : Int)) hp
    simp only [Nat.cast_add, Nat.cast_pow, Nat.cast_ofNat] at this
    linarith
  rw [hp']
  ring

/-- C15: for the 32-bit header with `OUTER_PARAM3 = 0`, for every Poly1305-clamped key `b`
(`val[4] = 0`, limbs below `2^28`, limbs `1..3` divisible by 4) and every `a` with limbs
below `2^32`, `field_mul_precomputed_no_carry_KC(a, precompute_factor_KC(b))` equals the
unbounded sums of products (no wide limb wraps modulo `2^64`), its value is congruent to
`V(a) * V(b)` modulo `p = 2^130 - 5`, and the cached limbs satisfy
`4 * pre.val[1][j][j] = 5 * b.val[j]` for `j = 1..3`. -/
theorem C15_field_mul_precomputed_no_carry_KC (a b : field_elem_t) (ha : a.wf)
    (hb : clamped b) :
    field_mul_precomputed_no_carry_KC a (precompute_factor_KC b) =
        field_mul_precomputed_no_carry_KC_unbounded a (precompute_factor_KC b) ∧
      (field_mul_precomputed_no_carry_KC_unbounded a (precompute_factor_KC b)).wf ∧
      (field_mul_precomputed_no_carry_KC a (precompute_factor_KC b)).value % PRIME =
        (a.value * b.value) % PRIME ∧
      4 * (precompute_factor_KC b).val111 = 5 * b.val1 ∧
      4 * (precompute_factor_KC b).val122 = 5 * b.val2 ∧
      4 * (precompute_factor_KC b).val133 = 5 * b.val3 := by
  have hbd := field_mul_precomputed_no_carry_KC_bounds a b ha hb
  have hwf : (field_mul_precomputed_no_carry_KC_unbounded a (precompute_factor_KC b)).wf := by
    obtain ⟨w0, w1, w2, w3, w4⟩ := hbd
    obtain ⟨a0, a1, a2, a3, a4⟩ := ha
    have m1 : a.val4 * (5 * 2 ^ 26) < 2 ^ 32 * (5 * 2 ^ 26) :=
      Nat.mul_lt_mul_of_pos_right a4 (by norm_num)
    have m2 : a.val4 * 2 ^ 28 < 2 ^ 32 * 2 ^ 28 :=
      Nat.mul_lt_mul_of_pos_right a4 (by norm_num)
    simp only [dfield_elem_t.wf]
    norm_num at *
    refine ⟨?_, ?_, ?_, ?_, ?_⟩ <;> omega
  have hex := field_mul_precomputed_no_carry_KC_exact a (precompute_factor_KC b) hwf
  have hval := field_mul_precomputed_no_carry_KC_value a b hb
  refine ⟨hex, hwf, ?_, ?_, ?_, ?_⟩
  · rw [hex, ← hval, Nat.add_mul_mod_self_left]
  · rw [precompute_factor_KC_clamped b hb]
    obtain ⟨h4, h0, h1, h2, h3, d1, d2, d3⟩ := hb
    simp only
    omega
  · rw [precompute_factor_KC_clamped b hb]
    obtain ⟨h4, h0, h1, h2, h3, d1, d2, d3⟩ := hb
    simp only
    omega
  · rw [precompute_factor_KC_clamped b hb]
    obtain ⟨h4, h0, h1, h2, h3, d1, d2, d3⟩ := hb
    simp only
    omega

/-- Witness of C15: the largest clamped key and the largest limbs. -/
theorem C15_field_mul_precomputed_no_carry_KC_witness :
    (⟨2 ^ 32 - 1, 2 ^ 32 - 1, 2 ^ 32 - 1, 2 ^ 32 - 1, 2 ^ 32 - 1⟩ : field_elem_t).wf ∧
    clamped ⟨2 ^ 28 - 1, 2 ^ 28 - 4, 2 ^ 28 - 4, 2 ^ 28 - 4, 0⟩ ∧
    (field_mul_precomputed_no_carry_KC
          ⟨2 ^ 32 - 1, 2 ^ 32 - 1, 2 ^ 32 - 1, 2 ^ 32 - 1, 2 ^ 32 - 1⟩
          (precompute_factor_KC ⟨2 ^ 28 - 1, 2 ^ 28 - 4, 2 ^ 28 - 4, 2 ^ 28 - 4, 0⟩)).value
        % PRIME =
      ((⟨2 ^ 32 - 1, 2 ^ 32 - 1, 2 ^ 32 - 1, 2 ^ 32 - 1, 2 ^ 32 - 1⟩ : field_elem_t).value *
        (⟨2 ^ 28 - 1, 2 ^ 28 - 4, 2 ^ 28 - 4, 2 ^ 28 - 4, 0⟩ : field_elem_t).value) % PRIME :=
  ⟨by decide, by decide,
    (C15_field_mul_precomputed_no_carry_KC
      ⟨2 ^ 32 - 1, 2 ^ 32 - 1, 2 ^ 32 - 1, 2 ^ 32 - 1, 2 ^ 32 - 1⟩
      ⟨2 ^ 28 - 1, 2 ^ 28 - 4, 2 ^ 28 - 4, 2 ^ 28 - 4, 0⟩ (by decide) (by decide)).2.2.1⟩

/-! ## Claim C16: the limb budget of the delayed-reduction Horner loop -/

theorem load32_lt (p : Ptr) (j : Nat) : load32 p j < 2 ^ 32 := by
  unfold load32
  have h0 := (p (4 * j)).isLt
  have h1 := (p (4 * j + 1)).isLt
  have h2 := (p (4 * j + 2)).isLt
  have h3 := (p (4 * j + 3)).isLt
  omega

theorem unpack_and_encode_field_elem_KC_bounds (c : Nat) (hc : c ≤ 1) (a : Ptr) :
    (unpack_and_encode_field_elem_KC c a).val0 < 2 ^ 32 ∧
      (unpack_and_encode_field_elem_KC c a).val1 < 2 ^ 32 ∧
      (unpack_and_encode_field_elem_KC c a).val2 < 2 ^ 32 ∧
      (unpack_and_encode_field_elem_KC c a).val3 < 2 ^ 32 ∧
      (unpack_and_encode_field_elem_KC c a).val4 ≤ 1 := by
  have e : (load32 a 4 % 2 ^ LAST_MSG_BLOCKSIZE) ||| u32 (u32 c * 2 ^ LAST_MSG_BLOCKSIZE) = c := by
    have : u32 c = c := Nat.mod_eq_of_lt (by omega)
    simp [LAST_MSG_BLOCKSIZE, Nat.mod_one, this]
  simp only [unpack_and_encode_field_elem_KC, e]
  exact ⟨load32_lt a 0, load32_lt a 1, load32_lt a 2, load32_lt a 3, hc⟩

/-- The bounds kept by the wide accumulator at the head of the loop. -/
theorem carry_round_KC_within_budget (e : dfield_elem_t) (h0 : e.val0 < 19 * 2 ^ 58 + 2 ^ 32)
    (h1 : e.val1 < 18 * 2 ^ 58 + 5 * 2 ^ 57 + 2 ^ 32)
    (h2 : e.val2 < 17 * 2 ^ 58 + 5 * 2 ^ 57 + 2 ^ 32)
    (h3 : e.val3 < 16 * 2 ^ 58 + 5 * 2 ^ 57 + 2 ^ 32) (h4 : e.val4 ≤ 2 ^ 59) :
    carry_round_KC_no_wrap e ∧ (carry_round_KC e).wf ∧ (carry_round_KC e).val4 < 2 ^ 31 := by
  obtain ⟨e0, e1, e2, e3, e4⟩ := e
  simp only [carry_round_KC_no_wrap, carry_round_KC, field_elem_t.wf, u32, u64,
    LAST_FIELDELEM_BLOCKSIZE, PI, DELTA] at *
  norm_num at *
  simp (disch := omega) only [Nat.mod_eq_of_lt]
  omega

theorem iteration_budget_step (c : Nat) (hc : c ≤ 1) (k : field_elem_t) (hk : clamped k)
    (s : DelayState) (h0 : s.acc_d.val0 < 19 * 2 ^ 58)
    (h1 : s.acc_d.val1 < 18 * 2 ^ 58 + 5 * 2 ^ 57)
    (h2 : s.acc_d.val2 < 17 * 2 ^ 58 + 5 * 2 ^ 57)
    (h3 : s.acc_d.val3 < 16 * 2 ^ 58 + 5 * 2 ^ 57) (h4 : s.acc_d.val4 < 2 ^ 59) :
    iteration_within_budget c (precompute_factor_KC k) s ∧
      (classical_Horner_PK_1B_Delay_a_KC_body c (precompute_factor_KC k) s).acc_d.val0
        < 19 * 2 ^ 58 ∧
      (classical_Horner_PK_1B_Delay_a_KC_body c (precompute_factor_KC k) s).acc_d.val1
        < 18 * 2 ^ 58 + 5 * 2 ^ 57 ∧
      (classical_Horner_PK_1B_Delay_a_KC_body c (precompute_factor_KC k) s).acc_d.val2
        < 17 * 2 ^ 58 + 5 * 2 ^ 57 ∧
      (classical_Horner_PK_1B_Delay_a_KC_body c (precompute_factor_KC k) s).acc_d.val3
        < 16 * 2 ^ 58 + 5 * 2 ^ 57 ∧
      (classical_Horner_PK_1B_Delay_a_KC_body c (precompute_factor_KC k) s).acc_d.val4
        < 2 ^ 59 := by
  obtain ⟨b0, b1, b2, b3, b4⟩ := unpack_and_encode_field_elem_KC_bounds c hc s.inp
  have hadd : field_add_mix_no_wrap s.acc_d (unpack_and_encode_field_elem_KC c s.inp) := by
    simp only [field_add_mix_no_wrap]
    norm_num at *
    refine ⟨?_, ?_, ?_, ?_, ?_⟩ <;> omega
  obtain ⟨n0, n1, n2, n3, n4⟩ := hadd
  have hsum : field_add_mix_limbs s.acc_d (unpack_and_encode_field_elem_KC c s.inp) =
      { val0 := s.acc_d.val0 + (unpack_and_encode_field_elem_KC c s.inp).val0,
        val1 := s.acc_d.val1 + (unpack_and_encode_field_elem_KC c s.inp).val1,
        val2 := s.acc_d.val2 + (unpack_and_encode_field_elem_KC c s.inp).val2,
        val3 := s.acc_d.val3 + (unpack_and_encode_field_elem_KC c s.inp).val3,
        val4 := s.acc_d.val4 + (unpack_and_encode_field_elem_KC c s.inp).val4 } := by
    simp only [field_add_mix_limbs, u64, Nat.mod_eq_of_lt n0, Nat.mod_eq_of_lt n1,
      Nat.mod_eq_of_lt n2, Nat.mod_eq_of_lt n3, Nat.mod_eq_of_lt n4]
  obtain ⟨hcr, hwf, h31⟩ := carry_round_KC_within_budget
    (field_add_mix_limbs s.acc_d (unpack_and_encode_field_elem_KC c s.inp))
    (by rw [hsum]; simp only; norm_num at *; omega)
    (by rw [hsum]; simp only; norm_num at *; omega)
    (by rw [hsum]; simp only; norm_num at *; omega)
    (by rw [hsum]; simp only; norm_num at *; omega)
    (by rw [hsum]; simp only; norm_num at *; omega)
  obtain ⟨w0, w1, w2, w3, w4⟩ := field_mul_precomputed_no_carry_KC_bounds
    (carry_round_KC (field_add_mix_limbs s.acc_d (unpack_and_encode_field_elem_KC c s.inp)))
    k hwf hk
  have m1 : (carry_round_KC (field_add_mix_limbs s.acc_d
      (unpack_and_encode_field_elem_KC c s.inp))).val4 * (5 * 2 ^ 26) < 2 ^ 31 * (5 * 2 ^ 26) :=
    Nat.mul_lt_mul_of_pos_right h31 (by norm_num)
  have m2 : (carry_round_KC (field_add_mix_limbs s.acc_d
      (unpack_and_encode_field_elem_KC c s.inp))).val4 * 2 ^ 28 < 2 ^ 31 * 2 ^ 28 :=
    Nat.mul_lt_mul_of_pos_right h31 (by norm_num)
  have hmwf : (field_mul_precomputed_no_carry_KC_unbounded
      (carry_round_KC (field_add_mix_limbs s.acc_d (unpack_and_encode_field_elem_KC c s.inp)))
      (precompute_factor_KC k)).wf := by
    simp only [dfield_elem_t.wf]
    norm_num at *
    refine ⟨?_, ?_, ?_, ?_, ?_⟩ <;> omega
  have hex := field_mul_precomputed_no_carry_KC_exact _ _ hmwf
  refine ⟨⟨⟨n0, n1, n2, n3, n4⟩, hcr, hmwf, hex, hwf, h31⟩, ?_⟩
  simp only [classical_Horner_PK_1B_Delay_a_KC_body, hex]
  norm_num at *
  refine ⟨?_, ?_, ?_, ?_, ?_⟩ <;> omega

theorem trace_within_budget (c : Nat) (hc : c ≤ 1) (k : field_elem_t) (hk : clamped k) :
    ∀ (n : Nat) (s : DelayState), s.inlen = n → s.acc_d.val0 < 19 * 2 ^ 58 →
      s.acc_d.val1 < 18 * 2 ^ 58 + 5 * 2 ^ 57 → s.acc_d.val2 < 17 * 2 ^ 58 + 5 * 2 ^ 57 →
      s.acc_d.val3 < 16 * 2 ^ 58 + 5 * 2 ^ 57 → s.acc_d.val4 < 2 ^ 59 →
      ∀ t ∈ classical_Horner_PK_1B_Delay_a_KC_trace c (precompute_factor_KC k) s,
        iteration_within_budget c (precompute_factor_KC k) t := by
  intro n
  induction n using Nat.strong_induction_on with
  | _ n ih =>
    intro s hn h0 h1 h2 h3 h4 t ht
    rw [classical_Horner_PK_1B_Delay_a_KC_trace] at ht
    by_cases hgt : s.inlen > 16
    · rw [if_pos hgt] at ht
      obtain ⟨hb, g0, g1, g2, g3, g4⟩ := iteration_budget_step c hc k hk s h0 h1 h2 h3 h4
      rcases List.mem_cons.mp ht with rfl | ht'
      · exact hb
      · exact ih (s.inlen - 16) (by omega)
          (classical_Horner_PK_1B_Delay_a_KC_body c (precompute_factor_KC k) s) rfl
          g0 g1 g2 g3 g4 t ht'
    · rw [if_neg hgt] at ht
      cases ht

/-- C16: for every Poly1305-clamped key and every message, every iteration that the loop
of `classical_Horner_PK_1B_Delay_a_KC` executes (32-bit configuration, `OUTER_PARAM3 = 0`,
`OUTER_PARAM2` 0 or 1, accumulators initially zero) stays within the limb budget: the block
addition, `carry_round_KC` and `field_mul_precomputed_no_carry_KC` compute every sum and
product without wrap-around and `acc.val[4] < 2^31`. -/
theorem C16_Delay_a_KC_limb_budget (OUTER_PARAM2 : Nat) (hc : OUTER_PARAM2 ≤ 1)
    (k : field_elem_t) (hk : clamped k) (inp : Ptr) (inlen : Nat) :
    ∀ t ∈ classical_Horner_PK_1B_Delay_a_KC_trace OUTER_PARAM2 (precompute_factor_KC k)
        { inp := inp, inlen := inlen, acc := ⟨0, 0, 0, 0, 0⟩, acc_d := ⟨0, 0, 0, 0, 0⟩ },
      iteration_within_budget OUTER_PARAM2 (precompute_factor_KC k) t :=
  trace_within_budget OUTER_PARAM2 hc k hk inlen _ rfl (by norm_num) (by norm_num)
    (by norm_num) (by norm_num) (by norm_num)

/-- The loop executes `(inlen - 1) / 16` iterations. -/
theorem classical_Horner_PK_1B_Delay_a_KC_trace_length (c : Nat)
    (k_p : field_elem_precomputed_t) :
    ∀ (n : Nat) (s : DelayState), s.inlen = n →
      (classical_Horner_PK_1B_Delay_a_KC_trace c k_p s).length = (s.inlen - 1) / 16 := by
  intro n
  induction n using Nat.strong_induction_on with
  | _ n ih =>
    intro s hn
    rw [classical_Horner_PK_1B_Delay_a_KC_trace]
    by_cases hgt : s.inlen > 16
    · rw [if_pos hgt, List.length_cons, ih (s.inlen - 16) (by omega) _ rfl]
      simp only [classical_Horner_PK_1B_Delay_a_KC_body]
      omega
    · rw [if_neg hgt, List.length_nil]
      omega

theorem C16_Delay_a_KC_limb_budget_witness :
    1 ≤ 1 ∧ clamped ⟨2 ^ 28 - 1, 2 ^ 28 - 4, 2 ^ 28 - 4, 2 ^ 28 - 4, 0⟩ ∧
      ∀ t ∈ classical_Horner_PK_1B_Delay_a_KC_trace 1
          (precompute_factor_KC ⟨2 ^ 28 - 1, 2 ^ 28 - 4, 2 ^ 28 - 4, 2 ^ 28 - 4, 0⟩)
          { inp := fun _ => 255, inlen := 100, acc := ⟨0, 0, 0, 0, 0⟩,
            acc_d := ⟨0, 0, 0, 0, 0⟩ },
        iteration_within_budget 1
          (precompute_factor_KC ⟨2 ^ 28 - 1, 2 ^ 28 - 4, 2 ^ 28 - 4, 2 ^ 28 - 4, 0⟩) t :=
  ⟨by decide, by decide,
    C16_Delay_a_KC_limb_budget 1 (by decide) ⟨2 ^ 28 - 1, 2 ^ 28 - 4, 2 ^ 28 - 4, 2 ^ 28 - 4, 0⟩
      (by decide) (fun _ => 255) 100⟩

/-! ## Claims C12 and C13: reduction in the 64-bit header -/

theorem KC64_reduce_KC_1305_spec (a : KC64.field_elem_t) (h : a.wf) :
    KC64.reduce_KC_1305 a =
      if 4 ≤ a.val2 ∧ a.val2 < 2 ^ 63 + 4 then
        { val0 := (a.val0 + 5) % 2 ^ 64, val1 := a.val1, val2 := a.val2 - 4 }
      else a := by
  obtain ⟨a0, a1, a2⟩ := a
  obtain ⟨h0, h1, h2⟩ := h
  simp only at h0 h1 h2
  have hc : ∀ x : Nat, u64 (u64 x / 2 ^ 64) = 0 := by
    intro x
    have : u64 x < 2 ^ 64 := Nat.mod_lt _ (by norm_num)
    simp [u64, Nat.div_eq_of_lt this]
  have hu : ∀ x : Nat, u64 (u64 x) = u64 x := fun x => Nat.mod_mod _ _
  have hones : ∀ x : Nat, x < 2 ^ 64 → x &&& (2 ^ 64 - 1) = x := by
    intro x hx
    rw [Nat.and_pow_two_sub_one_eq_mod, Nat.mod_eq_of_lt hx]
  by_cases hr : 4 ≤ a2 ∧ a2 < 2 ^ 63 + 4
  · have ht : u64 (u64 a2 + (2 ^ 64 - 2 ^ 2)) = a2 - 4 := by
      simp only [u64]
      omega
    have hm : u64 (u64 ((a2 - 4) / 2 ^ 63) + (2 ^ 64 - 1)) = 2 ^ 64 - 1 := by
      have : (a2 - 4) / 2 ^ 63 = 0 := Nat.div_eq_of_lt (by omega)
      rw [this]
      decide
    have ha1 : u64 a1 = a1 := Nat.mod_eq_of_lt h1
    have hc1 : u64 (a1 / 2 ^ 64) = 0 := by
      rw [Nat.div_eq_of_lt h1]
      rfl
    simp only [KC64.reduce_KC_1305, hc, hu, Nat.add_zero, ha1, hc1, ht, hm, if_pos hr,
      Nat.sub_self, Nat.and_zero, Nat.zero_or]
    rw [hones (u64 (a0 + 5)) (Nat.mod_lt _ (by norm_num)), hones a1 h1,
      hones (a2 - 4) (by omega)]
    rfl
  · have ht : u64 (u64 (u64 a2 + (2 ^ 64 - 2 ^ 2)) / 2 ^ 63) = 1 := by
      simp only [u64]
      omega
    have hm : u64 (1 + (2 ^ 64 - 1)) = 0 := by decide
    have ha1 : u64 a1 = a1 := Nat.mod_eq_of_lt h1
    have hc1 : u64 (a1 / 2 ^ 64) = 0 := by
      rw [Nat.div_eq_of_lt h1]
      rfl
    simp only [KC64.reduce_KC_1305, hc, hu, Nat.add_zero, ha1, hc1, ht, hm, if_neg hr,
      Nat.sub_zero, Nat.and_zero, Nat.or_zero]
    rw [hones a0 h0, hones a1 h1, hones a2 h2]

/-- C12 as stated fails: on the limb vector `(0, 0, 8)` a second application of
`reduce_KC_1305` changes the result again. -/
theorem C12_counterexample :
    (⟨0, 0, 8⟩ : KC64.field_elem_t).wf ∧
      KC64.reduce_KC_1305 ⟨0, 0, 8⟩ = ⟨5, 0, 4⟩ ∧
      KC64.reduce_KC_1305 (KC64.reduce_KC_1305 ⟨0, 0, 8⟩) = ⟨10, 0, 0⟩ ∧
      KC64.reduce_KC_1305 (KC64.reduce_KC_1305 ⟨0, 0, 8⟩) ≠ KC64.reduce_KC_1305 ⟨0, 0, 8⟩ := by
  decide

/-- C12, amended: on a representable limb vector `a` (three `uint64_t` limbs) the function
`reduce_KC_1305` is idempotent exactly when the top limb is below 8 or at least `2^63 + 4`;
in particular it is idempotent on every `a` whose top limb is at most 7. -/
theorem C12_reduce_KC_1305_idempotent_iff (a : KC64.field_elem_t) (h : a.wf) :
    KC64.reduce_KC_1305 (KC64.reduce_KC_1305 a) = KC64.reduce_KC_1305 a ↔
      (a.val2 < 8 ∨ 2 ^ 63 + 4 ≤ a.val2) := by
  have hwf : (KC64.reduce_KC_1305 a).wf := by
    rw [KC64_reduce_KC_1305_spec a h]
    obtain ⟨h0, h1, h2⟩ := h
    split
    · exact ⟨Nat.mod_lt _ (by norm_num), h1, by simp only; omega⟩
    · exact ⟨h0, h1, h2⟩
  rw [KC64_reduce_KC_1305_spec _ hwf, KC64_reduce_KC_1305_spec a h]
  obtain ⟨a0, a1, a2⟩ := a
  obtain ⟨h0, h1, h2⟩ := h
  simp only at h0 h1 h2
  by_cases hr : 4 ≤ a2 ∧ a2 < 2 ^ 63 + 4
  · simp only [if_pos hr]
    by_cases hr2 : 4 ≤ a2 - 4 ∧ a2 - 4 < 2 ^ 63 + 4
    · simp only [if_pos hr2, KC64.field_elem_t.mk.injEq]
      constructor
      · intro hh
        omega
      · intro hh
        omega
    · simp only [if_neg hr2, true_iff]
      omega
  · simp only [if_neg hr, true_iff]
    omega

theorem C12_reduce_KC_1305_idempotent_iff_witness :
    (⟨2 ^ 64 - 1, 2 ^ 64 - 1, 7⟩ : KC64.field_elem_t).wf ∧
      (KC64.reduce_KC_1305 (KC64.reduce_KC_1305 ⟨2 ^ 64 - 1, 2 ^ 64 - 1, 7⟩) =
          KC64.reduce_KC_1305 ⟨2 ^ 64 - 1, 2 ^ 64 - 1, 7⟩ ↔
        ((⟨2 ^ 64 - 1, 2 ^ 64 - 1, 7⟩ : KC64.field_elem_t).val2 < 8 ∨
          2 ^ 63 + 4 ≤ (⟨2 ^ 64 - 1, 2 ^ 64 - 1, 7⟩ : KC64.field_elem_t).val2)) :=
  ⟨by decide, C12_reduce_KC_1305_idempotent_iff ⟨2 ^ 64 - 1, 2 ^ 64 - 1, 7⟩ (by decide)⟩

/-- C13 fails on the code: the wide element `(2^64 - 5, 2^64 - 1, 3)`, whose limbs are
below `2^126` and whose value is `p = 2^130 - 5`, is returned unchanged by
`carry_round_KC_final` followed by `reduce_KC` (value `p`, not `0`); and
`(2^65 - 1, 2^64 - 1, 3)`, of residue `2^64 + 4`, is mapped to `(4, 0, 0)`. The carries of
the trial addition of `DELTA` in `reduce_KC` are computed on 64-bit sums and are always
zero. -/
theorem C13_carry_round_then_reduce_KC_not_mod :
    (⟨2 ^ 64 - 5, 2 ^ 64 - 1, 3⟩ : KC64.dfield_elem_t).value = PRIME ∧
    KC64.reduce_KC (KC64.carry_round_KC_final ⟨2 ^ 64 - 5, 2 ^ 64 - 1, 3⟩) =
      ⟨2 ^ 64 - 5, 2 ^ 64 - 1, 3⟩ ∧
    (KC64.reduce_KC (KC64.carry_round_KC_final ⟨2 ^ 64 - 5, 2 ^ 64 - 1, 3⟩)).value ≠
      (⟨2 ^ 64 - 5, 2 ^ 64 - 1, 3⟩ : KC64.dfield_elem_t).value % PRIME ∧
    KC64.carry_round_KC_final ⟨2 ^ 65 - 1, 2 ^ 64 - 1, 3⟩ = ⟨2 ^ 64 - 1, 0, 4⟩ ∧
    KC64.reduce_KC (KC64.carry_round_KC_final ⟨2 ^ 65 - 1, 2 ^ 64 - 1, 3⟩) = ⟨4, 0, 0⟩ ∧
    (⟨2 ^ 65 - 1, 2 ^ 64 - 1, 3⟩ : KC64.dfield_elem_t).value % PRIME = 2 ^ 64 + 4 := by
  decide

/-! ## Claim C18: the byte transform -/

/-- C18: `identity_inline_transform(out, out_len, in, in_len)` writes exactly `out_len`
bytes, with `out[i] = in[i]` for every `i < min(in_len, out_len)` and `out[i] = 0` for every
`in_len ≤ i < out_len`; when the two lengths are equal the output is the input. -/
theorem C18_identity_inline_transform_truncates_or_zero_extends (out_len : Nat) (inp : Ptr)
    (in_len : Nat) :
    (identity_inline_transform out_len inp in_len).length = out_len ∧
      (∀ i, i < min in_len out_len →
        (identity_inline_transform out_len inp in_len).getD i 0 = inp i) ∧
      (∀ i, in_len ≤ i → i < out_len →
        (identity_inline_transform out_len inp in_len).getD i 0 = 0) ∧
      (in_len = out_len → identity_inline_transform out_len inp in_len = inp.bytes in_len) := by
  unfold identity_inline_transform Ptr.bytes
  by_cases h : in_len ≥ out_len
  · simp only [if_pos h]
    refine ⟨by simp, ?_, ?_, ?_⟩
    · intro i hi
      have hi2 : i < out_len := lt_of_lt_of_le hi (min_le_right _ _)
      simp [List.getD_eq_getElem?_getD, hi2]
    · intro i h1 h2
      omega
    · intro he
      rw [he]
  · simp only [if_neg h]
    refine ⟨by simp, ?_, ?_, ?_⟩
    · intro i hi
      have hi1 : i < in_len := lt_of_lt_of_le hi (min_le_left _ _)
      have hi2 : i < out_len := lt_of_lt_of_le hi (min_le_right _ _)
      simp [List.getD_eq_getElem?_getD, hi1, hi2]
    · intro i h1 h2
      have : ¬ i < in_len := by omega
      simp [List.getD_eq_getElem?_getD, h2, this]
    · intro he
      omega

theorem C18_identity_inline_transform_truncates_or_zero_extends_witness :
    (identity_inline_transform 5 (ofBuf [1, 2, 3]) 3).length = 5 ∧
      (∀ i, i < min 3 5 → (identity_inline_transform 5 (ofBuf [1, 2, 3]) 3).getD i 0 =
        ofBuf [1, 2, 3] i) ∧
      (∀ i, 3 ≤ i → i < 5 → (identity_inline_transform 5 (ofBuf [1, 2, 3]) 3).getD i 0 = 0) ∧
      (3 = 5 → identity_inline_transform 5 (ofBuf [1, 2, 3]) 3 = (ofBuf [1, 2, 3]).bytes 3) :=
  C18_identity_inline_transform_truncates_or_zero_extends 5 (ofBuf [1, 2, 3]) 3

/-! ## Claim C17: the two-key concatenated strategy -/

section TwoKeyLemmas

variable {F : Type} [CommRing F]

theorem classical_Horner_PK_1B_Delay_b_2C_bis_loop_spec (A : FieldArith F) (k0 k1 : F) :
    ∀ (inlen : Nat) (inp : Ptr) (h0 h1 : F), 0 < inlen →
      0 < (classical_Horner_PK_1B_Delay_b_2C_bis_loop A k0 k1 inp inlen
        (h0 * k0) (h1 * k1)).2.1 ∧
      (classical_Horner_PK_1B_Delay_b_2C_bis_loop A k0 k1 inp inlen (h0 * k0) (h1 * k1)).2.2.1 +
        A.unpack_and_encode_last_field_elem
          (classical_Horner_PK_1B_Delay_b_2C_bis_loop A k0 k1 inp inlen (h0 * k0) (h1 * k1)).1
          (classical_Horner_PK_1B_Delay_b_2C_bis_loop A k0 k1 inp inlen
            (h0 * k0) (h1 * k1)).2.1 =
        hornerFrom k0 h0 (encodedBlocks A inp inlen) ∧
      (classical_Horner_PK_1B_Delay_b_2C_bis_loop A k0 k1 inp inlen (h0 * k0) (h1 * k1)).2.2.2 +
        A.unpack_and_encode_last_field_elem
          (classical_Horner_PK_1B_Delay_b_2C_bis_loop A k0 k1 inp inlen (h0 * k0) (h1 * k1)).1
          (classical_Horner_PK_1B_Delay_b_2C_bis_loop A k0 k1 inp inlen
            (h0 * k0) (h1 * k1)).2.1 =
        hornerFrom k1 h1 (encodedBlocks A inp inlen) := by
  intro inlen
  induction inlen using Nat.strong_induction_on with
  | _ inlen ih =>
    intro inp h0 h1 hpos
    have hB := A.BLOCKSIZE_pos
    rw [classical_Horner_PK_1B_Delay_b_2C_bis_loop]
    by_cases hgt : inlen > A.BLOCKSIZE
    · simp only [hgt, if_true]
      have := ih (inlen - A.BLOCKSIZE) (by omega) (inp.add A.BLOCKSIZE)
        (h0 * k0 + A.unpack_and_encode_field_elem inp)
        (h1 * k1 + A.unpack_and_encode_field_elem inp) (by omega)
      rw [encodedBlocks_step A inp hgt, hornerFrom_cons, hornerFrom_cons]
      simpa [field_add, field_mul_precomputed_no_carry, carry_round] using this
    · simp only [hgt, if_false]
      refine ⟨hpos, ?_, ?_⟩
      · rw [encodedBlocks_small A inp hpos (by omega)]
        simp [hornerFrom]
      · rw [encodedBlocks_small A inp hpos (by omega)]
        simp [hornerFrom]

/-- The evaluation point unpacked from `n` key bytes. -/
theorem classical_Horner_PK_1B_Delay_b_2C_bis_acc_eq (A : FieldArith F) (inp : Ptr)
    (inlen : Nat) (key : Ptr) (h0 : 0 < inlen) :
    classical_Horner_PK_1B_Delay_b_2C_bis_acc A inp inlen key =
      (hornerSeq (A.unpack_field_elem (ofBuf (transform_key A.BUFFSIZE key (A.KEYSIZE / 2))))
          (encodedBlocks A inp inlen),
        hornerSeq (A.unpack_field_elem (ofBuf (transform_key A.BUFFSIZE
          (key.add (A.KEYSIZE / 2)) (A.KEYSIZE / 2)))) (encodedBlocks A inp inlen)) := by
  have hs := classical_Horner_PK_1B_Delay_b_2C_bis_loop_spec A
    (A.unpack_field_elem (ofBuf (transform_key A.BUFFSIZE key (A.KEYSIZE / 2))))
    (A.unpack_field_elem (ofBuf (transform_key A.BUFFSIZE
      (key.add (A.KEYSIZE / 2)) (A.KEYSIZE / 2)))) inlen inp 0 0 h0
  rw [zero_mul, zero_mul] at hs
  obtain ⟨hpos, hv0, hv1⟩ := hs
  rw [hornerSeq_eq_hornerFrom_zero, hornerSeq_eq_hornerFrom_zero, ← hv0, ← hv1]
  simp only [classical_Horner_PK_1B_Delay_b_2C_bis_acc, precompute_factor, field_add,
    _carry_round, reduce]
  rw [if_pos (Nat.pos_iff_ne_zero.mp hpos)]

theorem identity_inline_transform_length (out_len : Nat) (inp : Ptr) (in_len : Nat) :
    (identity_inline_transform out_len inp in_len).length = out_len := by
  unfold identity_inline_transform Ptr.bytes
  split <;> simp

theorem identity_inline_transform_congr (out_len : Nat) (p q : Ptr) (in_len : Nat)
    (h : ∀ i, i < in_len → p i = q i) :
    identity_inline_transform out_len p in_len = identity_inline_transform out_len q in_len := by
  unfold identity_inline_transform Ptr.bytes
  by_cases hl : in_len ≥ out_len
  · simp only [if_pos hl]
    apply List.map_congr_left
    intro i hi
    exact h i (lt_of_lt_of_le (List.mem_range.mp hi) hl)
  · simp only [if_neg hl]
    apply List.map_congr_left
    intro i _
    by_cases hi : i < in_len
    · simp only [if_pos hi]
      exact h i hi
    · simp only [if_neg hi]

theorem identity_inline_transform_take (n m : Nat) (hnm : n ≤ m) (p : Ptr) (in_len : Nat) :
    (identity_inline_transform m p in_len).take n = identity_inline_transform n p in_len := by
  apply List.ext_getElem
  · rw [List.length_take, identity_inline_transform_length, identity_inline_transform_length]
    omega
  · intro i h1 h2
    rw [identity_inline_transform_length] at h2
    rw [List.getElem_take]
    unfold identity_inline_transform Ptr.bytes
    by_cases ha : in_len ≥ m
    · have hb : in_len ≥ n := by omega
      simp [ha, hb]
    · by_cases hb : in_len ≥ n
      · have : i < in_len := by omega
        simp [ha, hb, this]
      · simp [ha, hb]

/-- The two sub-tags written by `classical_Horner_PK_1B_Delay_b_2C_bis`. -/
theorem classical_Horner_PK_1B_Delay_b_2C_bis_halves (A : FieldArith F) (inp : Ptr)
    (inlen : Nat) (key : Ptr) (h0 : 0 < inlen) :
    (classical_Horner_PK_1B_Delay_b_2C_bis A inp inlen key).take (A.OUTPUTSIZE / 2) =
        transform_field_elem (A.OUTPUTSIZE / 2) (ofBuf (A.pack_field_elem
          (hornerSeq (A.unpack_field_elem (ofBuf (transform_key A.BUFFSIZE key
            (A.KEYSIZE / 2)))) (encodedBlocks A inp inlen)))) A.BUFFSIZE ∧
      (classical_Horner_PK_1B_Delay_b_2C_bis A inp inlen key).drop (A.OUTPUTSIZE / 2) =
        transform_field_elem (A.OUTPUTSIZE / 2) (ofBuf (A.pack_field_elem
          (hornerSeq (A.unpack_field_elem (ofBuf (transform_key A.BUFFSIZE
            (key.add (A.KEYSIZE / 2)) (A.KEYSIZE / 2)))) (encodedBlocks A inp inlen))))
          A.BUFFSIZE := by
  have hne : inlen ≠ 0 := by omega
  have hl : ∀ (p : Ptr), (transform_field_elem (A.OUTPUTSIZE / 2) p A.BUFFSIZE).length =
      A.OUTPUTSIZE / 2 := fun p => identity_inline_transform_length _ _ _
  simp only [classical_Horner_PK_1B_Delay_b_2C_bis, if_neg hne,
    classical_Horner_PK_1B_Delay_b_2C_bis_acc_eq A inp inlen key h0]
  exact ⟨List.take_left' (hl _), List.drop_left' (hl _)⟩

theorem classical_Horner_PK_1B_Delay_b_halfKey (A : FieldArith F) (inp : Ptr)
    (inlen : Nat) (key : Ptr) (h0 : 0 < inlen) :
    (classical_Horner_PK_1B_Delay_b (halfKey A) inp inlen key).take (A.OUTPUTSIZE / 2) =
      transform_field_elem (A.OUTPUTSIZE / 2) (ofBuf (A.pack_field_elem
        (hornerSeq (A.unpack_field_elem (ofBuf (transform_key A.BUFFSIZE key
          (A.KEYSIZE / 2)))) (encodedBlocks A inp inlen)))) A.BUFFSIZE := by
  have hne : inlen ≠ 0 := by omega
  rw [classical_Horner_PK_1B_Delay_b, if_neg hne,
    classical_Horner_PK_1B_Delay_b_acc_eq (halfKey A) inp inlen key h0]
  exact identity_inline_transform_take (A.OUTPUTSIZE / 2) A.OUTPUTSIZE
    (Nat.div_le_self _ _) _ _

end TwoKeyLemmas

/-- C17: in `classical_Horner_PK_1B_Delay_b_2C_bis` (exact field arithmetic, identity
transforms), for every non-empty message the first `OUTPUTSIZE / 2` output bytes are the
first `OUTPUTSIZE / 2` bytes of the single-key sequential Horner tag
(`classical_Horner_PK_1B_Delay_b`) under the half-key at `key`, the last `OUTPUTSIZE / 2`
bytes are those of the tag under the half-key at `key + KEYSIZE / 2`; hence the first
sub-tag is the same for two keys that agree on the bytes `[0, KEYSIZE / 2)` and the second
for two keys that agree on the bytes `[KEYSIZE / 2, KEYSIZE)`. -/
theorem C17_2C_bis_subtags_depend_on_own_half_key {F : Type} [CommRing F] (A : FieldArith F)
    (inp : Ptr) (inlen : Nat) (key key2 : Ptr) (h0 : 0 < inlen) :
    (classical_Horner_PK_1B_Delay_b_2C_bis A inp inlen key).take (A.OUTPUTSIZE / 2) =
        (classical_Horner_PK_1B_Delay_b (halfKey A) inp inlen key).take (A.OUTPUTSIZE / 2) ∧
      (classical_Horner_PK_1B_Delay_b_2C_bis A inp inlen key).drop (A.OUTPUTSIZE / 2) =
        (classical_Horner_PK_1B_Delay_b (halfKey A) inp inlen
          (key.add (A.KEYSIZE / 2))).take (A.OUTPUTSIZE / 2) ∧
      ((∀ i, i < A.KEYSIZE / 2 → key i = key2 i) →
        (classical_Horner_PK_1B_Delay_b_2C_bis A inp inlen key).take (A.OUTPUTSIZE / 2) =
          (classical_Horner_PK_1B_Delay_b_2C_bis A inp inlen key2).take (A.OUTPUTSIZE / 2)) ∧
      ((∀ i, A.KEYSIZE / 2 ≤ i → i < A.KEYSIZE → key i = key2 i) →
        (classical_Horner_PK_1B_Delay_b_2C_bis A inp inlen key).drop (A.OUTPUTSIZE / 2) =
          (classical_Horner_PK_1B_Delay_b_2C_bis A inp inlen key2).drop (A.OUTPUTSIZE / 2)) := by
  obtain ⟨ht, hd⟩ := classical_Horner_PK_1B_Delay_b_2C_bis_halves A inp inlen key h0
  obtain ⟨ht2, hd2⟩ := classical_Horner_PK_1B_Delay_b_2C_bis_halves A inp inlen key2 h0
  refine ⟨?_, ?_, ?_, ?_⟩
  · rw [ht, classical_Horner_PK_1B_Delay_b_halfKey A inp inlen key h0]
  · rw [hd, classical_Horner_PK_1B_Delay_b_halfKey A inp inlen _ h0]
  · intro hk
    have e : transform_key A.BUFFSIZE key (A.KEYSIZE / 2) =
        transform_key A.BUFFSIZE key2 (A.KEYSIZE / 2) :=
      identity_inline_transform_congr _ _ _ _ hk
    rw [ht, ht2, e]
  · intro hk
    have e : transform_key A.BUFFSIZE (key.add (A.KEYSIZE / 2)) (A.KEYSIZE / 2) =
        transform_key A.BUFFSIZE (key2.add (A.KEYSIZE / 2)) (A.KEYSIZE / 2) := by
      apply identity_inline_transform_congr
      intro i hi
      exact hk (A.KEYSIZE / 2 + i) (by omega) (by omega)
    rw [hd, hd2, e]

theorem C17_2C_bis_subtags_depend_on_own_half_key_witness :
    0 < 40 ∧
    ((classical_Horner_PK_1B_Delay_b_2C_bis KC_1305_32 (fun i => Fin.ofNat i) 40
          (fun _ => 3)).take (KC_1305_32.OUTPUTSIZE / 2) =
        (classical_Horner_PK_1B_Delay_b (halfKey KC_1305_32) (fun i => Fin.ofNat i) 40
          (fun _ => 3)).take (KC_1305_32.OUTPUTSIZE / 2) ∧
      (classical_Horner_PK_1B_Delay_b_2C_bis KC_1305_32 (fun i => Fin.ofNat i) 40
          (fun _ => 3)).drop (KC_1305_32.OUTPUTSIZE / 2) =
        (classical_Horner_PK_1B_Delay_b (halfKey KC_1305_32) (fun i => Fin.ofNat i) 40
          (Ptr.add (fun _ => 3) (KC_1305_32.KEYSIZE / 2))).take (KC_1305_32.OUTPUTSIZE / 2) ∧
      ((∀ i, i < KC_1305_32.KEYSIZE / 2 →
          (fun _ => 3 : Ptr) i = (fun i => if i < 8 then 3 else 7 : Ptr) i) →
        (classical_Horner_PK_1B_Delay_b_2C_bis KC_1305_32 (fun i => Fin.ofNat i) 40
            (fun _ => 3)).take (KC_1305_32.OUTPUTSIZE / 2) =
          (classical_Horner_PK_1B_Delay_b_2C_bis KC_1305_32 (fun i => Fin.ofNat i) 40
            (fun i => if i < 8 then 3 else 7)).take (KC_1305_32.OUTPUTSIZE / 2)) ∧
      ((∀ i, KC_1305_32.KEYSIZE / 2 ≤ i → i < KC_1305_32.KEYSIZE →
          (fun _ => 3 : Ptr) i = (fun i => if i < 8 then 3 else 7 : Ptr) i) →
        (classical_Horner_PK_1B_Delay_b_2C_bis KC_1305_32 (fun i => Fin.ofNat i) 40
            (fun _ => 3)).drop (KC_1305_32.OUTPUTSIZE / 2) =
          (classical_Horner_PK_1B_Delay_b_2C_bis KC_1305_32 (fun i => Fin.ofNat i) 40
            (fun i => if i < 8 then 3 else 7)).drop (KC_1305_32.OUTPUTSIZE / 2))) :=
  ⟨by decide, C17_2C_bis_subtags_depend_on_own_half_key KC_1305_32 (fun i => Fin.ofNat i) 40
    (fun _ => 3) (fun i => if i < 8 then 3 else 7) (by decide)⟩

/-! ## Claims C19 and C20: the keystream generator -/

theorem init_idx (cipher : StreamCipher) (st : key_expansion_state_t) (key : Ptr) :
    (init cipher st key).idx = 0 := rfl

/-- A request that fits the buffered bytes is served from `_state.bytes[_state.idx ..]` and
leaves the state, `idx` included, as it was. -/
theorem get_buffered (cipher : StreamCipher) (st : key_expansion_state_t) (len : Nat)
    (hidx : st.idx ≤ MAX_RAND_BYTES) (hlen : len ≤ MAX_RAND_BYTES - st.idx) :
    get cipher st len = (copy_bytes st st.idx len, st) := by
  have h : len ≤ (MAX_RAND_BYTES + 2 ^ 64 - st.idx % 2 ^ 64) % 2 ^ 64 := by
    simp only [MAX_RAND_BYTES] at *
    omega
  simp only [get, if_pos h]

theorem copy_bytes_init (cipher : StreamCipher) (st : key_expansion_state_t) (key : Ptr)
    (len : Nat) (h : len ≤ MAX_RAND_BYTES) :
    copy_bytes (init cipher st key) 0 len =
      (List.range len).map (fun i => cipher (key.bytes crypto_stream_chacha20_KEYBYTES)
        (crypto_stream_chacha20_KEYBYTES + i)) := by
  unfold copy_bytes
  apply List.map_congr_left
  intro i hi
  have hi2 : i < len := List.mem_range.mp hi
  simp only [init, stream_tmp, MAX_RAND_BYTES, crypto_stream_chacha20_KEYBYTES] at *
  have hlt : 0 + i < (List.take 512 (List.drop 32 (List.map
      (cipher (key.bytes 32)) (List.range (512 + 32))))).length := by
    simp
    omega
  rw [List.getD_eq_getElem _ _ hlt]
  simp

/-- After `init(key)`, a request of at most `MAX_RAND_BYTES` bytes returns the stream bytes
that follow the next key, and leaves the state as `init` set it. -/
theorem get_after_init (cipher : StreamCipher) (st : key_expansion_state_t) (key : Ptr)
    (len : Nat) (h : len ≤ MAX_RAND_BYTES) :
    get cipher (init cipher st key) len =
      ((List.range len).map (fun i => cipher (key.bytes crypto_stream_chacha20_KEYBYTES)
        (crypto_stream_chacha20_KEYBYTES + i)), init cipher st key) := by
  rw [get_buffered cipher _ len (by rw [init_idx]; exact Nat.zero_le _)
    (by rw [init_idx]; exact h), init_idx, copy_bytes_init cipher st key len h]

/-- After `init(key)`, of two requests of at most `MAX_RAND_BYTES` bytes the second returns
what it would have returned as first request. -/
theorem get_twice_after_init (cipher : StreamCipher) (st : key_expansion_state_t) (key : Ptr)
    (n1 n2 : Nat) (h1 : n1 ≤ MAX_RAND_BYTES) :
    (get cipher (get cipher (init cipher st key) n1).2 n2).1 =
      (get cipher (init cipher st key) n2).1 := by
  rw [get_after_init cipher st key n1 h1]

/-- C19 fails on the code: with the stream cipher whose byte at position `i` is `i mod 256`,
`init(key); get(a, 1); get(b, 1)` returns `a = b = [32]`, the first buffered byte twice,
although `init(key); get(c, 2)` returns `c = [32, 33]`: in the branch `len <= avail`, `get`
does not advance `_state.idx`. -/
theorem C19_get_repeats_buffered_bytes :
    (get (fun _ i => Fin.ofNat i) (init (fun _ i => Fin.ofNat i) ⟨0, [], []⟩ (fun _ => 0))
        1).1 = [32] ∧
      (get (fun _ i => Fin.ofNat i)
        (get (fun _ i => Fin.ofNat i) (init (fun _ i => Fin.ofNat i) ⟨0, [], []⟩ (fun _ => 0))
          1).2 1).1 = [32] ∧
      (get (fun _ i => Fin.ofNat i) (init (fun _ i => Fin.ofNat i) ⟨0, [], []⟩ (fun _ => 0))
        2).1 = [32, 33] ∧
      (get (fun _ i => Fin.ofNat i) (init (fun _ i => Fin.ofNat i) ⟨0, [], []⟩ (fun _ => 0))
          1).1 ++
        (get (fun _ i => Fin.ofNat i)
          (get (fun _ i => Fin.ofNat i)
            (init (fun _ i => Fin.ofNat i) ⟨0, [], []⟩ (fun _ => 0)) 1).2 1).1 ≠
        (get (fun _ i => Fin.ofNat i) (init (fun _ i => Fin.ofNat i) ⟨0, [], []⟩ (fun _ => 0))
          2).1 := by
  simp only [get_after_init _ _ _ 1 (by decide), get_after_init _ _ _ 2 (by decide)]
  decide

/-- C20: for every key and message, the bytes written by `SQH_NoDelay` and the generator
state it leaves are the same from every prior generator state, for a non-empty message
because `init(key)` overwrites the three fields of the state before `get` reads them; in
particular a second call returns the bytes of the first whatever state the calls in between
left. -/
theorem C20_SQH_NoDelay_independent_of_generator_state {F : Type} [CommRing F]
    (A : FieldArith F) (cipher : StreamCipher) (st st2 : key_expansion_state_t)
    (inp : Ptr) (inlen : Nat) (key : Ptr) :
    init cipher st key = init cipher st2 key ∧
      (SQH_NoDelay A cipher st inp inlen key).1 = (SQH_NoDelay A cipher st2 inp inlen key).1 ∧
      (inlen ≠ 0 →
        (SQH_NoDelay A cipher st inp inlen key).2 = (SQH_NoDelay A cipher st2 inp inlen key).2) ∧
      (SQH_NoDelay A cipher (SQH_NoDelay A cipher st inp inlen key).2 inp inlen key).1 =
        (SQH_NoDelay A cipher st inp inlen key).1 := by
  have hi : ∀ s s2 : key_expansion_state_t, init cipher s key = init cipher s2 key :=
    fun _ _ => rfl
  have ho : ∀ s s2 : key_expansion_state_t,
      (SQH_NoDelay A cipher s inp inlen key).1 = (SQH_NoDelay A cipher s2 inp inlen key).1 := by
    intro s s2
    unfold SQH_NoDelay
    by_cases h0 : inlen = 0
    · simp only [if_pos h0]
    · simp only [if_neg h0, hi s s2]
  refine ⟨hi st st2, ho st st2, ?_, ho _ _⟩
  intro h0
  unfold SQH_NoDelay
  simp only [if_neg h0, hi st st2]

theorem C20_SQH_NoDelay_independent_of_generator_state_witness :
    init (fun _ i => Fin.ofNat i) ⟨0, [], []⟩ (fun _ => 7) =
        init (fun _ i => Fin.ofNat i) ⟨5, [1], [2]⟩ (fun _ => 7) ∧
      (SQH_NoDelay KC_1305_32 (fun _ i => Fin.ofNat i) ⟨0, [], []⟩ (fun i => Fin.ofNat i) 40
          (fun _ => 7)).1 =
        (SQH_NoDelay KC_1305_32 (fun _ i => Fin.ofNat i) ⟨5, [1], [2]⟩ (fun i => Fin.ofNat i) 40
          (fun _ => 7)).1 ∧
      (40 ≠ 0 →
        (SQH_NoDelay KC_1305_32 (fun _ i => Fin.ofNat i) ⟨0, [], []⟩ (fun i => Fin.ofNat i) 40
            (fun _ => 7)).2 =
          (SQH_NoDelay KC_1305_32 (fun _ i => Fin.ofNat i) ⟨5, [1], [2]⟩ (fun i => Fin.ofNat i)
            40 (fun _ => 7)).2) ∧
      (SQH_NoDelay KC_1305_32 (fun _ i => Fin.ofNat i)
          (SQH_NoDelay KC_1305_32 (fun _ i => Fin.ofNat i) ⟨0, [], []⟩ (fun i => Fin.ofNat i) 40
            (fun _ => 7)).2 (fun i => Fin.ofNat i) 40 (fun _ => 7)).1 =
        (SQH_NoDelay KC_1305_32 (fun _ i => Fin.ofNat i) ⟨0, [], []⟩ (fun i => Fin.ofNat i) 40
          (fun _ => 7)).1 :=
  C20_SQH_NoDelay_independent_of_generator_state KC_1305_32 (fun _ i => Fin.ofNat i)
    ⟨0, [], []⟩ ⟨5, [1], [2]⟩ (fun i => Fin.ofNat i) 40 (fun _ => 7)

/-! ## Claims C21 and C22: the carry rounds of the 32-bit header -/

/-- C21 fails on the code: on the wide element `(2^32 - 1, 2^32 - 1, 0, 0, 4)`, of residue
`2^64 + 4`, `carry_round_KC_1305_32` returns `(4, 0, 0, 0, 0)`: the last carry is added to
`res->val[1]` modulo `2^32` and lost. On `(0, 0, 0, 0, 2^34)`, of residue `5 * 2^32`, it
returns the zero vector: the carry `a->val[4] >> 2` is truncated to a `uint32_t`. -/
theorem C21_carry_round_KC_1305_32_loses_carry :
    carry_round_KC_1305_32 ⟨2 ^ 32 - 1, 2 ^ 32 - 1, 0, 0, 4⟩ = ⟨4, 0, 0, 0, 0⟩ ∧
    (⟨2 ^ 32 - 1, 2 ^ 32 - 1, 0, 0, 4⟩ : dfield_elem_t).value % PRIME = 2 ^ 64 + 4 ∧
    (carry_round_KC_1305_32 ⟨2 ^ 32 - 1, 2 ^ 32 - 1, 0, 0, 4⟩).value % PRIME ≠
      (⟨2 ^ 32 - 1, 2 ^ 32 - 1, 0, 0, 4⟩ : dfield_elem_t).value % PRIME ∧
    carry_round_KC_1305_32 ⟨0, 0, 0, 0, 2 ^ 34⟩ = ⟨0, 0, 0, 0, 0⟩ ∧
    (⟨0, 0, 0, 0, 2 ^ 34⟩ : dfield_elem_t).value % PRIME = 5 * 2 ^ 32 := by
  decide

/-- C22 as stated fails: on the wide element `(0, 0, 0, 2^61, 0)` the non-final round
`carry_round_KC` returns `(0, 0, 0, 0, 2^29)`, whose value `2^157` is not below `2p`. -/
theorem C22_counterexample :
    carry_round_KC ⟨0, 0, 0, 2 ^ 61, 0⟩ = ⟨0, 0, 0, 0, 2 ^ 29⟩ ∧
      ¬ (carry_round_KC ⟨0, 0, 0, 2 ^ 61, 0⟩).value < 2 * PRIME := by
  decide

theorem carry_round_KC_spec (a : dfield_elem_t) (h0 : a.val0 < 2 ^ 62)
    (h1 : a.val1 < 2 ^ 62) (h2 : a.val2 < 2 ^ 62) (h3 : a.val3 < 2 ^ 62)
    (h4 : a.val4 < 2 ^ 62) :
    a.value = (carry_round_KC a).value + (a.val4 / 4) * PRIME ∧
      (carry_round_KC a).val0 < 2 ^ 32 ∧ (carry_round_KC a).val1 < 2 ^ 32 ∧
      (carry_round_KC a).val2 < 2 ^ 32 ∧ (carry_round_KC a).val3 < 2 ^ 32 ∧
      (carry_round_KC a).val4 ≤ 2 ^ 30 + 3 := by
  obtain ⟨a0, a1, a2, a3, a4⟩ := a
  simp only [carry_round_KC, dfield_elem_t.value, field_elem_t.value, u32, u64,
    LAST_FIELDELEM_BLOCKSIZE, PI, DELTA, PRIME] at *
  norm_num at *
  simp (disch := omega) only [Nat.mod_eq_of_lt]
  omega

/-- C22, amended: for every wide element `a` of the 32-bit header (`OUTER_PARAM3 = 0`) with
all limbs below `2^62`, `carry_round_KC` returns `r` with `V(r) ≡ V(a)` modulo
`p = 2^130 - 5`, `r.val[0..3] < 2^32` and `r.val[4] ≤ 2^30 + 3`, so `V(r) < 2^159`; the top
limb takes the whole carry out of limb 3 and `V(r) < 2p` is not guaranteed. -/
theorem C22_carry_round_KC_congruent (a : dfield_elem_t) (h0 : a.val0 < 2 ^ 62)
    (h1 : a.val1 < 2 ^ 62) (h2 : a.val2 < 2 ^ 62) (h3 : a.val3 < 2 ^ 62)
    (h4 : a.val4 < 2 ^ 62) :
    (carry_round_KC a).value % PRIME = a.value % PRIME ∧
      (carry_round_KC a).val0 < 2 ^ 32 ∧ (carry_round_KC a).val1 < 2 ^ 32 ∧
      (carry_round_KC a).val2 < 2 ^ 32 ∧ (carry_round_KC a).val3 < 2 ^ 32 ∧
      (carry_round_KC a).val4 ≤ 2 ^ 30 + 3 ∧
      (carry_round_KC a).value < 2 ^ 159 := by
  obtain ⟨hv, b0, b1, b2, b3, b4⟩ := carry_round_KC_spec a h0 h1 h2 h3 h4
  refine ⟨?_, b0, b1, b2, b3, b4, ?_⟩
  · rw [hv, Nat.add_mul_mod_self_right]
  · simp only [field_elem_t.value] at *
    norm_num at *
    omega

theorem C22_carry_round_KC_congruent_witness :
    (2 ^ 62 - 1 < 2 ^ 62) ∧
    ((carry_round_KC ⟨2 ^ 62 - 1, 2 ^ 62 - 1, 2 ^ 62 - 1, 2 ^ 62 - 1, 2 ^ 62 - 1⟩).value
          % PRIME =
        (⟨2 ^ 62 - 1, 2 ^ 62 - 1, 2 ^ 62 - 1, 2 ^ 62 - 1, 2 ^ 62 - 1⟩ : dfield_elem_t).value
          % PRIME ∧
      (carry_round_KC ⟨2 ^ 62 - 1, 2 ^ 62 - 1, 2 ^ 62 - 1, 2 ^ 62 - 1, 2 ^ 62 - 1⟩).val0
        < 2 ^ 32 ∧
      (carry_round_KC ⟨2 ^ 62 - 1, 2 ^ 62 - 1, 2 ^ 62 - 1, 2 ^ 62 - 1, 2 ^ 62 - 1⟩).val1
        < 2 ^ 32 ∧
      (carry_round_KC ⟨2 ^ 62 - 1, 2 ^ 62 - 1, 2 ^ 62 - 1, 2 ^ 62 - 1, 2 ^ 62 - 1⟩).val2
        < 2 ^ 32 ∧
      (carry_round_KC ⟨2 ^ 62 - 1, 2 ^ 62 - 1, 2 ^ 62 - 1, 2 ^ 62 - 1, 2 ^ 62 - 1⟩).val3
        < 2 ^ 32 ∧
      (carry_round_KC ⟨2 ^ 62 - 1, 2 ^ 62 - 1, 2 ^ 62 - 1, 2 ^ 62 - 1, 2 ^ 62 - 1⟩).val4
        ≤ 2 ^ 30 + 3 ∧
      (carry_round_KC ⟨2 ^ 62 - 1, 2 ^ 62 - 1, 2 ^ 62 - 1, 2 ^ 62 - 1, 2 ^ 62 - 1⟩).value
        < 2 ^ 159) :=
  ⟨by decide,
    C22_carry_round_KC_congruent ⟨2 ^ 62 - 1, 2 ^ 62 - 1, 2 ^ 62 - 1, 2 ^ 62 - 1,
      2 ^ 62 - 1⟩ (by decide) (by decide) (by decide) (by decide) (by decide)⟩

/-! ## Claim C24: the two block encoders on a complete block -/

/-- C24: for every 16-byte block `b`, `unpack_and_encode_last_field_elem_KC_32(b, 16)`
returns the same five limbs as `unpack_and_encode_field_elem_KC_32(b)`, of value
`LE(b) + 2^128`; so the configuration `KC_1305_32` encodes a complete final block in the same
way on the full-block and on the last-block path. -/
theorem C24_KC_32_encoders_agree_on_complete_block (b : Ptr) :
    unpack_and_encode_last_field_elem_KC_32 b 16 = unpack_and_encode_field_elem_KC_32 b ∧
      (unpack_and_encode_field_elem_KC_32 b).value = LE b 16 + 2 ^ 128 ∧
      KC_1305_32.unpack_and_encode_last_field_elem b KC_1305_32.BLOCKSIZE =
        KC_1305_32.unpack_and_encode_field_elem b := by
  have e : unpack_and_encode_last_field_elem_KC_32 b 16 =
      unpack_and_encode_field_elem_KC_32 b := by
    simp [unpack_and_encode_last_field_elem_KC_32, unpack_and_encode_field_elem_KC_32,
      load32, memcpy_into_zero]
  refine ⟨e, ?_, ?_⟩
  · rw [← e]
    exact (KC_32_last_value b 16 (le_refl _)).1
  · show ((unpack_and_encode_last_field_elem_KC_32 b 16).value : ZMod PRIME) = _
    rw [e]
    rfl

/-! ## Claim C23: multiplication by an upper-clamped 2-limb key in the 64-bit header -/

/-- C23 as stated fails: for `a = (2^64 - 1, 2^64 - 1, 0)` and the key
`b = (2^64 - 1, 2^61 - 1, 0)` the middle limb `a1 * b0 + a0 * b1` exceeds `2^128` and wraps,
and the value returned is not congruent to `V(a) * V(b)`. -/
theorem C23_counterexample :
    (⟨2 ^ 64 - 1, 2 ^ 61 - 1, 0⟩ : KC64.field_elem_t).val1 < 2 ^ 61 ∧
    ¬ (KC64.field_mul_precomputed_no_carry_KC_unbounded ⟨2 ^ 64 - 1, 2 ^ 64 - 1, 0⟩
        (KC64.precompute_factor_KC ⟨2 ^ 64 - 1, 2 ^ 61 - 1, 0⟩)).wf ∧
    KC64.field_mul_precomputed_no_carry_KC ⟨2 ^ 64 - 1, 2 ^ 64 - 1, 0⟩
        (KC64.precompute_factor_KC ⟨2 ^ 64 - 1, 2 ^ 61 - 1, 0⟩) ≠
      KC64.field_mul_precomputed_no_carry_KC_unbounded ⟨2 ^ 64 - 1, 2 ^ 64 - 1, 0⟩
        (KC64.precompute_factor_KC ⟨2 ^ 64 - 1, 2 ^ 61 - 1, 0⟩) ∧
    (KC64.field_mul_precomputed_no_carry_KC ⟨2 ^ 64 - 1, 2 ^ 64 - 1, 0⟩
        (KC64.precompute_factor_KC ⟨2 ^ 64 - 1, 2 ^ 61 - 1, 0⟩)).value % PRIME ≠
      ((⟨2 ^ 64 - 1, 2 ^ 64 - 1, 0⟩ : KC64.field_elem_t).value *
        (⟨2 ^ 64 - 1, 2 ^ 61 - 1, 0⟩ : KC64.field_elem_t).value) % PRIME := by
  decide

theorem KC64_field_mul_bounds (a b : KC64.field_elem_t) (ha0 : a.val0 < 2 ^ 64)
    (ha1 : a.val1 < 2 ^ 64) (ha2 : a.val2 < 2 ^ 32) (hb0 : b.val0 < 2 ^ 63)
    (hb1 : b.val1 < 2 ^ 61) :
    (KC64.field_mul_precomputed_no_carry_KC_unbounded a (KC64.precompute_factor_KC b)).wf := by
  obtain ⟨a0, a1, a2⟩ := a
  obtain ⟨b0, b1, b2⟩ := b
  simp only at ha0 ha1 ha2 hb0 hb1
  have e5 : u64 (u64 b1 * DELTA) = b1 * 5 := by
    simp only [u64, DELTA]
    omega
  simp only [KC64.field_mul_precomputed_no_carry_KC_unbounded, KC64.precompute_factor_KC,
    KC64.dfield_elem_t.wf, e5, LAST_FIELDELEM_BLOCKSIZE, PI, KC64.WORDSIZE]
  have p00 : a0 * b0 < 2 ^ 64 * 2 ^ 63 := mul_lt_of_lt ha0 hb0
  have p10 : a1 * b0 < 2 ^ 64 * 2 ^ 63 := mul_lt_of_lt ha1 hb0
  have p01 : a0 * b1 < 2 ^ 64 * 2 ^ 61 := mul_lt_of_lt ha0 hb1
  have p11 : a1 * b1 < 2 ^ 64 * 2 ^ 61 := mul_lt_of_lt ha1 hb1
  have p20 : a2 * b0 < 2 ^ 32 * 2 ^ 63 := mul_lt_of_lt ha2 hb0
  have p21 : a2 * (b1 * 5) < 2 ^ 32 * (2 ^ 61 * 5) :=
    mul_lt_of_lt ha2 (by omega)
  norm_num at *
  refine ⟨?_, ?_, ?_⟩ <;> omega

theorem KC64_field_mul_exact (a : KC64.field_elem_t) (b : KC64.field_elem_precomputed_t)
    (hacc : a.val2 * b.val111 < 2 ^ 128)
    (h : (KC64.field_mul_precomputed_no_carry_KC_unbounded a b).wf) :
    KC64.field_mul_precomputed_no_carry_KC a b =
      KC64.field_mul_precomputed_no_carry_KC_unbounded a b := by
  obtain ⟨a0, a1, a2⟩ := a
  obtain ⟨k0, k1, k2⟩ := b
  simp only [KC64.field_mul_precomputed_no_carry_KC_unbounded, KC64.dfield_elem_t.wf,
    LAST_FIELDELEM_BLOCKSIZE, PI, KC64.WORDSIZE] at h
  simp only at hacc
  obtain ⟨h0, h1, h2⟩ := h
  have e1 : u128 (a2 * k2) = a2 * k2 := Nat.mod_eq_of_lt hacc
  simp only [KC64.field_mul_precomputed_no_carry_KC,
    KC64.field_mul_precomputed_no_carry_KC_unbounded, e1, LAST_FIELDELEM_BLOCKSIZE, PI,
    KC64.WORDSIZE, KC64.dfield_elem_t.mk.injEq]
  simp only [u64, u128]
  norm_num at *
  refine ⟨?_, ?_, ?_⟩ <;> omega

theorem KC64_field_mul_value (a b : KC64.field_elem_t) (hb2 : b.val2 = 0)
    (hb1 : b.val1 < 2 ^ 61) :
    (KC64.field_mul_precomputed_no_carry_KC_unbounded a (KC64.precompute_factor_KC b)).value +
        PRIME * (a.val2 * b.val1 * 2 ^ 62) = a.value * b.value := by
  obtain ⟨a0, a1, a2⟩ := a
  obtain ⟨b0, b1, b2⟩ := b
  simp only at hb2 hb1
  subst hb2
  have e5 : u64 (u64 b1 * DELTA) = b1 * 5 := by
    simp only [u64, DELTA]
    omega
  simp only [KC64.field_mul_precomputed_no_carry_KC_unbounded, KC64.precompute_factor_KC,
    KC64.dfield_elem_t.value, KC64.field_elem_t.value, e5, LAST_FIELDELEM_BLOCKSIZE, PI,
    KC64.WORDSIZE, PRIME]
  have hdm := Nat.div_add_mod (a2 * (b1 * 5)) 4
  norm_num at *
  zify at *
  have hP : ((2 ^ 130 - 5 : ℕ) : ℤ) = 2 ^ 130 - 5 := by norm_num
  nlinarith [hdm]

/-- C23, amended: in the 64-bit header with `OUTER_PARAM3 = 3`, for every key `b` with
`b.val[2] = 0`, `b.val[0] < 2^63` and `b.val[1] < 2^61`, and every `a` with
`a.val[0], a.val[1] < 2^64` and `a.val[2] < 2^32`,
`field_mul_precomputed_no_carry_KC(a, precompute_factor_KC(b))` computes every limb without
wrap-around (each equals its unbounded sum, below `2^128`) and the value
`w.val[0] + w.val[1] * 2^64 + w.val[2] * 2^128` is congruent to `V(a) * V(b)` modulo
`2^130 - 5`. -/
theorem C23_field_mul_precomputed_no_carry_KC_2limb (a b : KC64.field_elem_t)
    (hb2 : b.val2 = 0) (hb0 : b.val0 < 2 ^ 63) (hb1 : b.val1 < 2 ^ 61)
    (ha0 : a.val0 < 2 ^ 64) (ha1 : a.val1 < 2 ^ 64) (ha2 : a.val2 < 2 ^ 32) :
    KC64.field_mul_precomputed_no_carry_KC a (KC64.precompute_factor_KC b) =
        KC64.field_mul_precomputed_no_carry_KC_unbounded a (KC64.precompute_factor_KC b) ∧
      (KC64.field_mul_precomputed_no_carry_KC a (KC64.precompute_factor_KC b)).wf ∧
      (KC64.field_mul_precomputed_no_carry_KC a (KC64.precompute_factor_KC b)).value % PRIME =
        (a.value * b.value) % PRIME := by
  have hwf := KC64_field_mul_bounds a b ha0 ha1 ha2 hb0 hb1
  have hacc : a.val2 * (KC64.precompute_factor_KC b).val111 < 2 ^ 128 := by
    have e5 : u64 (u64 b.val1 * DELTA) = b.val1 * 5 := by
      simp only [u64, DELTA]
      omega
    simp only [KC64.precompute_factor_KC, e5]
    have := mul_lt_of_lt ha2 (show b.val1 * 5 < 2 ^ 61 * 5 by omega)
    norm_num at *
    omega
  have hex := KC64_field_mul_exact a (KC64.precompute_factor_KC b) hacc hwf
  refine ⟨hex, by rw [hex]; exact hwf, ?_⟩
  rw [hex, ← KC64_field_mul_value a b hb2 hb1, Nat.add_mul_mod_self_left]

theorem C23_field_mul_precomputed_no_carry_KC_2limb_witness :
    (⟨2 ^ 63 - 1, 2 ^ 61 - 1, 0⟩ : KC64.field_elem_t).val2 = 0 ∧
    KC64.field_mul_precomputed_no_carry_KC ⟨2 ^ 64 - 1, 2 ^ 64 - 1, 2 ^ 32 - 1⟩
          (KC64.precompute_factor_KC ⟨2 ^ 63 - 1, 2 ^ 61 - 1, 0⟩) =
        KC64.field_mul_precomputed_no_carry_KC_unbounded ⟨2 ^ 64 - 1, 2 ^ 64 - 1, 2 ^ 32 - 1⟩
          (KC64.precompute_factor_KC ⟨2 ^ 63 - 1, 2 ^ 61 - 1, 0⟩) ∧
      (KC64.field_mul_precomputed_no_carry_KC ⟨2 ^ 64 - 1, 2 ^ 64 - 1, 2 ^ 32 - 1⟩
          (KC64.precompute_factor_KC ⟨2 ^ 63 - 1, 2 ^ 61 - 1, 0⟩)).wf ∧
      (KC64.field_mul_precomputed_no_carry_KC ⟨2 ^ 64 - 1, 2 ^ 64 - 1, 2 ^ 32 - 1⟩
          (KC64.precompute_factor_KC ⟨2 ^ 63 - 1, 2 ^ 61 - 1, 0⟩)).value % PRIME =
        ((⟨2 ^ 64 - 1, 2 ^ 64 - 1, 2 ^ 32 - 1⟩ : KC64.field_elem_t).value *
          (⟨2 ^ 63 - 1, 2 ^ 61 - 1, 0⟩ : KC64.field_elem_t).value) % PRIME :=
  ⟨rfl, C23_field_mul_precomputed_no_carry_KC_2limb ⟨2 ^ 64 - 1, 2 ^ 64 - 1, 2 ^ 32 - 1⟩
    ⟨2 ^ 63 - 1, 2 ^ 61 - 1, 0⟩ rfl (by decide) (by decide) (by decide) (by decide)
    (by decide)⟩

/-! ## Claim C28: the state of the keystream generator -/

theorem copy_bytes_length (st : key_expansion_state_t) (idx len : Nat) :
    (copy_bytes st idx len).length = len := by
  simp [copy_bytes]

theorem reseed_idx (cipher : StreamCipher) (st : key_expansion_state_t) :
    (reseed cipher st).idx = 0 := rfl

theorem reseed_bytes_length (cipher : StreamCipher) (st : key_expansion_state_t) :
    (reseed cipher st).bytes.length = MAX_RAND_BYTES := by
  simp [reseed, stream_tmp, MAX_RAND_BYTES, crypto_stream_chacha20_KEYBYTES]

theorem init_bytes_length (cipher : StreamCipher) (st : key_expansion_state_t) (key : Ptr) :
    (init cipher st key).bytes.length = MAX_RAND_BYTES := by
  simp [init, stream_tmp, MAX_RAND_BYTES, crypto_stream_chacha20_KEYBYTES]

/-- The loop of `get` keeps `idx = 0` and a full buffer, leaves less than `MAX_RAND_BYTES`
bytes to copy and writes the bytes it removed from `len`. -/
theorem get_loop_spec (cipher : StreamCipher) :
    ∀ (len : Nat) (st : key_expansion_state_t), st.idx = 0 →
      st.bytes.length = MAX_RAND_BYTES →
      (get_loop cipher st len).2.2.idx = 0 ∧
        (get_loop cipher st len).2.2.bytes.length = MAX_RAND_BYTES ∧
        (get_loop cipher st len).2.1 < MAX_RAND_BYTES ∧
        (get_loop cipher st len).1.length + (get_loop cipher st len).2.1 = len := by
  intro len
  induction len using Nat.strong_induction_on with
  | _ len ih =>
    intro st h0 hb
    rw [get_loop]
    by_cases h : len ≥ MAX_RAND_BYTES
    · simp only [if_pos h]
      obtain ⟨i1, i2, i3, i4⟩ := ih (len - MAX_RAND_BYTES)
        (by simp only [MAX_RAND_BYTES] at *; omega) (reseed cipher st) (reseed_idx _ _)
        (reseed_bytes_length _ _)
      refine ⟨i1, i2, i3, ?_⟩
      rw [List.length_append, copy_bytes_length]
      omega
    · simp only [if_neg h]
      exact ⟨h0, hb, by omega, by simp⟩

/-- One call of `get` from a state with `idx ≤ MAX_RAND_BYTES` and a full buffer. -/
theorem get_spec (cipher : StreamCipher) (st : key_expansion_state_t) (len : Nat)
    (hidx : st.idx ≤ MAX_RAND_BYTES) (hb : st.bytes.length = MAX_RAND_BYTES) :
    (get cipher st len).2.idx ≤ MAX_RAND_BYTES ∧
      (get cipher st len).2.bytes.length = MAX_RAND_BYTES ∧
      (get cipher st len).1.length = len := by
  have hav : (MAX_RAND_BYTES + 2 ^ 64 - st.idx % 2 ^ 64) % 2 ^ 64 = MAX_RAND_BYTES - st.idx := by
    simp only [MAX_RAND_BYTES] at *
    omega
  unfold get
  simp only [hav]
  by_cases h : len ≤ MAX_RAND_BYTES - st.idx
  · simp only [if_pos h]
    exact ⟨hidx, hb, copy_bytes_length _ _ _⟩
  · simp only [if_neg h]
    obtain ⟨i1, i2, i3, i4⟩ := get_loop_spec cipher (len - (MAX_RAND_BYTES - st.idx))
      (reseed cipher st) (reseed_idx _ _) (reseed_bytes_length _ _)
    refine ⟨?_, i2, ?_⟩
    · simp only [i1, MAX_RAND_BYTES] at *
      omega
    · simp only [List.length_append, copy_bytes_length]
      omega

/-- The state `_state` after `init(key)` followed by calls of `get` with the lengths
`lens`, in order. -/
theorem state_after_gets_spec (cipher : StreamCipher) (lens : List Nat) :
    ∀ (st : key_expansion_state_t), st.idx ≤ MAX_RAND_BYTES →
      st.bytes.length = MAX_RAND_BYTES →
      (lens.foldl (fun s n => (get cipher s n).2) st).idx ≤ MAX_RAND_BYTES ∧
        (lens.foldl (fun s n => (get cipher s n).2) st).bytes.length = MAX_RAND_BYTES := by
  induction lens with
  | nil => intro st h1 h2; exact ⟨h1, h2⟩
  | cons n ns ih =>
    intro st h1 h2
    obtain ⟨g1, g2, _⟩ := get_spec cipher st n h1 h2
    exact ih _ g1 g2

/-- C28: after `init(key)` and after any sequence of calls `get(out, len)`, the generator
state satisfies `_state.idx ≤ MAX_RAND_BYTES` with a buffer of `MAX_RAND_BYTES` bytes, so
the `MAX_RAND_BYTES - _state.idx` bytes at `&_state.bytes[_state.idx]` lie inside the
buffer; and the next call `get(out, len)` writes exactly `len` bytes. -/
theorem C28_generator_state_invariant (cipher : StreamCipher) (st : key_expansion_state_t)
    (key : Ptr) (lens : List Nat) (len : Nat) :
    (lens.foldl (fun s n => (get cipher s n).2) (init cipher st key)).idx ≤ MAX_RAND_BYTES ∧
      (lens.foldl (fun s n => (get cipher s n).2) (init cipher st key)).idx +
          (MAX_RAND_BYTES -
            (lens.foldl (fun s n => (get cipher s n).2) (init cipher st key)).idx) ≤
        (lens.foldl (fun s n => (get cipher s n).2) (init cipher st key)).bytes.length ∧
      (get cipher (lens.foldl (fun s n => (get cipher s n).2) (init cipher st key))
        len).1.length = len := by
  obtain ⟨h1, h2⟩ := state_after_gets_spec cipher lens (init cipher st key)
    (by rw [init_idx]; exact Nat.zero_le _) (init_bytes_length _ _ _)
  refine ⟨h1, ?_, (get_spec cipher _ len h1 h2).2.2⟩
  rw [h2]
  omega

/-! ## Claim C25: right-to-left evaluation with explicit key powers -/

section NaiveLemmas

variable {F : Type} [CommRing F]

theorem classical_Naive_Delay_a_loop_spec (A : FieldArith F) (k0 : F) (inp : Ptr) :
    ∀ (j : Nat) (k1 acc : F),
      (classical_Naive_Delay_a_loop A k0 inp (j * A.BLOCKSIZE) k1 acc).2 =
        acc + ((List.range j).map (fun i =>
          A.unpack_and_encode_field_elem (inp.add (i * A.BLOCKSIZE)) *
            (k1 * k0 ^ (j - i)))).sum := by
  intro j
  induction j with
  | zero =>
    intro k1 acc
    rw [classical_Naive_Delay_a_loop]
    simp
  | succ j ih =>
    intro k1 acc
    have hB := A.BLOCKSIZE_pos
    have hne : (j + 1) * A.BLOCKSIZE ≠ 0 := Nat.pos_iff_ne_zero.mp (Nat.mul_pos (by omega) hB)
    have hsub : (j + 1) * A.BLOCKSIZE - A.BLOCKSIZE = j * A.BLOCKSIZE := by
      rw [Nat.succ_mul, Nat.add_sub_cancel]
    rw [classical_Naive_Delay_a_loop, if_pos hne]
    simp only [hsub, ih, field_mul, field_mul_no_carry, field_add_dbl]
    rw [List.range_succ, List.map_append, List.sum_append, List.map_singleton,
      List.sum_singleton]
    have hj : j + 1 - j = 1 := by omega
    rw [hj, pow_one]
    have hs : ((List.range j).map (fun i =>
          A.unpack_and_encode_field_elem (inp.add (i * A.BLOCKSIZE)) *
            (k1 * k0 ^ (j + 1 - i)))) =
        ((List.range j).map (fun i =>
          A.unpack_and_encode_field_elem (inp.add (i * A.BLOCKSIZE)) *
            (k1 * k0 * k0 ^ (j - i)))) := by
      apply List.map_congr_left
      intro i hi
      have hi' : i < j := List.mem_range.mp hi
      have e : j + 1 - i = (j - i) + 1 := by omega
      rw [e, pow_succ]
      ring
    rw [hs]
    ring

theorem polySum_encodedBlocks (A : FieldArith F) (k : F) (e : Nat) (inp : Ptr) (inlen : Nat) :
    polySum k e (encodedBlocks A inp inlen) =
      ((List.range (nbBlocks A inlen)).map (fun i =>
        encodedBlock A inp inlen i * k ^ (nbBlocks A inlen - (i + 1) + e))).sum := by
  unfold polySum encodedBlocks
  rw [List.length_map, List.length_range]
  congr 1
  apply List.map_congr_left
  intro i hi
  have hi' : i < nbBlocks A inlen := List.mem_range.mp hi
  simp [List.getD_eq_getElem?_getD, hi']

theorem classical_Naive_Delay_a_acc_eq (A : FieldArith F) (inp : Ptr) (inlen : Nat)
    (key : Ptr) (h0 : 0 < inlen) :
    classical_Naive_Delay_a_acc A inp inlen key =
      polySum (keyElem A key) 0 (encodedBlocks A inp inlen) := by
  have hB := A.BLOCKSIZE_pos
  have hn := nbBlocks_pos A h0
  rw [polySum_encodedBlocks]
  simp only [classical_Naive_Delay_a_acc, brw_noOfBlocks, keyElem, reduce, carry_round,
    field_add_mix, field_add_dbl, field_mul, field_mul_no_carry]
  generalize hk : A.unpack_field_elem (ofBuf (transform_key A.BUFFSIZE key A.KEYSIZE)) = k
  obtain ⟨m, hm⟩ : ∃ m, nbBlocks A inlen = m + 1 := ⟨nbBlocks A inlen - 1, by omega⟩
  rw [hm]
  rcases m with _ | _ | m
  · simp [encodedBlock, hm, List.range_succ]
  · have e1 : (1 + 1 - 1) * A.BLOCKSIZE - A.BLOCKSIZE = 0 := by simp
    simp [encodedBlock, hm, List.range_succ, e1, Nat.succ_mul]
    try ring
  · have e1 : (m + 1 + 1 + 1 - 1) * A.BLOCKSIZE = (m + 2) * A.BLOCKSIZE := by
      congr 1
    have e2 : (m + 2) * A.BLOCKSIZE - A.BLOCKSIZE = (m + 1) * A.BLOCKSIZE := by
      rw [Nat.succ_mul, Nat.add_sub_cancel]
    have e3 : (m + 1) * A.BLOCKSIZE - A.BLOCKSIZE = m * A.BLOCKSIZE := by
      rw [Nat.succ_mul, Nat.add_sub_cancel]
    have c1 : m + 1 + 1 + 1 > 1 := by omega
    have c2 : m + 1 + 1 + 1 > 2 := by omega
    simp only [e1, e2, e3, if_pos c1, if_pos c2, classical_Naive_Delay_a_loop_spec]
    rw [List.range_succ, List.range_succ, List.range_succ]
    simp only [List.map_append, List.sum_append, List.map_singleton, List.sum_singleton]
    have hs : ((List.range m).map (fun i =>
          encodedBlock A inp inlen i * k ^ (m + 1 + 1 + 1 - (i + 1) + 0))) =
        ((List.range m).map (fun i =>
          A.unpack_and_encode_field_elem (inp.add (i * A.BLOCKSIZE)) *
            (k * k * k ^ (m - i)))) := by
      apply List.map_congr_left
      intro i hi
      have hi' : i < m := List.mem_range.mp hi
      have c : i + 1 < nbBlocks A inlen := by omega
      have e : m + 1 + 1 + 1 - (i + 1) + 0 = (m - i) + 2 := by omega
      simp only [encodedBlock, if_pos c, e, pow_succ]
      ring
    rw [hs]
    have b1 : m + 1 < nbBlocks A inlen := by omega
    have b2 : m + 1 + 1 < nbBlocks A inlen := by omega
    have b3 : ¬ (m + 1 + 1 + 1 < nbBlocks A inlen) := by omega
    have x1 : m + 1 + 1 + 1 - (m + 1) + 0 = 2 := by omega
    have x2 : m + 1 + 1 + 1 - (m + 1 + 1) + 0 = 1 := by omega
    have x3 : m + 1 + 1 + 1 - (m + 1 + 1 + 1) + 0 = 0 := by omega
    simp only [encodedBlock, if_pos b1, if_pos b2, if_neg b3, x1, x2, x3]
    ring

end NaiveLemmas

/-- C25: with the field operations exact in a commutative ring, for every key and every
non-empty message `classical_Naive_Delay_a` returns the packing of
`Σ_(i=1..n) m_i * k^(n-i)` of the encoded blocks `m_1, ..., m_n`, which is the value
`h_n` of sequential Horner `h_1 = m_1`, `h_i = h_(i-1) * k + m_i`. -/
theorem C25_Naive_Delay_a_eq_sequential_Horner {F : Type} [CommRing F] (A : FieldArith F)
    (inp : Ptr) (inlen : Nat) (key : Ptr) (h0 : 0 < inlen) :
    classical_Naive_Delay_a A inp inlen key =
        pack_and_transform A (polySum (keyElem A key) 0 (encodedBlocks A inp inlen)) ∧
      polySum (keyElem A key) 0 (encodedBlocks A inp inlen) =
        hornerSeq (keyElem A key) (encodedBlocks A inp inlen) := by
  have hne : inlen ≠ 0 := Nat.pos_iff_ne_zero.mp h0
  refine ⟨?_, (hornerSeq_eq_polySum _ _).symm⟩
  rw [classical_Naive_Delay_a, if_neg hne, classical_Naive_Delay_a_acc_eq A inp inlen key h0]

theorem C25_Naive_Delay_a_eq_sequential_Horner_witness :
    0 < 70 ∧
    (classical_Naive_Delay_a KC_1305_32 (fun i => Fin.ofNat i) 70 (fun _ => 3) =
        pack_and_transform KC_1305_32 (polySum (keyElem KC_1305_32 (fun _ => 3)) 0
          (encodedBlocks KC_1305_32 (fun i => Fin.ofNat i) 70)) ∧
      polySum (keyElem KC_1305_32 (fun _ => 3)) 0
          (encodedBlocks KC_1305_32 (fun i => Fin.ofNat i) 70) =
        hornerSeq (keyElem KC_1305_32 (fun _ => 3))
          (encodedBlocks KC_1305_32 (fun i => Fin.ofNat i) 70)) :=
  ⟨by decide, C25_Naive_Delay_a_eq_sequential_Horner KC_1305_32 (fun i => Fin.ofNat i) 70
    (fun _ => 3) (by decide)⟩

/-! ## Claim C26: `classical_original` and `classical_noTF` -/

theorem ofBuf_map_range (f : Nat → Byte) (n i : Nat) (h : i < n) :
    ofBuf ((List.range n).map f) i = f i := by
  simp [ofBuf, List.getD_eq_getElem?_getD, h]

theorem ofBuf_identity_inline_transform (out_len : Nat) (p : Ptr) (in_len i : Nat)
    (h1 : i < in_len) (h2 : i < out_len) :
    ofBuf (identity_inline_transform out_len p in_len) i = p i := by
  unfold identity_inline_transform Ptr.bytes
  by_cases h : in_len ≥ out_len
  · rw [if_pos h, ofBuf_map_range _ _ _ h2]
  · rw [if_neg h, ofBuf_map_range _ _ _ h2, if_pos h1]

theorem identity_inline_transform_congr_min (out_len : Nat) (p q : Ptr) (in_len : Nat)
    (h : ∀ i, i < in_len → i < out_len → p i = q i) :
    identity_inline_transform out_len p in_len = identity_inline_transform out_len q in_len := by
  unfold identity_inline_transform Ptr.bytes
  by_cases hl : in_len ≥ out_len
  · simp only [if_pos hl]
    apply List.map_congr_left
    intro i hi
    have hi' : i < out_len := List.mem_range.mp hi
    exact h i (by omega) hi'
  · simp only [if_neg hl]
    apply List.map_congr_left
    intro i hi
    have hi' : i < out_len := List.mem_range.mp hi
    by_cases hi2 : i < in_len
    · simp only [if_pos hi2]
      exact h i hi2 hi'
    · simp only [if_neg hi2]

section OriginalLemmas

variable {F : Type} [CommRing F]

theorem classical_original_rest_eq (A : FieldArith F) (b2 : Bool) (k : F)
    (hfull : ∀ p, A.unpack_and_encode_last_field_elem p A.BLOCKSIZE =
      A.unpack_and_encode_field_elem p)
    (hlast : ∀ (p q : Ptr) (size : Nat), (∀ i, i < size → p i = q i) →
      A.unpack_and_encode_last_field_elem p size = A.unpack_and_encode_last_field_elem q size)
    (henc : b2 = false → ∀ (p q : Ptr), (∀ i, i < A.BLOCKSIZE → p i = q i) →
      A.unpack_and_encode_field_elem p = A.unpack_and_encode_field_elem q)
    (hbuf : A.BLOCKSIZE ≤ A.BUFFSIZE) :
    ∀ (inlen : Nat) (inp : Ptr) (acc : F),
      (if (classical_original_loop A b2 k inp inlen acc).2.1 ≠ 0 then
          field_mul (field_add (classical_original_loop A b2 k inp inlen acc).2.2
            (A.unpack_and_encode_last_field_elem
              (if b2 then
                ofBuf ((List.range A.BUFFSIZE).map
                  (memcpy_into_zero (classical_original_loop A b2 k inp inlen acc).1
                    (classical_original_loop A b2 k inp inlen acc).2.1))
              else ofBuf (transform_msg A.BUFFSIZE
                (classical_original_loop A b2 k inp inlen acc).1
                (classical_original_loop A b2 k inp inlen acc).2.1))
              (classical_original_loop A b2 k inp inlen acc).2.1)) k
        else (classical_original_loop A b2 k inp inlen acc).2.2) =
      (if (classical_noTF_loop A k inp inlen acc).2.1 ≠ 0 then
          field_mul (field_add (classical_noTF_loop A k inp inlen acc).2.2
            (A.unpack_and_encode_last_field_elem (classical_noTF_loop A k inp inlen acc).1
              (classical_noTF_loop A k inp inlen acc).2.1)) k
        else (classical_noTF_loop A k inp inlen acc).2.2) := by
  have hB := A.BLOCKSIZE_pos
  have hblock : ∀ p : Ptr,
      (if b2 then A.unpack_and_encode_field_elem p
        else A.unpack_and_encode_field_elem (ofBuf (transform_msg A.BUFFSIZE p A.BLOCKSIZE))) =
      A.unpack_and_encode_field_elem p := by
    intro p
    cases b2 with
    | true => rfl
    | false =>
      simp only [Bool.false_eq_true, if_false]
      apply henc rfl
      intro i hi
      exact ofBuf_identity_inline_transform _ _ _ _ hi (by omega)
  have hbuff : ∀ (p : Ptr) (size : Nat), size ≤ A.BLOCKSIZE →
      A.unpack_and_encode_last_field_elem
        (if b2 then ofBuf ((List.range A.BUFFSIZE).map (memcpy_into_zero p size))
          else ofBuf (transform_msg A.BUFFSIZE p size)) size =
      A.unpack_and_encode_last_field_elem p size := by
    intro p size hs
    apply hlast
    intro i hi
    cases b2 with
    | true =>
      simp only [if_true]
      rw [ofBuf_map_range _ _ _ (by omega)]
      simp [memcpy_into_zero, hi]
    | false =>
      simp only [Bool.false_eq_true, if_false]
      exact ofBuf_identity_inline_transform _ _ _ _ hi (by omega)
  intro inlen
  induction inlen using Nat.strong_induction_on with
  | _ inlen ih =>
    intro inp acc
    by_cases hgt : inlen > A.BLOCKSIZE
    · have hge : inlen ≥ A.BLOCKSIZE := by omega
      rw [classical_original_loop, classical_noTF_loop]
      simp only [if_pos hgt, if_pos hge, hblock]
      exact ih (inlen - A.BLOCKSIZE) (by omega) _ _
    · by_cases heq : inlen = A.BLOCKSIZE
      · have hge : inlen ≥ A.BLOCKSIZE := by omega
        have hz : ¬ (inlen - A.BLOCKSIZE ≥ A.BLOCKSIZE) := by omega
        have hne : inlen ≠ 0 := by omega
        rw [classical_original_loop, classical_noTF_loop]
        simp only [if_pos hge, if_neg hgt, hblock]
        rw [classical_original_loop]
        simp only [if_neg hz]
        have e0 : inlen - A.BLOCKSIZE = 0 := by omega
        simp only [e0, ne_eq, not_true_eq_false, if_false, hne, not_false_eq_true, if_true]
        rw [heq, hfull]
      · have hlt : ¬ (inlen ≥ A.BLOCKSIZE) := by omega
        rw [classical_original_loop, classical_noTF_loop]
        simp only [if_neg hgt, if_neg hlt]
        by_cases hne : inlen ≠ 0
        · simp only [if_pos hne]
          rw [hbuff inp inlen (by omega)]
        · simp only [if_neg hne]

theorem classical_original_acc_eq_noTF (A : FieldArith F) (b1 b2 : Bool) (inp : Ptr)
    (inlen : Nat) (key : Ptr)
    (hfull : ∀ p, A.unpack_and_encode_last_field_elem p A.BLOCKSIZE =
      A.unpack_and_encode_field_elem p)
    (hlast : ∀ (p q : Ptr) (size : Nat), (∀ i, i < size → p i = q i) →
      A.unpack_and_encode_last_field_elem p size = A.unpack_and_encode_last_field_elem q size)
    (henc : b2 = false → ∀ (p q : Ptr), (∀ i, i < A.BLOCKSIZE → p i = q i) →
      A.unpack_and_encode_field_elem p = A.unpack_and_encode_field_elem q)
    (hkey : b1 = false → A.unpack_field_elem (ofBuf (transform_key A.BUFFSIZE key A.KEYSIZE)) =
      A.unpack_field_elem key)
    (hbuf : A.BLOCKSIZE ≤ A.BUFFSIZE) :
    classical_original_acc A b1 b2 inp inlen key = classical_noTF_acc A inp inlen key := by
  have hk : classical_original_key A b1 key = A.unpack_field_elem key := by
    cases b1 with
    | true => rfl
    | false =>
      simp only [classical_original_key, Bool.false_eq_true, if_false]
      exact hkey rfl
  simp only [classical_original_acc, classical_noTF_acc, hk]
  exact classical_original_rest_eq A b2 (A.unpack_field_elem key) hfull hlast henc hbuf
    inlen inp 0

end OriginalLemmas

theorem KC_32_last_complete_block (b : Ptr) :
    unpack_and_encode_last_field_elem_KC_32 b 16 = unpack_and_encode_field_elem_KC_32 b := by
  simp [unpack_and_encode_last_field_elem_KC_32, unpack_and_encode_field_elem_KC_32,
    load32, memcpy_into_zero]

theorem KC_1305_32_last_complete_block (p : Ptr) :
    KC_1305_32.unpack_and_encode_last_field_elem p KC_1305_32.BLOCKSIZE =
      KC_1305_32.unpack_and_encode_field_elem p := by
  show ((unpack_and_encode_last_field_elem_KC_32 p 16).value : ZMod PRIME) = _
  rw [KC_32_last_complete_block]
  rfl

theorem KC_1305_32_last_reads_size (p q : Ptr) (size : Nat) (h : ∀ i, i < size → p i = q i) :
    KC_1305_32.unpack_and_encode_last_field_elem p size =
      KC_1305_32.unpack_and_encode_last_field_elem q size := by
  have e : memcpy_into_zero p size = memcpy_into_zero q size := by
    funext i
    unfold memcpy_into_zero
    by_cases hi : i < size
    · simp only [if_pos hi]
      exact h i hi
    · simp only [if_neg hi]
  show ((unpack_and_encode_last_field_elem_KC_32 p size).value : ZMod PRIME) =
    ((unpack_and_encode_last_field_elem_KC_32 q size).value : ZMod PRIME)
  simp only [unpack_and_encode_last_field_elem_KC_32, e]

/-- C26: in the default build (`LASTBLOCKENCODING` undefined; either preprocessor branch of
the key and of the message transform, the transforms being the identity), when the
last-block encoder applied to a complete block equals the full-block encoder and the
encoders read only the bytes of their block, `classical_original` and `classical_noTF`
write the same tag for every key and every message of every length; for a non-empty
message it is the packing of `Σ_(i=1..n) m_i * k^(n-i+1)`. -/
theorem C26_original_eq_noTF {F : Type} [CommRing F] (A : FieldArith F)
    (key_none_transform msg_none_transform : Bool) (inp : Ptr) (inlen : Nat) (key : Ptr)
    (hfull : ∀ p, A.unpack_and_encode_last_field_elem p A.BLOCKSIZE =
      A.unpack_and_encode_field_elem p)
    (hlast : ∀ (p q : Ptr) (size : Nat), (∀ i, i < size → p i = q i) →
      A.unpack_and_encode_last_field_elem p size = A.unpack_and_encode_last_field_elem q size)
    (henc : msg_none_transform = false →
      ∀ (p q : Ptr), (∀ i, i < A.BLOCKSIZE → p i = q i) →
        A.unpack_and_encode_field_elem p = A.unpack_and_encode_field_elem q)
    (hkey : key_none_transform = false →
      A.unpack_field_elem (ofBuf (transform_key A.BUFFSIZE key A.KEYSIZE)) =
        A.unpack_field_elem key)
    (hbuf : A.BLOCKSIZE ≤ A.BUFFSIZE) :
    classical_original A key_none_transform msg_none_transform inp inlen key =
        classical_noTF A inp inlen key ∧
      (0 < inlen → classical_noTF A inp inlen key =
        pack_and_transform A
          (polySum (A.unpack_field_elem key) 1 (encodedBlocks A inp inlen))) := by
  constructor
  · rw [classical_original, classical_noTF,
      classical_original_acc_eq_noTF A key_none_transform msg_none_transform inp inlen key
        hfull hlast henc hkey hbuf]
  · intro h0
    rw [classical_noTF, classical_noTF_acc_eq A inp inlen key h0, polySum_succ,
      hornerSeq_eq_polySum]

theorem C26_original_eq_noTF_witness :
    (∀ p, KC_1305_32.unpack_and_encode_last_field_elem p KC_1305_32.BLOCKSIZE =
      KC_1305_32.unpack_and_encode_field_elem p) ∧
    KC_1305_32.BLOCKSIZE ≤ KC_1305_32.BUFFSIZE ∧
    (classical_original KC_1305_32 true true (fun i => Fin.ofNat i) 64 (fun _ => 3) =
        classical_noTF KC_1305_32 (fun i => Fin.ofNat i) 64 (fun _ => 3) ∧
      (0 < 64 → classical_noTF KC_1305_32 (fun i => Fin.ofNat i) 64 (fun _ => 3) =
        pack_and_transform KC_1305_32
          (polySum (KC_1305_32.unpack_field_elem (fun _ => 3)) 1
            (encodedBlocks KC_1305_32 (fun i => Fin.ofNat i) 64)))) :=
  ⟨KC_1305_32_last_complete_block, by decide,
    C26_original_eq_noTF KC_1305_32 true true (fun i => Fin.ofNat i) 64 (fun _ => 3)
      KC_1305_32_last_complete_block KC_1305_32_last_reads_size
      (fun h => absurd h (by decide)) (fun h => absurd h (by decide)) (by decide)⟩

/-! ## Claim C27: messages of one block -/

/-- C27: in `classical_2level_2B_UPK_Delay_a`, `classical_2level_NB_UPK_Delay_a` (every
`NB_BLOCK_FLVL`, every content of its uninitialised variables) and
`classical_ParallelHorner_UPK_1B_NoDelay` (every `NB_BRANCH`), for
every message of length `1 .. BLOCKSIZE` and every key the output is
`transform_field_elem(pack_field_elem(unpack_and_encode_last_field_elem(in, inlen)))`: the
branch `if (inlen <= BLOCKSIZE)` packs the encoded block as it is and does not use the
key. -/
theorem C27_one_block_tag_is_packed_block {F : Type} [CommRing F] (A : FieldArith F)
    (NB_BLOCK_FLVL : Nat) (hFLVL : 0 < NB_BLOCK_FLVL) (NB_BRANCH : Nat) (hNB : 0 < NB_BRANCH)
    (acc0 : F) (acc_d0 a0 k0 : Arr F)
    (inp : Ptr) (inlen : Nat) (key : Ptr) (h0 : 0 < inlen) (h1 : inlen ≤ A.BLOCKSIZE) :
    classical_2level_2B_UPK_Delay_a A inp inlen key =
        transform_field_elem A.OUTPUTSIZE (ofBuf (A.pack_field_elem
          (A.unpack_and_encode_last_field_elem inp inlen))) A.BUFFSIZE ∧
      classical_2level_NB_UPK_Delay_a A NB_BLOCK_FLVL hFLVL acc0 acc_d0 a0 k0 inp inlen key =
        transform_field_elem A.OUTPUTSIZE (ofBuf (A.pack_field_elem
          (A.unpack_and_encode_last_field_elem inp inlen))) A.BUFFSIZE ∧
      classical_ParallelHorner_UPK_1B_NoDelay A NB_BRANCH hNB inp inlen key =
        transform_field_elem A.OUTPUTSIZE (ofBuf (A.pack_field_elem
          (A.unpack_and_encode_last_field_elem inp inlen))) A.BUFFSIZE := by
  have hne : inlen ≠ 0 := Nat.pos_iff_ne_zero.mp h0
  refine ⟨?_, ?_, ?_⟩
  · simp only [classical_2level_2B_UPK_Delay_a, classical_2level_2B_UPK_Delay_a_acc,
      if_neg hne, if_pos h1, pack_and_transform]
  · simp only [classical_2level_NB_UPK_Delay_a, classical_2level_NB_UPK_Delay_a_acc,
      if_neg hne, if_pos h1, pack_and_transform]
  · simp only [classical_ParallelHorner_UPK_1B_NoDelay,
      classical_ParallelHorner_UPK_1B_NoDelay_acc, if_neg hne, if_pos h1, pack_and_transform]

theorem C27_one_block_tag_is_packed_block_witness :
    0 < 7 ∧ 7 ≤ KC_1305_32.BLOCKSIZE ∧
    (classical_2level_2B_UPK_Delay_a KC_1305_32 (fun i => Fin.ofNat i) 7 (fun _ => 3) =
        transform_field_elem KC_1305_32.OUTPUTSIZE (ofBuf (KC_1305_32.pack_field_elem
          (KC_1305_32.unpack_and_encode_last_field_elem (fun i => Fin.ofNat i) 7)))
          KC_1305_32.BUFFSIZE ∧
      classical_2level_NB_UPK_Delay_a KC_1305_32 4 (by decide) 9 ⟨fun _ => 8⟩ ⟨fun _ => 7⟩
          ⟨fun _ => 6⟩ (fun i => Fin.ofNat i) 7 (fun _ => 3) =
        transform_field_elem KC_1305_32.OUTPUTSIZE (ofBuf (KC_1305_32.pack_field_elem
          (KC_1305_32.unpack_and_encode_last_field_elem (fun i => Fin.ofNat i) 7)))
          KC_1305_32.BUFFSIZE ∧
      classical_ParallelHorner_UPK_1B_NoDelay KC_1305_32 4 (by decide) (fun i => Fin.ofNat i) 7
          (fun _ => 3) =
        transform_field_elem KC_1305_32.OUTPUTSIZE (ofBuf (KC_1305_32.pack_field_elem
          (KC_1305_32.unpack_and_encode_last_field_elem (fun i => Fin.ofNat i) 7)))
          KC_1305_32.BUFFSIZE) :=
  ⟨by decide, by decide,
    C27_one_block_tag_is_packed_block KC_1305_32 4 (by decide) 4 (by decide)
      9 ⟨fun _ => 8⟩ ⟨fun _ => 7⟩ ⟨fun _ => 6⟩
      (fun i => Fin.ofNat i) 7 (fun _ => 3) (by decide) (by decide)⟩

/-! ## Claim C29: the trailing partial block of `NMH_NoDelay` -/

section NMHLemmas

variable {F : Type} [CommRing F]

theorem NMH_NoDelay_loop_step (A : FieldArith F) (inp : Ptr) (inlen : Nat) (ks : Ptr)
    (blkctr : Nat) (acc : F) (h : inlen ≥ 2 * A.BLOCKSIZE + blkctr) :
    NMH_NoDelay_loop A inp inlen ks blkctr acc =
      NMH_NoDelay_loop A inp inlen ks (blkctr + A.BLOCKSIZE + A.BLOCKSIZE)
        (field_add acc (field_mul
          (field_add (A.unpack_field_elem (ofBuf (transform_msg A.BUFFSIZE (inp.add blkctr)
              A.BLOCKSIZE)))
            (A.unpack_field_elem (ofBuf (transform_msg A.BUFFSIZE (ks.add blkctr)
              A.BLOCKSIZE))))
          (field_add (A.unpack_field_elem (ofBuf (transform_msg A.BUFFSIZE
              (inp.add (blkctr + A.BLOCKSIZE)) A.BLOCKSIZE)))
            (A.unpack_field_elem (ofBuf (transform_msg A.BUFFSIZE
              (ks.add (blkctr + A.BLOCKSIZE)) A.BLOCKSIZE)))))) := by
  rw [NMH_NoDelay_loop, if_pos h]

theorem NMH_NoDelay_loop_exit (A : FieldArith F) (inp : Ptr) (inlen : Nat) (ks : Ptr)
    (blkctr : Nat) (acc : F) (h : ¬ (inlen ≥ 2 * A.BLOCKSIZE + blkctr)) :
    NMH_NoDelay_loop A inp inlen ks blkctr acc = (blkctr, acc) := by
  rw [NMH_NoDelay_loop, if_neg h]

/-- The loop of `NMH_NoDelay` on a message of `2 * j` full blocks and a trailing block of
`1 .. BLOCKSIZE` bytes stops at `blkctr = 2 * j * BLOCKSIZE` and reads only the bytes below
that offset. -/
theorem NMH_NoDelay_loop_congr (A : FieldArith F) (p q ks : Ptr) (j t : Nat)
    (ht : t ≤ A.BLOCKSIZE) (hpq : ∀ i, i < 2 * j * A.BLOCKSIZE → p i = q i) :
    ∀ (n i : Nat) (acc : F), i + n = j →
      NMH_NoDelay_loop A p (2 * j * A.BLOCKSIZE + t) ks (2 * i * A.BLOCKSIZE) acc =
          NMH_NoDelay_loop A q (2 * j * A.BLOCKSIZE + t) ks (2 * i * A.BLOCKSIZE) acc ∧
        (NMH_NoDelay_loop A p (2 * j * A.BLOCKSIZE + t) ks (2 * i * A.BLOCKSIZE) acc).1 =
          2 * j * A.BLOCKSIZE := by
  have hB := A.BLOCKSIZE_pos
  intro n
  induction n with
  | zero =>
    intro i acc hij
    have e : i = j := by omega
    subst e
    have hc : ¬ (2 * i * A.BLOCKSIZE + t ≥ 2 * A.BLOCKSIZE + 2 * i * A.BLOCKSIZE) := by omega
    rw [NMH_NoDelay_loop_exit A p _ _ _ _ hc, NMH_NoDelay_loop_exit A q _ _ _ _ hc]
    exact ⟨rfl, rfl⟩
  | succ n ih =>
    intro i acc hij
    have hle : 2 * (i + 1) * A.BLOCKSIZE ≤ 2 * j * A.BLOCKSIZE :=
      Nat.mul_le_mul_right _ (by omega)
    have hexp : 2 * (i + 1) * A.BLOCKSIZE = 2 * i * A.BLOCKSIZE + A.BLOCKSIZE + A.BLOCKSIZE := by
      ring
    have hc : 2 * j * A.BLOCKSIZE + t ≥ 2 * A.BLOCKSIZE + 2 * i * A.BLOCKSIZE := by omega
    have h1 : transform_msg A.BUFFSIZE (p.add (2 * i * A.BLOCKSIZE)) A.BLOCKSIZE =
        transform_msg A.BUFFSIZE (q.add (2 * i * A.BLOCKSIZE)) A.BLOCKSIZE := by
      apply identity_inline_transform_congr_min
      intro x hx _
      exact hpq _ (by omega)
    have h2 : transform_msg A.BUFFSIZE (p.add (2 * i * A.BLOCKSIZE + A.BLOCKSIZE))
          A.BLOCKSIZE =
        transform_msg A.BUFFSIZE (q.add (2 * i * A.BLOCKSIZE + A.BLOCKSIZE)) A.BLOCKSIZE := by
      apply identity_inline_transform_congr_min
      intro x hx _
      exact hpq _ (by omega)
    rw [NMH_NoDelay_loop_step A p _ _ _ _ hc, NMH_NoDelay_loop_step A q _ _ _ _ hc, h1, h2,
      ← hexp]
    exact ih (i + 1) _ (by omega)

/-- On a message of `2 * j ≥ 2` full blocks and a trailing block of `t` bytes,
`1 ≤ t ≤ BLOCKSIZE`, the element that `NMH_NoDelay` adds for the trailing block is unpacked
from the bytes at `in`, the start of the message, with the length `inlen - blkctr * BLOCKSIZE`
computed modulo `2^64`. -/
theorem NMH_NoDelay_acc_trailing (A : FieldArith F) (p ks : Ptr) (j t : Nat) (ht1 : 1 ≤ t)
    (ht : t ≤ A.BLOCKSIZE) :
    NMH_NoDelay_acc A p (2 * j * A.BLOCKSIZE + t) ks =
      (NMH_NoDelay_loop A p (2 * j * A.BLOCKSIZE + t) ks 0 0).2 +
        A.unpack_field_elem (ofBuf (transform_msg A.BUFFSIZE p
          (NMH_NoDelay_inlen A (2 * j * A.BLOCKSIZE + t) (2 * j * A.BLOCKSIZE)))) := by
  have h := (NMH_NoDelay_loop_congr A p p ks j t ht (fun _ _ => rfl) j 0 0 (by omega)).2
  have e0 : 2 * 0 * A.BLOCKSIZE = 0 := by simp
  rw [e0] at h
  have c1 : ¬ (2 * j * A.BLOCKSIZE + A.BLOCKSIZE < 2 * j * A.BLOCKSIZE + t) := by omega
  have c2 : 2 * j * A.BLOCKSIZE < 2 * j * A.BLOCKSIZE + t := by omega
  simp only [NMH_NoDelay_acc, h, if_neg c1, if_pos c2, field_add]

/-- The tag of `NMH_NoDelay` on such a message depends on the message only through the
bytes below `2 * j * BLOCKSIZE` and below `BUFFSIZE`. -/
theorem NMH_NoDelay_trailing_congr (A : FieldArith F) (cipher : StreamCipher)
    (st : key_expansion_state_t) (p q : Ptr) (key : Ptr) (j t : Nat) (ht1 : 1 ≤ t)
    (ht : t ≤ A.BLOCKSIZE) (hpq : ∀ i, i < 2 * j * A.BLOCKSIZE → p i = q i)
    (hbuf : ∀ i, i < A.BUFFSIZE → p i = q i) :
    NMH_NoDelay A cipher st p (2 * j * A.BLOCKSIZE + t) key =
      NMH_NoDelay A cipher st q (2 * j * A.BLOCKSIZE + t) key := by
  have hne : 2 * j * A.BLOCKSIZE + t ≠ 0 := by omega
  have hl := (NMH_NoDelay_loop_congr A p q
    (ofBuf (get cipher (init cipher st key) (2 * j * A.BLOCKSIZE + t + A.BLOCKSIZE)).1)
    j t ht hpq j 0 0 (by omega)).1
  have e0 : 2 * 0 * A.BLOCKSIZE = 0 := by simp
  rw [e0] at hl
  have hb : ∀ L, transform_msg A.BUFFSIZE p L = transform_msg A.BUFFSIZE q L := by
    intro L
    apply identity_inline_transform_congr_min
    intro i _ hi
    exact hbuf i hi
  simp only [NMH_NoDelay, if_neg hne, NMH_NoDelay_acc_trailing A _ _ j t ht1 ht, hl, hb]

end NMHLemmas

/-- C29 fails on the code: under the configuration `KC_1305_32` (`BLOCKSIZE = 16`,
`BUFFSIZE = 32`) the 33-byte messages `00 .. 00 00` and `00 .. 00 01`, two full blocks and a
trailing block of one byte, have the same tag for every key and every stream cipher: the
statement `inlen -= blkctr * BLOCKSIZE` leaves `33 - 32 * 16` modulo `2^64` in `inlen`, and
the trailing element is unpacked from `in`, the start of the message, not from
`in + blkctr`. -/
theorem C29_NMH_NoDelay_ignores_trailing_block (cipher : StreamCipher)
    (st : key_expansion_state_t) (key : Ptr) :
    (fun _ => 0 : Ptr) 32 ≠ (fun i => if i = 32 then 1 else 0 : Ptr) 32 ∧
      NMH_NoDelay_inlen KC_1305_32 33 32 = 2 ^ 64 - 479 ∧
      NMH_NoDelay_acc KC_1305_32 (fun i => if i = 32 then 1 else 0) 33
          (ofBuf (get cipher (init cipher st key) (33 + 16)).1) =
        (NMH_NoDelay_loop KC_1305_32 (fun i => if i = 32 then 1 else 0) 33
            (ofBuf (get cipher (init cipher st key) (33 + 16)).1) 0 0).2 +
          KC_1305_32.unpack_field_elem (ofBuf (transform_msg 32
            (fun i => if i = 32 then 1 else 0) (2 ^ 64 - 479))) ∧
      NMH_NoDelay KC_1305_32 cipher st (fun _ => 0) 33 key =
        NMH_NoDelay KC_1305_32 cipher st (fun i => if i = 32 then 1 else 0) 33 key := by
  refine ⟨by decide, by decide, ?_, ?_⟩
  · exact NMH_NoDelay_acc_trailing KC_1305_32 (fun i => if i = 32 then 1 else 0) _ 1 1
      (by decide) (by decide)
  · apply NMH_NoDelay_trailing_congr KC_1305_32 cipher st (fun _ => 0)
      (fun i => if i = 32 then 1 else 0) key 1 1 (by decide) (by decide)
    · intro i hi
      have h32 : i ≠ 32 := by
        have : 2 * 1 * KC_1305_32.BLOCKSIZE = 32 := rfl
        omega
      simp [h32]
    · intro i hi
      have h32 : i ≠ 32 := by
        have : KC_1305_32.BUFFSIZE = 32 := rfl
        omega
      simp [h32]

/-! ## `brw_2B_Delay` and the Bernstein-Rabin-Winograd polynomial -/

section BRWLemmas

variable {F : Type} [CommRing F]

theorem BRWat_zero (k : F) (m : Nat → F) (x : Nat) : BRWat k m x 0 = 0 := by
  rw [BRWat]
  simp

theorem BRWat_one (k : F) (m : Nat → F) (x : Nat) : BRWat k m x 1 = m x := by
  rw [BRWat]
  simp

theorem BRWat_two (k : F) (m : Nat → F) (x : Nat) :
    BRWat k m x 2 = m x * k + m (x + 1) := by
  rw [BRWat]
  simp

theorem BRWat_three (k : F) (m : Nat → F) (x : Nat) :
    BRWat k m x 3 = (m x + k) * (m (x + 1) + k ^ 2) + m (x + 2) := by
  rw [BRWat]
  simp

theorem BRWat_ge_four (k : F) (m : Nat → F) (x n : Nat) (hn : 4 ≤ n) :
    BRWat k m x n =
      BRWat k m x (2 ^ Nat.log 2 n - 1) * (m (x + 2 ^ Nat.log 2 n - 1) + k ^ 2 ^ Nat.log 2 n) +
        BRWat k m (x + 2 ^ Nat.log 2 n) (n - 2 ^ Nat.log 2 n) := by
  have h0 : n ≠ 0 := by omega
  have h1 : n ≠ 1 := by omega
  have h2 : n ≠ 2 := by omega
  have h3 : n ≠ 3 := by omega
  rw [BRWat]
  simp only [h0, h1, h2, h3, dite_false, if_false]

theorem log_two_pow_add (s r : Nat) (hr : r < 2 ^ s) : Nat.log 2 (2 ^ s + r) = s := by
  apply Nat.log_eq_of_pow_le_of_lt_pow
  · omega
  · rw [pow_succ]
    omega

theorem four_le_two_pow (s : Nat) (hs : 2 ≤ s) : 4 ≤ 2 ^ s := by
  have : 2 ^ 2 ≤ 2 ^ s := Nat.pow_le_pow_right (by norm_num) hs
  simpa using this

/-- The polynomial of exactly `2^s` blocks. -/
theorem BRWat_pow (k : F) (m : Nat → F) (x s : Nat) (hs : 2 ≤ s) :
    BRWat k m x (2 ^ s) =
      BRWat k m x (2 ^ s - 1) * (m (x + 2 ^ s - 1) + k ^ 2 ^ s) := by
  have h4 := four_le_two_pow s hs
  have hl : Nat.log 2 (2 ^ s) = s := by
    have := log_two_pow_add s 0 (Nat.two_pow_pos s)
    simpa using this
  rw [BRWat_ge_four k m x _ h4, hl, Nat.sub_self, BRWat_zero, add_zero]

/-- The polynomial of `2^s + r` blocks, `r < 2^s`: the first `2^s` blocks and the rest. -/
theorem BRWat_split (k : F) (m : Nat → F) (x s r : Nat) (hs : 2 ≤ s) (hr : r < 2 ^ s) :
    BRWat k m x (2 ^ s + r) = BRWat k m x (2 ^ s) + BRWat k m (x + 2 ^ s) r := by
  have h4 := four_le_two_pow s hs
  rw [BRWat_ge_four k m x _ (by omega), log_two_pow_add s r hr, BRWat_pow k m x s hs,
    Nat.add_sub_cancel_left]

/-- The polynomial of `2^(u+2) - 1` blocks: the aligned groups of `2^(u+1), ..., 8, 4`
blocks and the last three blocks. -/
theorem BRWat_pow_pred (k : F) (m : Nat → F) :
    ∀ (u x : Nat), BRWat k m x (2 ^ (u + 2) - 1) =
      BRWat k m (x + 2 ^ (u + 2) - 4) 3 +
        ((List.range u).map (fun i =>
          BRWat k m (x + 2 ^ (u + 2) - 2 ^ (i + 3)) (2 ^ (i + 2)))).sum := by
  intro u
  induction u with
  | zero =>
    intro x
    simp
  | succ u ih =>
    intro x
    have hp : 2 ^ (u + 1 + 2) = 2 ^ (u + 2) + 2 ^ (u + 2) := by
      rw [show u + 1 + 2 = (u + 2) + 1 by omega, pow_succ]
      omega
    have h4 := four_le_two_pow (u + 2) (by omega)
    have e1 : 2 ^ (u + 1 + 2) - 1 = 2 ^ (u + 2) + (2 ^ (u + 2) - 1) := by omega
    rw [e1, BRWat_split k m x (u + 2) _ (by omega) (by omega), ih (x + 2 ^ (u + 2)),
      List.range_succ, List.map_append, List.sum_append, List.map_singleton,
      List.sum_singleton]
    have e2 : x + 2 ^ (u + 2) + 2 ^ (u + 2) - 4 = x + 2 ^ (u + 1 + 2) - 4 := by omega
    have e3 : x + 2 ^ (u + 1 + 2) - 2 ^ (u + 3) = x := by
      rw [show u + 1 + 2 = u + 3 by omega]
      omega
    have hs : ((List.range u).map (fun i =>
          BRWat k m (x + 2 ^ (u + 2) + 2 ^ (u + 2) - 2 ^ (i + 3)) (2 ^ (i + 2)))) =
        ((List.range u).map (fun i =>
          BRWat k m (x + 2 ^ (u + 1 + 2) - 2 ^ (i + 3)) (2 ^ (i + 2)))) := by
      apply List.map_congr_left
      intro i _
      rw [hp, Nat.add_assoc]
    rw [e2, e3, hs]
    ring

/-- The value of `BRWat` depends on the blocks `m x, ..., m (x + n - 1)` only. -/
theorem BRWat_congr (k : F) (m m2 : Nat → F) :
    ∀ (n x : Nat), (∀ i, x ≤ i → i < x + n → m i = m2 i) → BRWat k m x n = BRWat k m2 x n := by
  intro n
  induction n using Nat.strong_induction_on with
  | _ n ih =>
    intro x h
    by_cases h4 : 4 ≤ n
    · have hle : 2 ^ Nat.log 2 n ≤ n := Nat.pow_log_le_self 2 (by omega)
      have hpos : 0 < 2 ^ Nat.log 2 n := Nat.two_pow_pos _
      rw [BRWat_ge_four k m x n h4, BRWat_ge_four k m2 x n h4,
        ih (2 ^ Nat.log 2 n - 1) (by omega) x (fun i h1 h2 => h i h1 (by omega)),
        ih (n - 2 ^ Nat.log 2 n) (by omega) (x + 2 ^ Nat.log 2 n)
          (fun i h1 h2 => h i (by omega) (by omega)),
        h (x + 2 ^ Nat.log 2 n - 1) (by omega) (by omega)]
    · have : n = 0 ∨ n = 1 ∨ n = 2 ∨ n = 3 := by omega
      rcases this with rfl | rfl | rfl | rfl
      · rw [BRWat_zero, BRWat_zero]
      · rw [BRWat_one, BRWat_one, h x (le_refl _) (by omega)]
      · rw [BRWat_two, BRWat_two, h x (le_refl _) (by omega), h (x + 1) (by omega) (by omega)]
      · rw [BRWat_three, BRWat_three, h x (le_refl _) (by omega),
          h (x + 1) (by omega) (by omega), h (x + 2) (by omega) (by omega)]

end BRWLemmas

/-! ### The builtins -/

theorem ctzAux_odd_part : ∀ (fuel n : Nat), 0 < n → n < 2 ^ fuel →
    ∃ r, n = (2 * r + 1) * 2 ^ ctzAux fuel n := by
  intro fuel
  induction fuel with
  | zero =>
    intro n h0 h1
    simp at h1
    omega
  | succ fuel ih =>
    intro n h0 h1
    rw [pow_succ] at h1
    by_cases he : n % 2 = 0
    · obtain ⟨r, hr⟩ := ih (n / 2) (by omega) (by omega)
      refine ⟨r, ?_⟩
      simp only [ctzAux, he, if_true]
      rw [Nat.add_comm 1, pow_succ, ← Nat.mul_assoc, ← hr]
      omega
    · refine ⟨n / 2, ?_⟩
      simp only [ctzAux, he, if_false, pow_zero, Nat.mul_one]
      omega

theorem odd_part_unique : ∀ (i j c r : Nat), (2 * c + 1) * 2 ^ i = (2 * r + 1) * 2 ^ j →
    i = j ∧ c = r := by
  intro i
  induction i with
  | zero =>
    intro j c r h
    rcases j with _ | j
    · simp only [pow_zero, Nat.mul_one] at h
      exact ⟨rfl, by omega⟩
    · rw [pow_succ, ← Nat.mul_assoc] at h
      simp only [pow_zero, Nat.mul_one] at h
      omega
  | succ i ih =>
    intro j c r h
    rcases j with _ | j
    · rw [pow_succ, ← Nat.mul_assoc] at h
      simp only [pow_zero, Nat.mul_one] at h
      omega
    · rw [pow_succ, pow_succ, ← Nat.mul_assoc, ← Nat.mul_assoc] at h
      have h2 := Nat.eq_of_mul_eq_mul_right (by norm_num : 0 < 2) h
      obtain ⟨e1, e2⟩ := ih j c r h2
      exact ⟨by omega, e2⟩

theorem ctz_of_odd_part (n r j : Nat) (h : n = (2 * r + 1) * 2 ^ j) (hn : n < 2 ^ 32) :
    __builtin_ctz n = j := by
  have hpos : 0 < n := by
    rw [h]
    exact Nat.mul_pos (by omega) (Nat.two_pow_pos j)
  have hmod : n % 2 ^ 32 = n := Nat.mod_eq_of_lt hn
  obtain ⟨r2, hr2⟩ := ctzAux_odd_part 32 n hpos hn
  have hu := odd_part_unique _ _ _ _ (hr2.symm.trans h)
  unfold __builtin_ctz
  rw [hmod]
  exact hu.1

/-- The builtin `__builtin_ctz` on an operand with `j ≤ 32` trailing zero bits: the
conversion to `unsigned int` keeps the count, also when it leaves 0 (`j = 32`). -/
theorem ctz_of_odd_part_le (n r j : Nat) (h : n = (2 * r + 1) * 2 ^ j) (hj : j ≤ 32) :
    __builtin_ctz n = j := by
  have hmod : n % 2 ^ 32 = ((2 * r + 1) % 2 ^ (32 - j)) * 2 ^ j := by
    have e : (2 : Nat) ^ 32 = 2 ^ (32 - j) * 2 ^ j := by
      rw [← pow_add, Nat.sub_add_cancel hj]
    rw [h, e, Nat.mul_mod_mul_right]
  rcases Nat.lt_or_ge j 32 with hlt | hge
  · have hdvd : 2 ∣ 2 ^ (32 - j) := dvd_pow_self 2 (by omega)
    have hodd : (2 * r + 1) % 2 ^ (32 - j) % 2 = 1 := by
      rw [Nat.mod_mod_of_dvd _ hdvd]
      omega
    have hq : (2 * r + 1) % 2 ^ (32 - j) < 2 ^ (32 - j) := Nat.mod_lt _ (Nat.two_pow_pos _)
    have hlt32 : (2 * r + 1) % 2 ^ (32 - j) * 2 ^ j < 2 ^ 32 := by
      have e : (2 : Nat) ^ 32 = 2 ^ (32 - j) * 2 ^ j := by
        rw [← pow_add, Nat.sub_add_cancel hj]
      rw [e]
      exact Nat.mul_lt_mul_of_pos_right hq (Nat.two_pow_pos j)
    have h2 := ctz_of_odd_part ((2 * r + 1) % 2 ^ (32 - j) * 2 ^ j)
      ((2 * r + 1) % 2 ^ (32 - j) / 2) j
      (by
        have : 2 * ((2 * r + 1) % 2 ^ (32 - j) / 2) + 1 = (2 * r + 1) % 2 ^ (32 - j) := by
          omega
        rw [this])
      hlt32
    unfold __builtin_ctz at h2 ⊢
    rw [Nat.mod_eq_of_lt hlt32] at h2
    rw [hmod]
    exact h2
  · have e : j = 32 := by omega
    unfold __builtin_ctz
    rw [hmod, e]
    simp only [Nat.sub_self, pow_zero, Nat.mod_one, Nat.zero_mul]
    rfl

theorem bitLength_zero (fuel : Nat) : bitLength fuel 0 = 0 := by
  cases fuel <;> simp [bitLength]

theorem bitLength_eq_log : ∀ (fuel n : Nat), 0 < n → n < 2 ^ fuel →
    bitLength fuel n = Nat.log 2 n + 1 := by
  intro fuel
  induction fuel with
  | zero =>
    intro n h0 h1
    simp at h1
    omega
  | succ fuel ih =>
    intro n h0 h1
    rw [pow_succ] at h1
    have hne : n ≠ 0 := by omega
    simp only [bitLength, hne, if_false]
    by_cases h2 : 2 ≤ n
    · rw [ih (n / 2) (by omega) (by omega), Nat.log_of_one_lt_of_le (by norm_num) h2]
      omega
    · have e1 : n = 1 := by omega
      subst e1
      simp [bitLength_zero]

theorem LOG2_eq_log (n : Nat) (h0 : 0 < n) (h1 : n < 2 ^ 64) : LOG2 n = Nat.log 2 n := by
  have hb := bitLength_eq_log 64 n h0 h1
  have hl : Nat.log 2 n < 64 := Nat.log_lt_of_lt_pow (by omega) h1
  unfold LOG2 __builtin_clzll
  rw [Nat.mod_eq_of_lt h1, hb]
  omega

/-! ### Counted loops -/

theorem forLoop_succ {σ : Type} (lo hi : Nat) (body : Nat → σ → σ) (s : σ) (h : lo ≤ hi) :
    forLoop lo (hi + 1) body s = body hi (forLoop lo hi body s) := by
  unfold forLoop
  have e : hi + 1 - lo = (hi - lo) + 1 := by omega
  rw [e, List.range'_concat, List.foldl_append]
  simp only [List.foldl_cons, List.foldl_nil, Nat.one_mul]
  congr 1
  omega

theorem forLoop_self {σ : Type} (lo : Nat) (body : Nat → σ → σ) (s : σ) :
    forLoop lo lo body s = s := by
  simp [forLoop]

theorem forLoopM_eq_some {σ : Type} (body : Nat → σ → σ) (bodyM : Nat → σ → Option σ) :
    ∀ (n lo : Nat) (s : σ), (∀ j t, lo ≤ j → j < lo + n → bodyM j t = some (body j t)) →
      forLoopM lo (lo + n) bodyM s = some (forLoop lo (lo + n) body s) := by
  intro n
  induction n with
  | zero =>
    intro lo s _
    simp [forLoopM, forLoop]
  | succ n ih =>
    intro lo s h
    have e := ih (lo + 1) (body lo s) (fun j t h1 h2 => h j t (by omega) (by omega))
    have e1 : lo + 1 + n = lo + (n + 1) := by omega
    rw [e1] at e
    have e2 : lo + (n + 1) - lo = (lo + (n + 1) - (lo + 1)) + 1 := by omega
    unfold forLoopM forLoop at e ⊢
    rw [e2, List.range'_succ, List.foldlM_cons, List.foldl_cons, h lo s (le_refl _) (by omega)]
    exact e

section BrwProof

variable {F : Type} [CommRing F]

/-- The loop `for (i = 0; i + 2 < sp; ++i) field_add(a, a, T + i)`. -/
theorem brw_sum_loop (f : Nat → F) : ∀ (j : Nat) (a : Arr F),
    (forLoop 0 j (fun i a => setArr a 0 (field_add (a 0) (f i))) a) 0 =
        a 0 + ((List.range j).map f).sum ∧
      ∀ t, t ≠ 0 →
        (forLoop 0 j (fun i a => setArr a 0 (field_add (a 0) (f i))) a) t = a t := by
  intro j
  induction j with
  | zero =>
    intro a
    simp [forLoop_self]
  | succ j ih =>
    intro a
    obtain ⟨h1, h2⟩ := ih a
    rw [forLoop_succ 0 j _ a (Nat.zero_le _)]
    constructor
    · show field_add ((forLoop 0 j _ a).get 0) (f j) = _
      rw [h1, List.range_succ, List.map_append, List.sum_append, List.map_singleton,
        List.sum_singleton, field_add, add_assoc]
    · intro t ht
      show (if t = 0 then _ else (forLoop 0 j _ a).get t) = _
      rw [if_neg ht]
      exact h2 t ht

/-- The entry of `T` read by the loop `for (i = 0; i + 2 < sp; ++i)` at the end of group
`g + 1 = (2 * r + 1) * 2^j`, for `i < j`. -/
theorem brw_stack_index (g r j i : Nat) (hg : g + 1 = (2 * r + 1) * 2 ^ j) (hi : i < j) :
    ∃ c, (2 * c + 1) * 2 ^ i ≤ g ∧ g < (2 * c + 3) * 2 ^ i ∧
      c * 2 ^ (i + 3) + 2 ^ (i + 3) = 4 * (g + 1) := by
  obtain ⟨e, he⟩ : ∃ e, j = i + 1 + e := ⟨j - (i + 1), by omega⟩
  have hP : 0 < 2 ^ i := Nat.two_pow_pos i
  have hR : 0 < (2 * r + 1) * 2 ^ e := Nat.mul_pos (by omega) (Nat.two_pow_pos e)
  obtain ⟨R, hR'⟩ : ∃ R, (2 * r + 1) * 2 ^ e = R + 1 := ⟨(2 * r + 1) * 2 ^ e - 1, by omega⟩
  have hg2 : g + 1 = 2 * (R * 2 ^ i) + 2 * 2 ^ i := by
    rw [hg, he, pow_add, pow_add, pow_one]
    calc (2 * r + 1) * (2 ^ i * 2 * 2 ^ e) = ((2 * r + 1) * 2 ^ e) * (2 * 2 ^ i) := by ring
      _ = (R + 1) * (2 * 2 ^ i) := by rw [hR']
      _ = 2 * (R * 2 ^ i) + 2 * 2 ^ i := by ring
  refine ⟨R, ?_, ?_, ?_⟩
  · have : (2 * R + 1) * 2 ^ i = 2 * (R * 2 ^ i) + 2 ^ i := by ring
    omega
  · have : (2 * R + 3) * 2 ^ i = 2 * (R * 2 ^ i) + 3 * 2 ^ i := by ring
    omega
  · have : R * 2 ^ (i + 3) + 2 ^ (i + 3) = 8 * (R * 2 ^ i) + 8 * 2 ^ i := by
      rw [pow_add]
      ring
    omega

theorem brw_group_end (g r j : Nat) (hg : g + 1 = (2 * r + 1) * 2 ^ j) :
    r * 2 ^ (j + 3) + 2 ^ (j + 2) = 4 * (g + 1) := by
  rw [hg, pow_add, pow_add]
  ring

/-- The product stored in `T[sp - 2]` at the end of group `g + 1 = (2 * r + 1) * 2^j` is
the polynomial of the last `2^(j+2)` blocks. -/
theorem brw_group_value (k0 : F) (m : Nat → F) (lg g r j : Nat) (T : CArr F)
    (hT : brwStack k0 m lg g T) (hg : g + 1 = (2 * r + 1) * 2 ^ j) :
    ((m (4 * g) + k0) * (m (4 * g + 1) + k0 ^ 2 ^ 1) + m (4 * g + 2) +
        ((List.range j).map (fun i => (T.get i).getD 0)).sum) *
        (m (4 * g + 3) + k0 ^ 2 ^ (j + 2)) =
      BRWat k0 m (r * 2 ^ (j + 3)) (2 ^ (j + 2)) := by
  have hend := brw_group_end g r j hg
  have h4 := four_le_two_pow (j + 2) (by omega)
  rw [BRWat_pow k0 m _ (j + 2) (by omega), BRWat_pow_pred k0 m j, BRWat_three]
  have e1 : r * 2 ^ (j + 3) + 2 ^ (j + 2) - 4 = 4 * g := by omega
  have e2 : r * 2 ^ (j + 3) + 2 ^ (j + 2) - 1 = 4 * g + 3 := by omega
  have hs : ((List.range j).map (fun i => (T.get i).getD 0)) =
      ((List.range j).map (fun i =>
        BRWat k0 m (r * 2 ^ (j + 3) + 2 ^ (j + 2) - 2 ^ (i + 3)) (2 ^ (i + 2)))) := by
    apply List.map_congr_left
    intro i hi
    have hi' : i < j := List.mem_range.mp hi
    obtain ⟨c, c1, c2, c3⟩ := brw_stack_index g r j i hg hi'
    rw [hT.2.2 i c c1 c2]
    have e3 : r * 2 ^ (j + 3) + 2 ^ (j + 2) - 2 ^ (i + 3) = c * 2 ^ (i + 3) := by omega
    rw [e3]
    rfl
  rw [e1, e2, hs, pow_one]

end BrwProof

section BrwFold

variable {F : Type} [CommRing F]

/-- The two uses of `__builtin_ctz` at the end of group `g + 1 = (2 * r + 1) * 2^j`, while
`blkctr` is below `2^33`: their difference is `j + 2`. -/
theorem brw_ctz_pair (B g r j : Nat) (hB : 0 < B) (hg : g + 1 = (2 * r + 1) * 2 ^ j)
    (hlen : 4 * (g + 1) * B < 2 ^ 33) :
    ∃ c2, __builtin_ctz (4 * (g + 1) * B) = j + 2 + c2 ∧ __builtin_ctz B = c2 := by
  obtain ⟨b, hb⟩ := ctzAux_odd_part B B hB (Nat.lt_two_pow B)
  have hblk : 4 * (g + 1) * B =
      (2 * (2 * r * b + r + b) + 1) * 2 ^ (j + 2 + ctzAux B B) := by
    rw [hg]
    conv_lhs => rw [hb]
    rw [pow_add, pow_add]
    ring
  have hle : j + 2 + ctzAux B B ≤ 32 := by
    have h1 : 1 * 2 ^ (j + 2 + ctzAux B B) ≤
        (2 * (2 * r * b + r + b) + 1) * 2 ^ (j + 2 + ctzAux B B) :=
      Nat.mul_le_mul_right _ (by omega)
    have h2 : 2 ^ (j + 2 + ctzAux B B) < 2 ^ 33 := by omega
    have := (Nat.pow_lt_pow_iff_right (by norm_num : 1 < 2)).mp h2
    omega
  exact ⟨ctzAux B B, ctz_of_odd_part_le _ _ _ hblk hle, ctz_of_odd_part_le B b _ hb (by omega)⟩

theorem setArr_get_same {α : Type} (a : Arr α) (i : Nat) (v : α) :
    (setArr a i v).get i = v := by
  simp [setArr]

theorem setArr_get_ne {α : Type} (a : Arr α) (i j : Nat) (v : α) (h : j ≠ i) :
    (setArr a i v).get j = a.get j := by
  simp [setArr, h]

/-- The stack of partial products after the write `T[j] = v` that ends group
`g + 1 = (2 * r + 1) * 2^j`. -/
theorem brwStack_push (k0 : F) (m : Nat → F) (lg g r j : Nat) (Tc : CArr F) (v : F)
    (hT : brwStack k0 m lg g Tc) (hg : g + 1 = (2 * r + 1) * 2 ^ j)
    (hv : v = BRWat k0 m (r * 2 ^ (j + 3)) (2 ^ (j + 2))) :
    brwStack k0 m lg (g + 1) ⟨Tc.len, fun i => if i = j then some v else Tc.get i⟩ := by
  obtain ⟨h1, h2, h3⟩ := hT
  refine ⟨h1, ?_, ?_⟩
  · intro i hi
    have hij : i ≠ j := by
      intro e
      rw [e, hg] at hi
      have : 1 * 2 ^ j ≤ (2 * r + 1) * 2 ^ j := Nat.mul_le_mul_right _ (by omega)
      omega
    show (if i = j then some v else Tc.get i) = none
    rw [if_neg hij]
    exact h2 i (by omega)
  · intro i c hc1 hc2
    show (if i = j then some v else Tc.get i) = _
    by_cases hij : i = j
    · rw [if_pos hij, hv]
      subst hij
      rw [hg] at hc1 hc2
      have e1 : 2 * c + 1 ≤ 2 * r + 1 := Nat.le_of_mul_le_mul_right hc1 (Nat.two_pow_pos i)
      have e2 : 2 * r + 1 < 2 * c + 3 := Nat.lt_of_mul_lt_mul_right hc2
      have e3 : c = r := by omega
      rw [e3]
    · rw [if_neg hij]
      apply h3 i c _ (by omega)
      have hne : (2 * c + 1) * 2 ^ i ≠ g + 1 := by
        intro e
        rw [hg] at e
        exact hij (odd_part_unique _ _ _ _ e).1
      omega

theorem brw_fold_checked_spec (A : FieldArith F) (k0 : F) (m : Nat → F) (lg g r j : Nat)
    (kc Tc : CArr F) (a : Arr F)
    (hk : brwKeys k0 lg True kc) (hT : brwStack k0 m lg g Tc)
    (hg : g + 1 = (2 * r + 1) * 2 ^ j) (hlen : 4 * (g + 1) * A.BLOCKSIZE < 2 ^ 33)
    (hlg : j + 2 ≤ lg)
    (ha0 : a 0 = m (4 * g)) (ha1 : a 1 = m (4 * g + 1)) (ha2 : a 2 = m (4 * g + 2))
    (ha3 : a 3 = m (4 * g + 3)) :
    ∃ r2, brw_2B_Delay_fold_checked A kc (4 * (g + 1) * A.BLOCKSIZE) a Tc = some r2 ∧
      brwStack k0 m lg (g + 1) r2.2 := by
  obtain ⟨hklen, -, hkall⟩ := hk
  have hkall := hkall trivial
  have hread : ∀ i, i ≤ lg → kc.read i = some (k0 ^ 2 ^ i) := by
    intro i hi
    unfold CArr.read
    rw [if_pos (by omega), hkall i hi]
  obtain ⟨c2, hc1, hc2⟩ := brw_ctz_pair A.BLOCKSIZE g r j A.BLOCKSIZE_pos hg hlen
  have hTread : ∀ i, i < j → Tc.read i = some ((Tc.get i).getD 0) := by
    intro i hi
    obtain ⟨c, c1, c2, -⟩ := brw_stack_index g r j i hg hi
    unfold CArr.read
    rw [if_pos (by rw [hT.1]; omega), hT.2.2 i c c1 c2]
    rfl
  have hsp : j + 2 + c2 - c2 = j + 2 := by omega
  have hbody : ∀ (i : Nat) (t : Arr F), 0 ≤ i → i < 0 + j →
      ((Tc.read i).bind fun t2 => pure (setArr t 0 (field_add (t.get 0) t2))) =
      some (setArr t 0 (field_add (t.get 0) ((Tc.get i).getD 0))) := by
    intro i t _ hi
    rw [hTread i (by omega)]
    rfl
  have hloop := fun s => forLoopM_eq_some
    (fun i (a : Arr F) => setArr a 0 (field_add (a.get 0) ((Tc.get i).getD 0)))
    (fun i (a : Arr F) => (Tc.read i).bind fun t2 => pure (setArr a 0 (field_add (a.get 0) t2)))
    j 0 s hbody
  simp only [Nat.zero_add] at hloop
  unfold brw_2B_Delay_fold_checked
  simp only [hread 0 (Nat.zero_le _), hread 1 (by omega), hc1, hc2, hsp, Option.bind_eq_bind,
    Option.some_bind, Nat.add_sub_cancel, hread (j + 2) hlg, hloop]
  rw [if_pos (by omega)]
  unfold CArr.write
  rw [if_pos (by rw [hT.1]; omega)]
  refine ⟨_, rfl, brwStack_push k0 m lg g r j Tc _ hT hg ?_⟩
  rw [← brw_group_value k0 m lg g r j Tc hT hg]
  simp only [setArr_get_same]
  rw [setArr_get_ne _ 3 0 _ (by decide)]
  rw [(brw_sum_loop (fun i => (Tc.get i).getD 0) j _).1,
    (brw_sum_loop (fun i => (Tc.get i).getD 0) j _).2 3 (by decide)]
  simp [setArr, field_add, field_mul, ha0, ha1, ha2, ha3]

end BrwFold

section BrwBlocks

variable {F : Type}

theorem nbBlocks_gt_iff (A : FieldArith F) (inlen c : Nat) :
    c * A.BLOCKSIZE < inlen ↔ c < nbBlocks A inlen := by
  have hB := A.BLOCKSIZE_pos
  unfold nbBlocks
  show c * A.BLOCKSIZE < inlen ↔ c + 1 ≤ (inlen + A.BLOCKSIZE - 1) / A.BLOCKSIZE
  rw [Nat.le_div_iff_mul_le hB, Nat.add_mul]
  omega

theorem encodedBlock_full (A : FieldArith F) (inp : Ptr) (inlen i : Nat)
    (h : i + 1 < nbBlocks A inlen) :
    encodedBlock A inp inlen i = A.unpack_and_encode_field_elem (inp.add (i * A.BLOCKSIZE)) := by
  rw [encodedBlock, if_pos h]

theorem encodedBlock_last (A : FieldArith F) (inp : Ptr) (inlen i : Nat)
    (h : i + 1 = nbBlocks A inlen) :
    encodedBlock A inp inlen i =
      A.unpack_and_encode_last_field_elem (inp.add (i * A.BLOCKSIZE))
        ((inlen - 1) % A.BLOCKSIZE + 1) := by
  have h1 : i * A.BLOCKSIZE < inlen := (nbBlocks_gt_iff A inlen i).mpr (by omega)
  have h2 : ¬ ((i + 1) * A.BLOCKSIZE < inlen) := fun hc =>
    absurd ((nbBlocks_gt_iff A inlen (i + 1)).mp hc) (by omega)
  rw [encodedBlock, if_neg (by omega), brw_last_size A inlen i h1 (by omega)]

/-- The groups of four blocks read by the loop: after group `g`, the next group is made of
the encoded blocks `4 * g, ..., 4 * g + 3`. -/
theorem brw_group_blocks (A : FieldArith F) (inp : Ptr) (inlen g : Nat) (a : Arr F)
    (h : 4 * (g + 1) < nbBlocks A inlen) :
    let blkctr := 4 * g * A.BLOCKSIZE
    let a4 := setArr (setArr (setArr (setArr a 0
      (A.unpack_and_encode_field_elem (inp.add blkctr)))
      1 (A.unpack_and_encode_field_elem (inp.add (blkctr + A.BLOCKSIZE))))
      2 (A.unpack_and_encode_field_elem (inp.add (blkctr + A.BLOCKSIZE + A.BLOCKSIZE))))
      3 (A.unpack_and_encode_field_elem
        (inp.add (blkctr + A.BLOCKSIZE + A.BLOCKSIZE + A.BLOCKSIZE)))
    a4 0 = encodedBlock A inp inlen (4 * g) ∧ a4 1 = encodedBlock A inp inlen (4 * g + 1) ∧
      a4 2 = encodedBlock A inp inlen (4 * g + 2) ∧
      a4 3 = encodedBlock A inp inlen (4 * g + 3) := by
  intro blkctr a4
  have e1 : blkctr + A.BLOCKSIZE = (4 * g + 1) * A.BLOCKSIZE := by
    simp only [blkctr]; ring
  have e2 : blkctr + A.BLOCKSIZE + A.BLOCKSIZE = (4 * g + 2) * A.BLOCKSIZE := by
    simp only [blkctr]; ring
  have e3 : blkctr + A.BLOCKSIZE + A.BLOCKSIZE + A.BLOCKSIZE = (4 * g + 3) * A.BLOCKSIZE := by
    simp only [blkctr]; ring
  rw [encodedBlock_full A inp inlen (4 * g) (by omega),
    encodedBlock_full A inp inlen (4 * g + 1) (by omega),
    encodedBlock_full A inp inlen (4 * g + 2) (by omega),
    encodedBlock_full A inp inlen (4 * g + 3) (by omega), ← e1, ← e2, ← e3]
  simp [a4, setArr]

end BrwBlocks

theorem odd_part_exists (n : Nat) (h : 0 < n) : ∃ r j, n = (2 * r + 1) * 2 ^ j := by
  obtain ⟨r, hr⟩ := ctzAux_odd_part n n h (Nat.lt_two_pow n)
  exact ⟨r, _, hr⟩

section BrwLoop

variable {F : Type} [CommRing F]

theorem brw_2B_Delay_loop_checked_exit (A : FieldArith F) (k : CArr F) (inp : Ptr)
    (inlen blkctr : Nat) (a : Arr F) (T : CArr F) (h : inlen ≤ blkctr + 4 * A.BLOCKSIZE) :
    brw_2B_Delay_loop_checked A k inp inlen blkctr a T = some (blkctr, a, T) := by
  rw [brw_2B_Delay_loop_checked, if_neg (by omega)]

theorem brw_2B_Delay_loop_checked_step (A : FieldArith F) (k : CArr F) (inp : Ptr)
    (inlen blkctr : Nat) (a : Arr F) (T : CArr F) (h : inlen > blkctr + 4 * A.BLOCKSIZE) :
    brw_2B_Delay_loop_checked A k inp inlen blkctr a T =
      match brw_2B_Delay_fold_checked A k
        (blkctr + A.BLOCKSIZE + A.BLOCKSIZE + A.BLOCKSIZE + A.BLOCKSIZE)
        (setArr (setArr (setArr (setArr a 0 (A.unpack_and_encode_field_elem (inp.add blkctr)))
          1 (A.unpack_and_encode_field_elem (inp.add (blkctr + A.BLOCKSIZE))))
          2 (A.unpack_and_encode_field_elem (inp.add (blkctr + A.BLOCKSIZE + A.BLOCKSIZE))))
          3 (A.unpack_and_encode_field_elem
            (inp.add (blkctr + A.BLOCKSIZE + A.BLOCKSIZE + A.BLOCKSIZE)))) T with
      | none => none
      | some r =>
        brw_2B_Delay_loop_checked A k inp inlen
          (blkctr + A.BLOCKSIZE + A.BLOCKSIZE + A.BLOCKSIZE + A.BLOCKSIZE) r.1 r.2 := by
  rw [brw_2B_Delay_loop_checked, if_pos h]

/-- The loop `while (inlen > blkctr + 4 * BLOCKSIZE)` of `brw_2B_Delay`, started after `g`
groups of four blocks, runs to the last group that leaves at least one block, with every
access to `k` and `T` defined, and keeps the stack of partial products. -/
theorem brw_loop_checked_spec (A : FieldArith F) (k0 : F) (lg : Nat) (kc : CArr F) (inp : Ptr)
    (inlen : Nat) (hk : brwKeys k0 lg (2 < nbBlocks A inlen) kc)
    (hlen : nbBlocks A inlen * A.BLOCKSIZE < 2 ^ 33) (hlg : nbBlocks A inlen < 2 ^ (lg + 1)) :
    ∀ (d g : Nat) (a : Arr F) (Tc : CArr F), 4 * (g + d) < nbBlocks A inlen →
      nbBlocks A inlen ≤ 4 * (g + d) + 4 →
      brwStack k0 (encodedBlock A inp inlen) lg g Tc →
      ∃ a2 T2, brw_2B_Delay_loop_checked A kc inp inlen (4 * g * A.BLOCKSIZE) a Tc =
          some (4 * (g + d) * A.BLOCKSIZE, a2, T2) ∧
        brwStack k0 (encodedBlock A inp inlen) lg (g + d) T2 := by
  have hB := A.BLOCKSIZE_pos
  intro d
  induction d with
  | zero =>
    intro g a Tc h1 h2 hT
    refine ⟨a, Tc, ?_, hT⟩
    apply brw_2B_Delay_loop_checked_exit
    have : ¬ ((4 * g + 4) * A.BLOCKSIZE < inlen) := fun hc =>
      absurd ((nbBlocks_gt_iff A inlen (4 * g + 4)).mp hc) (by omega)
    have e : (4 * g + 4) * A.BLOCKSIZE = 4 * g * A.BLOCKSIZE + 4 * A.BLOCKSIZE := by ring
    omega
  | succ d ih =>
    intro g a Tc h1 h2 hT
    have hn : 4 * (g + 1) < nbBlocks A inlen := by omega
    have hgt : (4 * (g + 1)) * A.BLOCKSIZE < inlen := (nbBlocks_gt_iff A inlen _).mpr hn
    have e : 4 * (g + 1) * A.BLOCKSIZE = 4 * g * A.BLOCKSIZE + 4 * A.BLOCKSIZE := by ring
    have e4 : 4 * g * A.BLOCKSIZE + A.BLOCKSIZE + A.BLOCKSIZE + A.BLOCKSIZE + A.BLOCKSIZE =
        4 * (g + 1) * A.BLOCKSIZE := by ring
    rw [brw_2B_Delay_loop_checked_step A kc inp inlen _ a Tc (by omega), e4]
    obtain ⟨r, j, hrj⟩ := odd_part_exists (g + 1) (by omega)
    obtain ⟨b0, b1, b2, b3⟩ := brw_group_blocks A inp inlen g a hn
    have hlen2 : 4 * (g + 1) * A.BLOCKSIZE < 2 ^ 33 := by
      have := Nat.mul_le_mul_right A.BLOCKSIZE (Nat.le_of_lt hn)
      omega
    have hj : j + 2 ≤ lg := by
      have h4 : 2 ^ (j + 2) ≤ 4 * (g + 1) := by
        rw [hrj, pow_add]
        have : 1 * 2 ^ j ≤ (2 * r + 1) * 2 ^ j := Nat.mul_le_mul_right _ (by omega)
        omega
      have : 2 ^ (j + 2) < 2 ^ (lg + 1) := by omega
      have := (Nat.pow_lt_pow_iff_right (by norm_num : 1 < 2)).mp this
      omega
    have hk2 : brwKeys k0 lg True kc := ⟨hk.1, hk.2.1, fun _ => hk.2.2 (by omega)⟩
    obtain ⟨r2, hr2, hT2⟩ := brw_fold_checked_spec A k0 (encodedBlock A inp inlen) lg g r j kc
      Tc _ hk2 hT hrj hlen2 hj b0 b1 b2 b3
    rw [hr2]
    obtain ⟨a2, T2, h3, h4⟩ := ih (g + 1) r2.1 r2.2 (by omega) (by omega) hT2
    refine ⟨a2, T2, ?_, ?_⟩
    · have e5 : g + 1 + d = g + (d + 1) := by omega
      rw [e5] at h3
      exact h3
    · have e5 : g + 1 + d = g + (d + 1) := by omega
      rw [e5] at h4
      exact h4

end BrwLoop

theorem forLoopM_succ {σ : Type} (lo hi : Nat) (body : Nat → σ → Option σ) (s : σ)
    (h : lo ≤ hi) :
    forLoopM lo (hi + 1) body s = (forLoopM lo hi body s).bind (body hi) := by
  unfold forLoopM
  have e : hi + 1 - lo = (hi - lo) + 1 := by omega
  have e2 : lo + (hi - lo) = hi := by omega
  rw [e, List.range'_concat, List.foldlM_append]
  simp only [List.foldlM_cons, List.foldlM_nil, Nat.one_mul, e2]
  cases List.foldlM (fun s j => body j s) s (List.range' lo (hi - lo)) <;> simp

theorem forLoopM_self {σ : Type} (lo : Nat) (body : Nat → σ → Option σ) (s : σ) :
    forLoopM lo lo body s = some s := by
  simp [forLoopM]

section BrwFinal

variable {F : Type} [CommRing F]

/-- The loop `for (i = 0; i < lg; ++i) field_sqr(k + i + 1, k + i)`: every access is within
`k[lg + 1]` and `k[i] = k[0]^(2^i)` afterwards. -/
theorem brw_keys_loop (k0 : F) (lg : Nat) (kc : CArr F) (hlen : kc.len = lg + 1)
    (h0 : kc.get 0 = some k0) :
    ∀ t, t ≤ lg → ∃ k2,
      forLoopM 0 t (fun i (k : CArr F) => (k.read i).bind fun ki => k.write (i + 1) (field_sqr ki))
        kc = some k2 ∧ k2.len = lg + 1 ∧ ∀ i, i ≤ t → k2.get i = some (k0 ^ 2 ^ i) := by
  intro t
  induction t with
  | zero =>
    intro _
    refine ⟨kc, forLoopM_self _ _ _, hlen, ?_⟩
    intro i hi
    have : i = 0 := by omega
    rw [this, h0, pow_zero, pow_one]
  | succ t ih =>
    intro ht
    obtain ⟨k2, h1, h2, h3⟩ := ih (by omega)
    rw [forLoopM_succ 0 t _ _ (Nat.zero_le _), h1, Option.some_bind]
    unfold CArr.read CArr.write
    rw [if_pos (by omega), h3 t (le_refl _), Option.some_bind, if_pos (by omega)]
    refine ⟨_, rfl, h2, ?_⟩
    intro i hi
    show (if i = t + 1 then some (field_sqr (k0 ^ 2 ^ t)) else k2.get i) = _
    by_cases e : i = t + 1
    · rw [if_pos e, e, field_sqr, ← pow_add, ← Nat.two_mul, ← pow_succ']
    · rw [if_neg e]
      exact h3 i (by omega)

/-- One step of the final sum over `T`, bit `L` of the number of groups set: `T[L]` holds
the polynomial of the `2^(L+2)` blocks that the bit stands for. -/
theorem brw_final_step_odd (k0 : F) (m : Nat → F) (lg Gt ρ L : Nat) (Tc : CArr F)
    (hT : brwStack k0 m lg Gt Tc) (hρ : ρ < 4) (h : Gt / 2 ^ L % 2 = 1) :
    ∃ t, Tc.get L = some t ∧
      BRWat k0 m (4 * (Gt / 2 ^ L * 2 ^ L)) (4 * (Gt % 2 ^ L) + ρ) + t =
        BRWat k0 m (4 * (Gt / 2 ^ (L + 1) * 2 ^ (L + 1))) (4 * (Gt % 2 ^ (L + 1)) + ρ) := by
  have hP : 0 < 2 ^ L := Nat.two_pow_pos L
  have hr0 : Gt % 2 ^ L < 2 ^ L := Nat.mod_lt _ hP
  have hq : Gt / 2 ^ L = 2 * (Gt / 2 ^ (L + 1)) + 1 := by
    have : Gt / 2 ^ L / 2 = Gt / 2 ^ (L + 1) := by
      rw [Nat.div_div_eq_div_mul, pow_succ]
    omega
  have hmod : Gt % 2 ^ (L + 1) = Gt % 2 ^ L + 2 ^ L := by
    rw [Nat.mod_pow_succ, h, Nat.mul_one]
  have hGt : Gt = 2 * (Gt / 2 ^ (L + 1) * 2 ^ L) + 2 ^ L + Gt % 2 ^ L := by
    have := Nat.div_add_mod Gt (2 ^ L)
    rw [hq] at this
    have e : 2 ^ L * (2 * (Gt / 2 ^ (L + 1)) + 1) = 2 * (Gt / 2 ^ (L + 1) * 2 ^ L) + 2 ^ L := by
      ring
    omega
  have e1 : (2 * (Gt / 2 ^ (L + 1)) + 1) * 2 ^ L = 2 * (Gt / 2 ^ (L + 1) * 2 ^ L) + 2 ^ L := by
    ring
  have e2 : (2 * (Gt / 2 ^ (L + 1)) + 3) * 2 ^ L =
      2 * (Gt / 2 ^ (L + 1) * 2 ^ L) + 3 * 2 ^ L := by
    ring
  have hTL := hT.2.2 L (Gt / 2 ^ (L + 1)) (by omega) (by omega)
  refine ⟨_, hTL, ?_⟩
  have e3 : 4 * (Gt / 2 ^ L * 2 ^ L) = Gt / 2 ^ (L + 1) * 2 ^ (L + 3) + 2 ^ (L + 2) := by
    rw [hq, pow_add, pow_add]
    ring
  have e4 : 4 * (Gt / 2 ^ (L + 1) * 2 ^ (L + 1)) = Gt / 2 ^ (L + 1) * 2 ^ (L + 3) := by
    rw [pow_add, pow_add]
    ring
  have e5 : 4 * (Gt % 2 ^ (L + 1)) + ρ = 2 ^ (L + 2) + (4 * (Gt % 2 ^ L) + ρ) := by
    rw [hmod, pow_add]
    ring
  have e6 : 4 * (Gt % 2 ^ L) + ρ < 2 ^ (L + 2) := by
    rw [pow_add]
    omega
  rw [e3, e4, e5, BRWat_split k0 m _ (L + 2) _ (by omega) e6, add_comm]

/-- One step of the final sum over `T`, bit `L` of the number of groups clear. -/
theorem brw_final_step_even (k0 : F) (m : Nat → F) (Gt ρ L : Nat)
    (h : ¬ Gt / 2 ^ L % 2 = 1) :
    BRWat k0 m (4 * (Gt / 2 ^ L * 2 ^ L)) (4 * (Gt % 2 ^ L) + ρ) =
      BRWat k0 m (4 * (Gt / 2 ^ (L + 1) * 2 ^ (L + 1))) (4 * (Gt % 2 ^ (L + 1)) + ρ) := by
  have hq : Gt / 2 ^ L = 2 * (Gt / 2 ^ (L + 1)) := by
    have : Gt / 2 ^ L / 2 = Gt / 2 ^ (L + 1) := by
      rw [Nat.div_div_eq_div_mul, pow_succ]
    omega
  have h0 : Gt / 2 ^ L % 2 = 0 := by omega
  have hmod : Gt % 2 ^ (L + 1) = Gt % 2 ^ L := by
    rw [Nat.mod_pow_succ, h0, Nat.mul_zero, Nat.add_zero]
  have e3 : Gt / 2 ^ L * 2 ^ L = Gt / 2 ^ (L + 1) * 2 ^ (L + 1) := by
    rw [hq, pow_succ]
    ring
  rw [e3, hmod]

/-- The loop `for (i = 0; i + 1 < lg; ++i, noOfBlocks >>= 1)` that adds the entries of `T`
selected by the bits of the number of groups: every entry read is within bounds and was
written, and the sum is the polynomial of the blocks covered so far. -/
theorem brw_final_loop (k0 : F) (m : Nat → F) (lg Gt ρ : Nat) (Tc : CArr F)
    (hT : brwStack k0 m lg Gt Tc) (hρ : ρ < 4) :
    ∀ L, L ≤ lg - 1 →
      forLoopM 0 L
        (fun i (f : F × Nat) =>
          if f.2 % 2 = 1 then
            (Tc.read i).bind fun t => pure (field_add f.1 t, f.2 / 2)
          else pure (f.1, f.2 / 2))
        (BRWat k0 m (4 * Gt) ρ, Gt) =
      some (BRWat k0 m (4 * (Gt / 2 ^ L * 2 ^ L)) (4 * (Gt % 2 ^ L) + ρ), Gt / 2 ^ L) := by
  intro L
  induction L with
  | zero =>
    intro _
    rw [forLoopM_self]
    simp [Nat.mod_one]
  | succ L ih =>
    intro hL
    rw [forLoopM_succ 0 L _ _ (Nat.zero_le _), ih (by omega), Option.some_bind]
    have hdiv : Gt / 2 ^ L / 2 = Gt / 2 ^ (L + 1) := by
      rw [Nat.div_div_eq_div_mul, pow_succ]
    by_cases h : Gt / 2 ^ L % 2 = 1
    · obtain ⟨t, ht, hv⟩ := brw_final_step_odd k0 m lg Gt ρ L Tc hT hρ h
      simp only [h, if_true]
      unfold CArr.read
      rw [if_pos (by rw [hT.1]; omega), ht, Option.some_bind, field_add, hv, hdiv]
      rfl
    · simp only [h, if_false]
      rw [brw_final_step_even k0 m Gt ρ L h, hdiv]
      rfl

end BrwFinal

section BrwStages

variable {F : Type} [CommRing F]

theorem brwStack_new (k0 : F) (m : Nat → F) (lg : Nat) :
    brwStack k0 m lg 0 (CArr.new lg) := by
  refine ⟨rfl, fun _ _ => rfl, ?_⟩
  intro i c h
  have : 0 < (2 * c + 1) * 2 ^ i := Nat.mul_pos (by omega) (Nat.two_pow_pos i)
  omega

/-- The array `k` of `brw_2B_Delay` is filled without an access out of bounds. -/
theorem brw_keys_checked_spec (A : FieldArith F) (key : Ptr) (n lg : Nat) :
    ∃ kc, brw_2B_Delay_keys_checked A key n lg = some kc ∧
      brwKeys (keyElem A key) lg (2 < n) kc := by
  unfold brw_2B_Delay_keys_checked
  simp only [CArr.write, CArr.new, Nat.zero_lt_succ, if_true, Option.bind_eq_bind,
    Option.some_bind]
  by_cases h : n > 2
  · obtain ⟨k2, h1, h2, h3⟩ := brw_keys_loop (keyElem A key) lg
      ⟨lg + 1, fun j => if j = 0 then
        some (A.unpack_field_elem (ofBuf (transform_key A.BUFFSIZE key A.KEYSIZE))) else none⟩
      rfl rfl lg (le_refl _)
    rw [if_pos h]
    unfold CArr.read CArr.write at h1
    refine ⟨k2, h1, h2, ?_, fun _ => h3⟩
    rw [h3 0 (Nat.zero_le _), pow_zero, pow_one]
  · rw [if_neg h]
    exact ⟨_, rfl, rfl, rfl, fun h2 => absurd h2 h⟩

/-- The final sum of `brw_2B_Delay` over the entries of `T` reads written entries within
bounds and gives the polynomial of all the blocks. -/
theorem brw_sum_checked_spec (k0 : F) (m : Nat → F) (lg n : Nat) (Tc : CArr F)
    (hT : brwStack k0 m lg (n / 4) Tc) (hlg : n < 2 ^ (lg + 1)) :
    brw_2B_Delay_sum_checked Tc lg n (BRWat k0 m (4 * (n / 4)) (n % 4)) =
      some (BRWat k0 m 0 n) := by
  have hGt : n / 4 < 2 ^ (lg - 1) := by
    rcases Nat.eq_zero_or_pos lg with h | h
    · rw [h] at hlg ⊢
      simp only [Nat.zero_add, pow_one, Nat.zero_sub, pow_zero] at hlg ⊢
      omega
    · have e : lg + 1 = (lg - 1) + 2 := by omega
      rw [e, pow_add] at hlg
      omega
  have hloop := brw_final_loop k0 m lg (n / 4) (n % 4) Tc hT (Nat.mod_lt _ (by omega))
    (lg - 1) (le_refl _)
  rw [Nat.div_eq_of_lt hGt, Nat.mod_eq_of_lt hGt] at hloop
  have e : 4 * (n / 4) + n % 4 = n := Nat.div_add_mod n 4
  simp only [Nat.zero_mul, Nat.mul_zero, e] at hloop
  unfold brw_2B_Delay_sum_checked
  simp only [Option.bind_eq_bind]
  rw [hloop]
  rfl

/-- The statement `switch (noOfBlocks % 4)` of `brw_2B_Delay`, reached after `G` groups of
four blocks with one to four blocks left: `a[0]` becomes the polynomial of the blocks after
the last complete group, and a fourth block completes a group. -/
theorem brw_switch_checked_spec (A : FieldArith F) (k0 : F) (lg : Nat) (kc : CArr F)
    (inp : Ptr) (inlen G : Nat) (a : Arr F) (Tc : CArr F)
    (hk : brwKeys k0 lg (2 < nbBlocks A inlen) kc)
    (hlen : nbBlocks A inlen * A.BLOCKSIZE < 2 ^ 33) (hlg : nbBlocks A inlen < 2 ^ (lg + 1))
    (hG1 : 4 * G < nbBlocks A inlen) (hG2 : nbBlocks A inlen ≤ 4 * G + 4)
    (hT : brwStack k0 (encodedBlock A inp inlen) lg G Tc) :
    ∃ r, brw_2B_Delay_switch_checked A kc inp inlen (nbBlocks A inlen)
        (4 * G * A.BLOCKSIZE) a Tc = some r ∧
      r.1 0 = BRWat k0 (encodedBlock A inp inlen) (4 * (nbBlocks A inlen / 4))
        (nbBlocks A inlen % 4) ∧
      brwStack k0 (encodedBlock A inp inlen) lg (nbBlocks A inlen / 4) r.2 := by
  have hB := A.BLOCKSIZE_pos
  have e1 : 4 * G * A.BLOCKSIZE + A.BLOCKSIZE = (4 * G + 1) * A.BLOCKSIZE := by ring
  have e2 : 4 * G * A.BLOCKSIZE + A.BLOCKSIZE + A.BLOCKSIZE = (4 * G + 2) * A.BLOCKSIZE := by
    ring
  have e3 : 4 * G * A.BLOCKSIZE + A.BLOCKSIZE + A.BLOCKSIZE + A.BLOCKSIZE =
      (4 * G + 3) * A.BLOCKSIZE := by ring
  have e4 : 4 * G * A.BLOCKSIZE + A.BLOCKSIZE + A.BLOCKSIZE + A.BLOCKSIZE + A.BLOCKSIZE =
      4 * (G + 1) * A.BLOCKSIZE := by ring
  have hk0 : kc.read 0 = some k0 := by
    unfold CArr.read
    rw [if_pos (by rw [hk.1]; omega), hk.2.1]
  have hcases : nbBlocks A inlen = 4 * G + 1 ∨ nbBlocks A inlen = 4 * G + 2 ∨
      nbBlocks A inlen = 4 * G + 3 ∨ nbBlocks A inlen = 4 * G + 4 := by omega
  unfold brw_2B_Delay_switch_checked
  rcases hcases with h | h | h | h
  · have hm : nbBlocks A inlen % 4 = 1 := by omega
    have hd : nbBlocks A inlen / 4 = G := by omega
    rw [hm, hd]
    refine ⟨_, rfl, ?_, hT⟩
    rw [BRWat_one, encodedBlock_last A inp inlen (4 * G) (by omega)]
    simp [setArr]
  · have hm : nbBlocks A inlen % 4 = 2 := by omega
    have hd : nbBlocks A inlen / 4 = G := by omega
    rw [hm, hd]
    simp only [hk0, Option.bind_eq_bind, Option.some_bind]
    refine ⟨_, rfl, ?_, hT⟩
    rw [BRWat_two, encodedBlock_full A inp inlen (4 * G) (by omega),
      encodedBlock_last A inp inlen (4 * G + 1) (by omega), ← e1]
    simp [setArr, field_add, field_mul]
  · have hm : nbBlocks A inlen % 4 = 3 := by omega
    have hd : nbBlocks A inlen / 4 = G := by omega
    have hk1 : kc.read 1 = some (k0 ^ 2) := by
      have hlg1 : 1 ≤ lg := by
        rcases Nat.eq_zero_or_pos lg with h0 | h0
        · rw [h0] at hlg
          simp at hlg
          omega
        · exact h0
      unfold CArr.read
      rw [if_pos (by rw [hk.1]; omega), hk.2.2 (by omega) 1 hlg1, pow_one]
    rw [hm, hd]
    simp only [hk0, hk1, Option.bind_eq_bind, Option.some_bind]
    refine ⟨_, rfl, ?_, hT⟩
    rw [BRWat_three, encodedBlock_full A inp inlen (4 * G) (by omega),
      encodedBlock_full A inp inlen (4 * G + 1) (by omega),
      encodedBlock_last A inp inlen (4 * G + 2) (by omega), ← e1, ← e2]
    simp [setArr, field_add, field_mul]
  · have hm : nbBlocks A inlen % 4 = 0 := by omega
    have hd : nbBlocks A inlen / 4 = G + 1 := by omega
    rw [hm, hd]
    obtain ⟨r, j, hrj⟩ := odd_part_exists (G + 1) (by omega)
    have hlen2 : 4 * (G + 1) * A.BLOCKSIZE < 2 ^ 33 := by
      have e : 4 * (G + 1) = nbBlocks A inlen := by omega
      rw [e]
      exact hlen
    have hj : j + 2 ≤ lg := by
      have h4 : 2 ^ (j + 2) ≤ 4 * (G + 1) := by
        rw [hrj, pow_add]
        have : 1 * 2 ^ j ≤ (2 * r + 1) * 2 ^ j := Nat.mul_le_mul_right _ (by omega)
        omega
      have : 2 ^ (j + 2) < 2 ^ (lg + 1) := by omega
      have := (Nat.pow_lt_pow_iff_right (by norm_num : 1 < 2)).mp this
      omega
    have hk2 : brwKeys k0 lg True kc := ⟨hk.1, hk.2.1, fun _ => hk.2.2 (by omega)⟩
    obtain ⟨r2, hr2, hT2⟩ := brw_fold_checked_spec A k0 (encodedBlock A inp inlen) lg G r j kc
      Tc (setArr (setArr (setArr (setArr a 0
          (A.unpack_and_encode_field_elem (inp.add (4 * G * A.BLOCKSIZE))))
        1 (A.unpack_and_encode_field_elem (inp.add (4 * G * A.BLOCKSIZE + A.BLOCKSIZE))))
        2 (A.unpack_and_encode_field_elem
          (inp.add (4 * G * A.BLOCKSIZE + A.BLOCKSIZE + A.BLOCKSIZE))))
        3 (A.unpack_and_encode_last_field_elem
          (inp.add (4 * G * A.BLOCKSIZE + A.BLOCKSIZE + A.BLOCKSIZE + A.BLOCKSIZE))
          ((inlen - 1) % A.BLOCKSIZE + 1)))
      hk2 hT hrj hlen2 hj
      (by rw [encodedBlock_full A inp inlen (4 * G) (by omega)]; simp [setArr])
      (by rw [encodedBlock_full A inp inlen (4 * G + 1) (by omega), ← e1]; simp [setArr])
      (by rw [encodedBlock_full A inp inlen (4 * G + 2) (by omega), ← e2]; simp [setArr])
      (by rw [encodedBlock_last A inp inlen (4 * G + 3) (by omega), ← e3]; simp [setArr])
    simp only [e4, hr2, Option.bind_eq_bind, Option.some_bind]
    refine ⟨_, rfl, ?_, hT2⟩
    rw [BRWat_zero]
    simp [setArr]

end BrwStages

section BrwMain

variable {F : Type} [CommRing F]

theorem BRW_encodedBlocks (A : FieldArith F) (k : F) (inp : Ptr) (inlen : Nat) :
    BRW k (encodedBlocks A inp inlen) =
      BRWat k (encodedBlock A inp inlen) 0 (nbBlocks A inlen) := by
  unfold BRW encodedBlocks
  rw [List.length_map, List.length_range]
  apply BRWat_congr
  intro i _ hi
  simp only [Nat.zero_add] at hi
  simp [List.getD_eq_getElem?_getD, List.getElem?_map, List.getElem?_range, hi]

/-- On a non-empty message whose rounded-up length `noOfBlocks * BLOCKSIZE` is below `2^33`,
every access of `brw_2B_Delay` to `k` and `T` is defined and the accumulator is the
Bernstein-Rabin-Winograd polynomial of the encoded blocks. -/
theorem brw_2B_Delay_acc_checked_eq (A : FieldArith F) (a0 : Arr F) (inp : Ptr) (inlen : Nat)
    (key : Ptr) (h0 : 0 < inlen) (hlen : nbBlocks A inlen * A.BLOCKSIZE < 2 ^ 33) :
    brw_2B_Delay_acc_checked A a0 inp inlen key =
      some (BRWat (keyElem A key) (encodedBlock A inp inlen) 0 (nbBlocks A inlen)) := by
  have hB := A.BLOCKSIZE_pos
  have hn := nbBlocks_pos A h0
  have hn64 : nbBlocks A inlen < 2 ^ 64 := by
    have : nbBlocks A inlen * 1 ≤ nbBlocks A inlen * A.BLOCKSIZE := Nat.mul_le_mul_left _ hB
    omega
  have hLOG := LOG2_eq_log (nbBlocks A inlen) hn hn64
  have hlg : nbBlocks A inlen < 2 ^ (Nat.log 2 (nbBlocks A inlen) + 1) :=
    Nat.lt_pow_succ_log_self (by norm_num) _
  obtain ⟨kc, hkc, hk⟩ := brw_keys_checked_spec A key (nbBlocks A inlen)
    (Nat.log 2 (nbBlocks A inlen))
  obtain ⟨a2, T2, hloop, hT2⟩ := brw_loop_checked_spec A (keyElem A key)
    (Nat.log 2 (nbBlocks A inlen)) kc inp inlen hk hlen hlg ((nbBlocks A inlen - 1) / 4) 0
    a0 (CArr.new (Nat.log 2 (nbBlocks A inlen))) (by omega) (by omega)
    (brwStack_new _ _ _)
  simp only [Nat.mul_zero, Nat.zero_mul, Nat.zero_add] at hloop hT2
  obtain ⟨r, hr, hr0, hT3⟩ := brw_switch_checked_spec A (keyElem A key)
    (Nat.log 2 (nbBlocks A inlen)) kc inp inlen ((nbBlocks A inlen - 1) / 4) a2 T2 hk hlen hlg
    (by omega) (by omega) hT2
  have hsum := brw_sum_checked_spec (keyElem A key) (encodedBlock A inp inlen)
    (Nat.log 2 (nbBlocks A inlen)) (nbBlocks A inlen) r.2 hT3 hlg
  rw [← hr0] at hsum
  unfold brw_2B_Delay_acc_checked
  simp only [brw_noOfBlocks, hLOG, hkc, hloop, hr, hsum, Option.bind_eq_bind, Option.some_bind,
    reduce, _carry_round]
  rfl

/-- The tag of `brw_2B_Delay` on a non-empty message whose rounded-up length is below
`2^33`. -/
theorem brw_2B_Delay_checked_eq_BRW (A : FieldArith F) (a0 : Arr F) (inp : Ptr) (inlen : Nat)
    (key : Ptr) (h0 : 0 < inlen) (hlen : nbBlocks A inlen * A.BLOCKSIZE < 2 ^ 33) :
    brw_2B_Delay_checked A a0 inp inlen key =
      some (pack_and_transform A (BRW (keyElem A key) (encodedBlocks A inp inlen))) := by
  unfold brw_2B_Delay_checked
  rw [if_neg (by omega), brw_2B_Delay_acc_checked_eq A a0 inp inlen key h0 hlen,
    BRW_encodedBlocks]
  rfl

end BrwMain

/-! ### The checked and the unchecked embedding of `brw_2B_Delay` agree -/

theorem CArr.agrees_new {α : Type} (n : Nat) (p : Arr α) : (CArr.new n : CArr α).agrees p := by
  intro i v h
  unfold CArr.read CArr.new at h
  split at h <;> exact absurd h (by simp)

theorem CArr.agrees_write {α : Type} (c c2 : CArr α) (p : Arr α) (i : Nat) (v : α)
    (h : c.agrees p) (hw : c.write i v = some c2) : c2.agrees (setArr p i v) := by
  unfold CArr.write at hw
  split at hw
  · have e := Option.some.inj hw
    subst e
    intro j w hj
    unfold CArr.read at hj
    simp only at hj
    show (if j = i then v else p.get j) = w
    by_cases hlt : j < c.len
    · rw [if_pos hlt] at hj
      by_cases hji : j = i
      · rw [if_pos hji] at hj
        rw [if_pos hji]
        exact Option.some.inj hj
      · rw [if_neg hji] at hj
        rw [if_neg hji]
        apply h j w
        unfold CArr.read
        rw [if_pos hlt]
        exact hj
    · rw [if_neg hlt] at hj
      exact absurd hj (by simp)
  · exact absurd hw (by simp)

theorem forLoopM_sim {σ τ : Type} (R : σ → τ → Prop) (bodyM : Nat → σ → Option σ)
    (body : Nat → τ → τ)
    (hstep : ∀ j s s2 t, R s t → bodyM j s = some s2 → R s2 (body j t)) :
    ∀ (n lo : Nat) (s s2 : σ) (t : τ), R s t → forLoopM lo (lo + n) bodyM s = some s2 →
      R s2 (forLoop lo (lo + n) body t) := by
  intro n
  induction n with
  | zero =>
    intro lo s s2 t hR h
    rw [Nat.add_zero, forLoopM_self] at h
    rw [Nat.add_zero, forLoop_self, ← Option.some.inj h]
    exact hR
  | succ n ih =>
    intro lo s s2 t hR h
    have e2 : lo + (n + 1) - lo = (lo + (n + 1) - (lo + 1)) + 1 := by omega
    have e1 : lo + 1 + n = lo + (n + 1) := by omega
    have ih2 := ih (lo + 1)
    rw [e1] at ih2
    unfold forLoopM at h ih2
    unfold forLoop at ih2 ⊢
    rw [e2, List.range'_succ, List.foldlM_cons] at h
    rw [e2, List.range'_succ, List.foldl_cons]
    cases hb : bodyM lo s with
    | none =>
      rw [hb] at h
      exact absurd h (by simp)
    | some s1 =>
      rw [hb] at h
      exact ih2 s1 s2 (body lo t) (hstep lo s s1 t hR hb) h

theorem forLoopM_sim_zero {σ τ : Type} (R : σ → τ → Prop) (bodyM : Nat → σ → Option σ)
    (body : Nat → τ → τ)
    (hstep : ∀ j s s2 t, R s t → bodyM j s = some s2 → R s2 (body j t))
    (n : Nat) (s s2 : σ) (t : τ) (hR : R s t) (h : forLoopM 0 n bodyM s = some s2) :
    R s2 (forLoop 0 n body t) := by
  have := forLoopM_sim R bodyM body hstep n 0 s s2 t hR (by rw [Nat.zero_add]; exact h)
  rw [Nat.zero_add] at this
  exact this

section BrwErase

variable {F : Type} [CommRing F]

theorem brw_fold_erase (A : FieldArith F) (kc : CArr F) (k : Arr F) (blkctr : Nat)
    (a : Arr F) (Tc : CArr F) (T : Arr F) (r : Arr F × CArr F)
    (hk : kc.agrees k) (hT : Tc.agrees T)
    (h : brw_2B_Delay_fold_checked A kc blkctr a Tc = some r) :
    ∃ T2, brw_2B_Delay_fold A k ⟨blkctr, a, T⟩ = ⟨blkctr, r.1, T2⟩ ∧ r.2.agrees T2 := by
  unfold brw_2B_Delay_fold_checked at h
  simp only [Option.bind_eq_bind, Option.bind_eq_some] at h
  obtain ⟨k0, hk0, k1, hk1, a5, ha5, ksp, hksp, h⟩ := h
  split at h
  · simp only [Option.bind_eq_some] at h
    obtain ⟨T5, hT5, h⟩ := h
    have hr := Option.some.inj h
    have hloop := forLoopM_sim_zero (fun (s t : Arr F) => s = t)
      (fun i (a : Arr F) => (Tc.read i).bind fun t => pure (setArr a 0 (field_add (a.get 0) t)))
      (fun i (a : Arr F) => setArr a 0 (field_add (a 0) (T i)))
      (by
        intro j s s2 t hst hb
        simp only [Option.bind_eq_some] at hb
        obtain ⟨v, hv, hb⟩ := hb
        show s2 = setArr t 0 (field_add (t.get 0) (T.get j))
        rw [← Option.some.inj hb, hst, hT j v hv])
      _ _ _ _ rfl ha5
    have e : brw_2B_Delay_fold A k ⟨blkctr, a, T⟩ =
        ⟨blkctr, r.1, setArr T (__builtin_ctz blkctr - __builtin_ctz A.BLOCKSIZE - 2)
          (field_mul ((setArr a5 3 (field_add (a5.get 3) ksp)).get 0)
            ((setArr a5 3 (field_add (a5.get 3) ksp)).get 3))⟩ := by
      unfold brw_2B_Delay_fold
      simp only [← hloop, hk 0 k0 hk0, hk 1 k1 hk1, hk _ ksp hksp, ← hr]
    refine ⟨_, e, ?_⟩
    rw [← hr]
    exact CArr.agrees_write _ _ _ _ _ hT hT5
  · exact absurd h (by simp)

end BrwErase

section BrwErase2

variable {F : Type} [CommRing F]

theorem brw_2B_Delay_loop_step (A : FieldArith F) (k : Arr F) (inp : Ptr)
    (inlen blkctr : Nat) (a T : Arr F) (h : inlen > blkctr + 4 * A.BLOCKSIZE) :
    brw_2B_Delay_loop A k inp inlen ⟨blkctr, a, T⟩ =
      brw_2B_Delay_loop A k inp inlen (brw_2B_Delay_fold A k
        ⟨blkctr + A.BLOCKSIZE + A.BLOCKSIZE + A.BLOCKSIZE + A.BLOCKSIZE,
          setArr (setArr (setArr (setArr a 0 (A.unpack_and_encode_field_elem (inp.add blkctr)))
            1 (A.unpack_and_encode_field_elem (inp.add (blkctr + A.BLOCKSIZE))))
            2 (A.unpack_and_encode_field_elem (inp.add (blkctr + A.BLOCKSIZE + A.BLOCKSIZE))))
            3 (A.unpack_and_encode_field_elem
              (inp.add (blkctr + A.BLOCKSIZE + A.BLOCKSIZE + A.BLOCKSIZE))), T⟩) := by
  rw [brw_2B_Delay_loop, if_pos h]
  rfl

theorem brw_loop_erase (A : FieldArith F) (kc : CArr F) (k : Arr F) (inp : Ptr) (inlen : Nat)
    (hk : kc.agrees k) :
    ∀ (fuel blkctr : Nat) (a : Arr F) (Tc : CArr F) (T : Arr F) (r : Nat × Arr F × CArr F),
      inlen - blkctr ≤ fuel → Tc.agrees T →
      brw_2B_Delay_loop_checked A kc inp inlen blkctr a Tc = some r →
      ∃ T2, brw_2B_Delay_loop A k inp inlen ⟨blkctr, a, T⟩ = ⟨r.1, r.2.1, T2⟩ ∧
        r.2.2.agrees T2 := by
  have hB := A.BLOCKSIZE_pos
  intro fuel
  induction fuel with
  | zero =>
    intro blkctr a Tc T r hf hT h
    rw [brw_2B_Delay_loop_checked_exit A kc inp inlen blkctr a Tc (by omega)] at h
    rw [← Option.some.inj h]
    exact ⟨T, brw_2B_Delay_loop_few A k inp inlen _ (by simp only; omega), hT⟩
  | succ fuel ih =>
    intro blkctr a Tc T r hf hT h
    by_cases hc : inlen > blkctr + 4 * A.BLOCKSIZE
    · rw [brw_2B_Delay_loop_checked_step A kc inp inlen blkctr a Tc hc] at h
      rw [brw_2B_Delay_loop_step A k inp inlen blkctr a T hc]
      cases hfold : brw_2B_Delay_fold_checked A kc
          (blkctr + A.BLOCKSIZE + A.BLOCKSIZE + A.BLOCKSIZE + A.BLOCKSIZE)
          (setArr (setArr (setArr (setArr a 0 (A.unpack_and_encode_field_elem (inp.add blkctr)))
            1 (A.unpack_and_encode_field_elem (inp.add (blkctr + A.BLOCKSIZE))))
            2 (A.unpack_and_encode_field_elem (inp.add (blkctr + A.BLOCKSIZE + A.BLOCKSIZE))))
            3 (A.unpack_and_encode_field_elem
              (inp.add (blkctr + A.BLOCKSIZE + A.BLOCKSIZE + A.BLOCKSIZE)))) Tc with
      | none =>
        rw [hfold] at h
        exact absurd h (by simp)
      | some r1 =>
        rw [hfold] at h
        obtain ⟨T1, e1, hT1⟩ := brw_fold_erase A kc k _ _ Tc T r1 hk hT hfold
        rw [e1]
        exact ih _ r1.1 r1.2 T1 r (by omega) hT1 h
    · rw [brw_2B_Delay_loop_checked_exit A kc inp inlen blkctr a Tc (by omega)] at h
      rw [← Option.some.inj h]
      exact ⟨T, brw_2B_Delay_loop_few A k inp inlen _ (by simp only; omega), hT⟩

theorem brw_keys_erase (A : FieldArith F) (k0 : Arr F) (key : Ptr) (n lg : Nat)
    (kc : CArr F) (h : brw_2B_Delay_keys_checked A key n lg = some kc) :
    kc.agrees
      (if n > 2 then
        forLoop 0 lg (fun i (k : Arr F) => setArr k (i + 1) (field_sqr (k i)))
          (setArr k0 0
            (A.unpack_field_elem (ofBuf (transform_key A.BUFFSIZE key A.KEYSIZE))))
      else setArr k0 0
        (A.unpack_field_elem (ofBuf (transform_key A.BUFFSIZE key A.KEYSIZE)))) := by
  unfold brw_2B_Delay_keys_checked at h
  simp only [Option.bind_eq_bind, Option.bind_eq_some] at h
  obtain ⟨k1, hk1, h⟩ := h
  have h1 := CArr.agrees_write _ _ _ _ _ (CArr.agrees_new (lg + 1) k0) hk1
  by_cases hn : n > 2
  · rw [if_pos hn] at h ⊢
    refine forLoopM_sim_zero (fun (c : CArr F) (p : Arr F) => c.agrees p) _ _ ?_ _ _ _ _ h1 h
    intro j s s2 t hst hb
    simp only [Option.bind_eq_some] at hb
    obtain ⟨v, hv, hb⟩ := hb
    show s2.agrees (setArr t (j + 1) (field_sqr (t.get j)))
    rw [hst j v hv]
    exact CArr.agrees_write _ _ _ _ _ hst hb
  · rw [if_neg hn] at h ⊢
    rw [← Option.some.inj h]
    exact h1

theorem brw_sum_erase (Tc : CArr F) (T : Arr F) (lg n : Nat) (a0 v : F)
    (hT : Tc.agrees T) (h : brw_2B_Delay_sum_checked Tc lg n a0 = some v) :
    (forLoop 0 (lg - 1)
      (fun i (f : F × Nat) => (if f.2 % 2 = 1 then field_add f.1 (T i) else f.1, f.2 / 2))
      (a0, n / 4)).1 = v := by
  unfold brw_2B_Delay_sum_checked at h
  simp only [Option.bind_eq_bind, Option.bind_eq_some] at h
  obtain ⟨f, hf, h⟩ := h
  have hloop := forLoopM_sim_zero (fun (s t : F × Nat) => s = t) _
    (fun i (f : F × Nat) => (if f.2 % 2 = 1 then field_add f.1 (T i) else f.1, f.2 / 2))
    (by
      intro j s s2 t hst hb
      show s2 = (if t.2 % 2 = 1 then field_add t.1 (T.get j) else t.1, t.2 / 2)
      subst hst
      by_cases hbit : s.2 % 2 = 1
      · simp only [hbit, if_true, Option.bind_eq_some] at hb
        obtain ⟨w, hw, hb⟩ := hb
        rw [if_pos hbit, ← Option.some.inj hb, hT j w hw]
      · simp only [hbit, if_false] at hb
        rw [if_neg hbit, ← Option.some.inj hb])
    _ _ _ _ rfl hf
  rw [← hloop]
  exact Option.some.inj h

end BrwErase2

section BrwReads

variable {F : Type}

theorem brw_read_two (A : FieldArith F) (inp : Ptr) (b : Nat) (a T : Arr F) :
    forLoop 0 2
      (fun i (r : BrwState F) =>
        { blkctr := r.blkctr + A.BLOCKSIZE,
          a := setArr r.a i (A.unpack_and_encode_field_elem (inp.add r.blkctr)),
          T := r.T })
      ⟨b, a, T⟩ =
    ⟨b + A.BLOCKSIZE + A.BLOCKSIZE,
      setArr (setArr a 0 (A.unpack_and_encode_field_elem (inp.add b)))
        1 (A.unpack_and_encode_field_elem (inp.add (b + A.BLOCKSIZE))), T⟩ := rfl

theorem brw_read_three (A : FieldArith F) (inp : Ptr) (b : Nat) (a T : Arr F) :
    forLoop 0 3
      (fun i (r : BrwState F) =>
        { blkctr := r.blkctr + A.BLOCKSIZE,
          a := setArr r.a i (A.unpack_and_encode_field_elem (inp.add r.blkctr)),
          T := r.T })
      ⟨b, a, T⟩ =
    ⟨b + A.BLOCKSIZE + A.BLOCKSIZE + A.BLOCKSIZE,
      setArr (setArr (setArr a 0 (A.unpack_and_encode_field_elem (inp.add b)))
        1 (A.unpack_and_encode_field_elem (inp.add (b + A.BLOCKSIZE))))
        2 (A.unpack_and_encode_field_elem (inp.add (b + A.BLOCKSIZE + A.BLOCKSIZE))), T⟩ := rfl

end BrwReads

section BrwErase3

variable {F : Type} [CommRing F]

theorem brw_2B_Delay_acc_erase (A : FieldArith F) (a0 k0 T0 : Arr F) (inp : Ptr)
    (inlen : Nat) (key : Ptr) (v : F)
    (h : brw_2B_Delay_acc_checked A a0 inp inlen key = some v) :
    brw_2B_Delay_acc_from A a0 k0 T0 inp inlen key = v := by
  unfold brw_2B_Delay_acc_checked at h
  simp only [Option.bind_eq_bind, Option.bind_eq_some] at h
  obtain ⟨kc, hkc, s, hs, r, hr, f0, ha0, hv⟩ := h
  have hk := brw_keys_erase A k0 key _ _ kc hkc
  obtain ⟨T2, hloop, hT2⟩ := brw_loop_erase A kc _ inp inlen hk inlen 0 a0 (CArr.new _)
    T0 s (by omega) (CArr.agrees_new _ _) hs
  have hm : ∀ x : Nat, x % 4 = 0 ∨ x % 4 = 1 ∨ x % 4 = 2 ∨ x % 4 = 3 := fun x => by omega
  unfold brw_2B_Delay_acc_from
  unfold brw_2B_Delay_switch_checked at hr
  simp only [hloop]
  rcases hm (inlen / A.BLOCKSIZE + if inlen % A.BLOCKSIZE ≠ 0 then 1 else 0) with h4 | h4 | h4 | h4
  · simp only [h4, Option.bind_eq_bind, Option.bind_eq_some] at hr ⊢
    obtain ⟨r1, hr1, hr⟩ := hr
    have hr2 := Option.some.inj hr
    subst hr2
    simp only at ha0
    obtain ⟨T3, e3, hT3⟩ := brw_fold_erase A kc _ _ _ s.2.2 T2 r1 hk hT2 hr1
    simp only [brw_read_three, e3]
    rw [brw_sum_erase _ _ _ _ _ _ hT3 ha0]
    exact Option.some.inj hv
  · simp only [h4] at hr ⊢
    have hr2 := Option.some.inj hr
    subst hr2
    simp only at ha0
    rw [brw_sum_erase _ _ _ _ _ _ hT2 ha0]
    exact Option.some.inj hv
  · simp only [h4, Option.bind_eq_bind, Option.bind_eq_some] at hr ⊢
    obtain ⟨k0, hk0, hr⟩ := hr
    have hr2 := Option.some.inj hr
    subst hr2
    simp only at ha0
    simp only [hk 0 k0 hk0]
    rw [brw_sum_erase _ _ _ _ _ _ hT2 ha0]
    exact Option.some.inj hv
  · simp only [h4, Option.bind_eq_bind, Option.bind_eq_some] at hr ⊢
    obtain ⟨k0, hk0, k1, hk1, hr⟩ := hr
    have hr2 := Option.some.inj hr
    subst hr2
    simp only at ha0
    simp only [brw_read_two, hk 0 k0 hk0, hk 1 k1 hk1]
    rw [brw_sum_erase _ _ _ _ _ _ hT2 ha0]
    exact Option.some.inj hv

/-- Where the checked embedding of `brw_2B_Delay` is defined, the unchecked embedding returns
the same bytes, whatever the arrays `k` and `T` hold where they are declared. -/
theorem brw_2B_Delay_erase (A : FieldArith F) (a0 k0 T0 : Arr F) (inp : Ptr) (inlen : Nat)
    (key : Ptr) (t : List Byte) (h : brw_2B_Delay_checked A a0 inp inlen key = some t) :
    brw_2B_Delay_from A a0 k0 T0 inp inlen key = t := by
  unfold brw_2B_Delay_checked at h
  unfold brw_2B_Delay_from
  by_cases h0 : inlen = 0
  · rw [if_pos h0] at h ⊢
    exact Option.some.inj h
  · rw [if_neg h0] at h ⊢
    simp only [Option.map_eq_some'] at h
    obtain ⟨v, hv, e⟩ := h
    rw [brw_2B_Delay_acc_erase A a0 k0 T0 inp inlen key v hv]
    exact e

end BrwErase3

/-! ### `brw_2B_Delay` from `blkctr = 2^33` on: the entry `T[27]` is read and never written -/

theorem ctzAux_le : ∀ (fuel n : Nat), ctzAux fuel n ≤ fuel := by
  intro fuel
  induction fuel with
  | zero => intro n; simp [ctzAux]
  | succ fuel ih =>
    intro n
    unfold ctzAux
    split
    · have := ih (n / 2)
      omega
    · omega

theorem __builtin_ctz_le (x : Nat) : __builtin_ctz x ≤ 32 := ctzAux_le 32 _

section BrwOverflow

variable {F : Type} [CommRing F]

/-- The statements of `brw_2B_Delay_fold` write `T[sp - 2]` with
`sp ≤ 32 - __builtin_ctz(BLOCKSIZE)`: the entries of `T` above are left as they are. -/
theorem brw_2B_Delay_fold_frame (A : FieldArith F) (k : Arr F) (s : BrwState F) (i : Nat)
    (hi : 32 - __builtin_ctz A.BLOCKSIZE - 2 < i) :
    (brw_2B_Delay_fold A k s).T i = s.T i ∧ (brw_2B_Delay_fold A k s).blkctr = s.blkctr := by
  have h := __builtin_ctz_le s.blkctr
  refine ⟨?_, rfl⟩
  unfold brw_2B_Delay_fold
  show (if i = _ then _ else s.T.get i) = _
  rw [if_neg (by omega)]

/-- The loop of `brw_2B_Delay`, started after `g` groups of four blocks: `blkctr` at the exit
and the entries of `T` above `32 - __builtin_ctz(BLOCKSIZE) - 2`. -/
theorem brw_2B_Delay_loop_frame (A : FieldArith F) (k : Arr F) (inp : Ptr) (inlen i : Nat)
    (hi : 32 - __builtin_ctz A.BLOCKSIZE - 2 < i) :
    ∀ (d g : Nat) (s : BrwState F), s.blkctr = 4 * g * A.BLOCKSIZE →
      4 * (g + d) < nbBlocks A inlen → nbBlocks A inlen ≤ 4 * (g + d) + 4 →
      (brw_2B_Delay_loop A k inp inlen s).blkctr = 4 * (g + d) * A.BLOCKSIZE ∧
        (brw_2B_Delay_loop A k inp inlen s).T i = s.T i := by
  have hB := A.BLOCKSIZE_pos
  intro d
  induction d with
  | zero =>
    intro g s hs h1 h2
    have : ¬ ((4 * g + 4) * A.BLOCKSIZE < inlen) := fun hc =>
      absurd ((nbBlocks_gt_iff A inlen (4 * g + 4)).mp hc) (by omega)
    have e : (4 * g + 4) * A.BLOCKSIZE = 4 * g * A.BLOCKSIZE + 4 * A.BLOCKSIZE := by ring
    rw [brw_2B_Delay_loop_few A k inp inlen _ (by omega)]
    exact ⟨hs, rfl⟩
  | succ d ih =>
    intro g s hs h1 h2
    obtain ⟨b, a, T⟩ := s
    simp only at hs
    have hn : 4 * (g + 1) < nbBlocks A inlen := by omega
    have hgt : (4 * (g + 1)) * A.BLOCKSIZE < inlen := (nbBlocks_gt_iff A inlen _).mpr hn
    have e : 4 * (g + 1) * A.BLOCKSIZE = 4 * g * A.BLOCKSIZE + 4 * A.BLOCKSIZE := by ring
    have e4 : b + A.BLOCKSIZE + A.BLOCKSIZE + A.BLOCKSIZE + A.BLOCKSIZE =
        4 * (g + 1) * A.BLOCKSIZE := by
      rw [hs]
      ring
    rw [brw_2B_Delay_loop_step A k inp inlen b a T (by omega)]
    obtain ⟨f1, f2⟩ := brw_2B_Delay_fold_frame A k
      ⟨b + A.BLOCKSIZE + A.BLOCKSIZE + A.BLOCKSIZE + A.BLOCKSIZE,
        setArr (setArr (setArr (setArr a 0 (A.unpack_and_encode_field_elem (inp.add b)))
          1 (A.unpack_and_encode_field_elem (inp.add (b + A.BLOCKSIZE))))
          2 (A.unpack_and_encode_field_elem (inp.add (b + A.BLOCKSIZE + A.BLOCKSIZE))))
          3 (A.unpack_and_encode_field_elem
            (inp.add (b + A.BLOCKSIZE + A.BLOCKSIZE + A.BLOCKSIZE))), T⟩ i hi
    simp only at f1 f2
    obtain ⟨h3, h4⟩ := ih (g + 1) _ (f2.trans e4) (by omega) (by omega)
    have e5 : g + 1 + d = g + (d + 1) := by omega
    rw [e5] at h3
    exact ⟨h3, h4.trans f1⟩

/-- The final loop of `brw_2B_Delay` when the number of groups is `2^L`: the bits below `L`
are clear, so nothing is added before `T[L]`. -/
theorem brw_final_single_bit (T : Arr F) (x : F) (L : Nat) :
    ∀ i, i ≤ L →
      forLoop 0 i
        (fun i (f : F × Nat) =>
          (if f.2 % 2 = 1 then field_add f.1 (T i) else f.1, f.2 / 2))
        (x, 2 ^ L) = (x, 2 ^ (L - i)) := by
  intro i
  induction i with
  | zero => intro _; rw [forLoop_self]; rfl
  | succ i ih =>
    intro hi
    rw [forLoop_succ 0 i _ _ (Nat.zero_le _), ih (by omega)]
    have e : L - i = (L - (i + 1)) + 1 := by omega
    simp only
    rw [e, pow_succ, Nat.mul_mod_left, if_neg (by omega),
      Nat.mul_div_cancel _ (by norm_num : 0 < 2)]

end BrwOverflow

section BrwOverflow2

variable {F : Type} [CommRing F]

/-- The accumulator of `brw_2B_Delay` on a message of `2^29 + 1` blocks when
`__builtin_ctz(BLOCKSIZE) ≥ 4`: the last block plus the content of `T[27]` as declared, which
no statement has written. -/
theorem brw_2B_Delay_acc_from_overflow (A : FieldArith F) (a0 k0 T0 : Arr F) (inp : Ptr)
    (inlen : Nat) (key : Ptr) (hctz : 32 - __builtin_ctz A.BLOCKSIZE - 2 < 27)
    (hn : nbBlocks A inlen = 2 ^ 29 + 1) :
    brw_2B_Delay_acc_from A a0 k0 T0 inp inlen key =
      encodedBlock A inp inlen (2 ^ 29) + T0 27 := by
  have hLOG : LOG2 (2 ^ 29 + 1) = 29 := by decide
  have h4 : (2 ^ 29 + 1) % 4 = 1 := by norm_num
  have hd : (2 ^ 29 + 1) / 4 = 2 ^ 27 := by norm_num
  have h28 : 29 - 1 = 27 + 1 := rfl
  have hfr := fun k => brw_2B_Delay_loop_frame A k inp inlen 27 hctz (2 ^ 27) 0 ⟨0, a0, T0⟩
    (by simp) (by rw [hn]; norm_num) (by rw [hn]; norm_num)
  have hblk : 4 * (0 + 2 ^ 27) * A.BLOCKSIZE = 2 ^ 29 * A.BLOCKSIZE := by norm_num
  simp only [hblk] at hfr
  unfold brw_2B_Delay_acc_from
  simp only [brw_noOfBlocks, hn, hLOG, h4, hd, h28]
  rw [forLoop_succ 0 27 _ _ (Nat.zero_le _), brw_final_single_bit _ _ 27 27 (le_refl _)]
  simp only [Nat.sub_self, pow_zero, Nat.mod_self, if_true, (hfr _).1, (hfr _).2, reduce,
    _carry_round, field_add, setArr_get_same]
  rw [encodedBlock_last A inp inlen (2 ^ 29) hn.symm, if_pos (by decide)]

/-- The checked statements of `brw_2B_Delay_fold` leave the entries of `T` above
`32 - __builtin_ctz(BLOCKSIZE) - 2` unwritten. -/
theorem brw_fold_checked_frame (A : FieldArith F) (kc : CArr F) (blkctr : Nat) (a : Arr F)
    (Tc : CArr F) (r : Arr F × CArr F) (i : Nat)
    (hi : 32 - __builtin_ctz A.BLOCKSIZE - 2 < i)
    (h : brw_2B_Delay_fold_checked A kc blkctr a Tc = some r) : r.2.get i = Tc.get i := by
  have hle := __builtin_ctz_le blkctr
  unfold brw_2B_Delay_fold_checked at h
  simp only [Option.bind_eq_bind, Option.bind_eq_some] at h
  obtain ⟨k0, hk0, k1, hk1, a5, ha5, ksp, hksp, h⟩ := h
  split at h
  · simp only [Option.bind_eq_some] at h
    obtain ⟨T5, hT5, h⟩ := h
    rw [← Option.some.inj h]
    unfold CArr.write at hT5
    split at hT5
    · rw [← Option.some.inj hT5]
      show (if i = _ then _ else Tc.get i) = _
      rw [if_neg (by omega)]
    · exact absurd hT5 (by simp)
  · exact absurd h (by simp)

theorem brw_loop_checked_frame (A : FieldArith F) (kc : CArr F) (inp : Ptr) (inlen i : Nat)
    (hi : 32 - __builtin_ctz A.BLOCKSIZE - 2 < i) :
    ∀ (fuel blkctr : Nat) (a : Arr F) (Tc : CArr F) (r : Nat × Arr F × CArr F),
      inlen - blkctr ≤ fuel →
      brw_2B_Delay_loop_checked A kc inp inlen blkctr a Tc = some r →
      r.2.2.get i = Tc.get i := by
  have hB := A.BLOCKSIZE_pos
  intro fuel
  induction fuel with
  | zero =>
    intro blkctr a Tc r hf h
    rw [brw_2B_Delay_loop_checked_exit A kc inp inlen blkctr a Tc (by omega)] at h
    rw [← Option.some.inj h]
  | succ fuel ih =>
    intro blkctr a Tc r hf h
    by_cases hc : inlen > blkctr + 4 * A.BLOCKSIZE
    · rw [brw_2B_Delay_loop_checked_step A kc inp inlen blkctr a Tc hc] at h
      cases hfold : brw_2B_Delay_fold_checked A kc
          (blkctr + A.BLOCKSIZE + A.BLOCKSIZE + A.BLOCKSIZE + A.BLOCKSIZE)
          (setArr (setArr (setArr (setArr a 0 (A.unpack_and_encode_field_elem (inp.add blkctr)))
            1 (A.unpack_and_encode_field_elem (inp.add (blkctr + A.BLOCKSIZE))))
            2 (A.unpack_and_encode_field_elem (inp.add (blkctr + A.BLOCKSIZE + A.BLOCKSIZE))))
            3 (A.unpack_and_encode_field_elem
              (inp.add (blkctr + A.BLOCKSIZE + A.BLOCKSIZE + A.BLOCKSIZE)))) Tc with
      | none =>
        rw [hfold] at h
        exact absurd h (by simp)
      | some r1 =>
        rw [hfold] at h
        rw [ih _ r1.1 r1.2 r (by omega) h]
        exact brw_fold_checked_frame A kc _ _ Tc r1 i hi hfold
    · rw [brw_2B_Delay_loop_checked_exit A kc inp inlen blkctr a Tc (by omega)] at h
      rw [← Option.some.inj h]

/-- The checked final loop of `brw_2B_Delay` when the number of groups is `2^L`: no entry of
`T` is read before `T[L]`. -/
theorem brw_final_single_bit_checked (T : CArr F) (x : F) (L : Nat) :
    ∀ i, i ≤ L →
      forLoopM 0 i
        (fun i (f : F × Nat) =>
          if f.2 % 2 = 1 then
            (T.read i).bind fun t => pure (field_add f.1 t, f.2 / 2)
          else pure (f.1, f.2 / 2))
        (x, 2 ^ L) = some (x, 2 ^ (L - i)) := by
  intro i
  induction i with
  | zero => intro _; rw [forLoopM_self]; rfl
  | succ i ih =>
    intro hi
    rw [forLoopM_succ 0 i _ _ (Nat.zero_le _), ih (by omega), Option.some_bind]
    have e : L - i = (L - (i + 1)) + 1 := by omega
    simp only
    rw [e, pow_succ, Nat.mul_mod_left, if_neg (by omega),
      Nat.mul_div_cancel _ (by norm_num : 0 < 2)]
    rfl

/-- On a message of `2^29 + 1` blocks with `__builtin_ctz(BLOCKSIZE) ≥ 4`, `brw_2B_Delay`
reads `T[27]`, which no statement has written. -/
theorem brw_2B_Delay_acc_checked_overflow (A : FieldArith F) (a0 : Arr F) (inp : Ptr)
    (inlen : Nat) (key : Ptr) (hctz : 32 - __builtin_ctz A.BLOCKSIZE - 2 < 27)
    (hn : nbBlocks A inlen = 2 ^ 29 + 1) :
    brw_2B_Delay_acc_checked A a0 inp inlen key = none := by
  have hLOG : LOG2 (2 ^ 29 + 1) = 29 := by decide
  have h4 : (2 ^ 29 + 1) % 4 = 1 := by norm_num
  have hd : (2 ^ 29 + 1) / 4 = 2 ^ 27 := by norm_num
  have h28 : 29 - 1 = 27 + 1 := rfl
  unfold brw_2B_Delay_acc_checked
  simp only [brw_noOfBlocks, hn, hLOG, Option.bind_eq_bind]
  cases hk : brw_2B_Delay_keys_checked A key (2 ^ 29 + 1) 29 with
  | none => rfl
  | some kc =>
    rw [Option.some_bind]
    cases hl : brw_2B_Delay_loop_checked A kc inp inlen 0 a0 (CArr.new 29) with
    | none => rfl
    | some s =>
      rw [Option.some_bind]
      have hT : s.2.2.get 27 = none :=
        brw_loop_checked_frame A kc inp inlen 27 hctz inlen 0 a0 (CArr.new 29) s (by omega) hl
      have hsw : brw_2B_Delay_switch_checked A kc inp inlen (2 ^ 29 + 1) s.1 s.2.1 s.2.2 =
          some (setArr s.2.1 0 (A.unpack_and_encode_last_field_elem (inp.add s.1)
            ((inlen - 1) % A.BLOCKSIZE + 1)), s.2.2) := by
        unfold brw_2B_Delay_switch_checked
        simp only [h4]
        rfl
      rw [hsw, Option.some_bind]
      have hsum : ∀ x : F, brw_2B_Delay_sum_checked s.2.2 29 (2 ^ 29 + 1) x = none := by
        intro x
        unfold brw_2B_Delay_sum_checked
        simp only [hd, h28, Option.bind_eq_bind]
        rw [forLoopM_succ 0 27 _ _ (Nat.zero_le _),
          brw_final_single_bit_checked _ _ 27 27 (le_refl _), Option.some_bind]
        have hread : s.2.2.read 27 = none := by
          unfold CArr.read
          split
          · exact hT
          · rfl
        simp only [Nat.sub_self, pow_zero, Nat.mod_self, hread]
        rfl
      simp only [hsum]
      rfl

end BrwOverflow2

section BrwConst

variable {F : Type} [CommRing F]

theorem pow_succ_of_idem (k : F) (hk : k * k = k) : ∀ n, k ^ (n + 1) = k := by
  intro n
  induction n with
  | zero => rw [pow_one]
  | succ n ih => rw [pow_succ, ih, hk]

theorem brw_geometric_sum (P w : F) : ∀ u,
    P + ((List.range u).map (fun i => P * (1 + w) ^ i * w)).sum = P * (1 + w) ^ u := by
  intro u
  induction u with
  | zero => simp
  | succ u ih =>
    rw [List.range_succ, List.map_append, List.sum_append, ← add_assoc, ih]
    simp only [List.map_cons, List.map_nil, List.sum_cons, List.sum_nil, add_zero]
    ring

/-- The Bernstein-Rabin-Winograd polynomial of `2^(u+2) - 1` and of `2^(u+2)` equal blocks
`c` under a key with `k * k = k` (such as 0 and 1). -/
theorem BRWat_const_idem (k c : F) (hk : k * k = k) (m : Nat → F) :
    ∀ u x, (∀ i, x ≤ i → i < x + 2 ^ (u + 2) → m i = c) →
      BRWat k m x (2 ^ (u + 2) - 1) = ((c + k) * (c + k) + c) * (1 + (c + k)) ^ u ∧
      BRWat k m x (2 ^ (u + 2)) =
        ((c + k) * (c + k) + c) * (1 + (c + k)) ^ u * (c + k) := by
  intro u
  induction u using Nat.strong_induction_on with
  | _ u ih =>
    intro x hm
    have h4 := four_le_two_pow (u + 2) (by omega)
    have hpred : BRWat k m x (2 ^ (u + 2) - 1) =
        ((c + k) * (c + k) + c) * (1 + (c + k)) ^ u := by
      rw [BRWat_pow_pred k m u, BRWat_three,
        hm (x + 2 ^ (u + 2) - 4) (by omega) (by omega),
        hm (x + 2 ^ (u + 2) - 4 + 1) (by omega) (by omega),
        hm (x + 2 ^ (u + 2) - 4 + 2) (by omega) (by omega),
        pow_succ_of_idem k hk 1, ← brw_geometric_sum _ (c + k) u]
      congr 1
      apply congrArg
      apply List.map_congr_left
      intro i hi
      have hi2 : i < u := List.mem_range.mp hi
      have hle : 2 ^ (i + 3) ≤ 2 ^ (u + 2) := Nat.pow_le_pow_right (by norm_num) (by omega)
      have he : 2 ^ (i + 3) = 2 * 2 ^ (i + 2) := by rw [pow_succ]; ring
      have hp : 0 < 2 ^ (i + 2) := Nat.two_pow_pos _
      exact (ih i hi2 (x + 2 ^ (u + 2) - 2 ^ (i + 3))
        (fun j h1 h2 => hm j (by omega) (by omega))).2
    refine ⟨hpred, ?_⟩
    have e : 2 ^ (u + 2) = (2 ^ (u + 2) - 1) + 1 := by omega
    rw [BRWat_pow k m x (u + 2) (by omega), hpred,
      hm (x + 2 ^ (u + 2) - 1) (by omega) (by omega)]
    conv_lhs => rw [e, pow_succ_of_idem k hk]

end BrwConst

/-- The Bernstein-Rabin-Winograd polynomial of the message of `2^33 + 1` zero bytes in the
configuration `KC_1305_32`, under a key with `k * k = k`. -/
theorem BRW_zero_message_KC_1305_32 (key : Ptr)
    (hk : keyElem KC_1305_32 key * keyElem KC_1305_32 key = keyElem KC_1305_32 key) :
    BRW (keyElem KC_1305_32 key) (encodedBlocks KC_1305_32 (fun _ => 0) (2 ^ 33 + 1)) =
      ((KC_1305_32.unpack_and_encode_field_elem (fun _ => 0) + keyElem KC_1305_32 key) *
          (KC_1305_32.unpack_and_encode_field_elem (fun _ => 0) + keyElem KC_1305_32 key) +
          KC_1305_32.unpack_and_encode_field_elem (fun _ => 0)) *
        (1 + (KC_1305_32.unpack_and_encode_field_elem (fun _ => 0) +
          keyElem KC_1305_32 key)) ^ 27 *
        (KC_1305_32.unpack_and_encode_field_elem (fun _ => 0) + keyElem KC_1305_32 key) +
      KC_1305_32.unpack_and_encode_last_field_elem (fun _ => 0) 1 := by
  have hn : nbBlocks KC_1305_32 (2 ^ 33 + 1) = 2 ^ 29 + 1 := by decide
  have hm : ∀ i, 0 ≤ i → i < 0 + 2 ^ (27 + 2) →
      encodedBlock KC_1305_32 (fun _ => 0) (2 ^ 33 + 1) i =
        KC_1305_32.unpack_and_encode_field_elem (fun _ => 0) := by
    intro i _ hi
    rw [encodedBlock_full KC_1305_32 _ _ i (by rw [hn]; omega)]
    rfl
  have hlast : encodedBlock KC_1305_32 (fun _ => 0) (2 ^ 33 + 1) (2 ^ 29) =
      KC_1305_32.unpack_and_encode_last_field_elem (fun _ => 0) 1 := by
    rw [encodedBlock_last KC_1305_32 _ _ (2 ^ 29) hn.symm]
    rfl
  rw [BRW_encodedBlocks, hn, BRWat_split _ _ 0 29 1 (by norm_num) (by norm_num), BRWat_one,
    Nat.zero_add, hlast]
  have h := (BRWat_const_idem (keyElem KC_1305_32 key)
    (KC_1305_32.unpack_and_encode_field_elem (fun _ => 0)) hk
    (encodedBlock KC_1305_32 (fun _ => 0) (2 ^ 33 + 1)) 27 0 hm).2
  rw [h]

/-- On the message of `2^33 + 1` zero bytes, whatever the uninitialised arrays hold,
`brw_2B_Delay` returns the same tag under the all-zero key and under the key `01 00 .. 00`,
and the packed Bernstein-Rabin-Winograd polynomials of the two keys differ. -/
theorem brw_2B_Delay_overflow_two_keys (a0 k0 T0 : Arr (ZMod PRIME)) :
    ¬ (brw_2B_Delay_from KC_1305_32 a0 k0 T0 (fun _ => 0) (2 ^ 33 + 1) (fun _ => 0) =
          pack_and_transform KC_1305_32 (BRW (keyElem KC_1305_32 (fun _ => 0))
            (encodedBlocks KC_1305_32 (fun _ => 0) (2 ^ 33 + 1))) ∧
        brw_2B_Delay_from KC_1305_32 a0 k0 T0 (fun _ => 0) (2 ^ 33 + 1)
            (fun i => if i = 0 then 1 else 0) =
          pack_and_transform KC_1305_32
            (BRW (keyElem KC_1305_32 (fun i => if i = 0 then 1 else 0))
              (encodedBlocks KC_1305_32 (fun _ => 0) (2 ^ 33 + 1)))) := by
  have hn : nbBlocks KC_1305_32 (2 ^ 33 + 1) = 2 ^ 29 + 1 := by decide
  have hctz : 32 - __builtin_ctz KC_1305_32.BLOCKSIZE - 2 < 27 := by decide
  have hk0 : keyElem KC_1305_32 (fun _ => 0) = 0 := by decide
  have hk1 : keyElem KC_1305_32 (fun i => if i = 0 then 1 else 0) = 1 := by decide
  have e0 := brw_2B_Delay_acc_from_overflow KC_1305_32 a0 k0 T0 (fun _ => 0) (2 ^ 33 + 1)
    (fun _ => 0) hctz hn
  have e1 := brw_2B_Delay_acc_from_overflow KC_1305_32 a0 k0 T0 (fun _ => 0) (2 ^ 33 + 1)
    (fun i => if i = 0 then 1 else 0) hctz hn
  have b0 := BRW_zero_message_KC_1305_32 (fun _ => 0) (by rw [hk0]; ring)
  have b1 := BRW_zero_message_KC_1305_32 (fun i => if i = 0 then 1 else 0)
    (by rw [hk1]; ring)
  rw [hk0] at b0
  rw [hk1] at b1
  intro h
  obtain ⟨h0, h1⟩ := h
  unfold brw_2B_Delay_from at h0 h1
  rw [if_neg (by norm_num), e0, hk0, b0] at h0
  rw [if_neg (by norm_num), e1, hk1, b1] at h1
  have h2 := h0.symm.trans h1
  revert h2
  decide

/-- C30 (code defect from `2^33` bytes on): with exact field arithmetic, on every non-empty
message whose rounded-up length `noOfBlocks * BLOCKSIZE` is below `2^33`, `brw_2B_Delay`
indexes `k[lg + 1]` and `T[lg]` within bounds, reads only entries written before, and returns
the packed Bernstein-Rabin-Winograd polynomial of the encoded blocks with key powers
`k, k^2, k^4, ...`, whatever the uninitialised arrays hold.  On a message of `2^33 + 1` bytes
with 16-byte blocks, `__builtin_ctz` sees `blkctr = 2^33` converted to `unsigned int` and
`sp` is 28 instead of 29: `T[27]` is never written, the final loop reads it, and the tag is
the packed sum of the last block and of the content of `T[27]` as declared, for every key;
on the all-zero message, the tags under the keys `00 .. 00` and `01 00 .. 00` cannot both be
the packed polynomial. -/
theorem C30_brw_2B_Delay_BRW_below_8GiB_not_beyond :
    (∀ (F : Type) [CommRing F] (A : FieldArith F) (a0 k0 T0 : Arr F) (inp : Ptr) (inlen : Nat)
        (key : Ptr), 0 < inlen → nbBlocks A inlen * A.BLOCKSIZE < 2 ^ 33 →
        brw_2B_Delay_checked A a0 inp inlen key =
            some (pack_and_transform A (BRW (keyElem A key) (encodedBlocks A inp inlen))) ∧
          brw_2B_Delay_from A a0 k0 T0 inp inlen key =
            pack_and_transform A (BRW (keyElem A key) (encodedBlocks A inp inlen))) ∧
      (∀ (a0 : Arr (ZMod PRIME)) (inp key : Ptr),
        brw_2B_Delay_checked KC_1305_32 a0 inp (2 ^ 33 + 1) key = none) ∧
      (∀ (a0 k0 T0 : Arr (ZMod PRIME)) (inp key : Ptr),
        brw_2B_Delay_from KC_1305_32 a0 k0 T0 inp (2 ^ 33 + 1) key =
          pack_and_transform KC_1305_32
            (encodedBlock KC_1305_32 inp (2 ^ 33 + 1) (2 ^ 29) + T0 27)) ∧
      ∀ (a0 k0 T0 : Arr (ZMod PRIME)),
        ¬ (brw_2B_Delay_from KC_1305_32 a0 k0 T0 (fun _ => 0) (2 ^ 33 + 1) (fun _ => 0) =
              pack_and_transform KC_1305_32 (BRW (keyElem KC_1305_32 (fun _ => 0))
                (encodedBlocks KC_1305_32 (fun _ => 0) (2 ^ 33 + 1))) ∧
            brw_2B_Delay_from KC_1305_32 a0 k0 T0 (fun _ => 0) (2 ^ 33 + 1)
                (fun i => if i = 0 then 1 else 0) =
              pack_and_transform KC_1305_32
                (BRW (keyElem KC_1305_32 (fun i => if i = 0 then 1 else 0))
                  (encodedBlocks KC_1305_32 (fun _ => 0) (2 ^ 33 + 1)))) := by
  have hn : nbBlocks KC_1305_32 (2 ^ 33 + 1) = 2 ^ 29 + 1 := by decide
  have hctz : 32 - __builtin_ctz KC_1305_32.BLOCKSIZE - 2 < 27 := by decide
  refine ⟨fun F _ A a0 k0 T0 inp inlen key h0 hlen => ?_, fun a0 inp key => ?_,
    fun a0 k0 T0 inp key => ?_, brw_2B_Delay_overflow_two_keys⟩
  · have h := brw_2B_Delay_checked_eq_BRW A a0 inp inlen key h0 hlen
    exact ⟨h, brw_2B_Delay_erase A a0 k0 T0 inp inlen key _ h⟩
  · unfold brw_2B_Delay_checked
    rw [if_neg (by norm_num),
      brw_2B_Delay_acc_checked_overflow KC_1305_32 a0 inp (2 ^ 33 + 1) key hctz hn]
    rfl
  · unfold brw_2B_Delay_from
    rw [if_neg (by norm_num),
      brw_2B_Delay_acc_from_overflow KC_1305_32 a0 k0 T0 inp (2 ^ 33 + 1) key hctz hn]

/-- C30, an instance of the first part: on the message of `2^32 + 1` zero bytes, where
`blkctr` reaches `2^32`, the tag is still the packed polynomial. -/
theorem C30_brw_2B_Delay_BRW_below_8GiB_not_beyond_witness :
    brw_2B_Delay_from KC_1305_32 ⟨fun _ => 7⟩ ⟨fun _ => 8⟩ ⟨fun _ => 9⟩ (fun _ => 0)
        (2 ^ 32 + 1) (fun _ => 0) =
      pack_and_transform KC_1305_32
        (BRW (keyElem KC_1305_32 (fun _ => 0))
          (encodedBlocks KC_1305_32 (fun _ => 0) (2 ^ 32 + 1))) :=
  (C30_brw_2B_Delay_BRW_below_8GiB_not_beyond.1 _ KC_1305_32 ⟨fun _ => 7⟩ ⟨fun _ => 8⟩
    ⟨fun _ => 9⟩ (fun _ => 0) (2 ^ 32 + 1) (fun _ => 0) (by decide) (by decide)).2

/-! ## Claim C31: `reduce_KC_1305_32` -/

/-- With a top limb below `2^26 - 63` the test word `t.val[4]` of `reduce_KC_1305_32` has
bit 31 set, so `mask` is 0 and then all ones. -/
theorem reduce_KC_1305_32_mask (a4 x : Nat) (h4 : a4 + 63 < 2 ^ 26) :
    u64 (u64 (u32 (u32 (u32 (u64 (a4 + u64 (u32 (u32 x / 2 ^ 26)))) + (2 ^ 32 - 2 ^ 26)) /
      2 ^ 31)) + (2 ^ 64 - 1)) = 0 := by
  simp only [u32, u64]
  norm_num at *
  omega

/-- The function `reduce_KC_1305_32` returns its argument whenever the limbs fit 32 bits and
the top limb is below `2^26 - 63`. -/
theorem reduce_KC_1305_32_eq_self (a : field_elem_t) (hwf : a.wf) (h4 : a.val4 + 63 < 2 ^ 26) :
    reduce_KC_1305_32 a = a := by
  obtain ⟨a0, a1, a2, a3, a4⟩ := a
  obtain ⟨h0, h1, h2, h3, -⟩ := hwf
  simp only at h0 h1 h2 h3 h4
  have hones : ∀ x : Nat, x < 2 ^ 32 → u32 (x &&& (2 ^ 64 - 1)) = x := by
    intro x hx
    rw [Nat.and_pow_two_sub_one_eq_mod, Nat.mod_eq_of_lt (by omega), u32, Nat.mod_eq_of_lt hx]
  have hz : u32 0 = 0 := rfl
  simp only [reduce_KC_1305_32, reduce_KC_1305_32_mask a4 _ h4, Nat.and_zero, Nat.or_zero,
    Nat.sub_zero, hz]
  rw [hones a0 h0, hones a1 h1, hones a2 h2, hones a3 h3, hones a4 (by omega)]

/-- C31 fails on the code: on every element with limbs below `2^32` and top limb at most 7,
`reduce_KC_1305_32` returns its argument, so the result is the residue of `V(a)` modulo
`p = 2^130 - 5` below `p` only for `V(a) < p`. -/
theorem C31_reduce_KC_1305_32_returns_its_argument (a : field_elem_t) (hwf : a.wf)
    (h4 : a.val4 ≤ 7) :
    reduce_KC_1305_32 a = a ∧
      (((reduce_KC_1305_32 a).value = a.value % PRIME ∧
        (reduce_KC_1305_32 a).value < PRIME) ↔ a.value < PRIME) := by
  have h := reduce_KC_1305_32_eq_self a hwf (by omega)
  refine ⟨h, ?_⟩
  rw [h]
  constructor
  · exact fun hh => hh.2
  · exact fun hh => ⟨(Nat.mod_eq_of_lt hh).symm, hh⟩

/-- C31, at the element `p` itself: the limbs `(2^32 - 5, 2^32 - 1, 2^32 - 1, 2^32 - 1, 3)`
satisfy the hypotheses of the claim, their value `p` is below `2p` and has residue 0, and
`reduce_KC_1305_32` returns them unchanged. -/
theorem C31_reduce_KC_1305_32_returns_its_argument_witness :
    prime_limbs.wf ∧ prime_limbs.val4 ≤ 7 ∧ prime_limbs.value = PRIME ∧
      prime_limbs.value < 2 * PRIME ∧ prime_limbs.value % PRIME = 0 ∧
      reduce_KC_1305_32 prime_limbs = prime_limbs ∧
      ¬ (reduce_KC_1305_32 prime_limbs).value < PRIME :=
  have h := C31_reduce_KC_1305_32_returns_its_argument prime_limbs (by decide) (by decide)
  ⟨by decide, by decide, by decide, by decide, by decide, h.1,
    fun hc => absurd (h.2.mp ⟨absurd hc (by rw [h.1]; decide), hc⟩) (by decide)⟩

end PolyHash
